import Mathlib

/-!
# Biconnected components and the block-vertex tree

A shallow embedding of `src/src/bicomps.cpp` (structs `bicomps` and `bc_tree`)
together with theorems about it.

Modelling conventions.

* `std::vector` is a `List`; `v[i]` is `vget` and `v[i] = x` is `List.set`.
  Reads and writes outside the vector are undefined in the source; every theorem
  that depends on them carries the well-formedness of the graph as a hypothesis.
* `int` values that index vertices and edges are `Nat` (a negative index is
  undefined in the source); `parent`, `root`, `tour`, `tour_start`, `low_link`
  and the tree's `parent`/`depth` entries are `Int`.  No arithmetic in the
  source can overflow for a graph that fits in memory.
* The recursion of `dfs` is bounded by a fuel argument: `none` means that the
  fuel ran out or that `assert(!vis[node])` failed.
-/

namespace Bicomps

/-! ## Data model -/

/-- The struct `bicomps::edge`: an adjacency entry (neighbour, edge index). -/
structure edge where
  node : Nat
  index : Nat
deriving DecidableEq, Repr

/-- The fields of struct `bicomps`. -/
structure bicomps where
  n : Nat
  m : Nat
  adj : List (List edge)
  edge_list : List (Nat × Nat)
  tour_start : List Int
  low_link : List Int
  vis : List Bool
  is_cut : List Bool
  is_bridge : List Bool
  stk : List Nat
  comps : List (List Nat)
  tour : Int
deriving DecidableEq, Repr

/-- The read `v[i]` of a vector; the default `d` stands for the undefined value of
a read outside the vector. -/
def vget {α : Type} (v : List α) (i : Nat) (d : α) : α := v.getD i d

/-- The method `std::vector::resize(k)` with value-initialised new elements. -/
def resize {α : Type} (l : List α) (k : Nat) (d : α) : List α :=
  l.take k ++ List.replicate (k - l.length) d

/-- A default-constructed object before `init` runs: every vector is empty. -/
def bicomps.fresh : bicomps :=
  { n := 0, m := 0, adj := [], edge_list := [], tour_start := [], low_link := [],
    vis := [], is_cut := [], is_bridge := [], stk := [], comps := [], tour := 0 }

/-- The method `bicomps::init(_n, _m)`. -/
def bicomps.init (self : bicomps) (_n _m : Nat) : bicomps :=
  { self with
    n := _n
    m := _m
    adj := List.replicate _n []
    edge_list := []
    tour_start := resize self.tour_start _n 0
    low_link := resize self.low_link _n 0 }

/-- The constructor `bicomps(_n, _m)`. -/
def bicomps.mk_init (_n _m : Nat) : bicomps := bicomps.fresh.init _n _m

/-- The call `adj[u].emplace_back(v, m)`. -/
def emplace_back (adj : List (List edge)) (u : Nat) (e : edge) : List (List edge) :=
  adj.set u (vget adj u [] ++ [e])

/-- The method `bicomps::add_edge(u, v)`. -/
def bicomps.add_edge (self : bicomps) (u v : Nat) : bicomps :=
  { self with
    adj := emplace_back (emplace_back self.adj u ⟨v, self.m⟩) v ⟨u, self.m⟩
    edge_list := self.edge_list ++ [(u, v)]
    m := self.m + 1 }

/-- A sequence of `add_edge` calls, in order. -/
def bicomps.add_edges (self : bicomps) (es : List (Nat × Nat)) : bicomps :=
  es.foldl (fun g e => g.add_edge e.1 e.2) self

/-- The call `std::unique` followed by `erase`: drop each element equal to its predecessor. -/
def unique : List Nat → List Nat
  | [] => []
  | [a] => [a]
  | a :: b :: l => if a = b then unique (b :: l) else a :: unique (b :: l)

/-- The call `std::sort` on a vector of `int`. -/
def sort (l : List Nat) : List Nat := l.insertionSort (· ≤ ·)

/-! ## The depth-first search of `bicomps` -/

/-- The visited branch of the loop body of `bicomps::dfs` (source lines 65-71). -/
def visitedStep (node : Nat) (e : edge) (s : bicomps) : bicomps :=
  let s1 : bicomps := { s with
    low_link := s.low_link.set node (min (vget s.low_link node 0) (vget s.tour_start e.node 0)) }
  if vget s1.tour_start e.node 0 < vget s1.tour_start node 0 then
    { s1 with stk := s1.stk ++ [node] }
  else s1

/-- The part of the loop body of `bicomps::dfs` that follows the recursive call
(source lines 77-101); `size` is the stack size saved before the call. -/
def childStep (node : Nat) (e : edge) (size : Nat) (s : bicomps) : bicomps :=
  let s1 : bicomps := { s with
    low_link := s.low_link.set node (min (vget s.low_link node 0) (vget s.low_link e.node 0)) }
  let s2 : bicomps :=
    if vget s1.low_link e.node 0 > vget s1.tour_start node 0 then
      { s1 with
        is_bridge := s1.is_bridge.set e.index true
        comps := s1.comps ++ [sort [node, e.node]] }
    else if vget s1.low_link e.node 0 = vget s1.tour_start node 0 then
      let stk1 := s1.stk ++ [node]
      { s1 with
        comps := s1.comps ++ [unique (sort (stk1.drop size))]
        stk := resize stk1 size 0 }
    else
      { s1 with stk := s1.stk ++ [node] }
  if vget s2.low_link e.node 0 ≥ vget s2.tour_start node 0 then
    { s2 with is_cut := s2.is_cut.set node true }
  else s2

/-- The loop `for (edge &e : adj[node])` of `bicomps::dfs` over the remaining
adjacency entries, with the locals `parent_count` and `children`; `call` is the
recursive call `dfs(e.node, node)`.  Returns the state and `children`. -/
def dfsLoop (call : Nat → Int → bicomps → Option bicomps) (node : Nat) (parent : Int) :
    List edge → Nat → Nat → bicomps → Option (bicomps × Nat)
  | [], _, children, s => some (s, children)
  | e :: es, parent_count, children, s =>
    let parent_count1 := if (e.node : Int) = parent then parent_count + 1 else parent_count
    if (e.node : Int) = parent ∧ parent_count = 0 then
      dfsLoop call node parent es parent_count1 children s
    else if vget s.vis e.node false then
      dfsLoop call node parent es parent_count1 children (visitedStep node e s)
    else
      match call e.node node s with
      | none => none
      | some s1 =>
        dfsLoop call node parent es parent_count1 (children + 1)
          (childStep node e s.stk.length s1)

/-- The entry of `bicomps::dfs` (source lines 53-57). -/
def enter (node : Nat) (s : bicomps) : bicomps :=
  { s with
    vis := s.vis.set node true
    tour_start := s.tour_start.set node s.tour
    tour := s.tour + 1
    low_link := s.low_link.set node s.tour
    is_cut := s.is_cut.set node false }

/-- The exit of `bicomps::dfs` (source lines 105-107). -/
def leave (node : Nat) (parent : Int) (children : Nat) (s : bicomps) : bicomps :=
  if parent < 0 then { s with is_cut := s.is_cut.set node (decide (children > 1)) } else s

/-- The method `bicomps::dfs(node, parent)` with recursion depth at most `fuel`. -/
def dfs : Nat → Nat → Int → bicomps → Option bicomps
  | 0, _, _, _ => none
  | fuel + 1, node, parent, s =>
    if vget s.vis node false then none
    else
      match dfsLoop (dfs fuel) node parent (vget s.adj node []) 0 0 (enter node s) with
      | none => none
      | some (s1, children) => some (leave node parent children s1)

/-- The reset at the start of `bicomps::build` (source lines 111-116). -/
def reset (s : bicomps) : bicomps :=
  { s with
    vis := List.replicate s.n false
    is_cut := List.replicate s.n false
    is_bridge := List.replicate s.m false
    stk := []
    comps := []
    tour := 0 }

/-- The loop `for (int i = 0; i < n; i++) if (!vis[i]) dfs(i, -1);` over the listed `i`. -/
def sweep (fuel : Nat) : List Nat → bicomps → Option bicomps
  | [], s => some s
  | i :: is, s =>
    if vget s.vis i false then sweep fuel is s
    else
      match dfs fuel i (-1) s with
      | none => none
      | some s1 => sweep fuel is s1

/-- The method `bicomps::build(root)` with the recursion depth of `dfs` bounded by `fuel`. -/
def buildWith (fuel : Nat) (self : bicomps) (root : Int) : Option bicomps :=
  let s := reset self
  let s1 := if 0 ≤ root ∧ root < (s.n : Int) then dfs fuel root.toNat (-1) s else some s
  match s1 with
  | none => none
  | some s2 => sweep fuel (List.range s2.n) s2

/-- The method `bicomps::build(root)`: the recursion of `dfs` visits each vertex
at most once, so its depth never exceeds `n`. -/
def bicomps.build (self : bicomps) (root : Int) : Option bicomps :=
  buildWith self.n self root

/-! ## The block-vertex tree `bc_tree` -/

/-- The fields of struct `bc_tree` (the reference `bc` is passed to `build`). -/
structure bc_tree where
  n : Nat
  BC : Nat
  T : Nat
  adj : List (List Nat)
  parent : List Int
  depth : List Int
deriving DecidableEq, Repr

/-- A `bc_tree` object before `build` runs: every vector is empty. -/
def bc_tree.fresh : bc_tree :=
  { n := 0, BC := 0, T := 0, adj := [], parent := [], depth := [] }

/-- The loop `for (int neigh : adj[node])` of `bc_tree::dfs`; `call` is the
recursive call `dfs(neigh, node)`. -/
def treeLoop (call : Nat → Int → bc_tree → Option bc_tree) (node : Nat) (par : Int) :
    List Nat → bc_tree → Option bc_tree
  | [], t => some t
  | neigh :: rest, t =>
    if (neigh : Int) ≠ par then
      match call neigh node t with
      | none => none
      | some t1 => treeLoop call node par rest t1
    else treeLoop call node par rest t

/-- The method `bc_tree::dfs(node, par)` with recursion depth at most `fuel`. -/
def bc_tree.dfs : Nat → Nat → Int → bc_tree → Option bc_tree
  | 0, _, _, _ => none
  | fuel + 1, node, par, t =>
    let t1 : bc_tree := { t with parent := t.parent.set node par }
    let t2 : bc_tree := { t1 with
      depth := t1.depth.set node (if par < 0 then 0 else vget t1.depth par.toNat 0 + 1) }
    treeLoop (bc_tree.dfs fuel) node par (vget t2.adj node []) t2

/-- The lambda `add_edge(a, b)` of `bc_tree::build`; `none` when the assertion fails. -/
def bc_tree.add_edge (t : bc_tree) (a b : Nat) : Option bc_tree :=
  if xor (decide (a < t.n)) (decide (b < t.n)) then
    let adj1 := t.adj.set a (vget t.adj a [] ++ [b])
    some { t with adj := adj1.set b (vget adj1 b [] ++ [a]) }
  else none

/-- The inner loop `for (int x : bc.comps[i]) add_edge(x, n + i)`. -/
def addComp (i : Nat) : List Nat → bc_tree → Option bc_tree
  | [], t => some t
  | x :: xs, t =>
    match t.add_edge x (t.n + i) with
    | none => none
    | some t1 => addComp i xs t1

/-- The outer loop `for (int i = 0; i < BC; i++)` over the components from index `i` on. -/
def addComps : Nat → List (List Nat) → bc_tree → Option bc_tree
  | _, [], t => some t
  | i, c :: cs, t =>
    match addComp i c t with
    | none => none
    | some t1 => addComps (i + 1) cs t1

/-- The loop `for (int root = 0; root < T; root++) if (parent[root] < 0) dfs(root, -1);`. -/
def treeSweep (fuel : Nat) : List Nat → bc_tree → Option bc_tree
  | [], t => some t
  | root :: rest, t =>
    if vget t.parent root 0 < 0 then
      match bc_tree.dfs fuel root (-1) t with
      | none => none
      | some t1 => treeSweep fuel rest t1
    else treeSweep fuel rest t

/-- The method `bc_tree::build()` for the referenced `bc`, with the recursion
depth of `dfs` bounded by `fuel`. -/
def bc_tree.buildWith (fuel : Nat) (self : bc_tree) (bc : bicomps) : Option bc_tree :=
  let t0 : bc_tree := { self with
    n := bc.n
    BC := bc.comps.length
    T := bc.n + bc.comps.length
    adj := List.replicate (bc.n + bc.comps.length) [] }
  match addComps 0 bc.comps t0 with
  | none => none
  | some t1 =>
    let t2 : bc_tree := { t1 with
      parent := List.replicate t1.T (-1)
      depth := resize t1.depth t1.T 0 }
    treeSweep fuel (List.range t2.T) t2

/-- The method `bc_tree::build()`: on a forest with `T` nodes the recursion of
`dfs` is at most `T` deep. -/
def bc_tree.build (self : bc_tree) (bc : bicomps) : Option bc_tree :=
  bc_tree.buildWith (bc.n + bc.comps.length) self bc

/-- The method `bc_tree::same_bicomp(a, b)`. -/
def bc_tree.same_bicomp (t : bc_tree) (a b : Nat) : Bool :=
  let a1 := if vget t.depth a 0 > vget t.depth b 0 then b else a
  let b1 := if vget t.depth a 0 > vget t.depth b 0 then a else b
  a1 == b1 ||
    (vget t.depth b1 0 == vget t.depth a1 0 + 2 &&
      vget t.parent (vget t.parent b1 0).toNat 0 == (a1 : Int)) ||
    (decide (vget t.parent a1 0 ≥ 0) && vget t.parent a1 0 == vget t.parent b1 0)

/-! ## Well-formedness and the frame of `dfs` -/

/-- The graph part of the object is well formed: the vectors sized by `init`
have length `n` and every adjacency entry names a vertex below `n` and an edge
index below `m`. -/
def bicomps.wf (g : bicomps) : Prop :=
  g.adj.length = g.n ∧ g.tour_start.length = g.n ∧ g.low_link.length = g.n ∧
  ∀ l ∈ g.adj, ∀ e ∈ l, e.node < g.n ∧ e.index < g.m

/-- A state inside `build`: a well-formed graph whose `vis`, `is_cut` and
`is_bridge` have the lengths given to them by the reset. -/
def bicomps.ok (s : bicomps) : Prop :=
  s.wf ∧ s.vis.length = s.n ∧ s.is_cut.length = s.n ∧ s.is_bridge.length = s.m

/-- The frame of a `dfs` call from state `s` to state `s1`: the graph is
untouched, vectors keep their lengths, nothing recorded for an already visited
vertex changes, and `stk`, `comps`, `is_bridge` and `tour` only grow. -/
structure Ext (s s1 : bicomps) : Prop where
  n : s1.n = s.n
  m : s1.m = s.m
  adj : s1.adj = s.adj
  edge_list : s1.edge_list = s.edge_list
  len_vis : s1.vis.length = s.vis.length
  len_ts : s1.tour_start.length = s.tour_start.length
  len_low : s1.low_link.length = s.low_link.length
  len_cut : s1.is_cut.length = s.is_cut.length
  len_bridge : s1.is_bridge.length = s.is_bridge.length
  vis : ∀ x, vget s.vis x false = true → vget s1.vis x false = true
  ts : ∀ x, vget s.vis x false = true → vget s1.tour_start x 0 = vget s.tour_start x 0
  low : ∀ x, vget s.vis x false = true → vget s1.low_link x 0 = vget s.low_link x 0
  cut : ∀ x, vget s.vis x false = true → vget s1.is_cut x false = vget s.is_cut x false
  tour : s.tour ≤ s1.tour
  stk : s.stk <+: s1.stk
  comps : s.comps <+: s1.comps
  bridge : ∀ i, vget s.is_bridge i false = true → vget s1.is_bridge i false = true

/-- The facts every loop invariant of `dfs` may rely on: `s0` is the state at
the entry of `dfs(node, _)` and `s` a later state inside its loop. -/
structure Basic (node : Nat) (s0 s : bicomps) : Prop where
  ok : s0.ok
  lt : node < s0.n
  fresh : vget s0.vis node false = false
  ext : Ext s0 s
  vis : vget s.vis node false = true

/-- The invariant behind the shape of the emitted components: every component
is strictly increasing with entries below `n`, and so is every stack entry. -/
def CompsOk (s : bicomps) : Prop :=
  (∀ c ∈ s.comps, c.Sorted (· < ·) ∧ ∀ x ∈ c, x < s.n) ∧ ∀ x ∈ s.stk, x < s.n

/-- Two states that differ at most in what `tour_start` and `low_link` hold for
unvisited vertices. -/
structure Agree (s t : bicomps) : Prop where
  n : t.n = s.n
  m : t.m = s.m
  adj : t.adj = s.adj
  edge_list : t.edge_list = s.edge_list
  vis : t.vis = s.vis
  is_cut : t.is_cut = s.is_cut
  is_bridge : t.is_bridge = s.is_bridge
  stk : t.stk = s.stk
  comps : t.comps = s.comps
  tour : t.tour = s.tour
  len_ts : t.tour_start.length = s.tour_start.length
  len_low : t.low_link.length = s.low_link.length
  ts : ∀ x, vget s.vis x false = true → vget t.tour_start x 0 = vget s.tour_start x 0
  low : ∀ x, vget s.vis x false = true → vget t.low_link x 0 = vget s.low_link x 0

instance (g : bicomps) : Decidable g.wf := by
  unfold bicomps.wf
  infer_instance

/-- The state of a run on the graph with one more self-loop `add_edge(u, u)`
that corresponds to the state `s` of a run on the graph without it. -/
def addLoop (u : Nat) (s : bicomps) : bicomps :=
  { s with
    adj := emplace_back (emplace_back s.adj u ⟨u, s.m⟩) u ⟨u, s.m⟩
    edge_list := s.edge_list ++ [(u, u)]
    m := s.m + 1
    is_bridge := s.is_bridge ++ [false] }

/-! ## The graph behind the adjacency lists -/

/-- The adjacency entries that the `add_edge` calls `es`, numbered from `m0` on,
append to the list of vertex `x`. -/
def adjOf : List (Nat × Nat) → Nat → Nat → List edge
  | [], _, _ => []
  | (a, b) :: es, m0, x =>
    (if a = x then [⟨b, m0⟩] else []) ++ (if b = x then [⟨a, m0⟩] else []) ++ adjOf es (m0 + 1) x

/-- The edge with index `i` joins `x` to `y`: the adjacency list of `x` has the
entry `(y, i)`. -/
def joins (adj : List (List edge)) (i x y : Nat) : Prop :=
  (⟨y, i⟩ : edge) ∈ vget adj x []

/-- What the adjacency lists of an undirected multigraph satisfy: every edge is
entered at both endpoints, an index names one pair of endpoints, and the list
of a vertex holds no entry to another vertex twice. -/
structure GraphInv (adj : List (List edge)) : Prop where
  sym : ∀ i x y, joins adj i x y → joins adj i y x
  ends : ∀ i x y x2 y2, joins adj i x y → joins adj i x2 y2 →
    (x2 = x ∧ y2 = y) ∨ (x2 = y ∧ y2 = x)
  nodup : ∀ x, ((vget adj x []).filter (fun e => decide (e.node ≠ x))).Nodup

/-! ## Layered specifications of `dfs` -/

/-- A specification of `dfs(node, parent)`: a precondition on the entry state, a
postcondition relating entry and exit state, and an invariant of the loop over
the adjacency list, indexed by the entry state, the entries already processed,
the entries still to come, `parent_count`, `children` and the current state. -/
structure Spec where
  pre : Nat → Int → bicomps → Prop
  post : Nat → Int → bicomps → bicomps → Prop
  inv : Nat → Int → bicomps → List edge → List edge → Nat → Nat → bicomps → Prop

/-- The specification that asks for nothing. -/
def Spec.top : Spec :=
  { pre := fun _ _ _ => True, post := fun _ _ _ _ => True, inv := fun _ _ _ _ _ _ _ _ => True }

/-- The conjunction of two specifications. -/
def Spec.and (A B : Spec) : Spec :=
  { pre := fun v p s => A.pre v p s ∧ B.pre v p s
    post := fun v p s s1 => A.post v p s s1 ∧ B.post v p s s1
    inv := fun v p s0 d r pc ch s => A.inv v p s0 d r pc ch s ∧ B.inv v p s0 d r pc ch s }

/-- The specification `B` is kept by every step of `dfs`, given that `A` is. -/
structure Step (A B : Spec) : Prop where
  enter : ∀ node parent s, Basic node s (enter node s) →
    A.pre node parent s → A.inv node parent s [] (vget s.adj node []) 0 0 (enter node s) →
    B.pre node parent s →
    B.inv node parent s [] (vget s.adj node []) 0 0 (enter node s)
  skip : ∀ node parent s0 done e es pc ch s, Basic node s0 s →
    done ++ e :: es = vget s0.adj node [] →
    A.pre node parent s0 → B.pre node parent s0 →
    A.inv node parent s0 done (e :: es) pc ch s →
    A.inv node parent s0 (done ++ [e]) es (pc + 1) ch s →
    B.inv node parent s0 done (e :: es) pc ch s →
    (e.node : Int) = parent → pc = 0 →
    B.inv node parent s0 (done ++ [e]) es (pc + 1) ch s
  visited : ∀ node parent s0 done e es pc ch s, Basic node s0 s →
    done ++ e :: es = vget s0.adj node [] →
    A.pre node parent s0 → B.pre node parent s0 →
    A.inv node parent s0 done (e :: es) pc ch s →
    A.inv node parent s0 (done ++ [e]) es (if (e.node : Int) = parent then pc + 1 else pc) ch
      (visitedStep node e s) →
    B.inv node parent s0 done (e :: es) pc ch s →
    ¬((e.node : Int) = parent ∧ pc = 0) →
    vget s.vis e.node false = true →
    B.inv node parent s0 (done ++ [e]) es (if (e.node : Int) = parent then pc + 1 else pc) ch
      (visitedStep node e s)
  call : ∀ node parent s0 done e es pc ch s, Basic node s0 s →
    done ++ e :: es = vget s0.adj node [] →
    A.pre node parent s0 → B.pre node parent s0 →
    A.inv node parent s0 done (e :: es) pc ch s →
    A.pre e.node node s →
    B.inv node parent s0 done (e :: es) pc ch s →
    ¬((e.node : Int) = parent ∧ pc = 0) →
    vget s.vis e.node false = false →
    B.pre e.node node s
  child : ∀ node parent s0 done e es pc ch s s1, Basic node s0 s →
    done ++ e :: es = vget s0.adj node [] →
    A.pre node parent s0 → B.pre node parent s0 →
    A.inv node parent s0 done (e :: es) pc ch s →
    A.pre e.node node s → A.post e.node node s s1 →
    A.inv node parent s0 (done ++ [e]) es (if (e.node : Int) = parent then pc + 1 else pc)
      (ch + 1) (childStep node e s.stk.length s1) →
    B.inv node parent s0 done (e :: es) pc ch s →
    ¬((e.node : Int) = parent ∧ pc = 0) →
    vget s.vis e.node false = false →
    Ext s s1 → vget s1.vis e.node false = true →
    B.pre e.node node s → B.post e.node node s s1 →
    B.inv node parent s0 (done ++ [e]) es (if (e.node : Int) = parent then pc + 1 else pc)
      (ch + 1) (childStep node e s.stk.length s1)
  leave : ∀ node parent s0 pc ch s, Basic node s0 s →
    A.pre node parent s0 →
    A.inv node parent s0 (vget s0.adj node []) [] pc ch s →
    A.post node parent s0 (leave node parent ch s) →
    B.pre node parent s0 →
    B.inv node parent s0 (vget s0.adj node []) [] pc ch s →
    B.post node parent s0 (leave node parent ch s)

/-! ## Layer S: tour numbers and closed vertices -/

/-- Every neighbour of `x` is visited. -/
def Closed (s : bicomps) (x : Nat) : Prop :=
  ∀ e ∈ vget s.adj x [], vget s.vis e.node false = true

/-- The tour numbers of the visited vertices lie below `tour`, are pairwise
different, and bound the low-links from above. -/
structure TsInv (s : bicomps) : Prop where
  lt : ∀ x, vget s.vis x false = true → vget s.tour_start x 0 < s.tour
  inj : ∀ x y, vget s.vis x false = true → vget s.vis y false = true →
    vget s.tour_start x 0 = vget s.tour_start y 0 → x = y
  low_le : ∀ x, vget s.vis x false = true → vget s.low_link x 0 ≤ vget s.tour_start x 0

/-- Frontier bound: a visited vertex that still has an unvisited neighbour was
visited no later than the parent `p` (and there is none when `p < 0`). -/
def FB (s : bicomps) (p : Int) : Prop :=
  ∀ y, vget s.vis y false = true → ¬ Closed s y →
    0 ≤ p ∧ vget s.tour_start y 0 ≤ vget s.tour_start p.toNat 0

/-- Layer S of the specification of `dfs`. -/
def specS : Spec where
  pre := fun _ p s => GraphInv s.adj ∧ TsInv s ∧ (0 ≤ p → vget s.vis p.toNat false = true) ∧ FB s p
  post := fun v _ s s1 => TsInv s1 ∧ vget s1.tour_start v 0 = s.tour ∧
    ∀ x, vget s1.vis x false = true → vget s.vis x false = false →
      s.tour ≤ vget s1.tour_start x 0 ∧ Closed s1 x
  inv := fun v _ s0 done _ _ _ s => TsInv s ∧ vget s.tour_start v 0 = s0.tour ∧
    (∀ x, vget s.vis x false = true → vget s0.vis x false = false →
      s0.tour ≤ vget s.tour_start x 0) ∧
    (∀ x, vget s.vis x false = true → vget s0.vis x false = false → x ≠ v → Closed s x) ∧
    (∀ e ∈ done, vget s.vis e.node false = true)

/-! ## Layer L: what `low_link` means -/

/-- The number of entries of an adjacency list that lead to `p`. -/
def cnt (l : List edge) (p : Int) : Nat := l.countP (fun e => decide ((e.node : Int) = p))

/-- Layer L of the specification of `dfs`: after `dfs(v, p)` the value
`low_link[v]` is a lower bound for the tour numbers of the previously visited
neighbours of the vertices visited by the call (one entry from `v` to `p`
excepted), and it is attained, either by `v` itself or by such a neighbour. -/
def specL : Spec where
  pre := fun _ _ _ => True
  post := fun v p s s1 =>
    (∀ x, vget s1.vis x false = true → vget s.vis x false = false →
      ∀ e ∈ vget s.adj x [], vget s.vis e.node false = true →
        (x = v ∧ (e.node : Int) = p) ∨ vget s1.low_link v 0 ≤ vget s.tour_start e.node 0) ∧
    (2 ≤ cnt (vget s.adj v []) p → vget s1.low_link v 0 ≤ vget s.tour_start p.toNat 0) ∧
    (vget s1.low_link v 0 = vget s1.tour_start v 0 ∨
      ∃ x e, vget s1.vis x false = true ∧ vget s.vis x false = false ∧
        e ∈ vget s.adj x [] ∧ vget s.vis e.node false = true ∧
        vget s1.low_link v 0 = vget s.tour_start e.node 0 ∧
        (x ≠ v ∨ (e.node : Int) ≠ p ∨ 2 ≤ cnt (vget s.adj v []) p))
  inv := fun v p s0 done _ pc _ s =>
    pc = cnt done p ∧
    (∀ x, vget s.vis x false = true → vget s0.vis x false = false → x ≠ v →
      ∀ e ∈ vget s0.adj x [], vget s0.vis e.node false = true →
        vget s.low_link v 0 ≤ vget s0.tour_start e.node 0) ∧
    (∀ e ∈ done, vget s0.vis e.node false = true →
      (e.node : Int) = p ∨ vget s.low_link v 0 ≤ vget s0.tour_start e.node 0) ∧
    (2 ≤ pc → vget s.low_link v 0 ≤ vget s0.tour_start p.toNat 0) ∧
    (vget s.low_link v 0 = vget s.tour_start v 0 ∨
      ∃ x e, vget s.vis x false = true ∧ vget s0.vis x false = false ∧
        e ∈ vget s0.adj x [] ∧ vget s0.vis e.node false = true ∧
        vget s.low_link v 0 = vget s0.tour_start e.node 0 ∧
        (x ≠ v ∨ (e.node : Int) ≠ p ∨ 2 ≤ pc) ∧ (x = v → e ∈ done))

end Bicomps

namespace Bicomps

/-! ## Layer K: the stack and the coverage of the vertices -/

/-- The vertex `x` is a member of some emitted component. -/
def inComps (s : bicomps) (x : Nat) : Prop := ∃ c ∈ s.comps, x ∈ c

/-- Layer K of the specification of `dfs`: every vertex visited below `v` is in
a component or waits on the part of the stack pushed by this call; `v` itself
waits there exactly when its low-link lies below its tour number; and a call
for a tree root leaves the stack as it found it and puts the root into a
component as soon as it has a child. -/
def specK : Spec where
  pre := fun _ _ _ => True
  post := fun v p s s1 =>
    (∀ x, vget s1.vis x false = true → vget s.vis x false = false → x ≠ v →
      inComps s1 x ∨ x ∈ s1.stk.drop s.stk.length) ∧
    (vget s1.low_link v 0 < vget s1.tour_start v 0 → v ∈ s1.stk.drop s.stk.length) ∧
    (s1.stk.drop s.stk.length ≠ [] → vget s1.low_link v 0 < vget s1.tour_start v 0) ∧
    (p < 0 → s1.stk = s.stk ∧ ((∃ e ∈ vget s.adj v [], e.node ≠ v) → inComps s1 v))
  inv := fun v p s0 _ _ _ ch s =>
    (∀ x, vget s.vis x false = true → vget s0.vis x false = false → x ≠ v →
      inComps s x ∨ x ∈ s.stk.drop s0.stk.length) ∧
    (vget s.low_link v 0 < vget s.tour_start v 0 → v ∈ s.stk.drop s0.stk.length) ∧
    (s.stk.drop s0.stk.length ≠ [] → vget s.low_link v 0 < vget s.tour_start v 0) ∧
    (p < 0 → s.stk = s0.stk) ∧
    (p < 0 → 1 ≤ ch → inComps s v) ∧
    (ch = 0 → ∀ x, vget s.vis x false = true → vget s0.vis x false = false → x = v)

end Bicomps

namespace Bicomps

/-- What holds between two top-level calls of `dfs` in `build`: the graph is an
undirected multigraph, the tour numbers are consistent, and every visited
vertex is closed. -/
structure TopS (s : bicomps) : Prop where
  graph : GraphInv s.adj
  ts : TsInv s
  closed : ∀ y, vget s.vis y false = true → Closed s y

/-- The top-level invariant behind the coverage of the vertices. -/
structure TopK (s : bicomps) : Prop where
  top : TopS s
  stk : s.stk = []
  cov : ∀ x, vget s.vis x false = true → (∃ e ∈ vget s.adj x [], e.node ≠ x) → inComps s x

end Bicomps

namespace Bicomps

/-! ## Connectivity -/

/-- One step along an edge both of whose endpoints satisfy `P`. -/
def stepIn (adj : List (List edge)) (P : Nat → Prop) (x y : Nat) : Prop :=
  P x ∧ P y ∧ ∃ i, joins adj i x y

/-- The vertex `b` can be reached from `a` through vertices that satisfy `P`. -/
def ReachIn (adj : List (List edge)) (P : Nat → Prop) : Nat → Nat → Prop :=
  Relation.ReflTransGen (stepIn adj P)

/-- One step along an edge whose index is not `i`. -/
def stepAvoidE (adj : List (List edge)) (i : Nat) (x y : Nat) : Prop :=
  ∃ k, k ≠ i ∧ joins adj k x y

/-- The vertex `b` can be reached from `a` without using the edge with index `i`. -/
def ReachAvoidE (adj : List (List edge)) (i : Nat) : Nat → Nat → Prop :=
  Relation.ReflTransGen (stepAvoidE adj i)

/-- Layer C of the specification of `dfs`: when `dfs(v, p)` is called the parent
is joined to `v` and every visited vertex that is not closed reaches the parent
through visited vertices; the vertices visited by the call are reached from
`v` through vertices visited by the call. -/
def specC : Spec where
  pre := fun v p s => 0 ≤ p →
    (∃ i, joins s.adj i p.toNat v) ∧
    ∀ y, vget s.vis y false = true → ¬ Closed s y →
      ReachIn s.adj (fun z => vget s.vis z false = true) y p.toNat
  post := fun v _ s s1 => ∀ x, vget s1.vis x false = true → vget s.vis x false = false →
    ReachIn s.adj (fun z => vget s1.vis z false = true ∧ vget s.vis z false = false) v x
  inv := fun v _ s0 _ _ _ _ s => ∀ x, vget s.vis x false = true → vget s0.vis x false = false →
    ReachIn s0.adj (fun z => vget s.vis z false = true ∧ vget s0.vis z false = false) v x

end Bicomps

namespace Bicomps

/-! ## Layer B: the bridge flags -/

/-- The edge with index `i` is a bridge: it joins two vertices that are no
longer connected once it is removed. -/
def IsBridge (adj : List (List edge)) (i : Nat) : Prop :=
  ∃ x y, joins adj i x y ∧ ¬ ReachAvoidE adj i x y

/-- The adjacency entry `e` of `x` is resolved: unless its edge is flagged, its
endpoints are connected without it. -/
def ResE (s : bicomps) (x : Nat) (e : edge) : Prop :=
  vget s.is_bridge e.index false = false → ReachAvoidE s.adj e.index x e.node

/-- Every flagged edge is a bridge. -/
def BridgeSound (s : bicomps) : Prop :=
  ∀ i, vget s.is_bridge i false = true → IsBridge s.adj i

/-- Layer B of the specification of `dfs`: flagged edges are bridges, and after
`dfs(v, p)` every adjacency entry of a vertex visited by the call is resolved,
except the entries that lead from `v` back to `p`. -/
def specB : Spec where
  pre := fun _ _ s => BridgeSound s
  post := fun v p s s1 => BridgeSound s1 ∧
    ∀ x, vget s1.vis x false = true → vget s.vis x false = false →
      ∀ e ∈ vget s.adj x [], (x = v ∧ (e.node : Int) = p) ∨ ResE s1 x e
  inv := fun v p s0 done _ _ _ s => BridgeSound s ∧
    (∀ x, vget s.vis x false = true → vget s0.vis x false = false → x ≠ v →
      ∀ e ∈ vget s0.adj x [], ResE s x e) ∧
    (∀ e ∈ done, (e.node : Int) = p ∨ ResE s v e)

end Bicomps

namespace Bicomps

/-- The top-level invariant behind the bridge flags. -/
structure TopB (s : bicomps) : Prop where
  top : TopS s
  sound : BridgeSound s
  res : ∀ x, vget s.vis x false = true → ∀ e ∈ vget s.adj x [], ResE s x e

/-! ## The graph-theoretic notions of the claims, stated on the edge list -/

/-- One step along an edge of the list `es` other than the edge with index `i`. -/
def edgeStepWithout (es : List (Nat × Nat)) (i : Nat) (x y : Nat) : Prop :=
  ∃ k, k ≠ i ∧ (es[k]? = some (x, y) ∨ es[k]? = some (y, x))

/-- The vertices `a` and `b` are connected in the graph with edge list `es` from
which exactly the edge with index `i` has been removed (parallel copies kept). -/
def connectedWithout (es : List (Nat × Nat)) (i : Nat) : Nat → Nat → Prop :=
  Relation.ReflTransGen (edgeStepWithout es i)

end Bicomps

namespace Bicomps

/-! ## Layer T: the cut-vertex flags -/

/-- The vertex `v` is a cut vertex: two of its neighbours are not connected
once `v` is removed. -/
def CutV (adj : List (List edge)) (v : Nat) : Prop :=
  ∃ a b, a ≠ v ∧ b ≠ v ∧ (∃ i, joins adj i v a) ∧ (∃ j, joins adj j v b) ∧
    ¬ ReachIn adj (fun z => z ≠ v) a b

/-- Layer T of the specification of `dfs`: after `dfs(v, p)` the flag `is_cut`
of every vertex visited by the call tells whether it is a cut vertex. -/
def specT : Spec where
  pre := fun _ _ _ => True
  post := fun _ _ s s1 => ∀ x, vget s1.vis x false = true → vget s.vis x false = false →
    (vget s1.is_cut x false = true ↔ CutV s.adj x)
  inv := fun v p s0 _ _ _ ch s =>
    (∀ x, vget s.vis x false = true → vget s0.vis x false = false → x ≠ v →
      (vget s.is_cut x false = true ↔ CutV s0.adj x)) ∧
    (0 ≤ p → vget s.is_cut v false = true → CutV s0.adj v) ∧
    (0 ≤ p → vget s.is_cut v false = false →
      ∀ x, vget s.vis x false = true → vget s0.vis x false = false → x ≠ v →
        ReachIn s0.adj (fun z => z ≠ v) x p.toNat) ∧
    (p < 0 → ch ≤ 1 →
      ∀ x y, vget s.vis x false = true → vget s0.vis x false = false → x ≠ v →
        vget s.vis y false = true → vget s0.vis y false = false → y ≠ v →
        ReachIn s0.adj (fun z => z ≠ v) x y) ∧
    (p < 0 → 2 ≤ ch → CutV s0.adj v) ∧
    (ch = 0 → ∀ x, vget s.vis x false = true → vget s0.vis x false = false → x = v) ∧
    (1 ≤ ch → ∃ c, vget s.vis c false = true ∧ vget s0.vis c false = false ∧ c ≠ v ∧
      ∃ i, joins s0.adj i v c)

/-- The top-level invariant behind the cut-vertex flags. -/
structure TopT (s : bicomps) : Prop where
  top : TopS s
  cut : ∀ x, vget s.vis x false = true → (vget s.is_cut x false = true ↔ CutV s.adj x)

end Bicomps

namespace Bicomps

/-! ## Connected components, stated on the edge list -/

/-- Some edge of the list `es` joins `x` and `y`. -/
def edgeStep (es : List (Nat × Nat)) (x y : Nat) : Prop :=
  ∃ k : Nat, es[k]? = some (x, y) ∨ es[k]? = some (y, x)

/-- The vertices `0, ..., n-1` without the deleted vertex `del` (if there is one). -/
def Vert (n : Nat) (del : Option Nat) : Type :=
  {x : Nat // x < n ∧ some x ≠ del}

/-- Two remaining vertices are in the same connected component: the equivalence
generated by the edges between remaining vertices.  Deleting a vertex deletes
its incident edges with it. -/
def compSetoid (n : Nat) (es : List (Nat × Nat)) (del : Option Nat) : Setoid (Vert n del) :=
  Relation.EqvGen.setoid (fun a b => edgeStep es a.1 b.1)

/-- The connected components of the graph on `0, ..., n-1` with edge list `es`
from which the vertex `del` (if any) has been deleted with its incident edges. -/
def Components (n : Nat) (es : List (Nat × Nat)) (del : Option Nat) : Type :=
  Quotient (compSetoid n es del)

/-- The component of a vertex that remains after `v` is deleted, in the whole graph. -/
def compMap (n : Nat) (es : List (Nat × Nat)) (v : Nat) :
    Components n es (some v) → Components n es none :=
  @Quotient.map _ _ (compSetoid n es (some v)) (compSetoid n es none)
    (fun a => (⟨a.1, a.2.1, by simp⟩ : Vert n none)) (by
      intro a b h
      induction h with
      | rel x y h => exact Relation.EqvGen.rel _ _ h
      | refl x => exact Relation.EqvGen.refl _
      | symm x y _ ih => exact Relation.EqvGen.symm _ _ ih
      | trans x y z _ _ ih1 ih2 => exact Relation.EqvGen.trans _ _ _ ih1 ih2)

end Bicomps

namespace Bicomps

/-! ## Layer M: the stack segment of a call and the biconnected components -/

/-- The part of the stack pushed since the state `s0`. -/
def seg (s0 s : bicomps) : List Nat := s.stk.drop s0.stk.length

/-- The vertex `x` has been visited since the state `s0`. -/
def newIn (s0 s : bicomps) (x : Nat) : Prop :=
  vget s.vis x false = true ∧ vget s0.vis x false = false

/-- The vertices `a` and `b` are connected and stay so when any one other
vertex is deleted. -/
def Insep (adj : List (List edge)) (a b : Nat) : Prop :=
  ∀ w, w ≠ a → w ≠ b → ReachIn adj (fun z => z ≠ w) a b

/-- Some emitted component holds both `x` and `y`. -/
def covered (s : bicomps) (x y : Nat) : Prop := ∃ c ∈ s.comps, x ∈ c ∧ y ∈ c

/-- The layers that layer M builds on. -/
def specBase : Spec := ((specS.and specL).and specC).and specK

/-- Layer M of the specification of `dfs(v, p)`: the stack segment of the call
holds vertices visited by the call; each of them is inseparable from `p`; a
vertex visited by the call that is not `v` and has left the stack is separated
from everything outside the call by a vertex of the call; a vertex of the call
with a neighbour visited before the call is on the stack (the pair `v`, `p`
excepted); and two adjacent vertices of the call are in a common component or
both on the stack. -/
def specM : Spec where
  pre := fun _ _ _ => True
  post := fun v p s s1 =>
    (∀ x ∈ seg s s1, newIn s s1 x) ∧
    (0 ≤ p → ∀ x ∈ seg s s1, Insep s.adj x p.toNat) ∧
    (∀ x, newIn s s1 x → x ≠ v → x ∉ seg s s1 →
      ∃ w, newIn s s1 w ∧ w ≠ x ∧
        ∀ y, ¬ newIn s s1 y → ¬ ReachIn s.adj (fun z => z ≠ w) x y) ∧
    (∀ x y, newIn s s1 x → vget s.vis y false = true → (∃ i, joins s.adj i x y) →
      ¬ (x = v ∧ (y : Int) = p) → x ∈ seg s s1) ∧
    (∀ x y, newIn s s1 x → newIn s s1 y → x ≠ y → (∃ i, joins s.adj i x y) →
      covered s1 x y ∨ (x ∈ seg s s1 ∧ y ∈ seg s s1))
  inv := fun v p s0 done _ _ _ s =>
    (∀ x ∈ seg s0 s, newIn s0 s x) ∧
    (0 ≤ p → ∀ x ∈ seg s0 s, Insep s0.adj x p.toNat) ∧
    (∀ x, newIn s0 s x → x ≠ v → x ∉ seg s0 s →
      ∃ w, newIn s0 s w ∧ w ≠ x ∧
        ∀ y, ¬ newIn s0 s y → ¬ ReachIn s0.adj (fun z => z ≠ w) x y) ∧
    (∀ x y, newIn s0 s x → x ≠ v → vget s0.vis y false = true → (∃ i, joins s0.adj i x y) →
      x ∈ seg s0 s) ∧
    (∀ e ∈ done, vget s0.vis e.node false = true → (e.node : Int) ≠ p → v ∈ seg s0 s) ∧
    (∀ x y, newIn s0 s x → newIn s0 s y → x ≠ y → (∃ i, joins s0.adj i x y) →
      covered s x y ∨ (x ∈ seg s0 s ∧ y ∈ seg s0 s))

/-- The list `c` holds the vertices of a biconnected component: at least two
vertices, pairwise inseparable, and no vertex outside is inseparable from all
of them. -/
def IsBlock (adj : List (List edge)) (c : List Nat) : Prop :=
  (∃ a ∈ c, ∃ b ∈ c, a ≠ b) ∧
  (∀ a ∈ c, ∀ b ∈ c, a ≠ b → Insep adj a b) ∧
  (∀ x, x ∉ c → ∃ y ∈ c, ¬ Insep adj x y)

/-- Layer Bk of the specification of `dfs`: every emitted component is a
biconnected component. -/
def specBk : Spec where
  pre := fun _ _ s => ∀ c ∈ s.comps, IsBlock s.adj c
  post := fun _ _ s s1 => ∀ c ∈ s1.comps, IsBlock s.adj c
  inv := fun _ _ s0 _ _ _ _ s => ∀ c ∈ s.comps, IsBlock s0.adj c

/-- Layer N of the specification of `dfs`: no component is emitted twice; the
members of the components are visited, those of the components emitted by the
call are visited by the call. -/
def specN : Spec where
  pre := fun _ _ s => s.comps.Nodup ∧ ∀ c ∈ s.comps, ∀ x ∈ c, vget s.vis x false = true
  post := fun _ _ s s1 => s1.comps.Nodup ∧
    (∀ c ∈ s1.comps, ∀ x ∈ c, vget s1.vis x false = true) ∧
    ∀ c ∈ s1.comps.drop s.comps.length, ∀ x ∈ c, newIn s s1 x
  inv := fun _ _ s0 _ _ _ _ s => s.comps.Nodup ∧
    (∀ c ∈ s.comps, ∀ x ∈ c, vget s.vis x false = true) ∧
    ∀ c ∈ s.comps.drop s0.comps.length, ∀ x ∈ c, newIn s0 s x

/-- The top-level invariant behind the decomposition: the stack is empty, every
component is a biconnected component, none is listed twice, and two different
adjacent visited vertices are in a common component. -/
structure TopM (s : bicomps) : Prop where
  top : TopS s
  stk : s.stk = []
  block : ∀ c ∈ s.comps, IsBlock s.adj c
  nodup : s.comps.Nodup
  mem : ∀ c ∈ s.comps, ∀ x ∈ c, vget s.vis x false = true
  cov : ∀ x y, vget s.vis x false = true → x ≠ y → (∃ i, joins s.adj i x y) → covered s x y

end Bicomps

namespace Bicomps

/-! ## Layer F: the components form a forest with the vertices -/

/-- The vertex `t` is the top of the component `c`: the member visited first. -/
def IsTop (ts : List Int) (c : List Nat) (t : Nat) : Prop :=
  t ∈ c ∧ ∀ y ∈ c, y ≠ t → vget ts t 0 < vget ts y 0

/-- Every component has a top, and no vertex is a member other than the top of
two components. -/
def TopsOk (s : bicomps) : Prop :=
  (∀ c ∈ s.comps, ∃ t, IsTop s.tour_start c t) ∧
  ∀ x c d, c ∈ s.comps → d ∈ s.comps → x ∈ c → x ∈ d →
    ¬ IsTop s.tour_start c x → ¬ IsTop s.tour_start d x → c = d

/-- The layers that layer F builds on. -/
def specBlocks : Spec := ((specBase.and specM).and specBk).and specN

/-- Layer F of the specification of `dfs(v, p)`: the components have tops, no
vertex is below the top in two of them, and `v` and the vertices on the stack
segment of the call are below the top in none. -/
def specF : Spec where
  pre := fun _ _ s => TopsOk s
  post := fun v _ s s1 => TopsOk s1 ∧
    (∀ x ∈ seg s s1, ∀ c ∈ s1.comps, x ∈ c → IsTop s1.tour_start c x) ∧
    (∀ c ∈ s1.comps, v ∈ c → IsTop s1.tour_start c v)
  inv := fun v _ s0 _ _ _ _ s => TopsOk s ∧
    (∀ x ∈ seg s0 s, ∀ c ∈ s.comps, x ∈ c → IsTop s.tour_start c x) ∧
    (∀ c ∈ s.comps, v ∈ c → IsTop s.tour_start c v)

/-- The top-level invariant behind the forest of components. -/
structure TopF (s : bicomps) : Prop where
  top : TopM s
  tops : TopsOk s

end Bicomps

namespace Bicomps

/-! ## Rooted forests and the traversal of `bc_tree::dfs` -/

/-- The node `z` is `y` or a descendant of `y`, when `up` gives the parent of a
node (a negative value for a root). -/
inductive Desc (up : Nat → Int) (y : Nat) : Nat → Prop
  | refl : Desc up y y
  | step {z w : Nat} : up z = (w : Int) → Desc up y w → Desc up y z

/-- The nodes `y` and `z` have a common ancestor. -/
def SameTree (up : Nat → Int) (y z : Nat) : Prop := ∃ a, Desc up a y ∧ Desc up a z

/-- The nodes that the call `dfs(y, x)` of `bc_tree` reaches: the descendants of
`y` when `x` is the parent of `y`; otherwise the tree of `y` without the
descendants of `x`. -/
def Part (up : Nat → Int) (y : Nat) (x : Int) (z : Nat) : Prop :=
  (up y = x ∧ 0 ≤ x ∧ Desc up y z) ∨
  (¬ (up y = x ∧ 0 ≤ x) ∧ SameTree up y z ∧ ¬ (0 ≤ x ∧ Desc up x.toNat z))

/-- The calls `dfs(y, x)` that occur: `x` is `-1` or a neighbour of `y`. -/
def ValidCall (up : Nat → Int) (y : Nat) (x : Int) : Prop :=
  x = -1 ∨ (0 ≤ x ∧ (up y = x ∨ up x.toNat = (y : Int)))

/-- The adjacency lists `adj` on the nodes `0, ..., T-1` are those of a forest:
`up` gives every node its parent or a negative value, the rank `rk` falls
towards the parent, the lists are symmetric and without repetition, and every
entry joins a node and its parent. -/
structure Forest (T : Nat) (adj : List (List Nat)) (up : Nat → Int) (rk : Nat → Int) : Prop where
  lt : ∀ y z, z ∈ vget adj y [] → y < T ∧ z < T
  sym : ∀ y z, z ∈ vget adj y [] → y ∈ vget adj z []
  nodup : ∀ y, (vget adj y []).Nodup
  edge : ∀ y z, z ∈ vget adj y [] → up y = (z : Int) ∨ up z = (y : Int)
  up_adj : ∀ y, 0 ≤ up y → (up y).toNat ∈ vget adj y []
  rank : ∀ y, 0 ≤ up y → rk (up y).toNat < rk y

end Bicomps

namespace Bicomps

/-- The entries of `parent` and `depth` for the node `z` are final: the depth is
not negative, every neighbour is the parent of `z` or has `z` as its parent,
and `z` is a root of depth 0 or one level below its parent, a neighbour. -/
def Settled (t : bc_tree) (z : Nat) : Prop :=
  0 ≤ vget t.depth z 0 ∧
  (∀ w ∈ vget t.adj z [], vget t.parent w 0 = (z : Int) ∨ vget t.parent z 0 = (w : Int)) ∧
  ((vget t.parent z 0 = -1 ∧ vget t.depth z 0 = 0) ∨
    (0 ≤ vget t.parent z 0 ∧ (vget t.parent z 0).toNat ∈ vget t.adj z [] ∧
      vget t.depth z 0 = vget t.depth (vget t.parent z 0).toNat 0 + 1))

/-- What the call `dfs(y, x)` of `bc_tree` does to the tree `t`; the lists `V`
and `V1` flag the nodes reached before and after the call. -/
structure TreePost (up : Nat → Int) (y : Nat) (x : Int) (t : bc_tree) (V : List Bool)
    (t1 : bc_tree) (V1 : List Bool) : Prop where
  adj : t1.adj = t.adj
  len_parent : t1.parent.length = t.parent.length
  len_depth : t1.depth.length = t.depth.length
  len_vis : V1.length = V.length
  vis : ∀ z, vget V1 z false = true ↔ (vget V z false = true ∨ Part up y x z)
  frame : ∀ z, ¬ Part up y x z →
    vget t1.parent z 0 = vget t.parent z 0 ∧ vget t1.depth z 0 = vget t.depth z 0
  parent : vget t1.parent y 0 = x
  depth : vget t1.depth y 0 = if x < 0 then 0 else vget t.depth x.toNat 0 + 1
  inner : ∀ z, Part up y x z → z ≠ y → 0 ≤ vget t1.parent z 0
  settled : ∀ z, Part up y x z → Settled t1 z

/-- The invariant of the loop of `bc_tree::dfs(y, x)` over the neighbours of
`y`, after the neighbours `done`; `t0` and `V0` are the tree and the flags at
the call, `d` is the depth of `y`. -/
structure TreeInv (up : Nat → Int) (y : Nat) (x : Int) (d : Int) (t0 : bc_tree)
    (V0 : List Bool) (done : List Nat) (t : bc_tree) (V : List Bool) : Prop where
  adj : t.adj = t0.adj
  len_parent : t.parent.length = t0.parent.length
  len_depth : t.depth.length = t0.depth.length
  len_vis : V.length = V0.length
  vis : ∀ z, vget V z false = true ↔
    (vget V0 z false = true ∨ z = y ∨ ∃ e ∈ done, (e : Int) ≠ x ∧ Part up e (y : Int) z)
  frame : ∀ z, z ≠ y → (¬ ∃ e ∈ done, (e : Int) ≠ x ∧ Part up e (y : Int) z) →
    vget t.parent z 0 = vget t0.parent z 0 ∧ vget t.depth z 0 = vget t0.depth z 0
  parent : vget t.parent y 0 = x
  depth : vget t.depth y 0 = d
  child : ∀ e ∈ done, (e : Int) ≠ x → vget t.parent e 0 = (y : Int)
  settled : ∀ e ∈ done, (e : Int) ≠ x → ∀ z, Part up e (y : Int) z →
    Settled t z ∧ 0 ≤ vget t.parent z 0

end Bicomps

namespace Bicomps

/-- The invariant of the loop over the roots in `bc_tree::build`, before the
node `i`: the reached nodes are settled and form whole trees, the others have
the initial parent `-1`, and of the reached nodes only roots below `i` have a
negative parent. -/
structure SweepInv (up : Nat → Int) (T : Nat) (adj : List (List Nat)) (i : Nat) (t : bc_tree)
    (V : List Bool) : Prop where
  adj : t.adj = adj
  len_parent : t.parent.length = T
  len_depth : t.depth.length = T
  len_vis : V.length = T
  settled : ∀ z, vget V z false = true → Settled t z
  closed : ∀ z w, vget V z false = true → SameTree up z w → vget V w false = true
  fresh : ∀ z, z < T → vget V z false = false → vget t.parent z 0 = -1
  inner : ∀ z, vget V z false = true → i ≤ z → 0 ≤ vget t.parent z 0
  done : ∀ z, z < i → vget V z false = true

end Bicomps

namespace Bicomps

/-- The adjacency lists of the block-vertex tree after the components `cs` have
been entered: the vertex `x` is joined to the node `n + k` of every component
`k` that holds it, once each, and the node `n + k` to the members of the
component `k`. -/
structure TreeAdj (n T : Nat) (cs : List (List Nat)) (t : bc_tree) : Prop where
  n_eq : t.n = n
  T_eq : t.T = T
  len : t.adj.length = T
  vert : ∀ x, x < n → ∀ z, z ∈ vget t.adj x [] ↔
    ∃ k, k < cs.length ∧ z = n + k ∧ x ∈ vget cs k []
  comp : ∀ k, vget t.adj (n + k) [] = vget cs k []
  nodup : ∀ x, x < n → (vget t.adj x []).Nodup

end Bicomps

namespace Bicomps

/-- The test of `bc_tree::same_bicomp` for two different nodes, the first not
deeper than the second: the first is the grandparent of the second, or both
have the same parent. -/
def Near (t : bc_tree) (a b : Nat) : Prop :=
  (vget t.depth b 0 = vget t.depth a 0 + 2 ∧
    vget t.parent (vget t.parent b 0).toNat 0 = (a : Int)) ∨
  (0 ≤ vget t.parent a 0 ∧ vget t.parent a 0 = vget t.parent b 0)

end Bicomps

namespace Bicomps

/-- The counter `tour` counts the visited vertices, and the tour number of a
visited vertex is not negative. -/
def TourInv (s : bicomps) : Prop :=
  s.tour + (s.vis.count false : Int) = (s.vis.length : Int) ∧
  ∀ x, vget s.vis x false = true → 0 ≤ vget s.tour_start x 0

end Bicomps

namespace Bicomps

/-! ## Cycles, and the traversal of `bc_tree` with a record of its calls -/

/-- The list `c` is a cycle of the graph with adjacency lists `adj`: at least
three different nodes, each adjacent to the next and the last to the first. -/
def IsCycle (adj : List (List Nat)) (c : List Nat) : Prop :=
  3 ≤ c.length ∧ c.Nodup ∧
  ∀ i, i < c.length → vget c ((i + 1) % c.length) 0 ∈ vget adj (vget c i 0) []

/-- The loop of `bc_tree::dfs` on a tree paired with the record of the calls of
`dfs` made so far. -/
def treeLoopLog (call : Nat → Int → bc_tree × List Nat → Option (bc_tree × List Nat))
    (node : Nat) (par : Int) : List Nat → bc_tree × List Nat → Option (bc_tree × List Nat)
  | [], s => some s
  | neigh :: rest, s =>
    if (neigh : Int) ≠ par then
      match call neigh node s with
      | none => none
      | some s1 => treeLoopLog call node par rest s1
    else treeLoopLog call node par rest s

/-- The method `bc_tree::dfs(node, par)` on a tree paired with the record of
the calls of `dfs` made so far: the call appends `node` to the record when it
is entered, and otherwise does what `bc_tree.dfs` does. -/
def bc_tree.dfsLog : Nat → Nat → Int → bc_tree × List Nat → Option (bc_tree × List Nat)
  | 0, _, _, _ => none
  | fuel + 1, node, par, s =>
    let t1 : bc_tree := { s.1 with parent := s.1.parent.set node par }
    let t2 : bc_tree := { t1 with
      depth := t1.depth.set node (if par < 0 then 0 else vget t1.depth par.toNat 0 + 1) }
    treeLoopLog (bc_tree.dfsLog fuel) node par (vget t2.adj node []) (t2, s.2 ++ [node])

/-- The loop over the roots of `bc_tree::build`, with the record of the calls
of `dfs`. -/
def treeSweepLog (fuel : Nat) : List Nat → bc_tree × List Nat → Option (bc_tree × List Nat)
  | [], s => some s
  | root :: rest, s =>
    if vget s.1.parent root 0 < 0 then
      match bc_tree.dfsLog fuel root (-1) s with
      | none => none
      | some s1 => treeSweepLog fuel rest s1
    else treeSweepLog fuel rest s

/-- The method `bc_tree::build()` together with the record of the calls of
`dfs` it makes, in order. -/
def bc_tree.buildLog (self : bc_tree) (bc : bicomps) : Option (bc_tree × List Nat) :=
  let t0 : bc_tree := { self with
    n := bc.n
    BC := bc.comps.length
    T := bc.n + bc.comps.length
    adj := List.replicate (bc.n + bc.comps.length) [] }
  match addComps 0 bc.comps t0 with
  | none => none
  | some t1 =>
    let t2 : bc_tree := { t1 with
      parent := List.replicate t1.T (-1)
      depth := resize t1.depth t1.T 0 }
    treeSweepLog (bc.n + bc.comps.length) (List.range t2.T) (t2, [])

end Bicomps

namespace Bicomps

/-! ## Vector lemmas -/

theorem vget_set_eq {α : Type} (l : List α) (i : Nat) (v d : α) (h : i < l.length) :
    vget (l.set i v) i d = v := by
  simp [vget, List.getD_eq_getElem?_getD, h]

theorem vget_set_ne {α : Type} (l : List α) (i j : Nat) (v d : α) (h : i ≠ j) :
    vget (l.set i v) j d = vget l j d := by
  simp [vget, List.getD_eq_getElem?_getD, List.getElem?_set_ne h]

theorem vget_set {α : Type} (l : List α) (i j : Nat) (v d : α) :
    vget (l.set i v) j d = if i = j ∧ i < l.length then v else vget l j d := by
  by_cases h : i = j
  · subst h
    by_cases h2 : i < l.length
    · simp [vget_set_eq, h2]
    · simp [h2, List.set_eq_of_length_le (Nat.le_of_not_lt h2)]
  · simp [h, vget_set_ne]

theorem vget_replicate {α : Type} (k i : Nat) (v d : α) :
    vget (List.replicate k v) i d = if i < k then v else d := by
  simp [vget, List.getD_eq_getElem?_getD, List.getElem?_replicate]
  split <;> simp

theorem vget_of_le {α : Type} (l : List α) (i : Nat) (d : α) (h : l.length ≤ i) :
    vget l i d = d := by
  simp [vget, List.getD_eq_getElem?_getD, List.getElem?_eq_none h]

theorem set_vget_self {α : Type} (l : List α) (i : Nat) (d : α) :
    l.set i (vget l i d) = l := by
  by_cases h : i < l.length
  · apply List.ext_getElem?
    intro j
    by_cases hj : i = j
    · subst hj
      simp [vget, List.getD_eq_getElem?_getD, h]
    · simp [List.getElem?_set_ne hj]
  · exact List.set_eq_of_length_le (Nat.le_of_not_lt h)

theorem vget_append_left {α : Type} (l l2 : List α) (i : Nat) (d : α) (h : i < l.length) :
    vget (l ++ l2) i d = vget l i d := by
  simp [vget, List.getD_eq_getElem?_getD, List.getElem?_append_left h]

theorem resize_of_le {α : Type} (l : List α) (k : Nat) (d : α) (h : k ≤ l.length) :
    resize l k d = l.take k := by
  simp [resize, Nat.sub_eq_zero_of_le h]

theorem length_resize {α : Type} (l : List α) (k : Nat) (d : α) :
    (resize l k d).length = k := by
  simp [resize]
  omega

/-! ## The generic proof rule for `dfs` -/

/-- A Hoare-style rule for `dfs`: a precondition `P`, a postcondition `Q`
and a loop invariant `I` (indexed by the entry state, the processed and the
remaining adjacency entries and the two locals) that are preserved by every
step give a partial-correctness statement for every fuel. -/
theorem dfs_rule
    {P : Nat → Int → bicomps → Prop}
    {Q : Nat → Int → bicomps → bicomps → Prop}
    {I : Nat → Int → bicomps → List edge → List edge → Nat → Nat → bicomps → Prop}
    (h_enter : ∀ node parent s, P node parent s → vget s.vis node false = false →
      I node parent s [] (vget s.adj node []) 0 0 (enter node s))
    (h_skip : ∀ node parent s0 done e es pc ch s,
      done ++ e :: es = vget s0.adj node [] →
      I node parent s0 done (e :: es) pc ch s →
      (e.node : Int) = parent → pc = 0 →
      I node parent s0 (done ++ [e]) es (pc + 1) ch s)
    (h_vis : ∀ node parent s0 done e es pc ch s,
      done ++ e :: es = vget s0.adj node [] →
      I node parent s0 done (e :: es) pc ch s →
      ¬((e.node : Int) = parent ∧ pc = 0) →
      vget s.vis e.node false = true →
      I node parent s0 (done ++ [e]) es (if (e.node : Int) = parent then pc + 1 else pc) ch
        (visitedStep node e s))
    (h_pre : ∀ node parent s0 done e es pc ch s,
      done ++ e :: es = vget s0.adj node [] →
      I node parent s0 done (e :: es) pc ch s →
      ¬((e.node : Int) = parent ∧ pc = 0) →
      vget s.vis e.node false = false →
      P e.node node s)
    (h_child : ∀ node parent s0 done e es pc ch s s1,
      done ++ e :: es = vget s0.adj node [] →
      I node parent s0 done (e :: es) pc ch s →
      ¬((e.node : Int) = parent ∧ pc = 0) →
      vget s.vis e.node false = false →
      (∃ f, dfs f e.node node s = some s1) →
      Q e.node node s s1 →
      I node parent s0 (done ++ [e]) es (if (e.node : Int) = parent then pc + 1 else pc) (ch + 1)
        (childStep node e s.stk.length s1))
    (h_leave : ∀ node parent s0 done pc ch s,
      done = vget s0.adj node [] →
      (∃ f, dfs f node parent s0 = some (leave node parent ch s)) →
      I node parent s0 done [] pc ch s →
      Q node parent s0 (leave node parent ch s)) :
    ∀ fuel node parent s s1, P node parent s → dfs fuel node parent s = some s1 →
      Q node parent s s1 := by
  intro fuel
  induction fuel with
  | zero => intro node parent s s1 _ h; simp [dfs] at h
  | succ fuel ih =>
    intro node parent s0 s1 hpre h
    have hrun := h
    unfold dfs at h
    split at h
    · exact absurd h (by simp)
    · rename_i hv
      have hv2 : vget s0.vis node false = false := by simpa using hv
      -- the loop
      have loop : ∀ (rest done : List edge) (pc ch : Nat) (s r : bicomps) (chr : Nat),
          done ++ rest = vget s0.adj node [] →
          I node parent s0 done rest pc ch s →
          dfsLoop (dfs fuel) node parent rest pc ch s = some (r, chr) →
          ∃ pc2, I node parent s0 (vget s0.adj node []) [] pc2 chr r := by
        intro rest
        induction rest with
        | nil =>
          intro done pc ch s r chr hsplit hI hl
          simp only [dfsLoop, Option.some.injEq, Prod.mk.injEq] at hl
          obtain ⟨rfl, rfl⟩ := hl
          rw [List.append_nil] at hsplit
          subst hsplit
          exact ⟨pc, hI⟩
        | cons e es ihl =>
          intro done pc ch s r chr hsplit hI hl
          have hsplit2 : (done ++ [e]) ++ es = vget s0.adj node [] := by simpa using hsplit
          unfold dfsLoop at hl
          simp only at hl
          split at hl
          · rename_i hs
            have := h_skip node parent s0 done e es pc ch s hsplit hI hs.1 hs.2
            have hpc : (if (e.node : Int) = parent then pc + 1 else pc) = pc + 1 := by simp [hs.1]
            rw [hpc] at hl
            exact ihl _ _ _ _ _ _ hsplit2 this hl
          · rename_i hs
            split at hl
            · rename_i hvis
              exact ihl _ _ _ _ _ _ hsplit2 (h_vis node parent s0 done e es pc ch s hsplit hI hs hvis) hl
            · rename_i hvis
              have hvis2 : vget s.vis e.node false = false := by simpa using hvis
              split at hl
              · exact absurd hl (by simp)
              · rename_i sc hcall
                have hp := h_pre node parent s0 done e es pc ch s hsplit hI hs hvis2
                have hpost := ih e.node node s sc hp hcall
                exact ihl _ _ _ _ _ _ hsplit2
                  (h_child node parent s0 done e es pc ch s sc hsplit hI hs hvis2 ⟨fuel, hcall⟩ hpost) hl
      split at h
      · exact absurd h (by simp)
      · rename_i sl chl hloop
        simp only [Option.some.injEq] at h
        subst h
        obtain ⟨pc2, hI⟩ := loop (vget s0.adj node []) [] 0 0 (enter node s0) sl chl (by simp)
          (h_enter node parent s0 hpre hv2) hloop
        refine h_leave node parent s0 _ pc2 chl sl rfl ⟨fuel + 1, ?_⟩ hI
        unfold dfs
        simp [hv, hloop]

end Bicomps

namespace Bicomps

/-! ## The frame of `dfs` -/

theorem Ext.refl (s : bicomps) : Ext s s :=
  { n := rfl, m := rfl, adj := rfl, edge_list := rfl, len_vis := rfl, len_ts := rfl,
    len_low := rfl, len_cut := rfl, len_bridge := rfl, vis := fun _ h => h,
    ts := fun _ _ => rfl, low := fun _ _ => rfl, cut := fun _ _ => rfl, tour := le_refl _,
    stk := List.prefix_refl _, comps := List.prefix_refl _, bridge := fun _ h => h }

theorem Ext.trans {a b c : bicomps} (h1 : Ext a b) (h2 : Ext b c) : Ext a c :=
  { n := h2.n.trans h1.n, m := h2.m.trans h1.m, adj := h2.adj.trans h1.adj,
    edge_list := h2.edge_list.trans h1.edge_list,
    len_vis := h2.len_vis.trans h1.len_vis, len_ts := h2.len_ts.trans h1.len_ts,
    len_low := h2.len_low.trans h1.len_low, len_cut := h2.len_cut.trans h1.len_cut,
    len_bridge := h2.len_bridge.trans h1.len_bridge,
    vis := fun x h => h2.vis x (h1.vis x h),
    ts := fun x h => (h2.ts x (h1.vis x h)).trans (h1.ts x h),
    low := fun x h => (h2.low x (h1.vis x h)).trans (h1.low x h),
    cut := fun x h => (h2.cut x (h1.vis x h)).trans (h1.cut x h),
    tour := le_trans h1.tour h2.tour,
    stk := List.IsPrefix.trans h1.stk h2.stk,
    comps := List.IsPrefix.trans h1.comps h2.comps,
    bridge := fun i h => h2.bridge i (h1.bridge i h) }

theorem Ext.ok {s s1 : bicomps} (h : Ext s s1) (hs : s.ok) : s1.ok := by
  obtain ⟨⟨h1, h2, h3, h4⟩, h5, h6, h7⟩ := hs
  refine ⟨⟨?_, ?_, ?_, ?_⟩, ?_, ?_, ?_⟩
  · rw [h.adj, h.n]; exact h1
  · rw [h.len_ts, h.n]; exact h2
  · rw [h.len_low, h.n]; exact h3
  · rw [h.adj, h.n, h.m]; exact h4
  · rw [h.len_vis, h.n]; exact h5
  · rw [h.len_cut, h.n]; exact h6
  · rw [h.len_bridge, h.m]; exact h7

theorem vget_set_true_mono (l : List Bool) (i x : Nat) (h : vget l x false = true) :
    vget (l.set i true) x false = true := by
  rw [vget_set]
  split
  · rfl
  · exact h

theorem ne_of_vis {s : bicomps} {node x : Nat} (hn : vget s.vis node false = false)
    (hx : vget s.vis x false = true) : node ≠ x := by
  intro h
  subst h
  rw [hn] at hx
  exact absurd hx (by simp)

theorem ext_enter (s : bicomps) (node : Nat) (hn : vget s.vis node false = false) :
    Ext s (enter node s) :=
  { n := rfl, m := rfl, adj := rfl, edge_list := rfl
    len_vis := by simp [enter]
    len_ts := by simp [enter]
    len_low := by simp [enter]
    len_cut := by simp [enter]
    len_bridge := rfl
    vis := fun x h => vget_set_true_mono _ _ _ h
    ts := fun x h => vget_set_ne _ _ _ _ _ (ne_of_vis hn h)
    low := fun x h => vget_set_ne _ _ _ _ _ (ne_of_vis hn h)
    cut := fun x h => vget_set_ne _ _ _ _ _ (ne_of_vis hn h)
    tour := by simp [enter]
    stk := List.prefix_refl _
    comps := List.prefix_refl _
    bridge := fun _ h => h }

/-! ### What the two loop steps leave alone -/

section fields
variable (node : Nat) (e : edge) (size : Nat) (s : bicomps)

@[simp] theorem visitedStep_n : (visitedStep node e s).n = s.n := by
  unfold visitedStep; simp only; split <;> rfl
@[simp] theorem visitedStep_m : (visitedStep node e s).m = s.m := by
  unfold visitedStep; simp only; split <;> rfl
@[simp] theorem visitedStep_adj : (visitedStep node e s).adj = s.adj := by
  unfold visitedStep; simp only; split <;> rfl
@[simp] theorem visitedStep_edge_list : (visitedStep node e s).edge_list = s.edge_list := by
  unfold visitedStep; simp only; split <;> rfl
@[simp] theorem visitedStep_vis : (visitedStep node e s).vis = s.vis := by
  unfold visitedStep; simp only; split <;> rfl
@[simp] theorem visitedStep_tour_start : (visitedStep node e s).tour_start = s.tour_start := by
  unfold visitedStep; simp only; split <;> rfl
@[simp] theorem visitedStep_tour : (visitedStep node e s).tour = s.tour := by
  unfold visitedStep; simp only; split <;> rfl
@[simp] theorem visitedStep_is_cut : (visitedStep node e s).is_cut = s.is_cut := by
  unfold visitedStep; simp only; split <;> rfl
@[simp] theorem visitedStep_is_bridge : (visitedStep node e s).is_bridge = s.is_bridge := by
  unfold visitedStep; simp only; split <;> rfl
@[simp] theorem visitedStep_comps : (visitedStep node e s).comps = s.comps := by
  unfold visitedStep; simp only; split <;> rfl
theorem visitedStep_low_link : (visitedStep node e s).low_link =
    s.low_link.set node (min (vget s.low_link node 0) (vget s.tour_start e.node 0)) := by
  unfold visitedStep; simp only; split <;> rfl
theorem visitedStep_stk : (visitedStep node e s).stk =
    if vget s.tour_start e.node 0 < vget s.tour_start node 0 then s.stk ++ [node] else s.stk := by
  unfold visitedStep; simp only; split <;> rfl

@[simp] theorem childStep_n : (childStep node e size s).n = s.n := by
  unfold childStep; simp only; split <;> split <;> (try split) <;> rfl
@[simp] theorem childStep_m : (childStep node e size s).m = s.m := by
  unfold childStep; simp only; split <;> split <;> (try split) <;> rfl
@[simp] theorem childStep_adj : (childStep node e size s).adj = s.adj := by
  unfold childStep; simp only; split <;> split <;> (try split) <;> rfl
@[simp] theorem childStep_edge_list : (childStep node e size s).edge_list = s.edge_list := by
  unfold childStep; simp only; split <;> split <;> (try split) <;> rfl
@[simp] theorem childStep_vis : (childStep node e size s).vis = s.vis := by
  unfold childStep; simp only; split <;> split <;> (try split) <;> rfl
@[simp] theorem childStep_tour_start : (childStep node e size s).tour_start = s.tour_start := by
  unfold childStep; simp only; split <;> split <;> (try split) <;> rfl
@[simp] theorem childStep_tour : (childStep node e size s).tour = s.tour := by
  unfold childStep; simp only; split <;> split <;> (try split) <;> rfl
theorem childStep_low_link : (childStep node e size s).low_link =
    s.low_link.set node (min (vget s.low_link node 0) (vget s.low_link e.node 0)) := by
  unfold childStep; simp only; split <;> split <;> (try split) <;> rfl

theorem childStep_low_child (hne : node ≠ e.node) :
    vget (s.low_link.set node (min (vget s.low_link node 0) (vget s.low_link e.node 0))) e.node 0
      = vget s.low_link e.node 0 :=
  vget_set_ne _ _ _ _ _ hne

theorem childStep_is_bridge (hne : node ≠ e.node) : (childStep node e size s).is_bridge =
    if vget s.low_link e.node 0 > vget s.tour_start node 0 then s.is_bridge.set e.index true
    else s.is_bridge := by
  rcases lt_trichotomy (vget s.low_link e.node 0) (vget s.tour_start node 0) with h | h | h
  · simp [childStep, vget_set_ne _ _ _ _ _ hne, h, not_lt.mpr (le_of_lt h), not_le.mpr h, ne_of_lt h]
  · simp [childStep, vget_set_ne _ _ _ _ _ hne, h]
  · simp [childStep, vget_set_ne _ _ _ _ _ hne, h, not_lt.mpr (le_of_lt h), le_of_lt h]

theorem childStep_is_cut (hne : node ≠ e.node) : (childStep node e size s).is_cut =
    if vget s.low_link e.node 0 ≥ vget s.tour_start node 0 then s.is_cut.set node true
    else s.is_cut := by
  rcases lt_trichotomy (vget s.low_link e.node 0) (vget s.tour_start node 0) with h | h | h
  · simp [childStep, vget_set_ne _ _ _ _ _ hne, h, not_lt.mpr (le_of_lt h), not_le.mpr h, ne_of_lt h]
  · simp [childStep, vget_set_ne _ _ _ _ _ hne, h]
  · simp [childStep, vget_set_ne _ _ _ _ _ hne, h, not_lt.mpr (le_of_lt h), le_of_lt h]

theorem childStep_comps (hne : node ≠ e.node) : (childStep node e size s).comps =
    if vget s.low_link e.node 0 > vget s.tour_start node 0 then
      s.comps ++ [sort [node, e.node]]
    else if vget s.low_link e.node 0 = vget s.tour_start node 0 then
      s.comps ++ [unique (sort ((s.stk ++ [node]).drop size))]
    else s.comps := by
  rcases lt_trichotomy (vget s.low_link e.node 0) (vget s.tour_start node 0) with h | h | h
  · simp [childStep, vget_set_ne _ _ _ _ _ hne, h, not_lt.mpr (le_of_lt h), not_le.mpr h, ne_of_lt h]
  · simp [childStep, vget_set_ne _ _ _ _ _ hne, h]
  · simp [childStep, vget_set_ne _ _ _ _ _ hne, h, not_lt.mpr (le_of_lt h), le_of_lt h]

theorem childStep_stk (hne : node ≠ e.node) : (childStep node e size s).stk =
    if vget s.low_link e.node 0 > vget s.tour_start node 0 then s.stk
    else if vget s.low_link e.node 0 = vget s.tour_start node 0 then
      resize (s.stk ++ [node]) size 0
    else s.stk ++ [node] := by
  rcases lt_trichotomy (vget s.low_link e.node 0) (vget s.tour_start node 0) with h | h | h
  · simp [childStep, vget_set_ne _ _ _ _ _ hne, h, not_lt.mpr (le_of_lt h), not_le.mpr h, ne_of_lt h]
  · simp [childStep, vget_set_ne _ _ _ _ _ hne, h]
  · simp [childStep, vget_set_ne _ _ _ _ _ hne, h, not_lt.mpr (le_of_lt h), le_of_lt h]

end fields

section fields2
variable (node : Nat) (parent : Int) (ch : Nat) (s : bicomps)

@[simp] theorem enter_n : (enter node s).n = s.n := rfl
@[simp] theorem enter_m : (enter node s).m = s.m := rfl
@[simp] theorem enter_adj : (enter node s).adj = s.adj := rfl
@[simp] theorem enter_edge_list : (enter node s).edge_list = s.edge_list := rfl
@[simp] theorem enter_stk : (enter node s).stk = s.stk := rfl
@[simp] theorem enter_comps : (enter node s).comps = s.comps := rfl
@[simp] theorem enter_is_bridge : (enter node s).is_bridge = s.is_bridge := rfl
@[simp] theorem enter_tour : (enter node s).tour = s.tour + 1 := rfl
theorem enter_vis : (enter node s).vis = s.vis.set node true := rfl
theorem enter_tour_start : (enter node s).tour_start = s.tour_start.set node s.tour := rfl
theorem enter_low_link : (enter node s).low_link = s.low_link.set node s.tour := rfl
theorem enter_is_cut : (enter node s).is_cut = s.is_cut.set node false := rfl

@[simp] theorem leave_n : (leave node parent ch s).n = s.n := by
  unfold leave; split <;> rfl
@[simp] theorem leave_m : (leave node parent ch s).m = s.m := by
  unfold leave; split <;> rfl
@[simp] theorem leave_adj : (leave node parent ch s).adj = s.adj := by
  unfold leave; split <;> rfl
@[simp] theorem leave_edge_list : (leave node parent ch s).edge_list = s.edge_list := by
  unfold leave; split <;> rfl
@[simp] theorem leave_vis : (leave node parent ch s).vis = s.vis := by
  unfold leave; split <;> rfl
@[simp] theorem leave_tour_start : (leave node parent ch s).tour_start = s.tour_start := by
  unfold leave; split <;> rfl
@[simp] theorem leave_low_link : (leave node parent ch s).low_link = s.low_link := by
  unfold leave; split <;> rfl
@[simp] theorem leave_tour : (leave node parent ch s).tour = s.tour := by
  unfold leave; split <;> rfl
@[simp] theorem leave_stk : (leave node parent ch s).stk = s.stk := by
  unfold leave; split <;> rfl
@[simp] theorem leave_comps : (leave node parent ch s).comps = s.comps := by
  unfold leave; split <;> rfl
@[simp] theorem leave_is_bridge : (leave node parent ch s).is_bridge = s.is_bridge := by
  unfold leave; split <;> rfl
theorem leave_is_cut : (leave node parent ch s).is_cut =
    if parent < 0 then s.is_cut.set node (decide (ch > 1)) else s.is_cut := by
  unfold leave; split <;> rfl

end fields2

theorem resize_take_stk {α : Type} {a b : List α} (c : List α) (d : α) (h : a <+: b) :
    resize (b ++ c) a.length d = a := by
  obtain ⟨t, rfl⟩ := h
  rw [resize_of_le _ _ _ (by simp)]
  rw [List.append_assoc, List.take_left]

theorem ext_visitedStep {s0 s : bicomps} (node : Nat) (e : edge) (h : Ext s0 s)
    (hn : vget s0.vis node false = false) : Ext s0 (visitedStep node e s) :=
  { n := by simp [h.n], m := by simp [h.m], adj := by simp [h.adj]
    edge_list := by simp [h.edge_list]
    len_vis := by simp [h.len_vis]
    len_ts := by simp [h.len_ts]
    len_low := by simp [visitedStep_low_link, h.len_low]
    len_cut := by simp [h.len_cut]
    len_bridge := by simp [h.len_bridge]
    vis := fun x hx => by simpa using h.vis x hx
    ts := fun x hx => by simpa using h.ts x hx
    low := fun x hx => by
      rw [visitedStep_low_link, vget_set_ne _ _ _ _ _ (ne_of_vis hn hx)]
      exact h.low x hx
    cut := fun x hx => by simpa using h.cut x hx
    tour := by simpa using h.tour
    stk := by
      rw [visitedStep_stk]
      split
      · exact h.stk.trans (List.prefix_append _ _)
      · exact h.stk
    comps := by simpa using h.comps
    bridge := fun i hi => by simpa using h.bridge i hi }

theorem ext_childStep {s0 s s1 : bicomps} (node : Nat) (e : edge) (h : Ext s0 s) (h1 : Ext s s1)
    (hn : vget s0.vis node false = false) (hne : node ≠ e.node) :
    Ext s0 (childStep node e s.stk.length s1) :=
  have h2 := h.trans h1
  { n := by simp [h2.n], m := by simp [h2.m], adj := by simp [h2.adj]
    edge_list := by simp [h2.edge_list]
    len_vis := by simp [h2.len_vis]
    len_ts := by simp [h2.len_ts]
    len_low := by simp [childStep_low_link, h2.len_low]
    len_cut := by
      rw [childStep_is_cut _ _ _ _ hne]
      split <;> simp [h2.len_cut]
    len_bridge := by
      rw [childStep_is_bridge _ _ _ _ hne]
      split <;> simp [h2.len_bridge]
    vis := fun x hx => by simpa using h2.vis x hx
    ts := fun x hx => by simpa using h2.ts x hx
    low := fun x hx => by
      rw [childStep_low_link, vget_set_ne _ _ _ _ _ (ne_of_vis hn hx)]
      exact h2.low x hx
    cut := fun x hx => by
      rw [childStep_is_cut _ _ _ _ hne]
      split
      · rw [vget_set_ne _ _ _ _ _ (ne_of_vis hn hx)]
        exact h2.cut x hx
      · exact h2.cut x hx
    tour := by simpa using h2.tour
    stk := by
      rw [childStep_stk _ _ _ _ hne]
      split
      · exact h2.stk
      · split
        · rw [resize_take_stk _ _ h1.stk]
          exact h.stk
        · exact h2.stk.trans (List.prefix_append _ _)
    comps := by
      rw [childStep_comps _ _ _ _ hne]
      split
      · exact h2.comps.trans (List.prefix_append _ _)
      · split
        · exact h2.comps.trans (List.prefix_append _ _)
        · exact h2.comps
    bridge := fun i hi => by
      rw [childStep_is_bridge _ _ _ _ hne]
      split
      · exact vget_set_true_mono _ _ _ (h2.bridge i hi)
      · exact h2.bridge i hi }

theorem ext_leave {s0 s : bicomps} (node : Nat) (parent : Int) (ch : Nat) (h : Ext s0 s)
    (hn : vget s0.vis node false = false) : Ext s0 (leave node parent ch s) := by
  unfold leave
  split
  · exact
      { n := h.n, m := h.m, adj := h.adj, edge_list := h.edge_list, len_vis := h.len_vis,
        len_ts := h.len_ts, len_low := h.len_low
        len_cut := by simp [h.len_cut]
        len_bridge := h.len_bridge, vis := h.vis, ts := h.ts, low := h.low
        cut := fun x hx => by
          show vget (s.is_cut.set node _) x false = _
          rw [vget_set_ne _ _ _ _ _ (ne_of_vis hn hx)]
          exact h.cut x hx
        tour := h.tour, stk := h.stk, comps := h.comps, bridge := h.bridge }
  · exact h

/-- The basic postcondition of `dfs`: the frame holds and `node` is visited. -/
theorem dfs_ext (fuel node : Nat) (parent : Int) (s s1 : bicomps)
    (hok : s.ok) (hnode : node < s.n) (h : dfs fuel node parent s = some s1) :
    Ext s s1 ∧ vget s1.vis node false = true := by
  refine dfs_rule
    (P := fun node _ s => s.ok ∧ node < s.n)
    (Q := fun node _ s s1 => Ext s s1 ∧ vget s1.vis node false = true)
    (I := fun node _ s0 _ _ _ _ s =>
      s0.ok ∧ node < s0.n ∧ vget s0.vis node false = false ∧ Ext s0 s ∧
        vget s.vis node false = true)
    ?_ ?_ ?_ ?_ ?_ ?_ fuel node parent s s1 ⟨hok, hnode⟩ h
  · intro node parent s hpre hv
    refine ⟨hpre.1, hpre.2, hv, ext_enter s node hv, ?_⟩
    show vget (s.vis.set node true) node false = true
    exact vget_set_eq _ _ _ _ (by rw [hpre.1.2.1]; exact hpre.2)
  · intro node parent s0 done e es pc ch s _ hI _ _
    exact hI
  · intro node parent s0 done e es pc ch s _ hI _ _
    obtain ⟨h1, h2, h3, h4, h5⟩ := hI
    exact ⟨h1, h2, h3, ext_visitedStep node e h4 h3, by simpa using h5⟩
  · intro node parent s0 done e es pc ch s hsplit hI _ _
    obtain ⟨h1, h2, h3, h4, h5⟩ := hI
    refine ⟨h4.ok h1, ?_⟩
    rw [h4.n]
    have hmem : e ∈ vget s0.adj node [] := by
      rw [← hsplit]; simp
    have hl : vget s0.adj node [] ∈ s0.adj := by
      have : node < s0.adj.length := by rw [h1.1.1]; exact h2
      simp only [vget, List.getD_eq_getElem?_getD, List.getElem?_eq_getElem this, Option.getD_some]
      exact List.getElem_mem _
    exact (h1.1.2.2.2 _ hl e hmem).1
  · intro node parent s0 done e es pc ch s s1 _ hI _ hv _ hpost
    obtain ⟨h1, h2, h3, h4, h5⟩ := hI
    have hne : node ≠ e.node := fun hh => by
      rw [← hh, h5] at hv
      exact absurd hv (by simp)
    exact ⟨h1, h2, h3, ext_childStep node e h4 hpost.1 h3 hne, by simpa using hpost.1.vis _ h5⟩
  · intro node parent s0 done pc ch s _ _ hI
    obtain ⟨h1, h2, h3, h4, h5⟩ := hI
    refine ⟨ext_leave node parent ch h4 h3, ?_⟩
    unfold leave
    split
    · exact h5
    · exact h5

end Bicomps

namespace Bicomps

/-! ## Termination of `dfs`: the fuel `n` is enough -/

theorem count_false_set_true (l : List Bool) (i : Nat) (h : vget l i false = false)
    (hi : i < l.length) : (l.set i true).count false + 1 = l.count false := by
  induction l generalizing i with
  | nil => simp at hi
  | cons a l ih =>
    cases i with
    | zero =>
      have : a = false := by simpa [vget] using h
      subst this
      simp
    | succ i =>
      have h2 : vget l i false = false := by simpa [vget] using h
      have := ih i h2 (by simpa using hi)
      cases a <;> simp [List.set, List.count_cons] <;> omega

theorem count_false_mono (l l2 : List Bool) (hlen : l2.length = l.length)
    (h : ∀ x, vget l x false = true → vget l2 x false = true) :
    l2.count false ≤ l.count false := by
  induction l generalizing l2 with
  | nil =>
    have : l2 = [] := List.length_eq_zero.mp (by simpa using hlen)
    subst this
    simp
  | cons a l ih =>
    cases l2 with
    | nil => simp at hlen
    | cons b l2 =>
      have h2 := ih l2 (by simpa using hlen) (fun x hx => by
        have := h (x + 1) (by simpa [vget] using hx)
        simpa [vget] using this)
      have h0 := h 0
      simp only [vget, List.getD_cons_zero] at h0
      cases a <;> cases b <;> simp_all [List.count_cons] <;> omega

theorem count_false_pos (l : List Bool) (i : Nat) (h : vget l i false = false)
    (hi : i < l.length) : 0 < l.count false := by
  have := count_false_set_true l i h hi
  omega

theorem mem_adj_lt {s : bicomps} (hok : s.ok) {node : Nat} (hnode : node < s.n) {e : edge}
    (he : e ∈ vget s.adj node []) : e.node < s.n ∧ e.index < s.m := by
  have hl : vget s.adj node [] ∈ s.adj := by
    have : node < s.adj.length := by rw [hok.1.1]; exact hnode
    simp only [vget, List.getD_eq_getElem?_getD, List.getElem?_eq_getElem this, Option.getD_some]
    exact List.getElem_mem _
  exact hok.1.2.2.2 _ hl e he

/-- With at least as much fuel as there are unvisited vertices, `dfs` on an
unvisited vertex returns: the fuel does not run out and the assertion holds. -/
theorem dfs_total : ∀ (fuel node : Nat) (parent : Int) (s : bicomps),
    s.ok → node < s.n → vget s.vis node false = false → s.vis.count false ≤ fuel →
    ∃ s1, dfs fuel node parent s = some s1 := by
  intro fuel
  induction fuel with
  | zero =>
    intro node parent s hok hnode hv hc
    have := count_false_pos s.vis node hv (by rw [hok.2.1]; exact hnode)
    omega
  | succ fuel ih =>
    intro node parent s0 hok hnode hv hc
    have loop : ∀ (rest : List edge) (pc ch : Nat) (s : bicomps),
        (∀ e ∈ rest, e.node < s0.n) → Ext s0 s → vget s.vis node false = true →
        s.vis.count false ≤ fuel →
        ∃ r, dfsLoop (dfs fuel) node parent rest pc ch s = some r := by
      intro rest
      induction rest with
      | nil => intro pc ch s _ _ _ _; exact ⟨_, rfl⟩
      | cons e es ihl =>
        intro pc ch s hr hext hvn hcs
        have hr2 : ∀ e ∈ es, e.node < s0.n := fun x hx => hr x (List.mem_cons_of_mem _ hx)
        unfold dfsLoop
        simp only
        split
        · exact ihl _ _ _ hr2 hext hvn hcs
        · split
          · exact ihl _ _ _ hr2 (ext_visitedStep node e hext hv) (by simpa using hvn)
              (by simpa using hcs)
          · rename_i hve
            have hve2 : vget s.vis e.node false = false := by simpa using hve
            have hoks := hext.ok hok
            have hen : e.node < s.n := by rw [hext.n]; exact hr e (List.mem_cons_self _ _)
            obtain ⟨s1, hs1⟩ := ih e.node node s hoks hen hve2 hcs
            rw [hs1]
            simp only
            have hp := dfs_ext fuel e.node node s s1 hoks hen hs1
            have hne : node ≠ e.node := fun hh => by
              rw [← hh, hvn] at hve2
              exact absurd hve2 (by simp)
            refine ihl _ _ _ hr2 (ext_childStep node e hext hp.1 hv hne)
              (by simpa using hp.1.vis _ hvn) ?_
            have := count_false_mono s.vis s1.vis hp.1.len_vis hp.1.vis
            simp only [childStep_vis]
            omega
    have hlen : node < s0.vis.length := by rw [hok.2.1]; exact hnode
    have hcnt := count_false_set_true s0.vis node hv hlen
    obtain ⟨r, hr⟩ := loop (vget s0.adj node []) 0 0 (enter node s0)
      (fun e he => (mem_adj_lt hok hnode he).1) (ext_enter s0 node hv)
      (by show vget (s0.vis.set node true) node false = true
          exact vget_set_eq _ _ _ _ hlen)
      (by show (s0.vis.set node true).count false ≤ fuel
          omega)
    refine ⟨leave node parent r.2 r.1, ?_⟩
    unfold dfs
    simp [hv, hr]

end Bicomps

namespace Bicomps

/-! ## Proof rules for `sweep` and `build` -/

theorem reset_ok (g : bicomps) (h : g.wf) : (reset g).ok :=
  ⟨h, by simp [reset], by simp [reset], by simp [reset]⟩

theorem reset_count (g : bicomps) : (reset g).vis.count false = g.n := by
  simp [reset]

theorem reset_vis (g : bicomps) (x : Nat) : vget (reset g).vis x false = false := by
  show vget (List.replicate g.n false) x false = false
  rw [vget_replicate]
  split <;> rfl

/-- A rule for `sweep`: a state predicate kept by every top-level `dfs` call
holds at the end, and every listed vertex is visited. -/
theorem sweep_rule {P : bicomps → Prop} (fuel : Nat)
    (hstep : ∀ s i s1, P s → s.ok → i < s.n → vget s.vis i false = false →
      dfs fuel i (-1) s = some s1 → P s1) :
    ∀ (l : List Nat) (s r : bicomps), (∀ i ∈ l, i < s.n) → s.ok → P s →
      sweep fuel l s = some r →
      P r ∧ Ext s r ∧ ∀ i ∈ l, vget r.vis i false = true := by
  intro l
  induction l with
  | nil =>
    intro s r _ _ hP h
    simp only [sweep, Option.some.injEq] at h
    subst h
    exact ⟨hP, Ext.refl _, fun i hi => absurd hi (List.not_mem_nil _)⟩
  | cons i l ih =>
    intro s r hl hok hP h
    have hl2 : ∀ j ∈ l, j < s.n := fun j hj => hl j (List.mem_cons_of_mem _ hj)
    unfold sweep at h
    split at h
    · rename_i hv
      obtain ⟨h1, h2, h3⟩ := ih s r hl2 hok hP h
      refine ⟨h1, h2, ?_⟩
      intro j hj
      rcases List.mem_cons.mp hj with rfl | hj
      · exact h2.vis _ hv
      · exact h3 j hj
    · rename_i hv
      have hv2 : vget s.vis i false = false := by simpa using hv
      split at h
      · exact absurd h (by simp)
      · rename_i s1 hcall
        have hi : i < s.n := hl i (List.mem_cons_self _ _)
        have hp := dfs_ext fuel i (-1) s s1 hok hi hcall
        obtain ⟨h1, h2, h3⟩ := ih s1 r (by rw [hp.1.n]; exact hl2) (hp.1.ok hok)
          (hstep s i s1 hP hok hi hv2 hcall) h
        refine ⟨h1, hp.1.trans h2, ?_⟩
        intro j hj
        rcases List.mem_cons.mp hj with rfl | hj
        · exact h2.vis _ hp.2
        · exact h3 j hj

theorem sweep_total (fuel : Nat) : ∀ (l : List Nat) (s : bicomps), (∀ i ∈ l, i < s.n) → s.ok →
    s.vis.count false ≤ fuel → ∃ r, sweep fuel l s = some r := by
  intro l
  induction l with
  | nil => intro s _ _ _; exact ⟨s, rfl⟩
  | cons i l ih =>
    intro s hl hok hc
    have hl2 : ∀ j ∈ l, j < s.n := fun j hj => hl j (List.mem_cons_of_mem _ hj)
    unfold sweep
    split
    · exact ih s hl2 hok hc
    · rename_i hv
      have hv2 : vget s.vis i false = false := by simpa using hv
      have hi : i < s.n := hl i (List.mem_cons_self _ _)
      obtain ⟨s1, hs1⟩ := dfs_total fuel i (-1) s hok hi hv2 hc
      rw [hs1]
      simp only
      have hp := dfs_ext fuel i (-1) s s1 hok hi hs1
      refine ih s1 (by rw [hp.1.n]; exact hl2) (hp.1.ok hok) ?_
      have := count_false_mono s.vis s1.vis hp.1.len_vis hp.1.vis
      omega

/-- A rule for `build`: a state predicate that holds after the reset and is kept
by every top-level `dfs` call holds of the result; moreover the result extends
the reset state and has every vertex visited. -/
theorem build_rule {P : bicomps → Prop} (g : bicomps) (root : Int) (r : bicomps)
    (hwf : g.wf) (h0 : P (reset g))
    (hstep : ∀ s i s1, P s → s.ok → i < s.n → vget s.vis i false = false →
      dfs g.n i (-1) s = some s1 → P s1)
    (h : g.build root = some r) :
    P r ∧ Ext (reset g) r ∧ ∀ i < g.n, vget r.vis i false = true := by
  unfold bicomps.build buildWith at h
  simp only at h
  have hok := reset_ok g hwf
  split at h
  · exact absurd h (by simp)
  · rename_i s2 hs2
    have key : P s2 ∧ Ext (reset g) s2 := by
      split at hs2
      · rename_i hr
        have hlt : root.toNat < (reset g).n := by
          have : (reset g).n = g.n := rfl
          omega
        have hp := dfs_ext _ _ _ _ _ hok hlt hs2
        exact ⟨hstep _ _ _ h0 hok hlt (reset_vis g _) hs2, hp.1⟩
      · simp only [Option.some.injEq] at hs2
        subst hs2
        exact ⟨h0, Ext.refl _⟩
    have hn : s2.n = g.n := key.2.n
    obtain ⟨h1, h2, h3⟩ := sweep_rule (P := P) g.n
      (fun s i s1 hP hok hi hv hc => hstep s i s1 hP hok hi hv hc)
      (List.range s2.n) s2 r (fun i hi => List.mem_range.mp hi) (key.2.ok hok) key.1 h
    refine ⟨h1, key.2.trans h2, ?_⟩
    intro i hi
    exact h3 i (List.mem_range.mpr (by rw [hn]; exact hi))

/-- The method `build` returns for every well-formed graph and every root:
the recursion ends and `assert(!vis[node])` never fails. -/
theorem build_total (g : bicomps) (root : Int) (hwf : g.wf) : ∃ r, g.build root = some r := by
  unfold bicomps.build buildWith
  simp only
  have hok := reset_ok g hwf
  have hcnt := reset_count g
  have key : ∃ s2, (if 0 ≤ root ∧ root < ((reset g).n : Int) then
      dfs g.n root.toNat (-1) (reset g) else some (reset g)) = some s2 ∧
      s2.ok ∧ s2.vis.count false ≤ g.n ∧ s2.n = g.n := by
    split
    · rename_i hr
      have hlt : root.toNat < (reset g).n := by
        have : (reset g).n = g.n := rfl
        omega
      obtain ⟨s1, hs1⟩ := dfs_total g.n root.toNat (-1) (reset g) hok hlt (reset_vis g _)
        (by omega)
      have hp := dfs_ext _ _ _ _ _ hok hlt hs1
      have := count_false_mono _ _ hp.1.len_vis hp.1.vis
      exact ⟨s1, hs1, hp.1.ok hok, by omega, hp.1.n⟩
    · exact ⟨_, rfl, hok, by omega, rfl⟩
  obtain ⟨s2, hs2, hok2, hc2, _⟩ := key
  rw [hs2]
  exact sweep_total g.n (List.range s2.n) s2 (fun i hi => List.mem_range.mp hi) hok2 hc2

end Bicomps

namespace Bicomps

theorem Basic.ok_cur {node : Nat} {s0 s : bicomps} (b : Basic node s0 s) : s.ok := b.ext.ok b.ok

theorem Basic.mem_lt {node : Nat} {s0 s : bicomps} (b : Basic node s0 s) {done rest : List edge}
    (hsplit : done ++ rest = vget s0.adj node []) {e : edge} (he : e ∈ done ∨ e ∈ rest) :
    e.node < s0.n ∧ e.index < s0.m :=
  mem_adj_lt b.ok b.lt (by rw [← hsplit]; exact List.mem_append.mpr he)

theorem Basic.ne {node : Nat} {s0 s : bicomps} (b : Basic node s0 s) {x : Nat}
    (hx : vget s.vis x false = false) : node ≠ x := fun h => by
  rw [← h, b.vis] at hx
  exact absurd hx (by simp)

/-- The rule `dfs_rule` with the frame facts `Basic` supplied to every proof
obligation. -/
theorem dfs_rule1
    {P : Nat → Int → bicomps → Prop}
    {Q : Nat → Int → bicomps → bicomps → Prop}
    {I : Nat → Int → bicomps → List edge → List edge → Nat → Nat → bicomps → Prop}
    (h_enter : ∀ node parent s, Basic node s (enter node s) → P node parent s →
      I node parent s [] (vget s.adj node []) 0 0 (enter node s))
    (h_skip : ∀ node parent s0 done e es pc ch s, Basic node s0 s →
      done ++ e :: es = vget s0.adj node [] →
      I node parent s0 done (e :: es) pc ch s →
      (e.node : Int) = parent → pc = 0 →
      I node parent s0 (done ++ [e]) es (pc + 1) ch s)
    (h_vis : ∀ node parent s0 done e es pc ch s, Basic node s0 s →
      done ++ e :: es = vget s0.adj node [] →
      I node parent s0 done (e :: es) pc ch s →
      ¬((e.node : Int) = parent ∧ pc = 0) →
      vget s.vis e.node false = true →
      I node parent s0 (done ++ [e]) es (if (e.node : Int) = parent then pc + 1 else pc) ch
        (visitedStep node e s))
    (h_pre : ∀ node parent s0 done e es pc ch s, Basic node s0 s →
      done ++ e :: es = vget s0.adj node [] →
      I node parent s0 done (e :: es) pc ch s →
      ¬((e.node : Int) = parent ∧ pc = 0) →
      vget s.vis e.node false = false →
      P e.node node s)
    (h_child : ∀ node parent s0 done e es pc ch s s1, Basic node s0 s →
      done ++ e :: es = vget s0.adj node [] →
      I node parent s0 done (e :: es) pc ch s →
      ¬((e.node : Int) = parent ∧ pc = 0) →
      vget s.vis e.node false = false →
      (∃ f, dfs f e.node node s = some s1) →
      Ext s s1 → vget s1.vis e.node false = true →
      Q e.node node s s1 →
      I node parent s0 (done ++ [e]) es (if (e.node : Int) = parent then pc + 1 else pc) (ch + 1)
        (childStep node e s.stk.length s1))
    (h_leave : ∀ node parent s0 pc ch s, Basic node s0 s →
      (∃ f, dfs f node parent s0 = some (leave node parent ch s)) →
      I node parent s0 (vget s0.adj node []) [] pc ch s →
      Q node parent s0 (leave node parent ch s)) :
    ∀ fuel node parent s s1, s.ok → node < s.n → P node parent s →
      dfs fuel node parent s = some s1 → Q node parent s s1 := by
  intro fuel node parent s s1 hok hlt hpre h
  have := dfs_rule
    (P := fun node parent s => s.ok ∧ node < s.n ∧ P node parent s)
    (Q := fun node parent s s1 => Q node parent s s1)
    (I := fun node parent s0 done rest pc ch s =>
      Basic node s0 s ∧ I node parent s0 done rest pc ch s)
    ?_ ?_ ?_ ?_ ?_ ?_ fuel node parent s s1 ⟨hok, hlt, hpre⟩ h
  · exact this
  · intro node parent s hp hv
    have b : Basic node s (enter node s) :=
      ⟨hp.1, hp.2.1, hv, ext_enter s node hv,
        vget_set_eq _ _ _ _ (by rw [hp.1.2.1]; exact hp.2.1)⟩
    exact ⟨b, h_enter node parent s b hp.2.2⟩
  · intro node parent s0 done e es pc ch s hsplit hI h1 h2
    exact ⟨hI.1, h_skip node parent s0 done e es pc ch s hI.1 hsplit hI.2 h1 h2⟩
  · intro node parent s0 done e es pc ch s hsplit hI h1 h2
    obtain ⟨b, hI⟩ := hI
    exact ⟨⟨b.ok, b.lt, b.fresh, ext_visitedStep node e b.ext b.fresh, by simpa using b.vis⟩,
      h_vis node parent s0 done e es pc ch s b hsplit hI h1 h2⟩
  · intro node parent s0 done e es pc ch s hsplit hI h1 h2
    obtain ⟨b, hI⟩ := hI
    refine ⟨b.ok_cur, ?_, h_pre node parent s0 done e es pc ch s b hsplit hI h1 h2⟩
    rw [b.ext.n]
    exact (b.mem_lt hsplit (Or.inr (List.mem_cons_self _ _))).1
  · intro node parent s0 done e es pc ch s s1 hsplit hI h1 h2 hcall hpost
    obtain ⟨b, hI⟩ := hI
    obtain ⟨f, hf⟩ := hcall
    have hen : e.node < s.n := by
      rw [b.ext.n]
      exact (b.mem_lt hsplit (Or.inr (List.mem_cons_self _ _))).1
    have hp := dfs_ext f e.node node s s1 b.ok_cur hen hf
    exact ⟨⟨b.ok, b.lt, b.fresh, ext_childStep node e b.ext hp.1 b.fresh (b.ne h2),
        by simpa using hp.1.vis _ b.vis⟩,
      h_child node parent s0 done e es pc ch s s1 b hsplit hI h1 h2 ⟨f, hf⟩ hp.1 hp.2 hpost⟩
  · intro node parent s0 done pc ch s hdone hrun hI
    subst hdone
    exact h_leave node parent s0 pc ch s hI.1 hrun hI.2

end Bicomps

namespace Bicomps

/-! ## Graphs built with `init` and `add_edge` are well formed -/

theorem vget_mem {α : Type} (l : List α) (i : Nat) (d : α) (h : i < l.length) :
    vget l i d ∈ l := by
  simp only [vget, List.getD_eq_getElem?_getD, List.getElem?_eq_getElem h, Option.getD_some]
  exact List.getElem_mem _

theorem emplace_back_length (adj : List (List edge)) (u : Nat) (e : edge) :
    (emplace_back adj u e).length = adj.length := by
  simp [emplace_back]

theorem mem_emplace_back {adj : List (List edge)} {u : Nat} {e : edge} {l : List edge}
    (h : l ∈ emplace_back adj u e) : l ∈ adj ∨ (u < adj.length ∧ l = vget adj u [] ++ [e]) := by
  unfold emplace_back at h
  by_cases hu : u < adj.length
  · rcases List.mem_or_eq_of_mem_set h with h | h
    · exact Or.inl h
    · exact Or.inr ⟨hu, h⟩
  · rw [List.set_eq_of_length_le (Nat.le_of_not_lt hu)] at h
    exact Or.inl h

theorem vget_emplace_back (adj : List (List edge)) (u x : Nat) (e : edge) :
    vget (emplace_back adj u e) x [] =
      if u = x ∧ u < adj.length then vget adj u [] ++ [e] else vget adj x [] := by
  unfold emplace_back
  rw [vget_set]

theorem init_wf (s0 : bicomps) (n mh : Nat) : (s0.init n mh).wf := by
  refine ⟨by simp [bicomps.init], by simp [bicomps.init, length_resize],
    by simp [bicomps.init, length_resize], ?_⟩
  intro l hl e he
  simp only [bicomps.init] at hl
  rw [List.eq_of_mem_replicate hl] at he
  exact absurd he (List.not_mem_nil _)

theorem add_edge_wf (g : bicomps) (u v : Nat) (h : g.wf) (hu : u < g.n) (hv : v < g.n) :
    (g.add_edge u v).wf := by
  obtain ⟨h1, h2, h3, h4⟩ := h
  refine ⟨by simp [bicomps.add_edge, emplace_back_length, h1], h2, h3, ?_⟩
  have old : ∀ l ∈ g.adj, ∀ e ∈ l, e.node < g.n ∧ e.index < g.m + 1 := fun l hl e he =>
    ⟨(h4 l hl e he).1, Nat.lt_succ_of_lt (h4 l hl e he).2⟩
  have mid : ∀ l ∈ emplace_back g.adj u ⟨v, g.m⟩, ∀ e ∈ l, e.node < g.n ∧ e.index < g.m + 1 := by
    intro l hl e he
    rcases mem_emplace_back hl with hl | ⟨hlt, rfl⟩
    · exact old l hl e he
    · rcases List.mem_append.mp he with he | he
      · exact old _ (vget_mem _ _ _ hlt) e he
      · rw [List.mem_singleton.mp he]
        exact ⟨hv, Nat.lt_succ_self _⟩
  intro l hl e he
  show e.node < g.n ∧ e.index < g.m + 1
  simp only [bicomps.add_edge] at hl
  rcases mem_emplace_back hl with hl | ⟨hlt, rfl⟩
  · exact mid l hl e he
  · rcases List.mem_append.mp he with he | he
    · exact mid _ (vget_mem _ _ _ hlt) e he
    · rw [List.mem_singleton.mp he]
      exact ⟨hu, Nat.lt_succ_self _⟩

theorem add_edge_n (g : bicomps) (u v : Nat) : (g.add_edge u v).n = g.n := rfl

theorem add_edges_n (g : bicomps) (es : List (Nat × Nat)) : (g.add_edges es).n = g.n := by
  induction es generalizing g with
  | nil => rfl
  | cons e es ih =>
    show ((g.add_edge e.1 e.2).add_edges es).n = g.n
    rw [ih]
    rfl

theorem add_edges_wf (g : bicomps) (es : List (Nat × Nat)) (h : g.wf)
    (hes : ∀ e ∈ es, e.1 < g.n ∧ e.2 < g.n) : (g.add_edges es).wf := by
  induction es generalizing g with
  | nil => exact h
  | cons e es ih =>
    show ((g.add_edge e.1 e.2).add_edges es).wf
    have he := hes e (List.mem_cons_self _ _)
    exact ih _ (add_edge_wf g e.1 e.2 h he.1 he.2)
      (fun x hx => hes x (List.mem_cons_of_mem _ hx))

/-- Every graph built by `init(n, m_hint)` and `add_edge` calls with endpoints
below `n` is well formed. -/
theorem built_wf (s0 : bicomps) (n mh : Nat) (es : List (Nat × Nat))
    (hes : ∀ e ∈ es, e.1 < n ∧ e.2 < n) : ((s0.init n mh).add_edges es).wf :=
  add_edges_wf _ es (init_wf s0 n mh) hes

theorem built_n (s0 : bicomps) (n mh : Nat) (es : List (Nat × Nat)) :
    ((s0.init n mh).add_edges es).n = n := by
  rw [add_edges_n]
  rfl

/-! ## Sorting and `unique` -/

theorem mem_unique (x : Nat) : ∀ l : List Nat, x ∈ unique l ↔ x ∈ l
  | [] => by simp [unique]
  | [a] => by simp [unique]
  | a :: b :: l => by
    have ih := mem_unique x (b :: l)
    unfold unique
    split
    · rename_i hab
      subst hab
      rw [ih]
      simp
    · rw [List.mem_cons, ih]
      simp

theorem unique_sorted : ∀ l : List Nat, l.Sorted (· ≤ ·) → (unique l).Sorted (· < ·)
  | [], _ => by simp [unique]
  | [a], _ => by simp [unique]
  | a :: b :: l, h => by
    have hs : (b :: l).Sorted (· ≤ ·) := List.Sorted.of_cons h
    have ih := unique_sorted (b :: l) hs
    unfold unique
    split
    · exact ih
    · rename_i hab
      rw [List.sorted_cons] at h ⊢
      refine ⟨?_, ih⟩
      intro y hy
      have hy2 := (mem_unique y (b :: l)).mp hy
      have hab2 : a ≤ b := h.1 b (List.mem_cons_self _ _)
      have hab3 : a < b := lt_of_le_of_ne hab2 hab
      rcases List.mem_cons.mp hy2 with rfl | hy3
      · exact hab3
      · exact lt_of_lt_of_le hab3 ((List.sorted_cons.mp hs).1 y hy3)

theorem sort_sorted (l : List Nat) : (sort l).Sorted (· ≤ ·) :=
  List.sorted_insertionSort _ l

theorem mem_sort (x : Nat) (l : List Nat) : x ∈ sort l ↔ x ∈ l :=
  (List.perm_insertionSort _ l).mem_iff

theorem sort_pair_sorted (a b : Nat) (h : a ≠ b) : (sort [a, b]).Sorted (· < ·) := by
  rcases Nat.lt_or_gt_of_ne h with h | h
  · simp [sort, List.insertionSort, List.orderedInsert, le_of_lt h, h]
  · simp [sort, List.insertionSort, List.orderedInsert, not_le.mpr h, h]

end Bicomps

namespace Bicomps

/-! ## The shape of the emitted components -/

theorem compsOk_childStep {node : Nat} {e : edge} {s0 s s1 : bicomps} (b : Basic node s0 s)
    (hen : e.node < s0.n) (hv : vget s.vis e.node false = false) (hext : Ext s s1)
    (h : CompsOk s1) : CompsOk (childStep node e s.stk.length s1) := by
  have hne := b.ne hv
  have hn1 : s1.n = s0.n := hext.n.trans b.ext.n
  have hnode : node < s1.n := by rw [hn1]; exact b.lt
  have hen1 : e.node < s1.n := by rw [hn1]; exact hen
  have hstk1 : ∀ x ∈ s1.stk ++ [node], x < s1.n := by
    intro x hx
    rcases List.mem_append.mp hx with hx | hx
    · exact h.2 x hx
    · rw [List.mem_singleton.mp hx]; exact hnode
  unfold CompsOk
  rw [childStep_comps _ _ _ _ hne, childStep_stk _ _ _ _ hne, childStep_n]
  split
  · refine ⟨?_, h.2⟩
    intro c hc
    rcases List.mem_append.mp hc with hc | hc
    · exact h.1 c hc
    · rw [List.mem_singleton.mp hc]
      refine ⟨sort_pair_sorted _ _ hne, ?_⟩
      intro x hx
      rw [mem_sort] at hx
      rcases List.mem_cons.mp hx with rfl | hx
      · exact hnode
      · rw [List.mem_singleton.mp hx]; exact hen1
  · split
    · refine ⟨?_, ?_⟩
      · intro c hc
        rcases List.mem_append.mp hc with hc | hc
        · exact h.1 c hc
        · rw [List.mem_singleton.mp hc]
          refine ⟨unique_sorted _ (sort_sorted _), ?_⟩
          intro x hx
          rw [mem_unique, mem_sort] at hx
          exact hstk1 x (List.mem_of_mem_drop hx)
      · intro x hx
        rw [resize_take_stk _ _ hext.stk] at hx
        exact h.2 x (hext.stk.subset hx)
    · exact ⟨h.1, hstk1⟩

theorem dfs_compsOk (fuel node : Nat) (parent : Int) (s s1 : bicomps)
    (hok : s.ok) (hnode : node < s.n) (hc : CompsOk s)
    (h : dfs fuel node parent s = some s1) : CompsOk s1 := by
  refine dfs_rule1
    (P := fun _ _ s => CompsOk s)
    (Q := fun _ _ _ s1 => CompsOk s1)
    (I := fun _ _ _ _ _ _ _ s => CompsOk s)
    ?_ ?_ ?_ ?_ ?_ ?_ fuel node parent s s1 hok hnode hc h
  · intro node parent s _ hp
    exact hp
  · intro node parent s0 done e es pc ch s _ _ hI _ _
    exact hI
  · intro node parent s0 done e es pc ch s b _ hI _ _
    unfold CompsOk
    rw [visitedStep_comps, visitedStep_stk, visitedStep_n]
    refine ⟨hI.1, ?_⟩
    split
    · intro x hx
      rcases List.mem_append.mp hx with hx | hx
      · exact hI.2 x hx
      · rw [List.mem_singleton.mp hx, b.ext.n]; exact b.lt
    · exact hI.2
  · intro node parent s0 done e es pc ch s _ _ hI _ _
    exact hI
  · intro node parent s0 done e es pc ch s s1 b hsplit _ _ hv _ hext _ hpost
    exact compsOk_childStep b (b.mem_lt hsplit (Or.inr (List.mem_cons_self _ _))).1 hv hext hpost
  · intro node parent s0 pc ch s _ _ hI
    unfold CompsOk
    rw [leave_comps, leave_stk, leave_n]
    exact hI

/-- Claim C5: for every graph built by `init` and `add_edge` calls with endpoints
below `n` and every root argument, `build(root)` returns, and every vector in
`comps` is strictly increasing with all entries below `n`. -/
theorem comps_strictly_increasing (s0 : bicomps) (n mh : Nat) (es : List (Nat × Nat))
    (root : Int) (hes : ∀ e ∈ es, e.1 < n ∧ e.2 < n) :
    ∃ r, ((s0.init n mh).add_edges es).build root = some r ∧
      ∀ c ∈ r.comps, c.Sorted (· < ·) ∧ ∀ x ∈ c, x < n := by
  have hwf := built_wf s0 n mh es hes
  obtain ⟨r, hr⟩ := build_total _ root hwf
  refine ⟨r, hr, ?_⟩
  have := build_rule (P := CompsOk) _ root r hwf
    ⟨fun c hc => absurd hc (List.not_mem_nil _), fun x hx => absurd hx (List.not_mem_nil _)⟩
    (fun s i s1 hP hok hi _ hc => dfs_compsOk _ i (-1) s s1 hok hi hP hc) hr
  intro c hc
  have h1 := this.1.1 c hc
  have hn : r.n = n := by
    rw [this.2.1.n]
    exact built_n s0 n mh es
  rw [hn] at h1
  exact h1

theorem comps_strictly_increasing_witness :
    (∀ e ∈ [((0 : Nat), (1 : Nat)), (1, 2), (2, 0), (2, 3)], e.1 < 4 ∧ e.2 < 4) ∧
    ∃ r, ((bicomps.fresh.init 4 0).add_edges [(0, 1), (1, 2), (2, 0), (2, 3)]).build (-1) = some r ∧
      ∀ c ∈ r.comps, c.Sorted (· < ·) ∧ ∀ x ∈ c, x < 4 :=
  ⟨by decide, comps_strictly_increasing bicomps.fresh 4 0 [(0, 1), (1, 2), (2, 0), (2, 3)] (-1)
    (by decide)⟩

end Bicomps

namespace Bicomps

/-! ## `same_bicomp` is reflexive and symmetric -/

/-- Claim C6: in every state of a `bc_tree` (in particular after `build`), for
all `a` and `b`, `same_bicomp(a, a)` is true and `same_bicomp(a, b)` equals
`same_bicomp(b, a)`. -/
theorem same_bicomp_refl_symm (t : bc_tree) (a b : Nat) :
    t.same_bicomp a a = true ∧ t.same_bicomp a b = t.same_bicomp b a := by
  constructor
  · simp [bc_tree.same_bicomp]
  · unfold bc_tree.same_bicomp
    rcases lt_trichotomy (vget t.depth a 0) (vget t.depth b 0) with h | h | h
    · simp [h, not_lt.mpr (le_of_lt h)]
    · simp only [h, gt_iff_lt, lt_self_iff_false, if_false]
      have e1 : (a == b) = (b == a) := by
        by_cases hab : a = b
        · subst hab; rfl
        · have hba : ¬ b = a := fun hh => hab hh.symm
          simp [hab, hba]
      have e2 : (vget t.depth b 0 == vget t.depth b 0 + 2) = false := by simp
      by_cases hp : vget t.parent a 0 = vget t.parent b 0
      · simp [e1, e2, hp]
      · have hp2 : ¬ vget t.parent b 0 = vget t.parent a 0 := fun hh => hp hh.symm
        have e3 : (vget t.parent a 0 == vget t.parent b 0) = false := by simpa using hp
        have e4 : (vget t.parent b 0 == vget t.parent a 0) = false := by simpa using hp2
        simp [e1, e2, e3, e4]
    · simp [h, not_lt.mpr (le_of_lt h)]

end Bicomps

namespace Bicomps

/-! ## `build` does not depend on stale `tour_start` and `low_link` entries -/

theorem vget_set_congr {α : Type} (l l2 : List α) (i x : Nat) (v d : α)
    (hlen : l2.length = l.length) (h : i ≠ x → vget l2 x d = vget l x d) :
    vget (l2.set i v) x d = vget (l.set i v) x d := by
  rw [vget_set, vget_set, hlen]
  split
  · rfl
  · rename_i hc
    by_cases hix : i = x
    · subst hix
      have hi : ¬ i < l.length := fun hh => hc ⟨rfl, hh⟩
      rw [vget_of_le _ _ _ (Nat.le_of_not_lt hi), vget_of_le _ _ _ (by omega)]
    · exact h hix

theorem vis_enter_cases {s : bicomps} {node x : Nat}
    (h : vget (enter node s).vis x false = true) : node = x ∨ vget s.vis x false = true := by
  rw [enter_vis, vget_set] at h
  split at h
  · rename_i hc
    exact Or.inl hc.1
  · exact Or.inr h

theorem agree_enter {s t : bicomps} (node : Nat) (h : Agree s t) :
    Agree (enter node s) (enter node t) :=
  { n := h.n, m := h.m, adj := h.adj, edge_list := h.edge_list
    vis := by rw [enter_vis, enter_vis, h.vis]
    is_cut := by rw [enter_is_cut, enter_is_cut, h.is_cut]
    is_bridge := h.is_bridge, stk := h.stk, comps := h.comps
    tour := by simp [h.tour]
    len_ts := by simp [enter_tour_start, h.len_ts]
    len_low := by simp [enter_low_link, h.len_low]
    ts := fun x hx => by
      rw [enter_tour_start, enter_tour_start, h.tour]
      refine vget_set_congr _ _ _ _ _ _ h.len_ts (fun hne => ?_)
      rcases vis_enter_cases hx with hx | hx
      · exact absurd hx hne
      · exact h.ts x hx
    low := fun x hx => by
      rw [enter_low_link, enter_low_link, h.tour]
      refine vget_set_congr _ _ _ _ _ _ h.len_low (fun hne => ?_)
      rcases vis_enter_cases hx with hx | hx
      · exact absurd hx hne
      · exact h.low x hx }

theorem agree_visitedStep {s t : bicomps} (node : Nat) (e : edge) (h : Agree s t)
    (hn : vget s.vis node false = true) (he : vget s.vis e.node false = true) :
    Agree (visitedStep node e s) (visitedStep node e t) :=
  { n := by simp [h.n], m := by simp [h.m], adj := by simp [h.adj]
    edge_list := by simp [h.edge_list]
    vis := by simp [h.vis]
    is_cut := by simp [h.is_cut]
    is_bridge := by simp [h.is_bridge]
    stk := by rw [visitedStep_stk, visitedStep_stk, h.stk, h.ts _ hn, h.ts _ he]
    comps := by simp [h.comps]
    tour := by simp [h.tour]
    len_ts := by simp [h.len_ts]
    len_low := by simp [visitedStep_low_link, h.len_low]
    ts := fun x hx => by
      rw [visitedStep_tour_start, visitedStep_tour_start]
      exact h.ts x (by simpa using hx)
    low := fun x hx => by
      rw [visitedStep_low_link, visitedStep_low_link, h.low _ hn, h.ts _ he]
      exact vget_set_congr _ _ _ _ _ _ h.len_low (fun _ => h.low x (by simpa using hx)) }

theorem agree_childStep {s t : bicomps} (node : Nat) (e : edge) (size : Nat) (h : Agree s t)
    (hn : vget s.vis node false = true) (he : vget s.vis e.node false = true)
    (hne : node ≠ e.node) :
    Agree (childStep node e size s) (childStep node e size t) :=
  { n := by simp [h.n], m := by simp [h.m], adj := by simp [h.adj]
    edge_list := by simp [h.edge_list]
    vis := by simp [h.vis]
    is_cut := by
      rw [childStep_is_cut _ _ _ _ hne, childStep_is_cut _ _ _ _ hne, h.is_cut, h.low _ he,
        h.ts _ hn]
    is_bridge := by
      rw [childStep_is_bridge _ _ _ _ hne, childStep_is_bridge _ _ _ _ hne, h.is_bridge,
        h.low _ he, h.ts _ hn]
    stk := by
      rw [childStep_stk _ _ _ _ hne, childStep_stk _ _ _ _ hne, h.stk, h.low _ he, h.ts _ hn]
    comps := by
      rw [childStep_comps _ _ _ _ hne, childStep_comps _ _ _ _ hne, h.comps, h.stk, h.low _ he,
        h.ts _ hn]
    tour := by simp [h.tour]
    len_ts := by simp [h.len_ts]
    len_low := by simp [childStep_low_link, h.len_low]
    ts := fun x hx => by
      rw [childStep_tour_start, childStep_tour_start]
      exact h.ts x (by simpa using hx)
    low := fun x hx => by
      rw [childStep_low_link, childStep_low_link, h.low _ hn, h.low _ he]
      exact vget_set_congr _ _ _ _ _ _ h.len_low (fun _ => h.low x (by simpa using hx)) }

theorem agree_leave {s t : bicomps} (node : Nat) (parent : Int) (ch : Nat) (h : Agree s t) :
    Agree (leave node parent ch s) (leave node parent ch t) :=
  { n := by simp [h.n], m := by simp [h.m], adj := by simp [h.adj]
    edge_list := by simp [h.edge_list]
    vis := by simp [h.vis]
    is_cut := by rw [leave_is_cut, leave_is_cut, h.is_cut]
    is_bridge := by simp [h.is_bridge]
    stk := by simp [h.stk]
    comps := by simp [h.comps]
    tour := by simp [h.tour]
    len_ts := by simp [h.len_ts]
    len_low := by simp [h.len_low]
    ts := fun x hx => by
      rw [leave_tour_start, leave_tour_start]
      exact h.ts x (by simpa using hx)
    low := fun x hx => by
      rw [leave_low_link, leave_low_link]
      exact h.low x (by simpa using hx) }

/-- Two runs of `dfs` from agreeing states proceed in lockstep. -/
theorem dfs_agree : ∀ (fuel node : Nat) (parent : Int) (s t s1 : bicomps),
    Agree s t → s.ok → node < s.n → dfs fuel node parent s = some s1 →
    ∃ t1, dfs fuel node parent t = some t1 ∧ Agree s1 t1 := by
  intro fuel
  induction fuel with
  | zero => intro node parent s t s1 _ _ _ h; simp [dfs] at h
  | succ fuel ih =>
    intro node parent s0 t0 s1 hag hok hlt h
    unfold dfs at h
    split at h
    · exact absurd h (by simp)
    · rename_i hv
      have hv2 : vget s0.vis node false = false := by simpa using hv
      have loop : ∀ (rest done : List edge) (pc ch : Nat) (s t r : bicomps) (chr : Nat),
          done ++ rest = vget s0.adj node [] → Basic node s0 s → Agree s t →
          dfsLoop (dfs fuel) node parent rest pc ch s = some (r, chr) →
          ∃ r2, dfsLoop (dfs fuel) node parent rest pc ch t = some (r2, chr) ∧ Agree r r2 := by
        intro rest
        induction rest with
        | nil =>
          intro done pc ch s t r chr _ _ hag hl
          simp only [dfsLoop, Option.some.injEq, Prod.mk.injEq] at hl
          obtain ⟨rfl, rfl⟩ := hl
          exact ⟨t, rfl, hag⟩
        | cons e es ihl =>
          intro done pc ch s t r chr hsplit b hag hl
          have hsplit2 : (done ++ [e]) ++ es = vget s0.adj node [] := by simpa using hsplit
          unfold dfsLoop at hl ⊢
          simp only at hl ⊢
          rw [hag.vis]
          split at hl
          · rename_i hs
            rw [if_pos hs]
            exact ihl _ _ _ _ _ _ _ hsplit2 b hag hl
          · rename_i hs
            rw [if_neg hs]
            split at hl
            · rename_i hvis
              rw [if_pos hvis]
              exact ihl _ _ _ _ _ _ _ hsplit2
                ⟨b.ok, b.lt, b.fresh, ext_visitedStep node e b.ext b.fresh, by simpa using b.vis⟩
                (agree_visitedStep node e hag b.vis hvis) hl
            · rename_i hvis
              rw [if_neg hvis]
              have hvis2 : vget s.vis e.node false = false := by simpa using hvis
              split at hl
              · exact absurd hl (by simp)
              · rename_i sc hcall
                have hen : e.node < s.n := by
                  rw [b.ext.n]
                  exact (b.mem_lt hsplit (Or.inr (List.mem_cons_self _ _))).1
                obtain ⟨tc, htc, hagc⟩ := ih e.node node s t sc hag b.ok_cur hen hcall
                rw [htc]
                simp only
                have hp := dfs_ext fuel e.node node s sc b.ok_cur hen hcall
                rw [hag.stk]
                exact ihl _ _ _ _ _ _ _ hsplit2
                  ⟨b.ok, b.lt, b.fresh, ext_childStep node e b.ext hp.1 b.fresh (b.ne hvis2),
                    by simpa using hp.1.vis _ b.vis⟩
                  (agree_childStep node e _ hagc (hp.1.vis _ b.vis) hp.2 (b.ne hvis2)) hl
      split at h
      · exact absurd h (by simp)
      · rename_i sl chl hloop
        simp only [Option.some.injEq] at h
        subst h
        have b : Basic node s0 (enter node s0) :=
          ⟨hok, hlt, hv2, ext_enter s0 node hv2,
            vget_set_eq _ _ _ _ (by rw [hok.2.1]; exact hlt)⟩
        obtain ⟨r2, hr2, hag2⟩ := loop (vget s0.adj node []) [] 0 0 (enter node s0)
          (enter node t0) sl chl (by simp) b (agree_enter node hag) hloop
        refine ⟨leave node parent chl r2, ?_, agree_leave node parent chl hag2⟩
        unfold dfs
        rw [hag.vis, hag.adj]
        simp [hv, hr2]

end Bicomps

namespace Bicomps

theorem ext_vget {α : Type} (l l2 : List α) (d : α) (hlen : l2.length = l.length)
    (h : ∀ x < l.length, vget l2 x d = vget l x d) : l2 = l := by
  apply List.ext_getElem hlen
  intro i h1 h2
  have := h i h2
  simpa [vget, List.getD_eq_getElem?_getD, List.getElem?_eq_getElem h1,
    List.getElem?_eq_getElem h2] using this

theorem sweep_agree (fuel : Nat) : ∀ (l : List Nat) (s t r : bicomps),
    Agree s t → s.ok → (∀ i ∈ l, i < s.n) → sweep fuel l s = some r →
    ∃ r2, sweep fuel l t = some r2 ∧ Agree r r2 := by
  intro l
  induction l with
  | nil =>
    intro s t r hag _ _ h
    simp only [sweep, Option.some.injEq] at h
    subst h
    exact ⟨t, rfl, hag⟩
  | cons i l ih =>
    intro s t r hag hok hl h
    have hl2 : ∀ j ∈ l, j < s.n := fun j hj => hl j (List.mem_cons_of_mem _ hj)
    unfold sweep at h ⊢
    rw [hag.vis]
    split at h
    · rename_i hv
      rw [if_pos hv]
      exact ih s t r hag hok hl2 h
    · rename_i hv
      rw [if_neg hv]
      split at h
      · exact absurd h (by simp)
      · rename_i s1 hcall
        have hi : i < s.n := hl i (List.mem_cons_self _ _)
        obtain ⟨t1, ht1, hag1⟩ := dfs_agree fuel i (-1) s t s1 hag hok hi hcall
        rw [ht1]
        simp only
        have hp := dfs_ext fuel i (-1) s s1 hok hi hcall
        exact ih s1 t1 r hag1 (hp.1.ok hok) (by rw [hp.1.n]; exact hl2) h

theorem agree_reset (g g2 : bicomps) (hn : g2.n = g.n) (hm : g2.m = g.m) (hadj : g2.adj = g.adj)
    (hel : g2.edge_list = g.edge_list) (hts : g2.tour_start.length = g.tour_start.length)
    (hlow : g2.low_link.length = g.low_link.length) : Agree (reset g) (reset g2) :=
  { n := hn, m := hm, adj := hadj, edge_list := hel
    vis := by simp [reset, hn]
    is_cut := by simp [reset, hn]
    is_bridge := by simp [reset, hm]
    stk := rfl, comps := rfl, tour := rfl
    len_ts := hts, len_low := hlow
    ts := fun x hx => by
      rw [reset_vis] at hx
      exact absurd hx (by simp)
    low := fun x hx => by
      rw [reset_vis] at hx
      exact absurd hx (by simp) }

/-- The result of `build` is determined by the graph: whatever the other
vectors held before, two objects with the same graph get agreeing results. -/
theorem build_agree (g g2 : bicomps) (root : Int) (r : bicomps) (hwf : g.wf)
    (hn : g2.n = g.n) (hm : g2.m = g.m) (hadj : g2.adj = g.adj)
    (hel : g2.edge_list = g.edge_list) (hts : g2.tour_start.length = g.tour_start.length)
    (hlow : g2.low_link.length = g.low_link.length) (h : g.build root = some r) :
    ∃ r2, g2.build root = some r2 ∧ Agree r r2 := by
  have hag := agree_reset g g2 hn hm hadj hel hts hlow
  have hok := reset_ok g hwf
  unfold bicomps.build buildWith at h ⊢
  simp only at h ⊢
  rw [hn]
  have hn2 : (reset g2).n = (reset g).n := hn
  rw [hn2]
  split at h
  · exact absurd h (by simp)
  · rename_i s2 hs2
    have key : ∃ t2, (if 0 ≤ root ∧ root < ((reset g).n : Int) then
        dfs g.n root.toNat (-1) (reset g2) else some (reset g2)) = some t2 ∧ Agree s2 t2 ∧
        s2.ok ∧ s2.n = g.n := by
      split at hs2
      · rename_i hr
        rw [if_pos hr]
        have hlt : root.toNat < (reset g).n := by
          have : (reset g).n = g.n := rfl
          omega
        obtain ⟨t1, ht1, hag1⟩ := dfs_agree g.n root.toNat (-1) _ _ s2 hag hok hlt hs2
        have hp := dfs_ext _ _ _ _ _ hok hlt hs2
        exact ⟨t1, ht1, hag1, hp.1.ok hok, hp.1.n⟩
      · rename_i hr
        rw [if_neg hr]
        simp only [Option.some.injEq] at hs2
        subst hs2
        exact ⟨_, rfl, hag, hok, rfl⟩
    obtain ⟨t2, ht2, hag2, hok2, hn3⟩ := key
    rw [ht2]
    simp only
    rw [hag2.n]
    exact sweep_agree g.n (List.range s2.n) s2 t2 r hag2 hok2
      (fun i hi => List.mem_range.mp hi) h

/-- Claim C9: `build` is idempotent.  For every well-formed object (whatever its
vectors held before) and every root argument, `build(root)` returns, a second
`build(root)` right after it returns too, and the second result has exactly the
same `is_cut`, `is_bridge`, `comps`, `tour_start` and `low_link`. -/
theorem build_idempotent (g : bicomps) (root : Int) (hwf : g.wf) :
    ∃ r1 r2, g.build root = some r1 ∧ r1.build root = some r2 ∧
      r2.is_cut = r1.is_cut ∧ r2.is_bridge = r1.is_bridge ∧ r2.comps = r1.comps ∧
      r2.tour_start = r1.tour_start ∧ r2.low_link = r1.low_link := by
  obtain ⟨r1, hr1⟩ := build_total g root hwf
  obtain ⟨_, hext, hall⟩ := build_rule (P := fun _ => True) g root r1 hwf trivial
    (fun _ _ _ _ _ _ _ _ => trivial) hr1
  have hrn : (reset g).n = g.n := rfl
  obtain ⟨r2, hr2, hag⟩ := build_agree g r1 root r1 hwf hext.n hext.m hext.adj hext.edge_list
    hext.len_ts hext.len_low hr1
  refine ⟨r1, r2, hr1, hr2, hag.is_cut, hag.is_bridge, hag.comps, ?_, ?_⟩
  · refine ext_vget _ _ 0 hag.len_ts (fun x hx => hag.ts x (hall x ?_))
    have : r1.tour_start.length = g.n := hext.len_ts.trans hwf.2.1
    omega
  · refine ext_vget _ _ 0 hag.len_low (fun x hx => hag.low x (hall x ?_))
    have : r1.low_link.length = g.n := hext.len_low.trans hwf.2.2.1
    omega

theorem build_idempotent_witness :
    ((bicomps.fresh.init 4 0).add_edges [(0, 1), (1, 2), (2, 0), (2, 3)]).wf ∧
    ∃ r1 r2, ((bicomps.fresh.init 4 0).add_edges [(0, 1), (1, 2), (2, 0), (2, 3)]).build 2 = some r1 ∧
      r1.build 2 = some r2 ∧
      r2.is_cut = r1.is_cut ∧ r2.is_bridge = r1.is_bridge ∧ r2.comps = r1.comps ∧
      r2.tour_start = r1.tour_start ∧ r2.low_link = r1.low_link :=
  ⟨by decide, build_idempotent _ 2 (by decide)⟩

end Bicomps

namespace Bicomps

/-! ## Appending a self-loop does not change the result of `build` -/

section addLoop
variable (u : Nat)

theorem addLoop_enter (node : Nat) (s : bicomps) :
    enter node (addLoop u s) = addLoop u (enter node s) := rfl

theorem addLoop_visitedStep (node : Nat) (e : edge) (s : bicomps) :
    visitedStep node e (addLoop u s) = addLoop u (visitedStep node e s) := by
  by_cases h : vget s.tour_start e.node 0 < vget s.tour_start node 0
  · simp [visitedStep, addLoop, h]
  · simp [visitedStep, addLoop, h]

theorem addLoop_leave (node : Nat) (parent : Int) (ch : Nat) (s : bicomps) :
    leave node parent ch (addLoop u s) = addLoop u (leave node parent ch s) := by
  by_cases h : parent < 0
  · simp [leave, addLoop, h]
  · simp [leave, addLoop, h]

theorem set_append_false (l : List Bool) (i : Nat) (h : i < l.length) :
    (l ++ [false]).set i true = l.set i true ++ [false] := by
  rw [List.set_append_left _ _ h]

theorem addLoop_childStep (node : Nat) (e : edge) (size : Nat) (s : bicomps)
    (hi : e.index < s.is_bridge.length) :
    childStep node e size (addLoop u s) = addLoop u (childStep node e size s) := by
  simp only [childStep, addLoop]
  split_ifs <;> simp [set_append_false _ _ hi]

/-- A self-loop entry of the current vertex, met in the loop, changes nothing. -/
theorem visitedStep_self (node idx : Nat) (s : bicomps)
    (h : vget s.low_link node 0 ≤ vget s.tour_start node 0) :
    visitedStep node ⟨node, idx⟩ s = s := by
  unfold visitedStep
  simp only [lt_self_iff_false, if_false, min_eq_left h, set_vget_self]

end addLoop

end Bicomps

namespace Bicomps

theorem vget_addLoop_adj (u node : Nat) (s : bicomps) :
    vget (addLoop u s).adj node [] = vget s.adj node [] ++
      (if u = node ∧ u < s.adj.length then [⟨u, s.m⟩, ⟨u, s.m⟩] else []) := by
  show vget (emplace_back (emplace_back s.adj u ⟨u, s.m⟩) u ⟨u, s.m⟩) node [] = _
  rw [vget_emplace_back, emplace_back_length, vget_emplace_back, vget_emplace_back]
  by_cases h : u = node ∧ u < s.adj.length
  · have h2 : u = u ∧ u < s.adj.length := ⟨rfl, h.2⟩
    rw [if_pos h, if_pos h, if_pos h2, h.1]
    simp
  · rw [if_neg h, if_neg h, if_neg h]
    simp

theorem loop_extra (call : Nat → Int → bicomps → Option bicomps) (node : Nat) (parent : Int)
    (t : bicomps) (hp : (node : Int) ≠ parent) (hv : vget t.vis node false = true)
    (hl : vget t.low_link node 0 ≤ vget t.tour_start node 0) :
    ∀ (extra : List edge) (pc ch : Nat), (∀ e ∈ extra, e.node = node) →
      dfsLoop call node parent extra pc ch t = some (t, ch) := by
  intro extra
  induction extra with
  | nil => intro pc ch _; rfl
  | cons e es ih =>
    intro pc ch he
    have hen : e.node = node := he e (List.mem_cons_self _ _)
    have hee : e = ⟨node, e.index⟩ := by
      cases e
      simp only at hen
      subst hen
      rfl
    unfold dfsLoop
    simp only
    have h1 : ¬ ((e.node : Int) = parent ∧ pc = 0) := by
      rw [hen]
      exact fun h => hp h.1
    rw [if_neg h1, hen, if_pos hv, hee, visitedStep_self node e.index t hl]
    exact ih _ _ (fun x hx => he x (List.mem_cons_of_mem _ hx))

theorem low_le_visitedStep {node : Nat} {e : edge} {s : bicomps}
    (hlen : node < s.low_link.length)
    (h : vget s.low_link node 0 ≤ vget s.tour_start node 0) :
    vget (visitedStep node e s).low_link node 0 ≤ vget (visitedStep node e s).tour_start node 0 := by
  rw [visitedStep_low_link, visitedStep_tour_start, vget_set_eq _ _ _ _ hlen]
  exact le_trans (min_le_left _ _) h

theorem low_le_childStep {node : Nat} {e : edge} {size : Nat} {s : bicomps}
    (hlen : node < s.low_link.length)
    (h : vget s.low_link node 0 ≤ vget s.tour_start node 0) :
    vget (childStep node e size s).low_link node 0 ≤
      vget (childStep node e size s).tour_start node 0 := by
  rw [childStep_low_link, childStep_tour_start, vget_set_eq _ _ _ _ hlen]
  exact le_trans (min_le_left _ _) h

/-- A run of `dfs` on the graph with the extra self-loop at `u` mirrors the run
on the graph without it. -/
theorem dfs_addLoop (u : Nat) : ∀ (fuel node : Nat) (parent : Int) (s s1 : bicomps),
    s.ok → node < s.n → (node : Int) ≠ parent → dfs fuel node parent s = some s1 →
    dfs fuel node parent (addLoop u s) = some (addLoop u s1) := by
  intro fuel
  induction fuel with
  | zero => intro node parent s s1 _ _ _ h; simp [dfs] at h
  | succ fuel ih =>
    intro node parent s0 s1 hok hlt hpar h
    unfold dfs at h
    split at h
    · exact absurd h (by simp)
    · rename_i hv
      have hv2 : vget s0.vis node false = false := by simpa using hv
      have loop : ∀ (rest done extra : List edge) (pc ch : Nat) (s r : bicomps) (chr : Nat),
          (∀ e ∈ extra, e.node = node) →
          done ++ rest = vget s0.adj node [] → Basic node s0 s →
          vget s.low_link node 0 ≤ vget s.tour_start node 0 →
          dfsLoop (dfs fuel) node parent rest pc ch s = some (r, chr) →
          dfsLoop (dfs fuel) node parent (rest ++ extra) pc ch (addLoop u s)
            = some (addLoop u r, chr) := by
        intro rest
        induction rest with
        | nil =>
          intro done extra pc ch s r chr hex _ b hlow hl
          simp only [dfsLoop, Option.some.injEq, Prod.mk.injEq] at hl
          obtain ⟨rfl, rfl⟩ := hl
          rw [List.nil_append]
          exact loop_extra _ node parent (addLoop u s) hpar b.vis hlow extra pc ch hex
        | cons e es ihl =>
          intro done extra pc ch s r chr hex hsplit b hlow hl
          have hsplit2 : (done ++ [e]) ++ es = vget s0.adj node [] := by simpa using hsplit
          have hlen : node < s.low_link.length := by
            rw [b.ext.len_low, b.ok.1.2.2.1]; exact b.lt
          rw [List.cons_append]
          unfold dfsLoop at hl ⊢
          simp only at hl ⊢
          have hvis_eq : (addLoop u s).vis = s.vis := rfl
          rw [hvis_eq]
          split at hl
          · rename_i hs
            rw [if_pos hs]
            exact ihl _ _ _ _ _ _ _ hex hsplit2 b hlow hl
          · rename_i hs
            rw [if_neg hs]
            split at hl
            · rename_i hvis
              rw [if_pos hvis, addLoop_visitedStep]
              exact ihl _ _ _ _ _ _ _ hex hsplit2
                ⟨b.ok, b.lt, b.fresh, ext_visitedStep node e b.ext b.fresh, by simpa using b.vis⟩
                (low_le_visitedStep hlen hlow) hl
            · rename_i hvis
              rw [if_neg hvis]
              have hvis2 : vget s.vis e.node false = false := by simpa using hvis
              split at hl
              · exact absurd hl (by simp)
              · rename_i sc hcall
                have hmem := b.mem_lt hsplit (Or.inr (List.mem_cons_self _ _))
                have hen : e.node < s.n := by rw [b.ext.n]; exact hmem.1
                have hne := b.ne hvis2
                have hcall2 := ih e.node node s sc b.ok_cur hen
                  (fun hh => hne (Int.ofNat_inj.mp hh).symm) hcall
                rw [hcall2]
                simp only
                have hp := dfs_ext fuel e.node node s sc b.ok_cur hen hcall
                have hokc := hp.1.ok b.ok_cur
                have hidx : e.index < sc.is_bridge.length := by
                  rw [hokc.2.2.2, hp.1.m, b.ext.m]; exact hmem.2
                have hstk : (addLoop u s).stk = s.stk := rfl
                rw [hstk, addLoop_childStep u node e _ sc hidx]
                have hlenc : node < sc.low_link.length := by rw [hp.1.len_low]; exact hlen
                exact ihl _ _ _ _ _ _ _ hex hsplit2
                  ⟨b.ok, b.lt, b.fresh, ext_childStep node e b.ext hp.1 b.fresh hne,
                    by simpa using hp.1.vis _ b.vis⟩
                  (low_le_childStep hlenc (by
                    rw [hp.1.low _ b.vis, hp.1.ts _ b.vis]; exact hlow)) hl
      split at h
      · exact absurd h (by simp)
      · rename_i sl chl hloop
        simp only [Option.some.injEq] at h
        subst h
        have hlen : node < s0.vis.length := by rw [hok.2.1]; exact hlt
        have b : Basic node s0 (enter node s0) :=
          ⟨hok, hlt, hv2, ext_enter s0 node hv2, vget_set_eq _ _ _ _ hlen⟩
        have hlow0 : vget (enter node s0).low_link node 0 ≤
            vget (enter node s0).tour_start node 0 := by
          rw [enter_low_link, enter_tour_start,
            vget_set_eq _ _ _ _ (by rw [hok.1.2.2.1]; exact hlt),
            vget_set_eq _ _ _ _ (by rw [hok.1.2.1]; exact hlt)]
        have hl2 := loop (vget s0.adj node []) []
          (if u = node ∧ u < s0.adj.length then [⟨u, s0.m⟩, ⟨u, s0.m⟩] else []) 0 0
          (enter node s0) sl chl (by
            intro e he
            split at he
            · rename_i hc
              simp only [List.mem_cons, List.mem_singleton, List.not_mem_nil, or_false,
                or_self] at he
              rw [he]
              exact hc.1
            · exact absurd he (List.not_mem_nil _))
          (by simp) b hlow0 hloop
        unfold dfs
        have hvis_eq : (addLoop u s0).vis = s0.vis := rfl
        rw [hvis_eq, if_neg hv, vget_addLoop_adj, addLoop_enter, hl2]
        simp only [addLoop_leave]

end Bicomps

namespace Bicomps

theorem sweep_addLoop (u fuel : Nat) : ∀ (l : List Nat) (s r : bicomps),
    s.ok → (∀ i ∈ l, i < s.n) → sweep fuel l s = some r →
    sweep fuel l (addLoop u s) = some (addLoop u r) := by
  intro l
  induction l with
  | nil =>
    intro s r _ _ h
    simp only [sweep, Option.some.injEq] at h
    subst h
    rfl
  | cons i l ih =>
    intro s r hok hl h
    have hl2 : ∀ j ∈ l, j < s.n := fun j hj => hl j (List.mem_cons_of_mem _ hj)
    unfold sweep at h ⊢
    have hvis_eq : (addLoop u s).vis = s.vis := rfl
    rw [hvis_eq]
    split at h
    · rename_i hv
      rw [if_pos hv]
      exact ih s r hok hl2 h
    · rename_i hv
      rw [if_neg hv]
      split at h
      · exact absurd h (by simp)
      · rename_i s1 hcall
        have hi : i < s.n := hl i (List.mem_cons_self _ _)
        rw [dfs_addLoop u fuel i (-1) s s1 hok hi (by omega) hcall]
        simp only
        have hp := dfs_ext fuel i (-1) s s1 hok hi hcall
        exact ih s1 r (hp.1.ok hok) (by rw [hp.1.n]; exact hl2) h

theorem reset_add_loop (g : bicomps) (u : Nat) :
    reset (g.add_edge u u) = addLoop u (reset g) := by
  simp only [reset, bicomps.add_edge, addLoop, List.replicate_succ']

theorem build_addLoop (g : bicomps) (u : Nat) (root : Int) (r : bicomps) (hwf : g.wf)
    (h : g.build root = some r) : (g.add_edge u u).build root = some (addLoop u r) := by
  have hok := reset_ok g hwf
  unfold bicomps.build buildWith at h ⊢
  simp only at h ⊢
  rw [reset_add_loop, add_edge_n]
  have hn2 : (addLoop u (reset g)).n = (reset g).n := rfl
  rw [hn2]
  split at h
  · exact absurd h (by simp)
  · rename_i s2 hs2
    have key : (if 0 ≤ root ∧ root < ((reset g).n : Int) then
        dfs g.n root.toNat (-1) (addLoop u (reset g)) else some (addLoop u (reset g)))
        = some (addLoop u s2) ∧ s2.ok := by
      split at hs2
      · rename_i hr
        rw [if_pos hr]
        have hlt : root.toNat < (reset g).n := by
          have : (reset g).n = g.n := rfl
          omega
        have hp := dfs_ext _ _ _ _ _ hok hlt hs2
        exact ⟨dfs_addLoop u g.n root.toNat (-1) _ s2 hok hlt (by omega) hs2, hp.1.ok hok⟩
      · rename_i hr
        rw [if_neg hr]
        simp only [Option.some.injEq] at hs2
        subst hs2
        exact ⟨rfl, hok⟩
    rw [key.1]
    simp only
    have hn3 : (addLoop u s2).n = s2.n := rfl
    rw [hn3]
    exact sweep_addLoop u g.n (List.range s2.n) s2 r key.2 (fun i hi => List.mem_range.mp hi) h

/-- Claim C8: for every graph built by `init` and `add_edge` calls with endpoints
below `n` and every vertex `u < n`, appending the self-loop `add_edge(u, u)`
leaves the result of `build` unchanged: `build` returns on both graphs (no
assertion fails), `is_cut` and `comps` are identical, `is_bridge` agrees on
every original edge index and the flag of the self-loop itself is false. -/
theorem self_loop_unchanged (s0 : bicomps) (n mh : Nat) (es : List (Nat × Nat)) (u : Nat)
    (root : Int) (hes : ∀ e ∈ es, e.1 < n ∧ e.2 < n) (hu : u < n) :
    ∃ r r2, ((s0.init n mh).add_edges es).build root = some r ∧
      (((s0.init n mh).add_edges es).add_edge u u).build root = some r2 ∧
      r2.is_cut = r.is_cut ∧ r2.comps = r.comps ∧
      (∀ i, i < ((s0.init n mh).add_edges es).m →
        vget r2.is_bridge i false = vget r.is_bridge i false) ∧
      vget r2.is_bridge ((s0.init n mh).add_edges es).m false = false := by
  have hwf := built_wf s0 n mh es hes
  obtain ⟨r, hr⟩ := build_total _ root hwf
  obtain ⟨_, hext, _⟩ := build_rule (P := fun _ => True) _ root r hwf trivial
    (fun _ _ _ _ _ _ _ _ => trivial) hr
  have hlen : r.is_bridge.length = ((s0.init n mh).add_edges es).m := by
    rw [hext.len_bridge]
    simp [reset]
  refine ⟨r, addLoop u r, hr, build_addLoop _ u root r hwf hr, rfl, rfl, ?_, ?_⟩
  · intro i hi
    show vget (r.is_bridge ++ [false]) i false = _
    exact vget_append_left _ _ _ _ (by rw [hlen]; exact hi)
  · show vget (r.is_bridge ++ [false]) _ false = false
    rw [← hlen]
    simp [vget, List.getD_eq_getElem?_getD]

theorem self_loop_unchanged_witness :
    (∀ e ∈ [((0 : Nat), (1 : Nat)), (1, 2), (2, 0), (2, 3)], e.1 < 4 ∧ e.2 < 4) ∧ 2 < 4 ∧
    ∃ r r2, ((bicomps.fresh.init 4 0).add_edges [(0, 1), (1, 2), (2, 0), (2, 3)]).build (-1) = some r ∧
      (((bicomps.fresh.init 4 0).add_edges [(0, 1), (1, 2), (2, 0), (2, 3)]).add_edge 2 2).build (-1)
        = some r2 ∧
      r2.is_cut = r.is_cut ∧ r2.comps = r.comps ∧
      (∀ i, i < ((bicomps.fresh.init 4 0).add_edges [(0, 1), (1, 2), (2, 0), (2, 3)]).m →
        vget r2.is_bridge i false = vget r.is_bridge i false) ∧
      vget r2.is_bridge ((bicomps.fresh.init 4 0).add_edges [(0, 1), (1, 2), (2, 0), (2, 3)]).m false
        = false :=
  ⟨by decide, by decide,
    self_loop_unchanged bicomps.fresh 4 0 [(0, 1), (1, 2), (2, 0), (2, 3)] 2 (-1) (by decide)
      (by decide)⟩

end Bicomps

namespace Bicomps

/-! ## The root argument outside `[0, n)` -/

/-- An out-of-range root is ignored: `build(root)` with `root < 0` or
`root >= n` is `build(-1)`, the call with the default argument. -/
theorem build_root_out_of_range (g : bicomps) (root : Int) (h : root < 0 ∨ (g.n : Int) ≤ root) :
    g.build root = g.build (-1) := by
  unfold bicomps.build buildWith
  simp only
  have hn : (reset g).n = g.n := rfl
  rw [hn]
  have h1 : ¬ (0 ≤ root ∧ root < (g.n : Int)) := by omega
  have h2 : ¬ (0 ≤ (-1 : Int) ∧ (-1 : Int) < (g.n : Int)) := by omega
  rw [if_neg h1, if_neg h2]

/-! ## Isolated vertices are in no component -/

/-- Counterexample to claim C4 as stated: on the graph with one vertex and no
edge, `build()` emits no component, so vertex 0 is in none. -/
theorem isolated_vertex_uncovered :
    ∃ r, (bicomps.mk_init 1 0).build (-1) = some r ∧ ¬ ∃ c ∈ r.comps, 0 ∈ c :=
  ⟨_, rfl, by decide⟩

/-- Counterexample to claim C3 as stated: on the graph with one vertex and no
edge, `same_bicomp(0, 0)` is true although no component contains vertex 0. -/
theorem same_bicomp_isolated :
    ∃ r t, (bicomps.mk_init 1 0).build (-1) = some r ∧ bc_tree.fresh.build r = some t ∧
      t.same_bicomp 0 0 = true ∧ ¬ ∃ c ∈ r.comps, 0 ∈ c ∧ 0 ∈ c :=
  ⟨_, _, rfl, rfl, rfl, by decide⟩

end Bicomps

namespace Bicomps

/-! ## The adjacency lists of a built graph -/

theorem add_edge_adj (g : bicomps) (u v x : Nat) (hu : u < g.adj.length) (hv : v < g.adj.length) :
    vget (g.add_edge u v).adj x [] = vget g.adj x [] ++
      ((if u = x then [⟨v, g.m⟩] else []) ++ (if v = x then [⟨u, g.m⟩] else [])) := by
  show vget (emplace_back (emplace_back g.adj u ⟨v, g.m⟩) v ⟨u, g.m⟩) x [] = _
  rw [vget_emplace_back, emplace_back_length, vget_emplace_back, vget_emplace_back]
  by_cases h1 : u = x <;> by_cases h2 : v = x
  · subst h1; subst h2; simp [hu]
  · subst h1; simp [hu, hv, h2]
  · subst h2
    have h3 : ¬ (u = v) := h1
    simp [hu, hv, h1]
  · simp [hu, hv, h1, h2]

theorem add_edge_adj_length (g : bicomps) (u v : Nat) :
    (g.add_edge u v).adj.length = g.adj.length := by
  simp [bicomps.add_edge, emplace_back_length]

theorem add_edges_adj (es : List (Nat × Nat)) : ∀ (g : bicomps) (x : Nat),
    (∀ e ∈ es, e.1 < g.adj.length ∧ e.2 < g.adj.length) →
    vget (g.add_edges es).adj x [] = vget g.adj x [] ++ adjOf es g.m x := by
  induction es with
  | nil => intro g x _; simp [bicomps.add_edges, adjOf]
  | cons e es ih =>
    intro g x h
    obtain ⟨a, b⟩ := e
    have he := h (a, b) (List.mem_cons_self _ _)
    show vget ((g.add_edge a b).add_edges es).adj x [] = _
    rw [ih (g.add_edge a b) x (by
      intro e2 he2
      rw [add_edge_adj_length]
      exact h e2 (List.mem_cons_of_mem _ he2))]
    rw [add_edge_adj g a b x he.1 he.2]
    show _ = vget g.adj x [] ++ adjOf ((a, b) :: es) g.m x
    simp only [adjOf, List.append_assoc]
    rfl

theorem add_edges_m (es : List (Nat × Nat)) : ∀ g : bicomps,
    (g.add_edges es).m = g.m + es.length := by
  induction es with
  | nil => intro g; rfl
  | cons e es ih =>
    intro g
    show ((g.add_edge e.1 e.2).add_edges es).m = _
    rw [ih]
    show g.m + 1 + es.length = g.m + (es.length + 1)
    omega

theorem add_edges_edge_list (es : List (Nat × Nat)) : ∀ g : bicomps,
    (g.add_edges es).edge_list = g.edge_list ++ es := by
  induction es with
  | nil => intro g; simp [bicomps.add_edges]
  | cons e es ih =>
    intro g
    show ((g.add_edge e.1 e.2).add_edges es).edge_list = _
    rw [ih]
    simp [bicomps.add_edge]

/-- The adjacency list of vertex `x < n` in the graph built by `init(n, mh)` and
the `add_edge` calls `es`. -/
theorem built_adj (s0 : bicomps) (n mh : Nat) (es : List (Nat × Nat))
    (hes : ∀ e ∈ es, e.1 < n ∧ e.2 < n) (x : Nat) :
    vget ((s0.init n mh).add_edges es).adj x [] = adjOf es mh x := by
  rw [add_edges_adj es _ x (by simpa [bicomps.init] using hes)]
  have : vget (s0.init n mh).adj x [] = [] := by
    show vget (List.replicate n []) x [] = []
    rw [vget_replicate]
    split <;> rfl
  rw [this]
  rfl

theorem mem_adjOf (es : List (Nat × Nat)) : ∀ (m0 x : Nat) (e : edge),
    e ∈ adjOf es m0 x ↔ ∃ k, m0 + k = e.index ∧
      (es[k]? = some (x, e.node) ∨ es[k]? = some (e.node, x)) := by
  induction es with
  | nil => intro m0 x e; simp [adjOf]
  | cons p es ih =>
    intro m0 x e
    obtain ⟨a, b⟩ := p
    simp only [adjOf, List.mem_append, ih]
    constructor
    · rintro ((h | h) | ⟨k, hk, h⟩)
      · split at h
        · rename_i hax
          rw [List.mem_singleton] at h
          subst h
          exact ⟨0, rfl, Or.inl (by simp [hax])⟩
        · exact absurd h (List.not_mem_nil _)
      · split at h
        · rename_i hbx
          rw [List.mem_singleton] at h
          subst h
          exact ⟨0, rfl, Or.inr (by simp [hbx])⟩
        · exact absurd h (List.not_mem_nil _)
      · exact ⟨k + 1, by omega, by simpa using h⟩
    · rintro ⟨k, hk, h⟩
      cases k with
      | zero =>
        simp only [List.getElem?_cons_zero, Option.some.injEq, Prod.mk.injEq] at h
        rcases h with ⟨h1, h2⟩ | ⟨h1, h2⟩
        · left; left
          rw [if_pos h1, List.mem_singleton]
          cases e
          simp only at hk h2 ⊢
          subst hk; subst h2
          rfl
        · left; right
          rw [if_pos h2, List.mem_singleton]
          cases e
          simp only at hk h1 ⊢
          subst hk; subst h1
          rfl
      | succ k =>
        right
        exact ⟨k, by omega, by simpa using h⟩

end Bicomps

namespace Bicomps

theorem adjOf_index_ge (es : List (Nat × Nat)) (m0 x : Nat) (e : edge) (h : e ∈ adjOf es m0 x) :
    m0 ≤ e.index := by
  obtain ⟨k, hk, _⟩ := (mem_adjOf es m0 x e).mp h
  omega

theorem adjOf_nodup (es : List (Nat × Nat)) : ∀ (m0 x : Nat),
    ((adjOf es m0 x).filter (fun e => decide (e.node ≠ x))).Nodup := by
  induction es with
  | nil => intro m0 x; simp [adjOf]
  | cons p es ih =>
    intro m0 x
    obtain ⟨a, b⟩ := p
    simp only [adjOf, List.filter_append]
    have htail := ih (m0 + 1) x
    have hdis : ∀ e ∈ ((if a = x then [(⟨b, m0⟩ : edge)] else []).filter
          (fun e => decide (e.node ≠ x)) ++
        (if b = x then [(⟨a, m0⟩ : edge)] else []).filter (fun e => decide (e.node ≠ x))),
        e ∉ (adjOf es (m0 + 1) x).filter (fun e => decide (e.node ≠ x)) := by
      intro e he hmem
      have h1 := adjOf_index_ge es (m0 + 1) x e (List.mem_of_mem_filter hmem)
      have h2 : e.index = m0 := by
        rcases List.mem_append.mp he with he | he
        · have := List.mem_of_mem_filter he
          split at this
          · rw [List.mem_singleton.mp this]
          · exact absurd this (List.not_mem_nil _)
        · have := List.mem_of_mem_filter he
          split at this
          · rw [List.mem_singleton.mp this]
          · exact absurd this (List.not_mem_nil _)
      omega
    refine List.Nodup.append ?_ htail (fun e he hmem => hdis e he hmem)
    by_cases h1 : a = x <;> by_cases h2 : b = x
    · subst h1; subst h2; simp
    · subst h1; simp [h2]
    · subst h2; simp [h1]
    · simp [h1, h2]

/-- The adjacency lists of a built graph satisfy `GraphInv`. -/
theorem built_graphInv (s0 : bicomps) (n mh : Nat) (es : List (Nat × Nat))
    (hes : ∀ e ∈ es, e.1 < n ∧ e.2 < n) : GraphInv ((s0.init n mh).add_edges es).adj := by
  have key : ∀ i x y, joins ((s0.init n mh).add_edges es).adj i x y ↔
      ∃ k, mh + k = i ∧ (es[k]? = some (x, y) ∨ es[k]? = some (y, x)) := by
    intro i x y
    unfold joins
    rw [built_adj s0 n mh es hes, mem_adjOf]
  refine ⟨?_, ?_, ?_⟩
  · intro i x y h
    obtain ⟨k, hk, h⟩ := (key i x y).mp h
    exact (key i y x).mpr ⟨k, hk, h.symm⟩
  · intro i x y x2 y2 h h2
    obtain ⟨k, hk, h⟩ := (key i x y).mp h
    obtain ⟨k2, hk2, h2⟩ := (key i x2 y2).mp h2
    have : k2 = k := by omega
    subst this
    rcases h with h | h <;> rcases h2 with h2 | h2 <;> rw [h] at h2 <;>
      simp only [Option.some.injEq, Prod.mk.injEq] at h2 <;> omega
  · intro x
    rw [built_adj s0 n mh es hes]
    exact adjOf_nodup es mh x

/-- In a graph built with `m_hint = 0` the edge with index `i` joins `x` to `y`
exactly when `edge_list[i]` is the pair `(x, y)` or `(y, x)`. -/
theorem built_joins (s0 : bicomps) (n : Nat) (es : List (Nat × Nat))
    (hes : ∀ e ∈ es, e.1 < n ∧ e.2 < n) (i x y : Nat) :
    joins ((s0.init n 0).add_edges es).adj i x y ↔
      (es[i]? = some (x, y) ∨ es[i]? = some (y, x)) := by
  unfold joins
  rw [built_adj s0 n 0 es hes, mem_adjOf]
  constructor
  · rintro ⟨k, hk, h⟩
    have : k = i := by simpa using hk
    subst this
    exact h
  · intro h
    exact ⟨i, by simp, h⟩

end Bicomps

namespace Bicomps

/-! ## Soundness and composition of layered specifications -/

/-- A specification kept by every step holds of every run of `dfs`. -/
theorem Step.sound {A : Spec} (h : Step Spec.top A) :
    ∀ fuel node parent s s1, s.ok → node < s.n → A.pre node parent s →
      dfs fuel node parent s = some s1 → A.post node parent s s1 := by
  intro fuel node parent s s1 hok hlt hpre hrun
  refine dfs_rule1
    (P := fun v p s => A.pre v p s)
    (Q := fun v p s s1 => A.post v p s s1)
    (I := fun v p s0 d r pc ch s => A.pre v p s0 ∧ A.inv v p s0 d r pc ch s)
    ?_ ?_ ?_ ?_ ?_ ?_ fuel node parent s s1 hok hlt hpre hrun
  · intro node parent s b hp
    exact ⟨hp, h.enter node parent s b trivial trivial hp⟩
  · intro node parent s0 done e es pc ch s b hsplit hI h1 h2
    exact ⟨hI.1, h.skip node parent s0 done e es pc ch s b hsplit trivial hI.1 trivial trivial hI.2 h1 h2⟩
  · intro node parent s0 done e es pc ch s b hsplit hI h1 h2
    exact ⟨hI.1, h.visited node parent s0 done e es pc ch s b hsplit trivial hI.1 trivial trivial hI.2 h1 h2⟩
  · intro node parent s0 done e es pc ch s b hsplit hI h1 h2
    exact h.call node parent s0 done e es pc ch s b hsplit trivial hI.1 trivial trivial hI.2 h1 h2
  · intro node parent s0 done e es pc ch s s1 b hsplit hI h1 h2 _ hext hv hpost
    exact ⟨hI.1, h.child node parent s0 done e es pc ch s s1 b hsplit trivial hI.1 trivial trivial
      trivial trivial hI.2 h1 h2 hext hv
      (h.call node parent s0 done e es pc ch s b hsplit trivial hI.1 trivial trivial hI.2 h1 h2)
      hpost⟩
  · intro node parent s0 pc ch s b _ hI
    exact h.leave node parent s0 pc ch s b trivial trivial trivial hI.1 hI.2

/-- Layers compose: `B` on top of `A` gives the conjunction. -/
theorem Step.seq {A B : Spec} (hA : Step Spec.top A) (hB : Step A B) :
    Step Spec.top (A.and B) where
  enter := fun node parent s b _ _ hp =>
    have ha := hA.enter node parent s b trivial trivial hp.1
    ⟨ha, hB.enter node parent s b hp.1 ha hp.2⟩
  skip := fun node parent s0 done e es pc ch s b hsplit _ hp _ _ hI h1 h2 =>
    have ha := hA.skip node parent s0 done e es pc ch s b hsplit trivial hp.1 trivial trivial
      hI.1 h1 h2
    ⟨ha, hB.skip node parent s0 done e es pc ch s b hsplit hp.1 hp.2 hI.1 ha hI.2 h1 h2⟩
  visited := fun node parent s0 done e es pc ch s b hsplit _ hp _ _ hI h1 h2 =>
    have ha := hA.visited node parent s0 done e es pc ch s b hsplit trivial hp.1 trivial trivial
      hI.1 h1 h2
    ⟨ha, hB.visited node parent s0 done e es pc ch s b hsplit hp.1 hp.2 hI.1 ha hI.2 h1 h2⟩
  call := fun node parent s0 done e es pc ch s b hsplit _ hp _ _ hI h1 h2 =>
    have ha := hA.call node parent s0 done e es pc ch s b hsplit trivial hp.1 trivial trivial
      hI.1 h1 h2
    ⟨ha, hB.call node parent s0 done e es pc ch s b hsplit hp.1 hp.2 hI.1 ha hI.2 h1 h2⟩
  child := fun node parent s0 done e es pc ch s s1 b hsplit _ hp _ _ _ _ hI h1 h2 hext hv hpc
      hq =>
    have ha := hA.child node parent s0 done e es pc ch s s1 b hsplit trivial hp.1 trivial trivial
      trivial trivial hI.1 h1 h2 hext hv hpc.1 hq.1
    ⟨ha, hB.child node parent s0 done e es pc ch s s1 b hsplit hp.1 hp.2 hI.1 hpc.1 hq.1 ha hI.2
      h1 h2 hext hv hpc.2 hq.2⟩
  leave := fun node parent s0 pc ch s b _ _ _ hp hI =>
    have ha := hA.leave node parent s0 pc ch s b trivial trivial trivial hp.1 hI.1
    ⟨ha, hB.leave node parent s0 pc ch s b hp.1 hI.1 ha hp.2 hI.2⟩

end Bicomps

namespace Bicomps

/-! ## Layer S is kept by every step -/

theorem closed_mono {s s1 : bicomps} (h : Ext s s1) {x : Nat} (hc : Closed s x) : Closed s1 x := by
  intro e he
  rw [h.adj] at he
  exact h.vis _ (hc e he)

theorem vis_cases (s : bicomps) (x : Nat) :
    vget s.vis x false = true ∨ vget s.vis x false = false := by
  cases vget s.vis x false <;> simp

theorem vis_cases_bool (v : Bool) : v = true ∨ v = false := by
  cases v <;> simp

theorem enter_ts_self {node : Nat} {s : bicomps} (hok : s.ok) (hlt : node < s.n) :
    vget (enter node s).tour_start node 0 = s.tour :=
  vget_set_eq _ _ _ _ (by rw [hok.1.2.1]; exact hlt)

theorem enter_low_self {node : Nat} {s : bicomps} (hok : s.ok) (hlt : node < s.n) :
    vget (enter node s).low_link node 0 = s.tour :=
  vget_set_eq _ _ _ _ (by rw [hok.1.2.2.1]; exact hlt)

theorem enter_ts_other {node x : Nat} (s : bicomps) (h : node ≠ x) :
    vget (enter node s).tour_start x 0 = vget s.tour_start x 0 :=
  vget_set_ne _ _ _ _ _ h

theorem enter_low_other {node x : Nat} (s : bicomps) (h : node ≠ x) :
    vget (enter node s).low_link x 0 = vget s.low_link x 0 :=
  vget_set_ne _ _ _ _ _ h

theorem tsInv_enter {node : Nat} {s : bicomps} (hok : s.ok) (hlt : node < s.n)
    (hf : vget s.vis node false = false) (h : TsInv s) : TsInv (enter node s) := by
  refine ⟨?_, ?_, ?_⟩
  · intro x hx
    rw [enter_tour]
    rcases vis_enter_cases hx with rfl | hx
    · rw [enter_ts_self hok hlt]; omega
    · rw [enter_ts_other s (ne_of_vis hf hx)]
      have := h.lt x hx
      omega
  · intro x y hx hy hxy
    rcases vis_enter_cases hx with rfl | hx <;> rcases vis_enter_cases hy with rfl | hy
    · rfl
    · rw [enter_ts_self hok hlt, enter_ts_other s (ne_of_vis hf hy)] at hxy
      have := h.lt y hy
      omega
    · rw [enter_ts_self hok hlt, enter_ts_other s (ne_of_vis hf hx)] at hxy
      have := h.lt x hx
      omega
    · rw [enter_ts_other s (ne_of_vis hf hx), enter_ts_other s (ne_of_vis hf hy)] at hxy
      exact h.inj x y hx hy hxy
  · intro x hx
    rcases vis_enter_cases hx with rfl | hx
    · rw [enter_ts_self hok hlt, enter_low_self hok hlt]
    · rw [enter_ts_other s (ne_of_vis hf hx), enter_low_other s (ne_of_vis hf hx)]
      exact h.low_le x hx

theorem tsInv_low_update {node : Nat} {s s2 : bicomps} (h : TsInv s) (w : Int)
    (hvis : s2.vis = s.vis) (hts : s2.tour_start = s.tour_start) (htour : s2.tour = s.tour)
    (hlow : s2.low_link = s.low_link.set node (min (vget s.low_link node 0) w)) :
    TsInv s2 := by
  refine ⟨?_, ?_, ?_⟩
  · intro x hx
    rw [hvis] at hx
    rw [hts, htour]
    exact h.lt x hx
  · intro x y hx hy hxy
    rw [hvis] at hx hy
    rw [hts] at hxy
    exact h.inj x y hx hy hxy
  · intro x hx
    rw [hvis] at hx
    rw [hts, hlow, vget_set]
    split
    · rename_i hc
      rw [← hc.1]
      exact le_trans (min_le_left _ _) (h.low_le node (by rw [hc.1]; exact hx))
    · exact h.low_le x hx

theorem tsInv_visitedStep {node : Nat} {e : edge} {s : bicomps} (h : TsInv s) :
    TsInv (visitedStep node e s) :=
  tsInv_low_update h _ (visitedStep_vis _ _ _) (visitedStep_tour_start _ _ _)
    (visitedStep_tour _ _ _) (visitedStep_low_link _ _ _)

theorem tsInv_childStep {node : Nat} {e : edge} {size : Nat} {s : bicomps} (h : TsInv s) :
    TsInv (childStep node e size s) :=
  tsInv_low_update h _ (childStep_vis _ _ _ _) (childStep_tour_start _ _ _ _)
    (childStep_tour _ _ _ _) (childStep_low_link _ _ _ _)

theorem tsInv_leave {node : Nat} {parent : Int} {ch : Nat} {s : bicomps} (h : TsInv s) :
    TsInv (leave node parent ch s) := by
  refine ⟨?_, ?_, ?_⟩
  · intro x hx
    rw [leave_vis] at hx
    rw [leave_tour_start, leave_tour]
    exact h.lt x hx
  · intro x y hx hy hxy
    rw [leave_vis] at hx hy
    rw [leave_tour_start] at hxy
    exact h.inj x y hx hy hxy
  · intro x hx
    rw [leave_vis] at hx
    rw [leave_tour_start, leave_low_link]
    exact h.low_le x hx

theorem closed_of_adj_vis {s s2 : bicomps} (hadj : s2.adj = s.adj) (hvis : s2.vis = s.vis)
    {x : Nat} (h : Closed s x) : Closed s2 x := by
  intro e he
  rw [hadj] at he
  rw [hvis]
  exact h e he

/-- Layer S holds along every run of `dfs`. -/
theorem stepS : Step Spec.top specS where
  enter := by
    intro node parent s b _ _ hp
    obtain ⟨_, hts, _, _⟩ := hp
    refine ⟨tsInv_enter b.ok b.lt b.fresh hts, enter_ts_self b.ok b.lt, ?_, ?_, ?_⟩
    · intro x hx hx0
      rcases vis_enter_cases hx with rfl | hx
      · rw [enter_ts_self b.ok b.lt]
      · rw [hx] at hx0; exact absurd hx0 (by simp)
    · intro x hx hx0 hne
      rcases vis_enter_cases hx with rfl | hx
      · exact absurd rfl hne
      · rw [hx] at hx0; exact absurd hx0 (by simp)
    · intro e he
      exact absurd he (List.not_mem_nil _)
  skip := by
    intro node parent s0 done e es pc ch s b _ _ hp _ _ hI h1 _
    obtain ⟨i1, i2, i3, i4, i5⟩ := hI
    refine ⟨i1, i2, i3, i4, ?_⟩
    intro e2 he2
    rcases List.mem_append.mp he2 with he2 | he2
    · exact i5 e2 he2
    · rw [List.mem_singleton.mp he2]
      have hp0 : 0 ≤ parent := by rw [← h1]; exact Int.ofNat_nonneg _
      have := hp.2.2.1 hp0
      rw [← h1] at this
      exact b.ext.vis _ (by simpa using this)
  visited := by
    intro node parent s0 done e es pc ch s b _ _ _ _ _ hI _ hv
    obtain ⟨i1, i2, i3, i4, i5⟩ := hI
    refine ⟨tsInv_visitedStep i1, by simpa using i2, ?_, ?_, ?_⟩
    · intro x hx hx0
      simpa using i3 x (by simpa using hx) hx0
    · intro x hx hx0 hne
      exact closed_of_adj_vis (visitedStep_adj _ _ _) (visitedStep_vis _ _ _)
        (i4 x (by simpa using hx) hx0 hne)
    · intro e2 he2
      rw [visitedStep_vis]
      rcases List.mem_append.mp he2 with he2 | he2
      · exact i5 e2 he2
      · rw [List.mem_singleton.mp he2]; exact hv
  call := by
    intro node parent s0 done e es pc ch s b _ _ hp _ _ hI _ _
    obtain ⟨i1, i2, i3, i4, _⟩ := hI
    refine ⟨by rw [b.ext.adj]; exact hp.1, i1, fun _ => by simpa using b.vis, ?_⟩
    intro y hy hnc
    refine ⟨Int.ofNat_nonneg _, ?_⟩
    simp only [Int.toNat_ofNat]
    rcases vis_cases s0 y with hy0 | hy0
    · have h1 := hp.2.1.lt y hy0
      rw [b.ext.ts y hy0, i2]
      omega
    · by_cases hyn : y = node
      · rw [hyn]
      · exact absurd (i4 y hy hy0 hyn) hnc
  child := by
    intro node parent s0 done e es pc ch s s1 b _ _ _ _ _ _ _ hI _ _ hext hv1 _ hq
    obtain ⟨i1, i2, i3, i4, i5⟩ := hI
    obtain ⟨q1, q2, q3⟩ := hq
    refine ⟨tsInv_childStep q1, ?_, ?_, ?_, ?_⟩
    · rw [childStep_tour_start, hext.ts _ b.vis]; exact i2
    · intro x hx hx0
      rw [childStep_vis] at hx
      rw [childStep_tour_start]
      rcases vis_cases s x with hxs | hxs
      · rw [hext.ts x hxs]; exact i3 x hxs hx0
      · have := (q3 x hx hxs).1
        have := b.ext.tour
        omega
    · intro x hx hx0 hne
      rw [childStep_vis] at hx
      refine closed_of_adj_vis (childStep_adj _ _ _ _) (childStep_vis _ _ _ _) ?_
      rcases vis_cases s x with hxs | hxs
      · exact closed_mono hext (i4 x hxs hx0 hne)
      · exact (q3 x hx hxs).2
    · intro e2 he2
      rw [childStep_vis]
      rcases List.mem_append.mp he2 with he2 | he2
      · exact hext.vis _ (i5 e2 he2)
      · rw [List.mem_singleton.mp he2]; exact hv1
  leave := by
    intro node parent s0 pc ch s b _ _ _ _ hI
    obtain ⟨i1, i2, i3, i4, i5⟩ := hI
    refine ⟨tsInv_leave i1, by simpa using i2, ?_⟩
    intro x hx hx0
    rw [leave_vis] at hx
    refine ⟨by simpa using i3 x hx hx0, ?_⟩
    refine closed_of_adj_vis (leave_adj _ _ _ _) (leave_vis _ _ _ _) ?_
    by_cases hxn : x = node
    · subst hxn
      intro e2 he2
      rw [b.ext.adj] at he2
      exact i5 e2 he2
    · exact i4 x hx hx0 hxn

end Bicomps

namespace Bicomps

/-! ## Layer L is kept by every step -/

theorem cnt_append_singleton (done : List edge) (e : edge) (p : Int) :
    cnt (done ++ [e]) p = if (e.node : Int) = p then cnt done p + 1 else cnt done p := by
  unfold cnt
  rw [List.countP_append]
  by_cases h : (e.node : Int) = p
  · simp [h]
  · simp [h]

theorem Basic.low_lt {node : Nat} {s0 s : bicomps} (b : Basic node s0 s) :
    node < s.low_link.length := by
  rw [b.ext.len_low, b.ok.1.2.2.1]; exact b.lt

theorem visitedStep_low_self {node : Nat} {e : edge} {s0 s : bicomps} (b : Basic node s0 s) :
    vget (visitedStep node e s).low_link node 0 =
      min (vget s.low_link node 0) (vget s.tour_start e.node 0) := by
  rw [visitedStep_low_link, vget_set_eq _ _ _ _ b.low_lt]

theorem childStep_low_self {node : Nat} (e : edge) (size : Nat) {s0 s s1 : bicomps}
    (b : Basic node s0 s) (hext : Ext s s1) :
    vget (childStep node e size s1).low_link node 0 =
      min (vget s.low_link node 0) (vget s1.low_link e.node 0) := by
  rw [childStep_low_link, vget_set_eq _ _ _ _ (by rw [hext.len_low]; exact b.low_lt),
    hext.low _ b.vis]

theorem not_vis_of_ext {s0 s : bicomps} (h : Ext s0 s) {x : Nat}
    (hx : vget s.vis x false = false) : vget s0.vis x false = false := by
  rcases vis_cases s0 x with h0 | h0
  · rw [h.vis x h0] at hx; exact absurd hx (by simp)
  · exact h0

/-- Layer L holds along every run of `dfs`, on top of layer S. -/
theorem stepL : Step specS specL where
  enter := by
    intro node parent s b _ _ _
    refine ⟨rfl, ?_, ?_, ?_, ?_⟩
    · intro x hx hx0 hne
      rcases vis_enter_cases hx with rfl | hx
      · exact absurd rfl hne
      · rw [hx] at hx0; exact absurd hx0 (by simp)
    · intro e he
      exact absurd he (List.not_mem_nil _)
    · intro h; omega
    · left
      rw [enter_ts_self b.ok b.lt, enter_low_self b.ok b.lt]
  skip := by
    intro node parent s0 done e es pc ch s b _ _ _ _ _ hI h1 h2
    obtain ⟨i1, i2, i3, i4, i5⟩ := hI
    refine ⟨by rw [cnt_append_singleton, if_pos h1, i1], i2, ?_, by omega, ?_⟩
    · intro e2 he2 hv
      rcases List.mem_append.mp he2 with he2 | he2
      · exact i3 e2 he2 hv
      · rw [List.mem_singleton.mp he2]; exact Or.inl h1
    · rcases i5 with h | ⟨x, e2, h1, h2, h3, h4, h5, h6, h7⟩
      · exact Or.inl h
      · refine Or.inr ⟨x, e2, h1, h2, h3, h4, h5, ?_, fun hx => List.mem_append_left _ (h7 hx)⟩
        rcases h6 with h6 | h6 | h6
        · exact Or.inl h6
        · exact Or.inr (Or.inl h6)
        · exact Or.inr (Or.inr (by omega))
  visited := by
    intro node parent s0 done e es pc ch s b hsplit hpS _ hA _ hI hns hv
    obtain ⟨i1, i2, i3, i4, i5⟩ := hI
    obtain ⟨a1, a2, a3, a4, a5⟩ := hA
    have hlow := visitedStep_low_self (e := e) b
    have hle : vget (visitedStep node e s).low_link node 0 ≤ vget s.low_link node 0 := by
      rw [hlow]; exact min_le_left _ _
    have hpc : pc ≤ (if (e.node : Int) = parent then pc + 1 else pc) := by split <;> omega
    refine ⟨by rw [cnt_append_singleton, i1], ?_, ?_, ?_, ?_⟩
    · intro x hx hx0 hne e2 he2 hv2
      exact le_trans hle (i2 x (by simpa using hx) hx0 hne e2 he2 hv2)
    · intro e2 he2 hv2
      rcases List.mem_append.mp he2 with he2 | he2
      · rcases i3 e2 he2 hv2 with h | h
        · exact Or.inl h
        · exact Or.inr (le_trans hle h)
      · rw [List.mem_singleton.mp he2] at hv2 ⊢
        right
        rw [hlow, ← b.ext.ts _ hv2]
        exact min_le_right _ _
    · intro h2
      by_cases hep : (e.node : Int) = parent
      · rw [if_pos hep] at h2
        have hp0 : 0 ≤ parent := by rw [← hep]; exact Int.ofNat_nonneg _
        have hpv := hpS.2.2.1 hp0
        have hnat : parent.toNat = e.node := by rw [← hep]; simp
        rw [hlow, hnat, ← b.ext.ts e.node (by rw [← hnat]; exact hpv)]
        exact min_le_right _ _
      · rw [if_neg hep] at h2
        exact le_trans hle (i4 h2)
    · rw [visitedStep_tour_start, visitedStep_vis]
      by_cases hmin : vget s.low_link node 0 ≤ vget s.tour_start e.node 0
      · rw [hlow, min_eq_left hmin]
        rcases i5 with h | ⟨x, e2, h1, h2, h3, h4, h5, h6, h7⟩
        · exact Or.inl h
        · refine Or.inr ⟨x, e2, h1, h2, h3, h4, h5, ?_, fun hx => List.mem_append_left _ (h7 hx)⟩
          rcases h6 with h6 | h6 | h6
          · exact Or.inl h6
          · exact Or.inr (Or.inl h6)
          · exact Or.inr (Or.inr (by omega))
      · have hmin2 : vget s.tour_start e.node 0 < vget s.low_link node 0 := not_le.mp hmin
        have hv0 : vget s0.vis e.node false = true := by
          rcases vis_cases s0 e.node with h | h
          · exact h
          · have h1 := a3 e.node hv h
            have h2 := a1.low_le node b.vis
            omega
        right
        refine ⟨node, e, b.vis, b.fresh, by rw [← hsplit]; simp, hv0, ?_, ?_, fun _ => by simp⟩
        · rw [hlow, min_eq_right (le_of_lt hmin2), b.ext.ts _ hv0]
        · right
          by_cases hep : (e.node : Int) = parent
          · right
            rw [if_pos hep]
            have : pc ≠ 0 := fun h => hns ⟨hep, h⟩
            omega
          · exact Or.inl hep
  call := by
    intro _ _ _ _ _ _ _ _ _ _ _ _ _ _ _ _ _ _
    trivial
  child := by
    intro node parent s0 done e es pc ch s s1 b hsplit hpS _ hA _ hqS _ hI _ hv hext hv1 _ hq
    obtain ⟨i1, i2, i3, i4, i5⟩ := hI
    obtain ⟨a1, a2, a3, a4, a5⟩ := hA
    obtain ⟨q1, q2, q3⟩ := hq
    have hlow := childStep_low_self e s.stk.length b hext
    have hle : vget (childStep node e s.stk.length s1).low_link node 0 ≤ vget s.low_link node 0 := by
      rw [hlow]; exact min_le_left _ _
    have hle2 : vget (childStep node e s.stk.length s1).low_link node 0 ≤
        vget s1.low_link e.node 0 := by
      rw [hlow]; exact min_le_right _ _
    have hep : ¬ (e.node : Int) = parent := by
      intro hep
      have hp0 : 0 ≤ parent := by rw [← hep]; exact Int.ofNat_nonneg _
      have hpv := hpS.2.2.1 hp0
      have hnat : parent.toNat = e.node := by rw [← hep]; simp
      rw [hnat] at hpv
      rw [b.ext.vis _ hpv] at hv
      exact absurd hv (by simp)
    rw [if_neg hep]
    refine ⟨by rw [cnt_append_singleton, if_neg hep, i1], ?_, ?_, ?_, ?_⟩
    · intro x hx hx0 hne e2 he2 hv2
      rw [childStep_vis] at hx
      rcases vis_cases s x with hxs | hxs
      · exact le_trans hle (i2 x hxs hx0 hne e2 he2 hv2)
      · rcases q1 x hx hxs e2 (by rw [b.ext.adj]; exact he2) (b.ext.vis _ hv2) with h | h
        · exfalso
          have : e2.node = node := by exact_mod_cast h.2
          rw [this, b.fresh] at hv2
          exact absurd hv2 (by simp)
        · rw [b.ext.ts _ hv2] at h
          exact le_trans hle2 h
    · intro e2 he2 hv2
      rcases List.mem_append.mp he2 with he2 | he2
      · rcases i3 e2 he2 hv2 with h | h
        · exact Or.inl h
        · exact Or.inr (le_trans hle h)
      · rw [List.mem_singleton.mp he2] at hv2
        rw [b.ext.vis _ hv2] at hv
        exact absurd hv (by simp)
    · intro h2
      exact le_trans hle (i4 h2)
    · rw [childStep_tour_start, childStep_vis, hext.ts _ b.vis]
      by_cases hmin : vget s.low_link node 0 ≤ vget s1.low_link e.node 0
      · rw [hlow, min_eq_left hmin]
        rcases i5 with h | ⟨x, e2, h1, h2, h3, h4, h5, h6, h7⟩
        · exact Or.inl h
        · exact Or.inr ⟨x, e2, hext.vis _ h1, h2, h3, h4, h5, h6,
            fun hx => List.mem_append_left _ (h7 hx)⟩
      · have hmin2 : vget s1.low_link e.node 0 < vget s.low_link node 0 := not_le.mp hmin
        have hlown := a1.low_le node b.vis
        have htsn := a1.lt node b.vis
        right
        rcases q3 with h | ⟨x, e2, h1, h2, h3, h4, h5, _⟩
        · exfalso
          rw [hqS.2.1] at h
          omega
        · have hv0 : vget s0.vis e2.node false = true := by
            rcases vis_cases s0 e2.node with h | h
            · exact h
            · have := a3 e2.node h4 h
              omega
          have hxne : x ≠ node := fun hh => by
            rw [hh, b.vis] at h2
            exact absurd h2 (by simp)
          refine ⟨x, e2, h1, not_vis_of_ext b.ext h2, by rw [← b.ext.adj]; exact h3, hv0, ?_,
            Or.inl hxne, fun hh => absurd hh hxne⟩
          rw [hlow, min_eq_right (le_of_lt hmin2), h5, b.ext.ts _ hv0]
  leave := by
    intro node parent s0 pc ch s b _ _ _ _ hI
    obtain ⟨i1, i2, i3, i4, i5⟩ := hI
    refine ⟨?_, ?_, ?_⟩
    · intro x hx hx0 e he hv
      rw [leave_vis] at hx
      rw [leave_low_link]
      by_cases hxn : x = node
      · subst hxn
        rcases i3 e he hv with h | h
        · exact Or.inl ⟨rfl, h⟩
        · exact Or.inr h
      · exact Or.inr (i2 x hx hx0 hxn e he hv)
    · intro h2
      rw [leave_low_link]
      exact i4 (by rw [i1]; exact h2)
    · rw [leave_low_link, leave_tour_start, leave_vis]
      rcases i5 with h | ⟨x, e2, h1, h2, h3, h4, h5, h6, _⟩
      · exact Or.inl h
      · refine Or.inr ⟨x, e2, h1, h2, h3, h4, h5, ?_⟩
        rw [← i1]
        exact h6

end Bicomps

namespace Bicomps

/-! ## Layer K is kept by every step -/

theorem inComps_mono {s s1 : bicomps} (h : s.comps <+: s1.comps) {x : Nat} (hx : inComps s x) :
    inComps s1 x := by
  obtain ⟨c, hc, hxc⟩ := hx
  exact ⟨c, h.subset hc, hxc⟩

/-- A visited vertex with an unvisited neighbour is not closed; stated from the
side of the unvisited vertex, using the symmetry of the adjacency lists. -/
theorem not_closed_of_entry {s : bicomps} (hg : GraphInv s.adj) {x : Nat} {e : edge}
    (he : e ∈ vget s.adj x []) (hx : vget s.vis x false = false) : ¬ Closed s e.node := by
  intro hc
  have h1 : joins s.adj e.index x e.node := he
  have h2 := hg.sym _ _ _ h1
  have := hc _ h2
  simp only at this
  rw [hx] at this
  exact absurd this (by simp)

/-- In a call for a tree root every visited vertex of the entry state is closed,
so no entry leads from a fresh vertex to a vertex visited before the call. -/
theorem root_no_old_neighbour {s0 : bicomps} {v : Nat} {parent : Int}
    (hp : specS.pre v parent s0)
    (hneg : parent < 0) {x : Nat} {e : edge} (he : e ∈ vget s0.adj x [])
    (hx : vget s0.vis x false = false) : vget s0.vis e.node false = false := by
  rcases vis_cases s0 e.node with h | h
  · exfalso
    have hnc := not_closed_of_entry hp.1 he hx
    have := (hp.2.2.2 e.node h hnc).1
    omega
  · exact h

theorem drop_eq_of_append {α : Type} (a t : List α) : (a ++ t).drop a.length = t :=
  List.drop_left a t

/-- The low-link of a finished child is its own tour number or the tour number
of a vertex that was visited before the call and is not closed there, hence no
later than the parent. -/
theorem child_low_cases {c node : Nat} {s s1 : bicomps} (hcS : specS.pre c node s)
    (hqL : specL.post c node s s1) :
    vget s1.low_link c 0 = vget s1.tour_start c 0 ∨
      ∃ y, vget s.vis y false = true ∧ ¬ Closed s y ∧
        vget s1.low_link c 0 = vget s.tour_start y 0 ∧
        vget s.tour_start y 0 ≤ vget s.tour_start node 0 := by
  rcases hqL.2.2 with h | ⟨x, e, _, h2, h3, h4, h5, _⟩
  · exact Or.inl h
  · right
    have hnc := not_closed_of_entry hcS.1 h3 h2
    have := (hcS.2.2.2 e.node h4 hnc).2
    simp only [Int.toNat_ofNat] at this
    exact ⟨e.node, h4, hnc, h5, this⟩

/-- Inside a call for a tree root the only visited vertex that is not closed is
the root itself. -/
theorem root_frontier {node : Nat} {parent : Int} {s0 s : bicomps} (b : Basic node s0 s)
    (hpS : specS.pre node parent s0) (hneg : parent < 0)
    (a4 : ∀ x, vget s.vis x false = true → vget s0.vis x false = false → x ≠ node → Closed s x)
    {y : Nat} (hy : vget s.vis y false = true) (hnc : ¬ Closed s y) : y = node := by
  by_contra hne
  rcases vis_cases s0 y with h | h
  · by_cases hc : Closed s0 y
    · exact hnc (closed_mono b.ext hc)
    · have := (hpS.2.2.2 y h hc).1
      omega
  · exact hnc (a4 y hy h hne)

theorem ts_child_gt {node c : Nat} {s0 s s1 : bicomps} (b : Basic node s0 s) (a1 : TsInv s)
    (hqS : specS.post c node s s1) :
    vget s.tour_start node 0 < vget s1.tour_start c 0 := by
  rw [hqS.2.1]
  exact a1.lt node b.vis

end Bicomps

namespace Bicomps

theorem inComps_visitedStep {node : Nat} {e : edge} {s : bicomps} {x : Nat} :
    inComps (visitedStep node e s) x ↔ inComps s x := by
  unfold inComps
  rw [visitedStep_comps]

theorem inComps_leave {node : Nat} {parent : Int} {ch : Nat} {s : bicomps} {x : Nat} :
    inComps (leave node parent ch s) x ↔ inComps s x := by
  unfold inComps
  rw [leave_comps]

theorem inComps_enter {node : Nat} {s : bicomps} {x : Nat} :
    inComps (enter node s) x ↔ inComps s x := by
  unfold inComps
  rw [enter_comps]

/-- The part of layer K that concerns a step into an already visited vertex. -/
theorem stepK_visited (node : Nat) (parent : Int) (s0 : bicomps) (done : List edge) (e : edge)
    (es : List edge) (pc ch : Nat) (s : bicomps) (b : Basic node s0 s)
    (hsplit : done ++ e :: es = vget s0.adj node [])
    (hpA : (specS.and specL).pre node parent s0)
    (hA : (specS.and specL).inv node parent s0 done (e :: es) pc ch s)
    (hI : specK.inv node parent s0 done (e :: es) pc ch s)
    (hv : vget s.vis e.node false = true) :
    specK.inv node parent s0 (done ++ [e]) es (if (e.node : Int) = parent then pc + 1 else pc) ch
      (visitedStep node e s) := by
  obtain ⟨⟨a1, a2, a3, a4, a5⟩, _⟩ := hA
  obtain ⟨k1, k2, k3, k4, k5, k6⟩ := hI
  obtain ⟨t, ht⟩ := b.ext.stk
  have hseg : s.stk.drop s0.stk.length = t := by rw [← ht, List.drop_left]
  have hlow := visitedStep_low_self (e := e) b
  have hseg2 : (visitedStep node e s).stk.drop s0.stk.length =
      if vget s.tour_start e.node 0 < vget s.tour_start node 0 then t ++ [node] else t := by
    rw [visitedStep_stk]
    split
    · rw [← ht, List.append_assoc, List.drop_left]
    · exact hseg
  rw [hseg] at k1 k2 k3
  refine ⟨?_, ?_, ?_, ?_, ?_, ?_⟩
  · intro x hx hx0 hne
    rw [hseg2]
    rcases k1 x (by simpa using hx) hx0 hne with h | h
    · exact Or.inl (inComps_visitedStep.mpr h)
    · right
      split
      · exact List.mem_append_left _ h
      · exact h
  · intro hlt
    rw [hseg2]
    rw [hlow, visitedStep_tour_start] at hlt
    split
    · simp
    · rename_i hc
      refine k2 ?_
      rcases min_lt_iff.mp hlt with h | h
      · exact h
      · exact absurd h hc
  · intro hne
    rw [hseg2] at hne
    rw [hlow, visitedStep_tour_start]
    split at hne
    · rename_i hc
      exact lt_of_le_of_lt (min_le_right _ _) hc
    · exact lt_of_le_of_lt (min_le_left _ _) (k3 hne)
  · intro hneg
    rw [visitedStep_stk, if_neg, k4 hneg]
    -- a root meets no vertex that was visited before it
    have hmem : e ∈ vget s0.adj node [] := by
      rw [← hsplit]; simp
    have h0 := root_no_old_neighbour hpA.1 hneg hmem b.fresh
    have := a3 e.node hv h0
    omega
  · intro hneg hch
    exact inComps_visitedStep.mpr (k5 hneg hch)
  · intro hch x hx hx0
    exact k6 hch x (by simpa using hx) hx0

/-- The part of layer K that concerns the return from a child. -/
theorem stepK_child (node : Nat) (parent : Int) (s0 : bicomps) (done : List edge) (e : edge)
    (es : List edge) (pc ch : Nat) (s s1 : bicomps) (b : Basic node s0 s)
    (hpA : (specS.and specL).pre node parent s0)
    (hA : (specS.and specL).inv node parent s0 done (e :: es) pc ch s)
    (hcA : (specS.and specL).pre e.node node s)
    (hqA : (specS.and specL).post e.node node s s1)
    (hI : specK.inv node parent s0 done (e :: es) pc ch s)
    (hv : vget s.vis e.node false = false) (hext : Ext s s1)
    (hv1 : vget s1.vis e.node false = true)
    (hq : specK.post e.node node s s1) :
    specK.inv node parent s0 (done ++ [e]) es (if (e.node : Int) = parent then pc + 1 else pc)
      (ch + 1) (childStep node e s.stk.length s1) := by
  obtain ⟨⟨a1, a2, a3, a4, a5⟩, _⟩ := hA
  obtain ⟨k1, k2, k3, k4, k5, k6⟩ := hI
  obtain ⟨q1, q2, q3, _⟩ := hq
  obtain ⟨t, ht⟩ := b.ext.stk
  obtain ⟨t1, ht1⟩ := hext.stk
  have hne := b.ne hv
  have hseg : s.stk.drop s0.stk.length = t := by rw [← ht, List.drop_left]
  have hsegc : s1.stk.drop s.stk.length = t1 := by rw [← ht1, List.drop_left]
  rw [hseg] at k1 k2 k3
  rw [hsegc] at q1 q2 q3
  have hlow := childStep_low_self e s.stk.length b hext
  have hts : vget s1.tour_start node 0 = vget s.tour_start node 0 := hext.ts _ b.vis
  have hgt := ts_child_gt b a1 hqA.1
  have hlown := a1.low_le node b.vis
  have hcases := child_low_cases hcA.1 hqA.2
  have hvis_old : ∀ x, vget s1.vis x false = true → vget s0.vis x false = false → x ≠ node →
      (vget s.vis x false = true ∧ (inComps s x ∨ x ∈ t)) ∨
      (vget s.vis x false = false ∧ (x = e.node ∨ inComps s1 x ∨ x ∈ t1)) := by
    intro x hx hx0 hxn
    rcases vis_cases s x with hxs | hxs
    · exact Or.inl ⟨hxs, k1 x hxs hx0 hxn⟩
    · right
      refine ⟨hxs, ?_⟩
      by_cases hxc : x = e.node
      · exact Or.inl hxc
      · exact Or.inr (q1 x hx hxs hxc)
  rcases lt_trichotomy (vget s1.low_link e.node 0) (vget s.tour_start node 0) with hL | hL | hL
  · -- the child reaches above `node`: push `node`
    have hstk : (childStep node e s.stk.length s1).stk = s0.stk ++ (t ++ t1 ++ [node]) := by
      rw [childStep_stk _ _ _ _ hne, hts, if_neg (not_lt.mpr (le_of_lt hL)), if_neg (ne_of_lt hL),
        ← ht1, ← ht]
      simp
    have hcomps : (childStep node e s.stk.length s1).comps = s1.comps := by
      rw [childStep_comps _ _ _ _ hne, hts, if_neg (not_lt.mpr (le_of_lt hL)),
        if_neg (ne_of_lt hL)]
    have hc2 : vget s1.low_link e.node 0 < vget s1.tour_start e.node 0 := by omega
    have hcin := q2 hc2
    have hroot : ¬ parent < 0 := by
      intro hneg
      rcases hcases with h | ⟨y, hy, hnc, h5, _⟩
      · omega
      · have := root_frontier b hpA.1 hneg a4 hy hnc
        rw [this] at h5
        omega
    have hdrop : (childStep node e s.stk.length s1).stk.drop s0.stk.length = t ++ t1 ++ [node] := by
      rw [hstk, List.drop_left]
    refine ⟨?_, ?_, ?_, fun hneg => absurd hneg hroot, fun hneg => absurd hneg hroot,
      fun h => by omega⟩
    · intro x hx hx0 hxn
      rw [childStep_vis] at hx
      rw [hdrop]
      unfold inComps
      rw [hcomps]
      rcases hvis_old x hx hx0 hxn with ⟨_, h | h⟩ | ⟨_, h | h | h⟩
      · exact Or.inl (inComps_mono hext.comps h)
      · right; simp [h]
      · right; rw [h]; simp [hcin]
      · exact Or.inl h
      · right; simp [h]
    · intro _; rw [hdrop]; simp
    · intro _
      rw [hlow, childStep_tour_start, hts]
      exact lt_of_le_of_lt (min_le_right _ _) hL
  · -- `node` is the root of a biconnected component: emit the stack segment
    have hstk : (childStep node e s.stk.length s1).stk = s.stk := by
      rw [childStep_stk _ _ _ _ hne, hts, if_neg (by omega), if_pos hL,
        resize_take_stk _ _ hext.stk]
    have hcomps : (childStep node e s.stk.length s1).comps =
        s1.comps ++ [unique (sort (t1 ++ [node]))] := by
      rw [childStep_comps _ _ _ _ hne, hts, if_neg (by omega), if_pos hL, ← ht1,
        List.append_assoc, List.drop_left]
    have hnew : ∀ x, x ∈ t1 ++ [node] → inComps (childStep node e s.stk.length s1) x := by
      intro x hx
      refine ⟨unique (sort (t1 ++ [node])), by rw [hcomps]; simp, ?_⟩
      rw [mem_unique, mem_sort]
      exact hx
    have hold : ∀ x, inComps s1 x → inComps (childStep node e s.stk.length s1) x := by
      intro x hx
      exact inComps_mono (by rw [hcomps]; exact List.prefix_append _ _) hx
    have hc2 : vget s1.low_link e.node 0 < vget s1.tour_start e.node 0 := by omega
    have hcin := q2 hc2
    have hdrop : (childStep node e s.stk.length s1).stk.drop s0.stk.length = t := by
      rw [hstk, hseg]
    refine ⟨?_, ?_, ?_, ?_, ?_, fun h => by omega⟩
    · intro x hx hx0 hxn
      rw [childStep_vis] at hx
      rw [hdrop]
      rcases hvis_old x hx hx0 hxn with ⟨_, h | h⟩ | ⟨_, h | h | h⟩
      · exact Or.inl (hold x (inComps_mono hext.comps h))
      · exact Or.inr h
      · exact Or.inl (hnew x (by rw [h]; simp [hcin]))
      · exact Or.inl (hold x h)
      · exact Or.inl (hnew x (by simp [h]))
    · intro hlt
      rw [hdrop]
      rw [hlow, childStep_tour_start, hts, hL, min_eq_left hlown] at hlt
      exact k2 hlt
    · intro hne2
      rw [hdrop] at hne2
      rw [hlow, childStep_tour_start, hts, hL, min_eq_left hlown]
      exact k3 hne2
    · intro hneg
      exact (hstk.trans (k4 hneg))
    · intro _ _
      exact hnew node (by simp)
  · -- the edge to the child is a bridge
    have ht1nil : t1 = [] := by
      by_contra hne2
      have h3 := q3 hne2
      rcases hcases with h | ⟨y, _, _, h5, h6⟩
      · omega
      · omega
    have hstk : (childStep node e s.stk.length s1).stk = s.stk := by
      rw [childStep_stk _ _ _ _ hne, hts, if_pos hL, ← ht1, ht1nil, List.append_nil]
    have hcomps : (childStep node e s.stk.length s1).comps = s1.comps ++ [sort [node, e.node]] := by
      rw [childStep_comps _ _ _ _ hne, hts, if_pos hL]
    have hnew : ∀ x, x = node ∨ x = e.node → inComps (childStep node e s.stk.length s1) x := by
      intro x hx
      refine ⟨sort [node, e.node], by rw [hcomps]; simp, ?_⟩
      rw [mem_sort]
      simpa using hx
    have hold : ∀ x, inComps s1 x → inComps (childStep node e s.stk.length s1) x := by
      intro x hx
      exact inComps_mono (by rw [hcomps]; exact List.prefix_append _ _) hx
    have hdrop : (childStep node e s.stk.length s1).stk.drop s0.stk.length = t := by
      rw [hstk, hseg]
    refine ⟨?_, ?_, ?_, ?_, ?_, fun h => by omega⟩
    · intro x hx hx0 hxn
      rw [childStep_vis] at hx
      rw [hdrop]
      rcases hvis_old x hx hx0 hxn with ⟨_, h | h⟩ | ⟨_, h | h | h⟩
      · exact Or.inl (hold x (inComps_mono hext.comps h))
      · exact Or.inr h
      · exact Or.inl (hnew x (Or.inr h))
      · exact Or.inl (hold x h)
      · rw [ht1nil] at h
        exact absurd h (List.not_mem_nil _)
    · intro hlt
      rw [hdrop]
      rw [hlow, childStep_tour_start, hts, min_eq_left (by omega)] at hlt
      exact k2 hlt
    · intro hne2
      rw [hdrop] at hne2
      rw [hlow, childStep_tour_start, hts, min_eq_left (by omega)]
      exact k3 hne2
    · intro hneg
      exact (hstk.trans (k4 hneg))
    · intro _ _
      exact hnew node (Or.inl rfl)

end Bicomps

namespace Bicomps

/-- Layer K holds along every run of `dfs`, on top of layers S and L. -/
theorem stepK : Step (specS.and specL) specK where
  enter := by
    intro node parent s b _ _ _
    have hnew : ∀ x, vget (enter node s).vis x false = true → vget s.vis x false = false →
        x = node := by
      intro x hx hx0
      rcases vis_enter_cases hx with h | h
      · exact h.symm
      · rw [h] at hx0; exact absurd hx0 (by simp)
    refine ⟨?_, ?_, ?_, fun _ => rfl, fun _ h => by omega, fun _ => hnew⟩
    · intro x hx hx0 hne
      exact absurd (hnew x hx hx0) hne
    · intro h
      rw [enter_ts_self b.ok b.lt, enter_low_self b.ok b.lt] at h
      omega
    · intro h
      rw [enter_stk, List.drop_length] at h
      exact absurd rfl h
  skip := by
    intro node parent s0 done e es pc ch s _ _ _ _ _ _ hI _ _
    exact hI
  visited := by
    intro node parent s0 done e es pc ch s b hsplit hpA _ hA _ hI _ hv
    exact stepK_visited node parent s0 done e es pc ch s b hsplit hpA hA hI hv
  call := by
    intro _ _ _ _ _ _ _ _ _ _ _ _ _ _ _ _ _ _
    trivial
  child := by
    intro node parent s0 done e es pc ch s s1 b _ hpA _ hA hcA hqA _ hI _ hv hext hv1 _ hq
    exact stepK_child node parent s0 done e es pc ch s s1 b hpA hA hcA hqA hI hv hext hv1 hq
  leave := by
    intro node parent s0 pc ch s b hpA hA _ _ hI
    obtain ⟨⟨_, _, _, _, a5⟩, _⟩ := hA
    obtain ⟨k1, k2, k3, k4, k5, k6⟩ := hI
    refine ⟨?_, ?_, ?_, ?_⟩
    · intro x hx hx0 hne
      rw [leave_vis] at hx
      rw [leave_stk]
      rcases k1 x hx hx0 hne with h | h
      · exact Or.inl (inComps_leave.mpr h)
      · exact Or.inr h
    · intro h
      rw [leave_low_link, leave_tour_start] at h
      rw [leave_stk]
      exact k2 h
    · intro h
      rw [leave_stk] at h
      rw [leave_low_link, leave_tour_start]
      exact k3 h
    · intro hneg
      refine ⟨by rw [leave_stk]; exact k4 hneg, ?_⟩
      rintro ⟨e, he, hen⟩
      rw [inComps_leave]
      refine k5 hneg ?_
      by_contra hch
      have h0 := root_no_old_neighbour hpA.1 hneg he b.fresh
      have := k6 (by omega) e.node (a5 e he) h0
      exact hen this

/-- Layers S, L and K together. -/
theorem stepSLK : Step Spec.top ((specS.and specL).and specK) :=
  (stepS.seq stepL).seq stepK

end Bicomps

namespace Bicomps

/-! ## From the layers to `build` -/

theorem TopS.pre {s : bicomps} (h : TopS s) (v : Nat) : specS.pre v (-1) s :=
  ⟨h.graph, h.ts, fun h0 => absurd h0 (by omega), fun y hy hnc => absurd (h.closed y hy) hnc⟩

theorem TopS.post {s s1 : bicomps} (h : TopS s) (hext : Ext s s1) {v : Nat}
    (hq : specS.post v (-1) s s1) : TopS s1 := by
  refine ⟨by rw [hext.adj]; exact h.graph, hq.1, ?_⟩
  intro y hy
  rcases vis_cases s y with hys | hys
  · exact closed_mono hext (h.closed y hys)
  · exact (hq.2.2 y hy hys).2

theorem TopS.reset (g : bicomps) (hg : GraphInv g.adj) : TopS (reset g) := by
  refine ⟨hg, ⟨?_, ?_, ?_⟩, ?_⟩
  · intro x hx; rw [reset_vis] at hx; exact absurd hx (by simp)
  · intro x _ hx; rw [reset_vis] at hx; exact absurd hx (by simp)
  · intro x hx; rw [reset_vis] at hx; exact absurd hx (by simp)
  · intro x hx; rw [reset_vis] at hx; exact absurd hx (by simp)

theorem topK_step {s s1 : bicomps} {i : Nat} {fuel : Nat} (h : TopK s) (hok : s.ok)
    (hi : i < s.n) (hrun : dfs fuel i (-1) s = some s1) : TopK s1 := by
  have hext := (dfs_ext fuel i (-1) s s1 hok hi hrun).1
  have hq := stepSLK.sound fuel i (-1) s s1 hok hi ⟨⟨h.top.pre i, trivial⟩, trivial⟩ hrun
  obtain ⟨⟨hqS, _⟩, k1, _, _, k4⟩ := hq
  have hstk : s1.stk = [] := by
    rw [(k4 (by omega)).1]; exact h.stk
  refine ⟨h.top.post hext hqS, hstk, ?_⟩
  intro x hx hex
  rcases vis_cases s x with hxs | hxs
  · exact inComps_mono hext.comps (h.cov x hxs (by rw [← hext.adj]; exact hex))
  · by_cases hxi : x = i
    · subst hxi
      exact (k4 (by omega)).2 (by rw [← hext.adj]; exact hex)
    · rcases k1 x hx hxs hxi with h1 | h1
      · exact h1
      · rw [hstk] at h1
        simp at h1

/-- After `build` every vertex that has an adjacency entry to another vertex is
in some component. -/
theorem build_covers (g : bicomps) (root : Int) (r : bicomps) (hwf : g.wf)
    (hg : GraphInv g.adj) (h : g.build root = some r) :
    ∀ x < g.n, (∃ e ∈ vget g.adj x [], e.node ≠ x) → inComps r x := by
  have := build_rule (P := TopK) g root r hwf
    ⟨TopS.reset g hg, rfl, fun x hx => by rw [reset_vis] at hx; exact absurd hx (by simp)⟩
    (fun s i s1 hP hok hi _ hc => topK_step hP hok hi hc) h
  intro x hx hex
  have hadj : r.adj = g.adj := this.2.1.adj
  exact this.1.cov x (this.2.2 x hx) (by rw [hadj]; exact hex)

/-- Claim C4, amended: for every graph built by `init` and `add_edge` calls with
endpoints below `n` and every root argument, `build(root)` returns, and every
vertex that is an endpoint of an edge whose other endpoint is a different
vertex is a member of at least one vector in `comps`. -/
theorem joined_vertex_covered (s0 : bicomps) (n mh : Nat) (es : List (Nat × Nat))
    (root : Int) (hes : ∀ e ∈ es, e.1 < n ∧ e.2 < n) :
    ∃ r, ((s0.init n mh).add_edges es).build root = some r ∧
      ∀ v, (∃ e ∈ es, (e.1 = v ∧ e.2 ≠ v) ∨ (e.2 = v ∧ e.1 ≠ v)) → ∃ c ∈ r.comps, v ∈ c := by
  have hwf := built_wf s0 n mh es hes
  obtain ⟨r, hr⟩ := build_total _ root hwf
  refine ⟨r, hr, ?_⟩
  rintro v ⟨e, he, hev⟩
  obtain ⟨k, hk, hke⟩ := List.getElem_of_mem he
  have hk2 : es[k]? = some e := by rw [List.getElem?_eq_getElem hk, hke]
  have hvn : v < n := by
    rcases hev with h | h
    · rw [← h.1]; exact (hes e he).1
    · rw [← h.1]; exact (hes e he).2
  refine build_covers _ root r hwf (built_graphInv s0 n mh es hes) hr v
    (by rw [built_n]; exact hvn) ?_
  rw [built_adj s0 n mh es hes]
  obtain ⟨a, b⟩ := e
  rcases hev with ⟨h1, h2⟩ | ⟨h1, h2⟩
  · simp only at h1 h2
    subst h1
    exact ⟨⟨b, mh + k⟩, (mem_adjOf es mh a _).mpr ⟨k, rfl, Or.inl hk2⟩, h2⟩
  · simp only at h1 h2
    subst h1
    exact ⟨⟨a, mh + k⟩, (mem_adjOf es mh b _).mpr ⟨k, rfl, Or.inr hk2⟩, h2⟩

theorem joined_vertex_covered_witness :
    (∀ e ∈ [((0 : Nat), (1 : Nat)), (1, 2), (2, 0), (2, 3)], e.1 < 5 ∧ e.2 < 5) ∧
    ∃ r, ((bicomps.fresh.init 5 0).add_edges [(0, 1), (1, 2), (2, 0), (2, 3)]).build (-1) = some r ∧
      ∀ v, (∃ e ∈ [((0 : Nat), (1 : Nat)), (1, 2), (2, 0), (2, 3)],
        (e.1 = v ∧ e.2 ≠ v) ∨ (e.2 = v ∧ e.1 ≠ v)) → ∃ c ∈ r.comps, v ∈ c :=
  ⟨by decide, joined_vertex_covered bicomps.fresh 5 0 [(0, 1), (1, 2), (2, 0), (2, 3)] (-1)
    (by decide)⟩

end Bicomps

namespace Bicomps

/-! ## Layer C is kept by every step -/

theorem ReachIn.mono {adj : List (List edge)} {P Q : Nat → Prop} (h : ∀ z, P z → Q z)
    {a b : Nat} (hr : ReachIn adj P a b) : ReachIn adj Q a b :=
  Relation.ReflTransGen.mono (fun _ _ hs => ⟨h _ hs.1, h _ hs.2.1, hs.2.2⟩) hr

theorem mem_joins {adj : List (List edge)} {x : Nat} {e : edge} (he : e ∈ vget adj x []) :
    joins adj e.index x e.node := he

/-- Layer C holds along every run of `dfs`, on top of layers S and L. -/
theorem stepC : Step (specS.and specL) specC where
  enter := by
    intro node parent s b _ _ _ x hx hx0
    rcases vis_enter_cases hx with h | h
    · rw [h]; exact Relation.ReflTransGen.refl
    · rw [h] at hx0; exact absurd hx0 (by simp)
  skip := by
    intro node parent s0 done e es pc ch s _ _ _ _ _ _ hI _ _
    exact hI
  visited := by
    intro node parent s0 done e es pc ch s _ _ _ _ _ _ hI _ _ x hx hx0
    rw [visitedStep_vis] at hx
    have := hI x hx hx0
    simpa only [visitedStep_vis] using this
  call := by
    intro node parent s0 done e es pc ch s b hsplit hpA hpC hA _ hI _ hv _
    obtain ⟨⟨a1, a2, a3, a4, a5⟩, _⟩ := hA
    have hmem : e ∈ vget s0.adj node [] := by rw [← hsplit]; simp
    simp only [Int.toNat_ofNat]
    refine ⟨⟨e.index, by rw [b.ext.adj]; exact hmem⟩, ?_⟩
    intro y hy hnc
    rcases vis_cases s0 y with hy0 | hy0
    · have hnc0 : ¬ Closed s0 y := fun hc => hnc (closed_mono b.ext hc)
      have hp0 := (hpA.1.2.2.2 y hy0 hnc0).1
      obtain ⟨⟨j, hj⟩, hreach⟩ := hpC hp0
      have h1 := hreach y hy0 hnc0
      rw [b.ext.adj]
      refine Relation.ReflTransGen.tail (ReachIn.mono (fun z hz => b.ext.vis z hz) h1) ?_
      exact ⟨b.ext.vis _ (hpA.1.2.2.1 hp0), b.vis, j, hj⟩
    · by_cases hyn : y = node
      · rw [hyn]; exact Relation.ReflTransGen.refl
      · exact absurd (a4 y hy hy0 hyn) hnc
  child := by
    intro node parent s0 done e es pc ch s s1 b hsplit _ _ _ _ _ _ hI _ hv hext hv1 _ hq x hx hx0
    rw [childStep_vis] at hx
    simp only [childStep_vis]
    have hmem : e ∈ vget s0.adj node [] := by rw [← hsplit]; simp
    rcases vis_cases s x with hxs | hxs
    · exact ReachIn.mono (fun z hz => ⟨hext.vis z hz.1, hz.2⟩) (hI x hxs hx0)
    · have h1 := hq x hx hxs
      rw [b.ext.adj] at h1
      refine Relation.ReflTransGen.head ?_
        (ReachIn.mono (fun z hz => ⟨hz.1, not_vis_of_ext b.ext hz.2⟩) h1)
      exact ⟨⟨hext.vis _ b.vis, b.fresh⟩, ⟨hv1, not_vis_of_ext b.ext hv⟩, e.index, hmem⟩
  leave := by
    intro node parent s0 pc ch s _ _ _ _ _ hI x hx hx0
    rw [leave_vis] at hx
    have := hI x hx hx0
    simpa only [leave_vis] using this

end Bicomps

namespace Bicomps

/-! ## Facts about paths and adjacency lists used for the bridge flags -/

theorem stepAvoidE_symm {adj : List (List edge)} (hg : GraphInv adj) (i : Nat) :
    Symmetric (stepAvoidE adj i) := by
  rintro x y ⟨k, hk, hj⟩
  exact ⟨k, hk, hg.sym _ _ _ hj⟩

theorem ReachAvoidE.symm {adj : List (List edge)} (hg : GraphInv adj) {i a b : Nat}
    (h : ReachAvoidE adj i a b) : ReachAvoidE adj i b a :=
  Relation.ReflTransGen.symmetric (stepAvoidE_symm hg i) h

theorem reachAvoidE_trans {adj : List (List edge)} {i a b c : Nat}
    (h1 : ReachAvoidE adj i a b) (h2 : ReachAvoidE adj i b c) : ReachAvoidE adj i a c :=
  Relation.ReflTransGen.trans h1 h2

theorem ReachAvoidE.single {adj : List (List edge)} {i k a b : Nat} (hk : k ≠ i)
    (hj : joins adj k a b) : ReachAvoidE adj i a b :=
  Relation.ReflTransGen.single ⟨k, hk, hj⟩

/-- A path through vertices satisfying `P` avoids every edge that has an
endpoint outside `P`. -/
theorem ReachIn.avoid {adj : List (List edge)} (hg : GraphInv adj) {P : Nat → Prop}
    {i u w : Nat} (hj : joins adj i u w) (hu : ¬ P u) {a b : Nat} (h : ReachIn adj P a b) :
    ReachAvoidE adj i a b := by
  refine Relation.ReflTransGen.mono ?_ h
  rintro x y ⟨hx, hy, k, hk⟩
  refine ⟨k, ?_, hk⟩
  intro hki
  subst hki
  rcases hg.ends _ _ _ _ _ hj hk with ⟨h1, _⟩ | ⟨_, h2⟩
  · rw [h1] at hx; exact hu hx
  · rw [h2] at hy; exact hu hy

/-- A set closed under the steps of a relation is closed under its paths. -/
theorem closed_under_reach {R : Nat → Nat → Prop} {P : Nat → Prop}
    (hc : ∀ x y, P x → R x y → P y) {a b : Nat} (h : Relation.ReflTransGen R a b) (ha : P a) :
    P b := by
  induction h with
  | refl => exact ha
  | tail _ hs ih => exact hc _ _ ih hs

theorem cnt_pos_mem {l : List edge} {p : Int} (h : 1 ≤ cnt l p) :
    ∃ e ∈ l, (e.node : Int) = p := by
  unfold cnt at h
  obtain ⟨e, he, hp⟩ := List.countP_pos.mp h
  exact ⟨e, he, by simpa using hp⟩

theorem two_le_cnt {l : List edge} {p : Int} {e1 e2 : edge} (h1 : e1 ∈ l) (h2 : e2 ∈ l)
    (hne : e1 ≠ e2) (hp1 : (e1.node : Int) = p) (hp2 : (e2.node : Int) = p) : 2 ≤ cnt l p := by
  unfold cnt
  rw [List.countP_eq_length_filter]
  have m1 : e1 ∈ l.filter (fun e => decide ((e.node : Int) = p)) :=
    List.mem_filter.mpr ⟨h1, by simpa using hp1⟩
  have m2 : e2 ∈ l.filter (fun e => decide ((e.node : Int) = p)) :=
    List.mem_filter.mpr ⟨h2, by simpa using hp2⟩
  generalize l.filter (fun e => decide ((e.node : Int) = p)) = f at m1 m2
  match f, m1, m2 with
  | [], m1, _ => exact absurd m1 (List.not_mem_nil _)
  | [a], m1, m2 =>
    rw [List.mem_singleton] at m1 m2
    exact absurd (m1.trans m2.symm) hne
  | _ :: _ :: _, _, _ => simp

/-- With two entries to `p` in a duplicate-free adjacency list there is one
whose index differs from any given index. -/
theorem other_entry {l : List edge} {x : Nat} {p : Nat}
    (hnd : (l.filter (fun e => decide (e.node ≠ x))).Nodup) (hpx : p ≠ x)
    (h : 2 ≤ cnt l (p : Int)) (i : Nat) : ∃ e ∈ l, e.node = p ∧ e.index ≠ i := by
  unfold cnt at h
  rw [List.countP_eq_length_filter] at h
  have hsub : List.Sublist (l.filter (fun e => decide ((e.node : Int) = (p : Int))))
      (l.filter (fun e => decide (e.node ≠ x))) := by
    have : l.filter (fun e => decide ((e.node : Int) = (p : Int))) =
        (l.filter (fun e => decide (e.node ≠ x))).filter
          (fun e => decide ((e.node : Int) = (p : Int))) := by
      rw [List.filter_filter]
      apply List.filter_congr
      intro e _
      by_cases hep : e.node = p
      · simp [hep, hpx]
      · have : ¬ ((e.node : Int) = (p : Int)) := fun hh => hep (by exact_mod_cast hh)
        simp [this]
    rw [this]
    exact List.filter_sublist _
  have hnd2 := List.Nodup.sublist hsub hnd
  have hmem : ∀ e, e ∈ l.filter (fun e => decide ((e.node : Int) = (p : Int))) →
      e ∈ l ∧ e.node = p := by
    intro e he
    have := List.mem_filter.mp he
    exact ⟨this.1, by exact_mod_cast (by simpa using this.2 : (e.node : Int) = (p : Int))⟩
  generalize l.filter (fun e => decide ((e.node : Int) = (p : Int))) = f at h hnd2 hmem
  match f, h, hnd2, hmem with
  | [], h, _, _ => simp at h
  | [_], h, _, _ => simp at h
  | a :: c :: _, _, hnd2, hmem =>
    have hac : a ≠ c := by
      intro hac
      subst hac
      simp at hnd2
    have ha := hmem a (by simp)
    have hc := hmem c (by simp)
    by_cases hai : a.index = i
    · refine ⟨c, hc.1, hc.2, ?_⟩
      intro hci
      apply hac
      cases a; cases c
      simp only at hai hci ha hc
      simp only [edge.mk.injEq]
      exact ⟨ha.2.trans hc.2.symm, hai.trans hci.symm⟩
    · exact ⟨a, ha.1, ha.2, hai⟩

/-- An entry to another vertex does not occur twice in an adjacency list. -/
theorem entry_not_twice {done es : List edge} {e e2 : edge} {x : Nat}
    (hnd : ((done ++ e :: es).filter (fun e => decide (e.node ≠ x))).Nodup)
    (hex : e.node ≠ x) (h2 : e2 ∈ done) : e2 ≠ e := by
  intro heq
  subst heq
  rw [List.filter_append, List.filter_cons_of_pos (by simpa using hex)] at hnd
  have := (List.nodup_append.mp hnd).2.2
  exact this (List.mem_filter.mpr ⟨h2, by simpa using hex⟩) (List.mem_cons_self _ _)

end Bicomps

namespace Bicomps

/-! ## Layer B is kept by every step -/

theorem resE_congr {s s2 : bicomps} (hadj : s2.adj = s.adj)
    (hflag : ∀ i, vget s2.is_bridge i false = false → vget s.is_bridge i false = false)
    {x : Nat} {e : edge} (h : ResE s x e) : ResE s2 x e := by
  intro hf
  rw [hadj]
  exact h (hflag _ hf)

theorem flag_false_of_set {l : List Bool} {i j : Nat} (h : vget (l.set i true) j false = false) :
    vget l j false = false := by
  rw [vget_set] at h
  split at h
  · exact absurd h (by simp)
  · exact h

theorem flag_true_of_set {l : List Bool} {i j : Nat} (h : vget (l.set i true) j false = true) :
    j = i ∨ vget l j false = true := by
  rw [vget_set] at h
  split at h
  · rename_i hc
    exact Or.inl hc.1.symm
  · exact Or.inr h

theorem childStep_flag_false {node : Nat} {e : edge} {size : Nat} {s : bicomps}
    (hne : node ≠ e.node) {i : Nat}
    (h : vget (childStep node e size s).is_bridge i false = false) :
    vget s.is_bridge i false = false := by
  rw [childStep_is_bridge _ _ _ _ hne] at h
  split at h
  · exact flag_false_of_set h
  · exact h

theorem bridgeSound_congr {s s2 : bicomps} (hadj : s2.adj = s.adj)
    (hflag : s2.is_bridge = s.is_bridge) (h : BridgeSound s) : BridgeSound s2 := by
  intro i hi
  rw [hadj]
  rw [hflag] at hi
  exact h i hi

/-- The part of layer B that concerns a step into an already visited vertex:
the entry met is resolved. -/
theorem stepB_visited (node : Nat) (parent : Int) (s0 : bicomps) (done : List edge) (e : edge)
    (es : List edge) (pc ch : Nat) (s : bicomps) (b : Basic node s0 s)
    (hsplit : done ++ e :: es = vget s0.adj node [])
    (hpA : ((specS.and specL).and specC).pre node parent s0)
    (hA : ((specS.and specL).and specC).inv node parent s0 done (e :: es) pc ch s)
    (hI : specB.inv node parent s0 done (e :: es) pc ch s)
    (hns : ¬((e.node : Int) = parent ∧ pc = 0))
    (hv : vget s.vis e.node false = true) : ResE s node e := by
  obtain ⟨⟨⟨a1, a2, a3, a4, a5⟩, l1, _⟩, _⟩ := hA
  obtain ⟨i1, i2, i3⟩ := hI
  obtain ⟨⟨hpS, _⟩, hpC⟩ := hpA
  have hg0 : GraphInv s0.adj := hpS.1
  have hg : GraphInv s.adj := by rw [b.ext.adj]; exact hg0
  have hmem : e ∈ vget s0.adj node [] := by rw [← hsplit]; simp
  have hj : joins s0.adj e.index node e.node := hmem
  intro hflag
  rw [b.ext.adj]
  by_cases hyn : e.node = node
  · rw [hyn]; exact Relation.ReflTransGen.refl
  rcases vis_cases s0 e.node with hy0 | hy0
  · by_cases hyp : (e.node : Int) = parent
    · -- a second entry to the parent: the first one is another edge
      have hpc : 1 ≤ cnt done parent := by
        have : pc ≠ 0 := fun h => hns ⟨hyp, h⟩
        omega
      obtain ⟨e2, he2, he2p⟩ := cnt_pos_mem hpc
      have hnode : e2.node = e.node := by
        have : (e2.node : Int) = (e.node : Int) := he2p.trans hyp.symm
        exact_mod_cast this
      have hnd := hg0.nodup node
      rw [← hsplit] at hnd
      have hne2 := entry_not_twice hnd hyn he2
      have hidx : e2.index ≠ e.index := by
        intro hh
        apply hne2
        cases e2; cases e
        simp only at hnode hh
        simp only [edge.mk.injEq]
        exact ⟨hnode, hh⟩
      have hj2 : joins s0.adj e2.index node e2.node := by
        show e2 ∈ vget s0.adj node []
        rw [← hsplit]
        exact List.mem_append_left _ he2
      rw [hnode] at hj2
      exact ReachAvoidE.single hidx hj2
    · -- a back edge to a proper ancestor: go through the parent
      have hnc0 : ¬ Closed s0 e.node := not_closed_of_entry hg0 hmem b.fresh
      have hp0 := (hpS.2.2.2 e.node hy0 hnc0).1
      obtain ⟨⟨j, hjp⟩, hreach⟩ := hpC hp0
      have hr := hreach e.node hy0 hnc0
      have hpv := hpS.2.2.1 hp0
      have hpe : parent.toNat ≠ e.node := by
        intro hh
        apply hyp
        rw [← hh]
        omega
      have hji : j ≠ e.index := by
        intro hh
        subst hh
        rcases hg0.ends _ _ _ _ _ hj hjp with ⟨h1, _⟩ | ⟨h1, _⟩
        · rw [h1, b.fresh] at hpv; exact absurd hpv (by simp)
        · exact hpe h1
      have h1 : ReachAvoidE s0.adj e.index e.node parent.toNat :=
        ReachIn.avoid hg0 hj (by simp [b.fresh]) hr
      have h2 : ReachAvoidE s0.adj e.index parent.toNat node := ReachAvoidE.single hji hjp
      exact (reachAvoidE_trans h1 h2).symm hg0
  · -- an edge to a vertex visited by this call: it was resolved from the other side
    have hj2 : joins s0.adj e.index e.node node := hg0.sym _ _ _ hj
    have := i2 e.node hv hy0 hyn ⟨node, e.index⟩ hj2 hflag
    rw [b.ext.adj] at this
    exact this.symm hg0

end Bicomps

namespace Bicomps

/-- After the return from a child whose low-link lies above the tour number of
`node`, the tree edge to the child is a bridge: the vertices visited by the
call cannot be left without it. -/
theorem tree_edge_is_bridge {node : Nat} {e : edge} {s0 s s1 : bicomps} (b : Basic node s0 s)
    (hg0 : GraphInv s0.adj) (hmem : e ∈ vget s0.adj node [])
    (hcS : specS.pre e.node node s) (hqS : specS.post e.node node s s1)
    (hqL : specL.post e.node node s s1)
    (hv : vget s.vis e.node false = false) (hext : Ext s s1)
    (hv1 : vget s1.vis e.node false = true)
    (hL : vget s.tour_start node 0 < vget s1.low_link e.node 0) :
    ¬ ReachAvoidE s0.adj e.index e.node node := by
  intro hreach
  have hj : joins s0.adj e.index node e.node := hmem
  have hjs : joins s0.adj e.index e.node node := hg0.sym _ _ _ hj
  have hgs : GraphInv s.adj := by rw [b.ext.adj]; exact hg0
  have key : ∀ x y, (vget s1.vis x false = true ∧ vget s.vis x false = false) →
      stepAvoidE s0.adj e.index x y →
      (vget s1.vis y false = true ∧ vget s.vis y false = false) := by
    rintro x y ⟨hx1, hx⟩ ⟨k, hk, hjk⟩
    have he2 : (⟨y, k⟩ : edge) ∈ vget s.adj x [] := by rw [b.ext.adj]; exact hjk
    have hy1 : vget s1.vis y false = true := by
      have hc := (hqS.2.2 x hx1 hx).2
      have := hc ⟨y, k⟩ (by rw [hext.adj]; exact he2)
      exact this
    refine ⟨hy1, ?_⟩
    rcases vis_cases s y with hy | hy
    · exfalso
      rcases hqL.1 x hx1 hx ⟨y, k⟩ he2 hy with ⟨hxc, hyn⟩ | hle
      · have hyn2 : y = node := by exact_mod_cast hyn
        subst hxc
        subst hyn2
        have h2 : 2 ≤ cnt (vget s.adj e.node []) (y : Int) :=
          two_le_cnt he2 (by rw [b.ext.adj]; exact hjs)
            (by intro hh; apply hk; simpa using congrArg edge.index hh) rfl rfl
        have := hqL.2.1 h2
        simp only [Int.toNat_ofNat] at this
        omega
      · have hnc := not_closed_of_entry hgs he2 hx
        have := (hcS.2.2.2 y hy hnc).2
        simp only [Int.toNat_ofNat] at this
        simp only at hle
        omega
    · exact hy
  have := closed_under_reach key hreach ⟨hv1, hv⟩
  rw [b.vis] at this
  exact absurd this.2 (by simp)

/-- After the return from a child whose low-link does not lie above the tour
number of `node`, the child is connected to `node` without the tree edge. -/
theorem tree_edge_not_bridge {node : Nat} {e : edge} {s0 s s1 : bicomps} (b : Basic node s0 s)
    (hg0 : GraphInv s0.adj) (hmem : e ∈ vget s0.adj node []) (a1 : TsInv s)
    (hcS : specS.pre e.node node s) (hcC : specC.pre e.node node s)
    (hqS : specS.post e.node node s s1) (hqL : specL.post e.node node s s1)
    (hqC : specC.post e.node node s s1)
    (hv : vget s.vis e.node false = false)
    (hL : vget s1.low_link e.node 0 ≤ vget s.tour_start node 0) :
    ReachAvoidE s0.adj e.index e.node node := by
  have hj : joins s0.adj e.index node e.node := hmem
  have hjs : joins s0.adj e.index e.node node := hg0.sym _ _ _ hj
  have hgs : GraphInv s.adj := by rw [b.ext.adj]; exact hg0
  have hne := b.ne hv
  have hgt := ts_child_gt b a1 hqS
  rcases hqL.2.2 with h | ⟨x, e2, hx1, hx, he2, hy, hlow, hcond⟩
  · omega
  · by_cases hcase : x = e.node ∧ e2.node = node
    · -- a second entry from the child to `node`
      have h2 : 2 ≤ cnt (vget s.adj e.node []) (node : Int) := by
        rcases hcond with h | h | h
        · exact absurd hcase.1 h
        · exact absurd (by rw [hcase.2]) h
        · exact h
      have hnd := hg0.nodup e.node
      rw [b.ext.adj] at h2
      obtain ⟨e3, he3, he3n, he3i⟩ := other_entry hnd hne h2 e.index
      have hj3 : joins s0.adj e3.index e.node e3.node := he3
      rw [he3n] at hj3
      exact ReachAvoidE.single he3i hj3
    · -- down the tree, along a back edge, and up to `node` through visited vertices
      have hxn : x ≠ node := fun hh => by
        rw [hh, b.vis] at hx; exact absurd hx (by simp)
      have h1 : ReachAvoidE s0.adj e.index e.node x := by
        have := hqC x hx1 hx
        rw [b.ext.adj] at this
        exact ReachIn.avoid hg0 hj (by simp [b.vis]) this
      have hj2 : joins s0.adj e2.index x e2.node := by
        rw [← b.ext.adj]; exact he2
      have h2 : ReachAvoidE s0.adj e.index x e2.node := by
        refine ReachAvoidE.single ?_ hj2
        intro hh
        rw [hh] at hj2
        rcases hg0.ends _ _ _ _ _ hj hj2 with ⟨h3, _⟩ | ⟨h3, h4⟩
        · exact hxn h3
        · exact hcase ⟨h3, h4⟩
      have h3 : ReachAvoidE s0.adj e.index e2.node node := by
        have hnc := not_closed_of_entry hgs he2 hx
        have := (hcC (Int.ofNat_nonneg _)).2 e2.node hy hnc
        simp only [Int.toNat_ofNat] at this
        rw [b.ext.adj] at this
        exact ReachIn.avoid hg0 hjs (by simp [hv]) this
      exact reachAvoidE_trans (reachAvoidE_trans h1 h2) h3

end Bicomps

namespace Bicomps

/-- The part of layer B that concerns the return from a child. -/
theorem stepB_child (node : Nat) (parent : Int) (s0 : bicomps) (done : List edge) (e : edge)
    (es : List edge) (pc ch : Nat) (s s1 : bicomps) (b : Basic node s0 s)
    (hsplit : done ++ e :: es = vget s0.adj node [])
    (hpA : ((specS.and specL).and specC).pre node parent s0)
    (hA : ((specS.and specL).and specC).inv node parent s0 done (e :: es) pc ch s)
    (hcA : ((specS.and specL).and specC).pre e.node node s)
    (hqA : ((specS.and specL).and specC).post e.node node s s1)
    (hI : specB.inv node parent s0 done (e :: es) pc ch s)
    (hv : vget s.vis e.node false = false) (hext : Ext s s1)
    (hv1 : vget s1.vis e.node false = true)
    (hq : specB.post e.node node s s1) :
    specB.inv node parent s0 (done ++ [e]) es (if (e.node : Int) = parent then pc + 1 else pc)
      (ch + 1) (childStep node e s.stk.length s1) := by
  obtain ⟨⟨⟨a1, a2, a3, a4, a5⟩, _⟩, _⟩ := hA
  obtain ⟨i1, i2, i3⟩ := hI
  obtain ⟨⟨hpS, _⟩, _⟩ := hpA
  obtain ⟨⟨hcS, _⟩, hcC⟩ := hcA
  obtain ⟨⟨hqS, hqL⟩, hqC⟩ := hqA
  obtain ⟨q1, q2⟩ := hq
  have hg0 : GraphInv s0.adj := hpS.1
  have hmem : e ∈ vget s0.adj node [] := by rw [← hsplit]; simp
  have hj : joins s0.adj e.index node e.node := hmem
  have hjs : joins s0.adj e.index e.node node := hg0.sym _ _ _ hj
  have hne := b.ne hv
  have hts : vget s1.tour_start node 0 = vget s.tour_start node 0 := hext.ts _ b.vis
  have hadj1 : s1.adj = s0.adj := hext.adj.trans b.ext.adj
  have hadj2 : (childStep node e s.stk.length s1).adj = s0.adj := by
    rw [childStep_adj]; exact hadj1
  have hidx : e.index < s1.is_bridge.length := by
    rw [hext.len_bridge, b.ext.len_bridge, b.ok.2.2.2]
    exact (b.mem_lt hsplit (Or.inr (List.mem_cons_self _ _))).2
  -- an unflagged tree edge has a low child
  have hlow_of_flag : vget (childStep node e s.stk.length s1).is_bridge e.index false = false →
      vget s1.low_link e.node 0 ≤ vget s.tour_start node 0 := by
    intro hf
    by_contra hc
    rw [childStep_is_bridge _ _ _ _ hne, hts, if_pos (by omega), vget_set_eq _ _ _ _ hidx] at hf
    exact absurd hf (by simp)
  have hres : vget (childStep node e s.stk.length s1).is_bridge e.index false = false →
      ReachAvoidE s0.adj e.index e.node node := fun hf =>
    tree_edge_not_bridge b hg0 hmem a1 hcS hcC hqS hqL hqC hv (hlow_of_flag hf)
  have hmono1 : ∀ {x : Nat} {e2 : edge}, ResE s1 x e2 →
      ResE (childStep node e s.stk.length s1) x e2 := fun h =>
    resE_congr (childStep_adj _ _ _ _) (fun i hi => childStep_flag_false hne hi) h
  have hmono : ∀ {x : Nat} {e2 : edge}, ResE s x e2 →
      ResE (childStep node e s.stk.length s1) x e2 := fun h =>
    hmono1 (resE_congr hext.adj (fun i hi => by
      rcases vis_cases_bool (vget s.is_bridge i false) with h2 | h2
      · rw [hext.bridge i h2] at hi; exact absurd hi (by simp)
      · exact h2) h)
  refine ⟨?_, ?_, ?_⟩
  · -- flagged edges are bridges
    intro i hi
    rw [hadj2]
    rw [childStep_is_bridge _ _ _ _ hne, hts] at hi
    have hold : vget s1.is_bridge i false = true → IsBridge s0.adj i := fun h => by
      have := q1 i h
      rw [hadj1] at this
      exact this
    split at hi
    · rename_i hL
      rcases flag_true_of_set hi with h | h
      · rw [h]
        exact ⟨e.node, node, hjs,
          tree_edge_is_bridge b hg0 hmem hcS hqS hqL hv hext hv1 hL⟩
      · exact hold h
    · exact hold hi
  · intro x hx hx0 hxn e2 he2
    rw [childStep_vis] at hx
    rcases vis_cases s x with hxs | hxs
    · exact hmono (i2 x hxs hx0 hxn e2 he2)
    · rcases q2 x hx hxs e2 (by rw [b.ext.adj]; exact he2) with ⟨hxc, hen⟩ | h
      · have hen2 : e2.node = node := by exact_mod_cast hen
        intro hf
        rw [hadj2, hxc, hen2]
        by_cases hidx2 : e2.index = e.index
        · rw [hidx2] at hf ⊢
          exact hres hf
        · exact ReachAvoidE.single (Ne.symm hidx2) hjs
      · exact hmono1 h
  · intro e2 he2
    rcases List.mem_append.mp he2 with he2 | he2
    · rcases i3 e2 he2 with h | h
      · exact Or.inl h
      · exact Or.inr (hmono h)
    · rw [List.mem_singleton.mp he2]
      right
      intro hf
      rw [hadj2]
      exact (hres hf).symm hg0

end Bicomps

namespace Bicomps

/-- Layer B holds along every run of `dfs`, on top of layers S, L and C. -/
theorem stepB : Step ((specS.and specL).and specC) specB where
  enter := by
    intro node parent s b _ _ hp
    refine ⟨bridgeSound_congr rfl rfl hp, ?_, fun e he => absurd he (List.not_mem_nil _)⟩
    intro x hx hx0 hne
    rcases vis_enter_cases hx with h | h
    · exact absurd h.symm hne
    · rw [h] at hx0; exact absurd hx0 (by simp)
  skip := by
    intro node parent s0 done e es pc ch s _ _ _ _ _ _ hI h1 _
    refine ⟨hI.1, hI.2.1, ?_⟩
    intro e2 he2
    rcases List.mem_append.mp he2 with he2 | he2
    · exact hI.2.2 e2 he2
    · rw [List.mem_singleton.mp he2]; exact Or.inl h1
  visited := by
    intro node parent s0 done e es pc ch s b hsplit hpA _ hA _ hI hns hv
    have hnew := stepB_visited node parent s0 done e es pc ch s b hsplit hpA hA hI hns hv
    have hc : ∀ {x : Nat} {e2 : edge}, ResE s x e2 → ResE (visitedStep node e s) x e2 :=
      fun h => resE_congr (visitedStep_adj _ _ _) (fun i hi => by simpa using hi) h
    refine ⟨bridgeSound_congr (visitedStep_adj _ _ _) (visitedStep_is_bridge _ _ _) hI.1, ?_, ?_⟩
    · intro x hx hx0 hne e2 he2
      exact hc (hI.2.1 x (by simpa using hx) hx0 hne e2 he2)
    · intro e2 he2
      rcases List.mem_append.mp he2 with he2 | he2
      · rcases hI.2.2 e2 he2 with h | h
        · exact Or.inl h
        · exact Or.inr (hc h)
      · rw [List.mem_singleton.mp he2]
        exact Or.inr (hc hnew)
  call := by
    intro node parent s0 done e es pc ch s _ _ _ _ _ _ hI _ _
    exact hI.1
  child := by
    intro node parent s0 done e es pc ch s s1 b hsplit hpA _ hA hcA hqA _ hI _ hv hext hv1 _ hq
    exact stepB_child node parent s0 done e es pc ch s s1 b hsplit hpA hA hcA hqA hI hv hext
      hv1 hq
  leave := by
    intro node parent s0 pc ch s b _ _ _ _ hI
    have hc : ∀ {x : Nat} {e2 : edge}, ResE s x e2 → ResE (leave node parent ch s) x e2 :=
      fun h => resE_congr (leave_adj _ _ _ _) (fun i hi => by simpa using hi) h
    refine ⟨bridgeSound_congr (leave_adj _ _ _ _) (leave_is_bridge _ _ _ _) hI.1, ?_⟩
    intro x hx hx0 e he
    rw [leave_vis] at hx
    by_cases hxn : x = node
    · subst hxn
      rcases hI.2.2 e he with h | h
      · exact Or.inl ⟨rfl, h⟩
      · exact Or.inr (hc h)
    · exact Or.inr (hc (hI.2.1 x hx hx0 hxn e he))

/-- Layers S, L, C and B together. -/
theorem stepSLCB : Step Spec.top (((specS.and specL).and specC).and specB) :=
  ((stepS.seq stepL).seq stepC).seq stepB

theorem topB_step {s s1 : bicomps} {i : Nat} {fuel : Nat} (h : TopB s) (hok : s.ok)
    (hi : i < s.n) (hrun : dfs fuel i (-1) s = some s1) : TopB s1 := by
  have hext := (dfs_ext fuel i (-1) s s1 hok hi hrun).1
  have hq := stepSLCB.sound fuel i (-1) s s1 hok hi
    ⟨⟨⟨h.top.pre i, trivial⟩, fun h0 => absurd h0 (by omega)⟩, h.sound⟩ hrun
  obtain ⟨⟨⟨hqS, _⟩, _⟩, q1, q2⟩ := hq
  refine ⟨h.top.post hext hqS, q1, ?_⟩
  intro x hx e he
  rw [hext.adj] at he
  rcases vis_cases s x with hxs | hxs
  · refine resE_congr hext.adj (fun j hj => ?_) (h.res x hxs e he)
    rcases vis_cases_bool (vget s.is_bridge j false) with h2 | h2
    · rw [hext.bridge j h2] at hj; exact absurd hj (by simp)
    · exact h2
  · rcases q2 x hx hxs e he with ⟨_, h2⟩ | h2
    · have : (0 : Int) ≤ (e.node : Int) := Int.ofNat_nonneg _
      omega
    · exact h2

/-- After `build` a flag in `is_bridge` is set exactly for the bridges, in terms
of the adjacency lists. -/
theorem build_bridges (g : bicomps) (root : Int) (r : bicomps) (hwf : g.wf)
    (hg : GraphInv g.adj) (h : g.build root = some r) :
    (∀ i, vget r.is_bridge i false = true → IsBridge g.adj i) ∧
    (∀ x < g.n, ∀ e ∈ vget g.adj x [], vget r.is_bridge e.index false = false →
      ReachAvoidE g.adj e.index x e.node) := by
  have := build_rule (P := TopB) g root r hwf
    ⟨TopS.reset g hg, fun i hi => by
        have : vget (reset g).is_bridge i false = false := by
          show vget (List.replicate g.m false) i false = false
          rw [vget_replicate]; split <;> rfl
        rw [this] at hi; exact absurd hi (by simp),
      fun x hx => by rw [reset_vis] at hx; exact absurd hx (by simp)⟩
    (fun s i s1 hP hok hi _ hc => topB_step hP hok hi hc) h
  have hadj : r.adj = g.adj := this.2.1.adj
  refine ⟨fun i hi => by rw [← hadj]; exact this.1.sound i hi, ?_⟩
  intro x hx e he hf
  have := this.1.res x (this.2.2 x hx) e (by rw [hadj]; exact he) hf
  rw [hadj] at this
  exact this

end Bicomps

namespace Bicomps

/-! ## Claim C1: the bridge flags -/

theorem built_edge_list (s0 : bicomps) (n mh : Nat) (es : List (Nat × Nat)) :
    ((s0.init n mh).add_edges es).edge_list = es := by
  rw [add_edges_edge_list]
  rfl

theorem built_m (s0 : bicomps) (n mh : Nat) (es : List (Nat × Nat)) :
    ((s0.init n mh).add_edges es).m = mh + es.length := by
  rw [add_edges_m]
  rfl

theorem reachAvoidE_iff_connectedWithout (s0 : bicomps) (n : Nat) (es : List (Nat × Nat))
    (hes : ∀ e ∈ es, e.1 < n ∧ e.2 < n) (i a b : Nat) :
    ReachAvoidE ((s0.init n 0).add_edges es).adj i a b ↔ connectedWithout es i a b := by
  constructor
  · intro h
    refine Relation.ReflTransGen.mono ?_ h
    rintro x y ⟨k, hk, hj⟩
    exact ⟨k, hk, (built_joins s0 n es hes k x y).mp hj⟩
  · intro h
    refine Relation.ReflTransGen.mono ?_ h
    rintro x y ⟨k, hk, hj⟩
    exact ⟨k, hk, (built_joins s0 n es hes k x y).mpr hj⟩

/-- Claim C1: for every graph built by `init(n)` (with `m_hint = 0`) and
`add_edge` calls with endpoints below `n`, and for every root argument,
`build(root)` returns, `is_bridge` has one flag per edge, and the flag of edge
index `i` is true if and only if the two endpoints of `edge_list[i]` are not
connected in the graph from which exactly the edge `i` has been removed. -/
theorem bridge_flags_correct (s0 : bicomps) (n : Nat) (es : List (Nat × Nat)) (root : Int)
    (hes : ∀ e ∈ es, e.1 < n ∧ e.2 < n) :
    ∃ r, ((s0.init n 0).add_edges es).build root = some r ∧ r.edge_list = es ∧
      r.is_bridge.length = es.length ∧
      ∀ i (hi : i < es.length), (vget r.is_bridge i false = true ↔
        ¬ connectedWithout es i (es[i]).1 (es[i]).2) := by
  have hwf := built_wf s0 n 0 es hes
  have hg := built_graphInv s0 n 0 es hes
  obtain ⟨r, hr⟩ := build_total _ root hwf
  obtain ⟨_, hext, _⟩ := build_rule (P := fun _ => True) _ root r hwf trivial
    (fun _ _ _ _ _ _ _ _ => trivial) hr
  obtain ⟨hsound, hres⟩ := build_bridges _ root r hwf hg hr
  refine ⟨r, hr, ?_, ?_, ?_⟩
  · rw [hext.edge_list]
    exact built_edge_list s0 n 0 es
  · rw [hext.len_bridge]
    show (List.replicate _ false).length = _
    rw [List.length_replicate, built_m]
    omega
  · intro i hi
    have hi2 : es[i]? = some ((es[i]).1, (es[i]).2) := by
      rw [List.getElem?_eq_getElem hi]
    have hjoin : joins ((s0.init n 0).add_edges es).adj i (es[i]).1 (es[i]).2 :=
      (built_joins s0 n es hes i _ _).mpr (Or.inl hi2)
    rw [← reachAvoidE_iff_connectedWithout s0 n es hes]
    constructor
    · intro hflag hreach
      obtain ⟨x, y, hxy, hn⟩ := hsound i hflag
      rcases hg.ends _ _ _ _ _ hjoin hxy with ⟨h1, h2⟩ | ⟨h1, h2⟩
      · rw [h1, h2] at hn
        exact hn hreach
      · rw [h1, h2] at hn
        exact hn (hreach.symm hg)
    · intro hn
      rcases vis_cases_bool (vget r.is_bridge i false) with h | h
      · exact h
      · exfalso
        apply hn
        have hlt : (es[i]).1 < ((s0.init n 0).add_edges es).n := by
          rw [built_n]
          exact (hes _ (List.getElem_mem _)).1
        exact hres _ hlt ⟨(es[i]).2, i⟩ hjoin h

theorem bridge_flags_correct_witness :
    (∀ e ∈ [((0 : Nat), (1 : Nat)), (1, 2), (2, 0), (2, 3), (3, 3)], e.1 < 5 ∧ e.2 < 5) ∧
    ∃ r, ((bicomps.fresh.init 5 0).add_edges [(0, 1), (1, 2), (2, 0), (2, 3), (3, 3)]).build 1
        = some r ∧
      r.edge_list = [(0, 1), (1, 2), (2, 0), (2, 3), (3, 3)] ∧
      r.is_bridge.length = [((0 : Nat), (1 : Nat)), (1, 2), (2, 0), (2, 3), (3, 3)].length ∧
      ∀ i (hi : i < [((0 : Nat), (1 : Nat)), (1, 2), (2, 0), (2, 3), (3, 3)].length),
        (vget r.is_bridge i false = true ↔
          ¬ connectedWithout [(0, 1), (1, 2), (2, 0), (2, 3), (3, 3)] i
            ([((0 : Nat), (1 : Nat)), (1, 2), (2, 0), (2, 3), (3, 3)][i]).1
            ([((0 : Nat), (1 : Nat)), (1, 2), (2, 0), (2, 3), (3, 3)][i]).2) :=
  ⟨by decide, bridge_flags_correct bicomps.fresh 5 [(0, 1), (1, 2), (2, 0), (2, 3), (3, 3)] 1
    (by decide)⟩

end Bicomps

namespace Bicomps

/-! ## Layer T is kept by every step -/

theorem stepIn_symm {adj : List (List edge)} (hg : GraphInv adj) (P : Nat → Prop) :
    Symmetric (stepIn adj P) := by
  rintro x y ⟨hx, hy, k, hk⟩
  exact ⟨hy, hx, k, hg.sym _ _ _ hk⟩

theorem reachIn_symm {adj : List (List edge)} (hg : GraphInv adj) {P : Nat → Prop} {a b : Nat}
    (h : ReachIn adj P a b) : ReachIn adj P b a :=
  Relation.ReflTransGen.symmetric (stepIn_symm hg P) h

theorem reachIn_trans {adj : List (List edge)} {P : Nat → Prop} {a b c : Nat}
    (h1 : ReachIn adj P a b) (h2 : ReachIn adj P b c) : ReachIn adj P a c :=
  Relation.ReflTransGen.trans h1 h2

theorem childStep_is_cut_other {node : Nat} {e : edge} {size : Nat} {s : bicomps}
    (hne : node ≠ e.node) {x : Nat} (hx : x ≠ node) :
    vget (childStep node e size s).is_cut x false = vget s.is_cut x false := by
  rw [childStep_is_cut _ _ _ _ hne]
  split
  · exact vget_set_ne _ _ _ _ _ (Ne.symm hx)
  · rfl

theorem leave_is_cut_other {node : Nat} {parent : Int} {ch : Nat} {s : bicomps} {x : Nat}
    (hx : x ≠ node) : vget (leave node parent ch s).is_cut x false = vget s.is_cut x false := by
  rw [leave_is_cut]
  split
  · exact vget_set_ne _ _ _ _ _ (Ne.symm hx)
  · rfl

theorem Basic.cut_lt {node : Nat} {s0 s : bicomps} (b : Basic node s0 s) :
    node < s.is_cut.length := by
  rw [b.ext.len_cut, b.ok.2.2.1]; exact b.lt

/-- The vertices visited below a child whose low-link does not lie below the
tour number of `node` cannot be left without passing through `node`. -/
theorem subtree_closed_nonroot {node : Nat} {e : edge} {s0 s s1 : bicomps} (b : Basic node s0 s)
    (hg0 : GraphInv s0.adj) (a1 : TsInv s)
    (hcS : specS.pre e.node node s) (hqS : specS.post e.node node s s1)
    (hqL : specL.post e.node node s s1) (hext : Ext s s1)
    (hL : vget s.tour_start node 0 ≤ vget s1.low_link e.node 0) :
    ∀ x y, (vget s1.vis x false = true ∧ vget s.vis x false = false) →
      stepIn s0.adj (fun z => z ≠ node) x y →
      (vget s1.vis y false = true ∧ vget s.vis y false = false) := by
  rintro x y ⟨hx1, hx⟩ ⟨_, hyn, k, hjk⟩
  have hgs : GraphInv s.adj := by rw [b.ext.adj]; exact hg0
  have he2 : (⟨y, k⟩ : edge) ∈ vget s.adj x [] := by rw [b.ext.adj]; exact hjk
  have hy1 : vget s1.vis y false = true :=
    (hqS.2.2 x hx1 hx).2 ⟨y, k⟩ (by rw [hext.adj]; exact he2)
  refine ⟨hy1, ?_⟩
  rcases vis_cases s y with hy | hy
  · exfalso
    rcases hqL.1 x hx1 hx ⟨y, k⟩ he2 hy with ⟨_, hyn2⟩ | hle
    · exact hyn (by exact_mod_cast hyn2)
    · have hnc := not_closed_of_entry hgs he2 hx
      have := (hcS.2.2.2 y hy hnc).2
      simp only [Int.toNat_ofNat] at this
      simp only at hle
      exact hyn (a1.inj y node hy b.vis (by omega))
  · exact hy

/-- In a call for a tree root the vertices visited below any child cannot be
left without passing through the root. -/
theorem subtree_closed_root {node : Nat} {e : edge} {parent : Int} {s0 s s1 : bicomps}
    (b : Basic node s0 s) (hpS : specS.pre node parent s0) (hneg : parent < 0)
    (a4 : ∀ x, vget s.vis x false = true → vget s0.vis x false = false → x ≠ node → Closed s x)
    (hqS : specS.post e.node node s s1) (hext : Ext s s1) :
    ∀ x y, (vget s1.vis x false = true ∧ vget s.vis x false = false) →
      stepIn s0.adj (fun z => z ≠ node) x y →
      (vget s1.vis y false = true ∧ vget s.vis y false = false) := by
  rintro x y ⟨hx1, hx⟩ ⟨_, hyn, k, hjk⟩
  have hgs : GraphInv s.adj := by rw [b.ext.adj]; exact hpS.1
  have he2 : (⟨y, k⟩ : edge) ∈ vget s.adj x [] := by rw [b.ext.adj]; exact hjk
  have hy1 : vget s1.vis y false = true :=
    (hqS.2.2 x hx1 hx).2 ⟨y, k⟩ (by rw [hext.adj]; exact he2)
  refine ⟨hy1, ?_⟩
  rcases vis_cases s y with hy | hy
  · exact absurd (root_frontier b hpS hneg a4 hy (not_closed_of_entry hgs he2 hx)) hyn
  · exact hy

/-- Below a child whose low-link lies below the tour number of `node`, every
vertex reaches the parent of `node` without passing through `node`. -/
theorem subtree_reaches_parent {node : Nat} {e : edge} {parent : Int} {s0 s s1 : bicomps}
    (b : Basic node s0 s) (hpS : specS.pre node parent s0) (hpC : specC.pre node parent s0)
    (hp0 : 0 ≤ parent) (a1 : TsInv s) (a2 : vget s.tour_start node 0 = s0.tour)
    (a3 : ∀ x, vget s.vis x false = true → vget s0.vis x false = false →
      s0.tour ≤ vget s.tour_start x 0)
    (hqS : specS.post e.node node s s1) (hqL : specL.post e.node node s s1)
    (hqC : specC.post e.node node s s1)
    (hL : vget s1.low_link e.node 0 < vget s.tour_start node 0) :
    ∀ x, vget s1.vis x false = true → vget s.vis x false = false →
      ReachIn s0.adj (fun z => z ≠ node) x parent.toNat := by
  have hg0 : GraphInv s0.adj := hpS.1
  have hgs : GraphInv s.adj := by rw [b.ext.adj]; exact hg0
  have hgt := ts_child_gt b a1 hqS
  have hsub : ∀ z, (vget s1.vis z false = true ∧ vget s.vis z false = false) → z ≠ node := by
    rintro z ⟨_, hz⟩ hh
    rw [hh, b.vis] at hz
    exact absurd hz (by simp)
  have hdown : ∀ x, vget s1.vis x false = true → vget s.vis x false = false →
      ReachIn s0.adj (fun z => z ≠ node) e.node x := by
    intro x hx1 hx
    have := hqC x hx1 hx
    rw [b.ext.adj] at this
    exact ReachIn.mono hsub this
  rcases hqL.2.2 with h | ⟨x2, e2, hx21, hx2, he2, hy, hlow, _⟩
  · omega
  · have hy0 : vget s0.vis e2.node false = true := by
      rcases vis_cases s0 e2.node with h | h
      · exact h
      · have := a3 e2.node hy h
        omega
    have hnc0 : ¬ Closed s0 e2.node := by
      intro hc
      exact not_closed_of_entry hgs he2 hx2 (closed_mono b.ext hc)
    have hup : ReachIn s0.adj (fun z => z ≠ node) e2.node parent.toNat := by
      refine ReachIn.mono ?_ ((hpC hp0).2 e2.node hy0 hnc0)
      intro z hz hh
      rw [hh, b.fresh] at hz
      exact absurd hz (by simp)
    have hyn : e2.node ≠ node := fun hh => by
      rw [hh, b.fresh] at hy0; exact absurd hy0 (by simp)
    have hstep : ReachIn s0.adj (fun z => z ≠ node) x2 e2.node :=
      Relation.ReflTransGen.single ⟨hsub x2 ⟨hx21, hx2⟩, hyn, e2.index, by
        rw [← b.ext.adj]; exact he2⟩
    intro x hx1 hx
    exact reachIn_trans (reachIn_symm hg0 (hdown x hx1 hx))
      (reachIn_trans (hdown x2 hx21 hx2) (reachIn_trans hstep hup))

end Bicomps

namespace Bicomps

/-- The part of layer T that concerns the return from a child. -/
theorem stepT_child (node : Nat) (parent : Int) (s0 : bicomps) (done : List edge) (e : edge)
    (es : List edge) (pc ch : Nat) (s s1 : bicomps) (b : Basic node s0 s)
    (hsplit : done ++ e :: es = vget s0.adj node [])
    (hpA : ((specS.and specL).and specC).pre node parent s0)
    (hA : ((specS.and specL).and specC).inv node parent s0 done (e :: es) pc ch s)
    (hcA : ((specS.and specL).and specC).pre e.node node s)
    (hqA : ((specS.and specL).and specC).post e.node node s s1)
    (hI : specT.inv node parent s0 done (e :: es) pc ch s)
    (hv : vget s.vis e.node false = false) (hext : Ext s s1)
    (hv1 : vget s1.vis e.node false = true)
    (hq : specT.post e.node node s s1) :
    specT.inv node parent s0 (done ++ [e]) es (if (e.node : Int) = parent then pc + 1 else pc)
      (ch + 1) (childStep node e s.stk.length s1) := by
  obtain ⟨⟨⟨a1, a2, a3, a4, a5⟩, _⟩, _⟩ := hA
  obtain ⟨i1, i2, i3, i4, i5, i6, i7⟩ := hI
  obtain ⟨⟨hpS, _⟩, hpC⟩ := hpA
  obtain ⟨⟨hcS, _⟩, _⟩ := hcA
  obtain ⟨⟨hqS, hqL⟩, hqC⟩ := hqA
  have hg0 : GraphInv s0.adj := hpS.1
  have hmem : e ∈ vget s0.adj node [] := by rw [← hsplit]; simp
  have hj : joins s0.adj e.index node e.node := hmem
  have hne := b.ne hv
  have hts : vget s1.tour_start node 0 = vget s.tour_start node 0 := hext.ts _ b.vis
  have hcutn : vget (childStep node e s.stk.length s1).is_cut node false =
      if vget s.tour_start node 0 ≤ vget s1.low_link e.node 0 then true
      else vget s.is_cut node false := by
    rw [childStep_is_cut _ _ _ _ hne, hts]
    by_cases h : vget s.tour_start node 0 ≤ vget s1.low_link e.node 0
    · rw [if_pos h, if_pos (show vget s1.low_link e.node 0 ≥ vget s.tour_start node 0 from h)]
      exact vget_set_eq _ _ _ _ (by rw [hext.len_cut]; exact b.cut_lt)
    · rw [if_neg h, if_neg (show ¬ vget s1.low_link e.node 0 ≥ vget s.tour_start node 0 from h)]
      exact hext.cut _ b.vis
  have hsub : ∀ z, (vget s1.vis z false = true ∧ vget s.vis z false = false) → z ≠ node := by
    rintro z ⟨_, hz⟩ hh
    rw [hh, b.vis] at hz
    exact absurd hz (by simp)
  have hdown : ∀ x, vget s1.vis x false = true → vget s.vis x false = false →
      ReachIn s0.adj (fun z => z ≠ node) e.node x := by
    intro x hx1 hx
    have := hqC x hx1 hx
    rw [b.ext.adj] at this
    exact ReachIn.mono hsub this
  refine ⟨?_, ?_, ?_, ?_, ?_, fun h => by omega, fun _ => ?_⟩
  · intro x hx hx0 hxn
    rw [childStep_vis] at hx
    rw [childStep_is_cut_other hne hxn]
    rcases vis_cases s x with hxs | hxs
    · rw [hext.cut x hxs]
      exact i1 x hxs hx0 hxn
    · have := hq x hx hxs
      rw [b.ext.adj] at this
      exact this
  · intro hp0 hcut
    rw [hcutn] at hcut
    split at hcut
    · rename_i hL
      have hpv := hpS.2.2.1 hp0
      obtain ⟨⟨j, hjp⟩, _⟩ := hpC hp0
      refine ⟨e.node, parent.toNat, Ne.symm hne, ?_, ⟨e.index, hj⟩, ⟨j, hg0.sym _ _ _ hjp⟩, ?_⟩
      · intro hh
        rw [hh, b.fresh] at hpv
        exact absurd hpv (by simp)
      · intro hreach
        have := closed_under_reach
          (subtree_closed_nonroot b hg0 a1 hcS hqS hqL hext hL) hreach ⟨hv1, hv⟩
        rw [b.ext.vis _ hpv] at this
        exact absurd this.2 (by simp)
    · exact i2 hp0 hcut
  · intro hp0 hcut x hx hx0 hxn
    rw [childStep_vis] at hx
    rw [hcutn] at hcut
    split at hcut
    · exact absurd hcut (by simp)
    · rename_i hL
      rcases vis_cases s x with hxs | hxs
      · exact i3 hp0 hcut x hxs hx0 hxn
      · exact subtree_reaches_parent b hpS hpC hp0 a1 a2 a3 hqS hqL hqC (not_le.mp hL) x hx hxs
  · intro hneg hch x y hx hx0 hxn hy hy0 hyn
    rw [childStep_vis] at hx hy
    have hch0 : ch = 0 := by omega
    have hxs : vget s.vis x false = false := by
      rcases vis_cases s x with h | h
      · exact absurd (i6 hch0 x h hx0) hxn
      · exact h
    have hys : vget s.vis y false = false := by
      rcases vis_cases s y with h | h
      · exact absurd (i6 hch0 y h hy0) hyn
      · exact h
    exact reachIn_trans (reachIn_symm hg0 (hdown x hx hxs)) (hdown y hy hys)
  · intro hneg hch
    obtain ⟨c1, hc1, hc10, hc1n, hjc1⟩ := i7 (by omega)
    refine ⟨e.node, c1, Ne.symm hne, hc1n, ⟨e.index, hj⟩, hjc1, ?_⟩
    intro hreach
    have := closed_under_reach (subtree_closed_root b hpS hneg a4 hqS hext) hreach ⟨hv1, hv⟩
    rw [hc1] at this
    exact absurd this.2 (by simp)
  · exact ⟨e.node, by rw [childStep_vis]; exact hv1, not_vis_of_ext b.ext hv, Ne.symm hne,
      e.index, hj⟩

end Bicomps

namespace Bicomps

/-- Every neighbour of `node` other than `node` itself that was visited before
the call reaches the parent without passing through `node`. -/
theorem old_neighbour_reaches_parent {node : Nat} {parent : Int} {s0 s : bicomps}
    (b : Basic node s0 s) (hpS : specS.pre node parent s0) (hpC : specC.pre node parent s0)
    {a i : Nat} (hj : joins s0.adj i node a) (ha0 : vget s0.vis a false = true) :
    0 ≤ parent ∧ ReachIn s0.adj (fun z => z ≠ node) a parent.toNat := by
  have hnc : ¬ Closed s0 a := not_closed_of_entry hpS.1 hj b.fresh
  have hp0 := (hpS.2.2.2 a ha0 hnc).1
  refine ⟨hp0, ReachIn.mono ?_ ((hpC hp0).2 a ha0 hnc)⟩
  intro z hz hh
  rw [hh, b.fresh] at hz
  exact absurd hz (by simp)

/-- Layer T holds along every run of `dfs`, on top of layers S, L and C. -/
theorem stepT : Step ((specS.and specL).and specC) specT where
  enter := by
    intro node parent s b _ _ _
    have hnew : ∀ x, vget (enter node s).vis x false = true → vget s.vis x false = false →
        x = node := by
      intro x hx hx0
      rcases vis_enter_cases hx with h | h
      · exact h.symm
      · rw [h] at hx0; exact absurd hx0 (by simp)
    have hcut : vget (enter node s).is_cut node false = false :=
      vget_set_eq _ _ _ _ (by rw [b.ok.2.2.1]; exact b.lt)
    refine ⟨fun x hx hx0 hne => absurd (hnew x hx hx0) hne, ?_,
      fun _ _ x hx hx0 hne => absurd (hnew x hx hx0) hne,
      fun _ _ x _ hx hx0 hne => absurd (hnew x hx hx0) hne,
      fun _ h => by omega, fun _ => hnew, fun h => by omega⟩
    intro _ h
    rw [hcut] at h
    exact absurd h (by simp)
  skip := by
    intro node parent s0 done e es pc ch s _ _ _ _ _ _ hI _ _
    exact hI
  visited := by
    intro node parent s0 done e es pc ch s _ _ _ _ _ _ hI _ _
    simpa only [specT, visitedStep_vis, visitedStep_is_cut] using hI
  call := by
    intro _ _ _ _ _ _ _ _ _ _ _ _ _ _ _ _ _ _
    trivial
  child := by
    intro node parent s0 done e es pc ch s s1 b hsplit hpA _ hA hcA hqA _ hI _ hv hext hv1 _ hq
    exact stepT_child node parent s0 done e es pc ch s s1 b hsplit hpA hA hcA hqA hI hv hext
      hv1 hq
  leave := by
    intro node parent s0 pc ch s b hpA hA _ _ hI
    obtain ⟨⟨⟨_, _, _, _, a5⟩, _⟩, _⟩ := hA
    obtain ⟨i1, i2, i3, i4, i5, _, _⟩ := hI
    obtain ⟨⟨hpS, _⟩, hpC⟩ := hpA
    have hg0 : GraphInv s0.adj := hpS.1
    intro x hx hx0
    rw [leave_vis] at hx
    by_cases hxn : x = node
    · subst hxn
      rw [leave_is_cut]
      by_cases hneg : parent < 0
      · rw [if_pos hneg, vget_set_eq _ _ _ _ b.cut_lt]
        constructor
        · intro h
          exact i5 hneg (by simpa using h)
        · rintro ⟨a, c, han, hcn, ⟨i, hja⟩, ⟨j, hjc⟩, hnr⟩
          by_contra hch
          have hch1 : ch ≤ 1 := by
            have : ¬ ch > 1 := by simpa using hch
            omega
          exact hnr (i4 hneg hch1 a c (a5 _ hja) (root_no_old_neighbour hpS hneg hja b.fresh) han
            (a5 _ hjc) (root_no_old_neighbour hpS hneg hjc b.fresh) hcn)
      · rw [if_neg hneg]
        have hp0 : 0 ≤ parent := by omega
        constructor
        · exact i2 hp0
        · rintro ⟨a, c, han, hcn, ⟨i, hja⟩, ⟨j, hjc⟩, hnr⟩
          rcases vis_cases_bool (vget s.is_cut x false) with h | h
          · exact h
          · exfalso
            have hr : ∀ w k, joins s0.adj k x w → w ≠ x →
                ReachIn s0.adj (fun z => z ≠ x) w parent.toNat := by
              intro w k hjw hwn
              rcases vis_cases s0 w with hw0 | hw0
              · exact (old_neighbour_reaches_parent b hpS hpC hjw hw0).2
              · exact i3 hp0 h w (a5 _ hjw) hw0 hwn
            exact hnr (reachIn_trans (hr a i hja han) (reachIn_symm hg0 (hr c j hjc hcn)))
    · rw [leave_is_cut_other hxn]
      exact i1 x hx hx0 hxn

/-- Layers S, L, C and T together. -/
theorem stepSLCT : Step Spec.top (((specS.and specL).and specC).and specT) :=
  ((stepS.seq stepL).seq stepC).seq stepT

theorem topT_step {s s1 : bicomps} {i : Nat} {fuel : Nat} (h : TopT s) (hok : s.ok)
    (hi : i < s.n) (hrun : dfs fuel i (-1) s = some s1) : TopT s1 := by
  have hext := (dfs_ext fuel i (-1) s s1 hok hi hrun).1
  have hq := stepSLCT.sound fuel i (-1) s s1 hok hi
    ⟨⟨⟨h.top.pre i, trivial⟩, fun h0 => absurd h0 (by omega)⟩, trivial⟩ hrun
  obtain ⟨⟨⟨hqS, _⟩, _⟩, q⟩ := hq
  refine ⟨h.top.post hext hqS, ?_⟩
  intro x hx
  rw [hext.adj]
  rcases vis_cases s x with hxs | hxs
  · rw [hext.cut x hxs]
    exact h.cut x hxs
  · exact q x hx hxs

/-- After `build` a flag in `is_cut` is set exactly for the cut vertices, in
terms of the adjacency lists. -/
theorem build_cuts (g : bicomps) (root : Int) (r : bicomps) (hwf : g.wf)
    (hg : GraphInv g.adj) (h : g.build root = some r) :
    ∀ x < g.n, (vget r.is_cut x false = true ↔ CutV g.adj x) := by
  have := build_rule (P := TopT) g root r hwf
    ⟨TopS.reset g hg, fun x hx => by rw [reset_vis] at hx; exact absurd hx (by simp)⟩
    (fun s i s1 hP hok hi _ hc => topT_step hP hok hi hc) h
  intro x hx
  have hadj : r.adj = g.adj := this.2.1.adj
  rw [← hadj]
  exact this.1.cut x (this.2.2 x hx)

end Bicomps

namespace Bicomps

/-! ## Cut vertices and the number of connected components -/

/-- A path that avoids the cut-free vertex `v` can be found between any two
other vertices that are connected at all. -/
theorem reach_avoiding_of_not_cut {adj : List (List edge)} (hg : GraphInv adj) {v : Nat}
    (hnc : ¬ CutV adj v) {a : Nat} (ha : a ≠ v) :
    ∀ b, ReachIn adj (fun _ => True) a b →
      (b ≠ v → ReachIn adj (fun z => z ≠ v) a b) ∧
      (b = v → ∃ w, w ≠ v ∧ (∃ i, joins adj i v w) ∧ ReachIn adj (fun z => z ≠ v) a w) := by
  have hpair : ∀ w c, w ≠ v → c ≠ v → (∃ i, joins adj i v w) → (∃ j, joins adj j v c) →
      ReachIn adj (fun z => z ≠ v) w c := by
    intro w c hw hc hjw hjc
    by_contra hn
    exact hnc ⟨w, c, hw, hc, hjw, hjc, hn⟩
  intro b h
  induction h with
  | refl => exact ⟨fun _ => Relation.ReflTransGen.refl, fun h => absurd h ha⟩
  | @tail b c _ hs ih =>
    obtain ⟨_, _, k, hk⟩ := hs
    by_cases hb : b = v
    · obtain ⟨w, hw, hjw, hrw⟩ := ih.2 hb
      refine ⟨fun hc => ?_, fun _ => ⟨w, hw, hjw, hrw⟩⟩
      exact reachIn_trans hrw (hpair w c hw hc hjw ⟨k, by rw [← hb]; exact hk⟩)
    · refine ⟨fun hc => ?_, fun hc => ?_⟩
      · exact Relation.ReflTransGen.tail (ih.1 hb) ⟨hb, hc, k, hk⟩
      · exact ⟨b, hb, ⟨k, by rw [← hc]; exact hg.sym _ _ _ hk⟩, ih.1 hb⟩

instance (n : Nat) (del : Option Nat) : Finite (Vert n del) :=
  Finite.of_injective (fun a : Vert n del => (⟨a.1, a.2.1⟩ : Fin n)) (by
    intro a b h
    have : a.1 = b.1 := by simpa using congrArg Fin.val h
    exact Subtype.ext this)

instance (n : Nat) (es : List (Nat × Nat)) (del : Option Nat) : Finite (Components n es del) := by
  unfold Components
  infer_instance

end Bicomps

namespace Bicomps

/-! ## Components on the edge list and reachability in the adjacency lists -/

theorem built_edgeStep (s0 : bicomps) (n mh : Nat) (es : List (Nat × Nat))
    (hes : ∀ e ∈ es, e.1 < n ∧ e.2 < n) (x y : Nat) :
    (∃ i, joins ((s0.init n mh).add_edges es).adj i x y) ↔ edgeStep es x y := by
  unfold joins edgeStep
  rw [built_adj s0 n mh es hes]
  constructor
  · rintro ⟨i, hi⟩
    obtain ⟨k, _, h⟩ := (mem_adjOf es mh x ⟨y, i⟩).mp hi
    exact ⟨k, h⟩
  · rintro ⟨k, h⟩
    exact ⟨mh + k, (mem_adjOf es mh x ⟨y, mh + k⟩).mpr ⟨k, rfl, h⟩⟩

theorem edgeStep_lt {n : Nat} {es : List (Nat × Nat)} (hes : ∀ e ∈ es, e.1 < n ∧ e.2 < n)
    {x y : Nat} (h : edgeStep es x y) : x < n ∧ y < n := by
  obtain ⟨k, h | h⟩ := h
  · have := hes _ (List.getElem?_mem h)
    exact this
  · have := hes _ (List.getElem?_mem h)
    exact ⟨this.2, this.1⟩

/-- Two remaining vertices are in the same component exactly when one is
reached from the other through remaining vertices. -/
theorem comp_iff_reach {adj : List (List edge)} (hg : GraphInv adj) {n : Nat}
    {es : List (Nat × Nat)} (hes : ∀ e ∈ es, e.1 < n ∧ e.2 < n)
    (hE : ∀ x y, (∃ i, joins adj i x y) ↔ edgeStep es x y) (del : Option Nat)
    (a b : Vert n del) :
    (compSetoid n es del).r a b ↔ ReachIn adj (fun z => some z ≠ del) a.1 b.1 := by
  constructor
  · intro h
    induction h with
    | rel x y h => exact Relation.ReflTransGen.single ⟨x.2.2, y.2.2, (hE _ _).mpr h⟩
    | refl x => exact Relation.ReflTransGen.refl
    | symm x y _ ih => exact reachIn_symm hg ih
    | trans x y z _ _ ih1 ih2 => exact reachIn_trans ih1 ih2
  · have key : ∀ x y, ReachIn adj (fun z => some z ≠ del) x y →
        ∀ (hx : x < n ∧ some x ≠ del) (hy : y < n ∧ some y ≠ del),
          Relation.EqvGen (fun a b : Vert n del => edgeStep es a.1 b.1) ⟨x, hx⟩ ⟨y, hy⟩ := by
      intro x y h
      induction h with
      | refl => intro hx hy; exact Relation.EqvGen.refl _
      | @tail y z _ hs ih =>
        intro hx hz
        obtain ⟨hy1, _, hj⟩ := hs
        have hyz := (hE _ _).mp hj
        have hy : y < n ∧ some y ≠ del := ⟨(edgeStep_lt hes hyz).1, hy1⟩
        exact Relation.EqvGen.trans _ _ _ (ih hx hy) (Relation.EqvGen.rel _ _ hyz)
    intro h
    exact key a.1 b.1 h a.2 b.2

end Bicomps

namespace Bicomps

/-! ## A cut vertex is a vertex whose deletion adds a connected component -/

theorem compMap_injective {adj : List (List edge)} (hg : GraphInv adj) {n : Nat}
    {es : List (Nat × Nat)} (hes : ∀ e ∈ es, e.1 < n ∧ e.2 < n)
    (hE : ∀ x y, (∃ i, joins adj i x y) ↔ edgeStep es x y) {v : Nat}
    (hnc : ¬ CutV adj v) : Function.Injective (compMap n es v) := by
  intro p q
  refine Quotient.inductionOn (s := compSetoid n es (some v)) p ?_
  intro a
  refine Quotient.inductionOn (s := compSetoid n es (some v)) q ?_
  intro b h
  have h1 : (compSetoid n es none).r ⟨a.1, a.2.1, by simp⟩ ⟨b.1, b.2.1, by simp⟩ :=
    Quotient.exact (s := compSetoid n es none) h
  have h2 := (comp_iff_reach hg hes hE none _ _).mp h1
  have hav : a.1 ≠ v := fun e => a.2.2 (by rw [e])
  have hbv : b.1 ≠ v := fun e => b.2.2 (by rw [e])
  have h3 : ReachIn adj (fun _ => True) a.1 b.1 :=
    Relation.ReflTransGen.mono (fun x y hs => ⟨trivial, trivial, hs.2.2⟩) h2
  have h4 := (reach_avoiding_of_not_cut hg hnc hav b.1 h3).1 hbv
  have h5 : ReachIn adj (fun z => some z ≠ some v) a.1 b.1 :=
    Relation.ReflTransGen.mono
      (fun x y hs => ⟨by simpa using hs.1, by simpa using hs.2.1, hs.2.2⟩) h4
  exact Quotient.sound (s := compSetoid n es (some v)) ((comp_iff_reach hg hes hE (some v) a b).mpr h5)

theorem compMap_surjective {adj : List (List edge)} {n : Nat}
    {es : List (Nat × Nat)} (hes : ∀ e ∈ es, e.1 < n ∧ e.2 < n)
    (hE : ∀ x y, (∃ i, joins adj i x y) ↔ edgeStep es x y) {v : Nat}
    (hc : CutV adj v) : Function.Surjective (compMap n es v) := by
  obtain ⟨w, _, hw, _, hjw, _, _⟩ := hc
  have hvw := (hE _ _).mp hjw
  intro p
  refine Quotient.inductionOn (s := compSetoid n es none) p ?_
  intro a
  by_cases hav : a.1 = v
  · refine ⟨Quotient.mk (compSetoid n es (some v))
      ⟨w, (edgeStep_lt hes hvw).2, by simpa using hw⟩, ?_⟩
    refine Quotient.sound (s := compSetoid n es none) ?_
    refine Relation.EqvGen.symm _ _ (Relation.EqvGen.rel _ _ ?_)
    show edgeStep es a.1 w
    rw [hav]
    exact hvw
  · refine ⟨Quotient.mk (compSetoid n es (some v)) ⟨a.1, a.2.1, by simpa using hav⟩, ?_⟩
    rfl

theorem compMap_not_injective {adj : List (List edge)} (hg : GraphInv adj) {n : Nat}
    {es : List (Nat × Nat)} (hes : ∀ e ∈ es, e.1 < n ∧ e.2 < n)
    (hE : ∀ x y, (∃ i, joins adj i x y) ↔ edgeStep es x y) {v : Nat}
    (hc : CutV adj v) : ¬ Function.Injective (compMap n es v) := by
  obtain ⟨a, b, ha, hb, hja, hjb, hn⟩ := hc
  have hva := (hE _ _).mp hja
  have hvb := (hE _ _).mp hjb
  have hvn : v < n := (edgeStep_lt hes hva).1
  intro hinj
  let a1 : Vert n (some v) := ⟨a, (edgeStep_lt hes hva).2, by simpa using ha⟩
  let b1 : Vert n (some v) := ⟨b, (edgeStep_lt hes hvb).2, by simpa using hb⟩
  let v0 : Vert n none := ⟨v, hvn, by simp⟩
  have h1 : compMap n es v (Quotient.mk (compSetoid n es (some v)) a1) =
      compMap n es v (Quotient.mk (compSetoid n es (some v)) b1) := by
    refine Quotient.sound (s := compSetoid n es none) ?_
    refine Relation.EqvGen.trans _ v0 _
      (Relation.EqvGen.symm _ _ (Relation.EqvGen.rel _ _ ?_)) (Relation.EqvGen.rel _ _ ?_)
    · exact hva
    · exact hvb
  have h2 := Quotient.exact (s := compSetoid n es (some v)) (hinj h1)
  have h3 := (comp_iff_reach hg hes hE (some v) a1 b1).mp h2
  apply hn
  exact Relation.ReflTransGen.mono
    (fun x y hs => ⟨by simpa using hs.1, by simpa using hs.2.1, hs.2.2⟩) h3

theorem cut_iff_more_components {adj : List (List edge)} (hg : GraphInv adj) {n : Nat}
    {es : List (Nat × Nat)} (hes : ∀ e ∈ es, e.1 < n ∧ e.2 < n)
    (hE : ∀ x y, (∃ i, joins adj i x y) ↔ edgeStep es x y) (v : Nat) :
    CutV adj v ↔ Nat.card (Components n es none) < Nat.card (Components n es (some v)) := by
  constructor
  · intro hc
    haveI := Fintype.ofFinite (Components n es none)
    haveI := Fintype.ofFinite (Components n es (some v))
    rw [Nat.card_eq_fintype_card, Nat.card_eq_fintype_card]
    exact Fintype.card_lt_of_surjective_not_injective _ (compMap_surjective hes hE hc)
      (compMap_not_injective hg hes hE hc)
  · intro hlt
    by_contra hnc
    have := Nat.card_le_card_of_injective _ (compMap_injective hg hes hE hnc)
    omega

end Bicomps

namespace Bicomps

/-! ## The cut-vertex flags computed by `build` -/

/-- Claim C2: for every multigraph on the vertices `0, ..., n-1` (any edge
list with endpoints below `n`, self-loops and parallel edges allowed, any
`m_hint`) and every root argument, `build(root)` returns, and in its result
`is_cut[v]` is true exactly when the graph from which `v` has been deleted with
its incident edges has more connected components than the graph itself. -/
theorem cut_flags_correct (s0 : bicomps) (n mh : Nat) (es : List (Nat × Nat)) (root : Int)
    (hes : ∀ e ∈ es, e.1 < n ∧ e.2 < n) :
    ∃ r, ((s0.init n mh).add_edges es).build root = some r ∧ r.is_cut.length = n ∧
      ∀ v, v < n → (vget r.is_cut v false = true ↔
        Nat.card (Components n es none) < Nat.card (Components n es (some v))) := by
  have hwf := built_wf s0 n mh es hes
  have hg := built_graphInv s0 n mh es hes
  obtain ⟨r, hr⟩ := build_total _ root hwf
  obtain ⟨_, hext, _⟩ := build_rule (P := fun _ => True) _ root r hwf trivial
    (fun _ _ _ _ _ _ _ _ => trivial) hr
  refine ⟨r, hr, ?_, ?_⟩
  · rw [hext.len_cut]
    show (List.replicate _ false).length = _
    rw [List.length_replicate, built_n]
  · intro v hv
    have hcut := build_cuts _ root r hwf hg hr v (by rw [built_n]; exact hv)
    rw [hcut]
    exact cut_iff_more_components hg hes (built_edgeStep s0 n mh es hes) v

theorem cut_flags_correct_witness :
    (∀ e ∈ [((0 : Nat), (1 : Nat)), (1, 2), (2, 0), (2, 3), (3, 3), (2, 3), (3, 4)],
      e.1 < 6 ∧ e.2 < 6) ∧
    ∃ r, ((bicomps.fresh.init 6 0).add_edges
        [(0, 1), (1, 2), (2, 0), (2, 3), (3, 3), (2, 3), (3, 4)]).build 1 = some r ∧
      r.is_cut.length = 6 ∧
      ∀ v, v < 6 → (vget r.is_cut v false = true ↔
        Nat.card (Components 6 [(0, 1), (1, 2), (2, 0), (2, 3), (3, 3), (2, 3), (3, 4)] none) <
        Nat.card (Components 6 [(0, 1), (1, 2), (2, 0), (2, 3), (3, 3), (2, 3), (3, 4)]
          (some v))) :=
  ⟨by decide, cut_flags_correct bicomps.fresh 6 0
    [(0, 1), (1, 2), (2, 0), (2, 3), (3, 3), (2, 3), (3, 4)] 1 (by decide)⟩

end Bicomps

namespace Bicomps

/-! ## The layers below layer M, and the outcomes of one step of the loop -/

/-- A layer proved on top of `A` stands on top of anything that gives `A`. -/
theorem Step.weaken {A A2 B : Spec} (hpre : ∀ v p s, A2.pre v p s → A.pre v p s)
    (hpost : ∀ v p s s1, A2.post v p s s1 → A.post v p s s1)
    (hinv : ∀ v p s0 d r pc ch s, A2.inv v p s0 d r pc ch s → A.inv v p s0 d r pc ch s)
    (h : Step A B) : Step A2 B where
  enter := fun node parent s b hp hI hB =>
    h.enter node parent s b (hpre _ _ _ hp) (hinv _ _ _ _ _ _ _ _ hI) hB
  skip := fun node parent s0 done e es pc ch s b hsplit hp hB hI hI2 hBI h1 h2 =>
    h.skip node parent s0 done e es pc ch s b hsplit (hpre _ _ _ hp) hB
      (hinv _ _ _ _ _ _ _ _ hI) (hinv _ _ _ _ _ _ _ _ hI2) hBI h1 h2
  visited := fun node parent s0 done e es pc ch s b hsplit hp hB hI hI2 hBI h1 h2 =>
    h.visited node parent s0 done e es pc ch s b hsplit (hpre _ _ _ hp) hB
      (hinv _ _ _ _ _ _ _ _ hI) (hinv _ _ _ _ _ _ _ _ hI2) hBI h1 h2
  call := fun node parent s0 done e es pc ch s b hsplit hp hB hI hc hBI h1 h2 =>
    h.call node parent s0 done e es pc ch s b hsplit (hpre _ _ _ hp) hB
      (hinv _ _ _ _ _ _ _ _ hI) (hpre _ _ _ hc) hBI h1 h2
  child := fun node parent s0 done e es pc ch s s1 b hsplit hp hB hI hc hq hI2 hBI h1 h2 hext
      hv hBc hBq =>
    h.child node parent s0 done e es pc ch s s1 b hsplit (hpre _ _ _ hp) hB
      (hinv _ _ _ _ _ _ _ _ hI) (hpre _ _ _ hc) (hpost _ _ _ _ hq) (hinv _ _ _ _ _ _ _ _ hI2)
      hBI h1 h2 hext hv hBc hBq
  leave := fun node parent s0 pc ch s b hp hI hq hB hBI =>
    h.leave node parent s0 pc ch s b (hpre _ _ _ hp) (hinv _ _ _ _ _ _ _ _ hI)
      (hpost _ _ _ _ hq) hB hBI

theorem stepBase : Step Spec.top specBase :=
  ((stepS.seq stepL).seq stepC).seq
    (stepK.weaken (fun _ _ _ h => h.1) (fun _ _ _ _ h => h.1) (fun _ _ _ _ _ _ _ _ h => h.1))

theorem seg_of_stk {s0 s : bicomps} {t : List Nat} (h : s.stk = s0.stk ++ t) : seg s0 s = t := by
  unfold seg
  rw [h, List.drop_left]

theorem stk_eq_seg {s0 s : bicomps} (h : s0.stk <+: s.stk) : s.stk = s0.stk ++ seg s0 s := by
  obtain ⟨t, ht⟩ := h
  rw [seg_of_stk ht.symm, ht]

theorem seg_enter (node : Nat) (s : bicomps) : seg s (enter node s) = [] := by
  unfold seg
  simp

theorem seg_leave (node : Nat) (parent : Int) (ch : Nat) (s0 s : bicomps) :
    seg s0 (leave node parent ch s) = seg s0 s := by
  unfold seg
  rw [leave_stk]

theorem seg_visitedStep {node : Nat} {s0 s : bicomps} (e : edge) (b : Basic node s0 s) :
    seg s0 (visitedStep node e s) =
      if vget s.tour_start e.node 0 < vget s.tour_start node 0 then seg s0 s ++ [node]
      else seg s0 s := by
  have h := stk_eq_seg b.ext.stk
  split
  · rename_i hc
    apply seg_of_stk
    rw [visitedStep_stk, if_pos hc, h, List.append_assoc, seg_of_stk h]
  · rename_i hc
    unfold seg
    rw [visitedStep_stk, if_neg hc]

theorem newIn_mono {s0 s s1 : bicomps} (hext : Ext s s1) {x : Nat} (h : newIn s0 s x) :
    newIn s0 s1 x :=
  ⟨hext.vis x h.1, h.2⟩

theorem newIn_child {s0 s s1 : bicomps} (h0 : Ext s0 s) {x : Nat} (h : newIn s s1 x) :
    newIn s0 s1 x :=
  ⟨h.1, by
    rcases vis_cases s0 x with hx | hx
    · have := h0.vis x hx
      rw [h.2] at this
      exact absurd this (by simp)
    · exact hx⟩

theorem newIn_split {s0 s s1 : bicomps} {x : Nat} (h : newIn s0 s1 x) :
    newIn s0 s x ∨ newIn s s1 x := by
  rcases vis_cases s x with hx | hx
  · exact Or.inl ⟨hx, h.2⟩
  · exact Or.inr ⟨h.1, hx⟩

end Bicomps

namespace Bicomps

/-- The three outcomes of the step that follows the return from the child
`e.node`: a bridge, the root of a component, or a child that reaches above
`node`. -/
theorem child_cases {node : Nat} {parent : Int} {s0 s s1 : bicomps} {done es : List edge}
    {e : edge} {pc ch : Nat} (b : Basic node s0 s) (hpA : specBase.pre node parent s0)
    (hA : specBase.inv node parent s0 done (e :: es) pc ch s)
    (hcA : specBase.pre e.node node s) (hqA : specBase.post e.node node s s1)
    (hv : vget s.vis e.node false = false) (hext : Ext s s1) :
    (vget s.tour_start node 0 < vget s1.low_link e.node 0 ∧ seg s s1 = [] ∧
      seg s0 (childStep node e s.stk.length s1) = seg s0 s ∧
      (childStep node e s.stk.length s1).comps = s1.comps ++ [sort [node, e.node]]) ∨
    (vget s1.low_link e.node 0 = vget s.tour_start node 0 ∧ e.node ∈ seg s s1 ∧
      seg s0 (childStep node e s.stk.length s1) = seg s0 s ∧
      (childStep node e s.stk.length s1).comps =
        s1.comps ++ [unique (sort (seg s s1 ++ [node]))]) ∨
    (vget s1.low_link e.node 0 < vget s.tour_start node 0 ∧ 0 ≤ parent ∧
      e.node ∈ seg s s1 ∧
      seg s0 (childStep node e s.stk.length s1) = seg s0 s ++ seg s s1 ++ [node] ∧
      (childStep node e s.stk.length s1).comps = s1.comps) := by
  obtain ⟨⟨⟨⟨a1, a2, a3, a4, a5⟩, _⟩, _⟩, _⟩ := hA
  obtain ⟨⟨⟨hqS, hqL⟩, _⟩, q1, q2, q3, _⟩ := hqA
  have hne := b.ne hv
  have ht := stk_eq_seg b.ext.stk
  have ht1 := stk_eq_seg hext.stk
  have hts : vget s1.tour_start node 0 = vget s.tour_start node 0 := hext.ts _ b.vis
  have hgt := ts_child_gt b a1 hqS
  have hcases := child_low_cases hcA.1.1.1 hqL
  have q2 : vget s1.low_link e.node 0 < vget s1.tour_start e.node 0 → e.node ∈ seg s s1 := q2
  have q3 : seg s s1 ≠ [] → vget s1.low_link e.node 0 < vget s1.tour_start e.node 0 := q3
  rcases lt_trichotomy (vget s1.low_link e.node 0) (vget s.tour_start node 0) with hL | hL | hL
  · refine Or.inr (Or.inr ⟨hL, ?_, q2 (by omega), ?_, ?_⟩)
    · by_contra hneg
      have hneg : parent < 0 := by omega
      rcases hcases with h | ⟨y, hy, hnc, h5, _⟩
      · omega
      · have := root_frontier b hpA.1.1.1 hneg a4 hy hnc
        rw [this] at h5
        omega
    · apply seg_of_stk
      rw [childStep_stk _ _ _ _ hne, hts, if_neg (not_lt.mpr (le_of_lt hL)), if_neg (ne_of_lt hL),
        ht1, ht]
      simp
    · rw [childStep_comps _ _ _ _ hne, hts, if_neg (not_lt.mpr (le_of_lt hL)),
        if_neg (ne_of_lt hL)]
  · refine Or.inr (Or.inl ⟨hL, q2 (by omega), ?_, ?_⟩)
    · unfold seg
      rw [childStep_stk _ _ _ _ hne, hts, if_neg (by omega), if_pos hL,
        resize_take_stk _ _ hext.stk]
    · rw [childStep_comps _ _ _ _ hne, hts, if_neg (by omega), if_pos hL]
      congr 3
      rw [ht1, List.append_assoc, List.drop_left, seg_of_stk ht1]
  · have ht1nil : seg s s1 = [] := by
      by_contra hne2
      have h3 := q3 hne2
      rcases hcases with h | ⟨y, _, _, h5, h6⟩
      · omega
      · omega
    refine Or.inl ⟨hL, ht1nil, ?_, ?_⟩
    · unfold seg
      rw [childStep_stk _ _ _ _ hne, hts, if_pos hL, ht1, ht1nil, List.append_nil]
    · rw [childStep_comps _ _ _ _ hne, hts, if_pos hL]

/-- The members of the component emitted at the root of a component. -/
theorem mem_emitted {t : List Nat} {node x : Nat} :
    x ∈ unique (sort (t ++ [node])) ↔ x ∈ t ∨ x = node := by
  rw [mem_unique, mem_sort]
  simp

theorem mem_sort_pair {a b x : Nat} : x ∈ sort [a, b] ↔ x = a ∨ x = b := by
  rw [mem_sort]
  simp

end Bicomps

namespace Bicomps

/-! ## Layer M: steps that do not return from a child -/

theorem insep_of_joins {adj : List (List edge)} {i a b : Nat} (hj : joins adj i a b) :
    Insep adj a b :=
  fun _ hwa hwb => Relation.ReflTransGen.single ⟨Ne.symm hwa, Ne.symm hwb, i, hj⟩

theorem insep_symm {adj : List (List edge)} (hg : GraphInv adj) {a b : Nat}
    (h : Insep adj a b) : Insep adj b a :=
  fun w hwb hwa => reachIn_symm hg (h w hwa hwb)

theorem covered_mono {s s1 : bicomps} (h : s.comps <+: s1.comps) {x y : Nat}
    (hc : covered s x y) : covered s1 x y := by
  obtain ⟨c, hc, hx⟩ := hc
  exact ⟨c, h.subset hc, hx⟩

theorem covered_symm {s : bicomps} {x y : Nat} (hc : covered s x y) : covered s y x := by
  obtain ⟨c, hc, hx, hy⟩ := hc
  exact ⟨c, hc, hy, hx⟩

theorem mem_seg_visitedStep {node : Nat} {s0 s : bicomps} (e : edge) (b : Basic node s0 s)
    {x : Nat} (h : x ∈ seg s0 s) : x ∈ seg s0 (visitedStep node e s) := by
  rw [seg_visitedStep e b]
  split
  · exact List.mem_append_left _ h
  · exact h

theorem seg_visitedStep_cases {node : Nat} {s0 s : bicomps} (e : edge) (b : Basic node s0 s)
    {x : Nat} (h : x ∈ seg s0 (visitedStep node e s)) : x ∈ seg s0 s ∨ x = node := by
  rw [seg_visitedStep e b] at h
  split at h
  · simpa using h
  · exact Or.inl h

theorem newIn_visitedStep {node : Nat} {e : edge} {s0 s : bicomps} {x : Nat} :
    newIn s0 (visitedStep node e s) x ↔ newIn s0 s x := by
  unfold newIn
  rw [visitedStep_vis]

theorem newIn_leave {node : Nat} {parent : Int} {ch : Nat} {s0 s : bicomps} {x : Nat} :
    newIn s0 (leave node parent ch s) x ↔ newIn s0 s x := by
  unfold newIn
  rw [leave_vis]

theorem newIn_childStep {node : Nat} {e : edge} {size : Nat} {s0 s : bicomps} {x : Nat} :
    newIn s0 (childStep node e size s) x ↔ newIn s0 s x := by
  unfold newIn
  rw [childStep_vis]

theorem Basic.new_node {node : Nat} {s0 s : bicomps} (b : Basic node s0 s) : newIn s0 s node :=
  ⟨b.vis, b.fresh⟩

/-- The part of layer M that concerns a step into an already visited vertex. -/
theorem stepM_visited (node : Nat) (parent : Int) (s0 : bicomps) (done : List edge) (e : edge)
    (es : List edge) (pc ch : Nat) (s : bicomps) (b : Basic node s0 s)
    (hpA : specBase.pre node parent s0)
    (hA : specBase.inv node parent s0 done (e :: es) pc ch s)
    (hI : specM.inv node parent s0 done (e :: es) pc ch s) :
    specM.inv node parent s0 (done ++ [e]) es (if (e.node : Int) = parent then pc + 1 else pc) ch
      (visitedStep node e s) := by
  obtain ⟨⟨⟨⟨a1, a2, a3, a4, a5⟩, _⟩, _⟩, _⟩ := hA
  obtain ⟨m1, m2, m3, m4, m5, m6⟩ := hI
  obtain ⟨⟨⟨⟨hg, hts0, _, _⟩, _⟩, hpC⟩, _⟩ := hpA
  refine ⟨?_, ?_, ?_, ?_, ?_, ?_⟩
  · intro x hx
    rw [newIn_visitedStep]
    rcases seg_visitedStep_cases e b hx with h | h
    · exact m1 x h
    · rw [h]; exact b.new_node
  · intro hp x hx
    rcases seg_visitedStep_cases e b hx with h | h
    · exact m2 hp x h
    · rw [h]
      obtain ⟨i, hj⟩ := (hpC hp).1
      exact insep_of_joins (hg.sym _ _ _ hj)
  · intro x hx hxv hxs
    rw [newIn_visitedStep] at hx
    obtain ⟨w, hw, hwx, hsep⟩ := m3 x hx hxv (fun h => hxs (mem_seg_visitedStep e b h))
    exact ⟨w, newIn_visitedStep.mpr hw, hwx, fun y hy => hsep y (fun h => hy (newIn_visitedStep.mpr h))⟩
  · intro x y hx hxv hy hj
    rw [newIn_visitedStep] at hx
    exact mem_seg_visitedStep e b (m4 x y hx hxv hy hj)
  · intro e2 he2 hv0 hnp
    rcases List.mem_append.mp he2 with h | h
    · exact mem_seg_visitedStep e b (m5 e2 h hv0 hnp)
    · have : e2 = e := by simpa using h
      subst this
      rw [seg_visitedStep e2 b, if_pos]
      · simp
      · rw [b.ext.ts _ hv0, a2]
        exact hts0.lt _ hv0
  · intro x y hx hy hxy hj
    rw [newIn_visitedStep] at hx hy
    rcases m6 x y hx hy hxy hj with h | h
    · left
      unfold covered
      rw [visitedStep_comps]
      exact h
    · exact Or.inr ⟨mem_seg_visitedStep e b h.1, mem_seg_visitedStep e b h.2⟩

end Bicomps

namespace Bicomps

/-! ## Layer M: the return from a child -/

/-- The part of layer M that concerns the return from a child. -/
theorem stepM_child (node : Nat) (parent : Int) (s0 : bicomps) (done : List edge) (e : edge)
    (es : List edge) (pc ch : Nat) (s s1 : bicomps) (b : Basic node s0 s)
    (hpA : specBase.pre node parent s0)
    (hA : specBase.inv node parent s0 done (e :: es) pc ch s)
    (hcA : specBase.pre e.node node s)
    (hqA : specBase.post e.node node s s1)
    (hI : specM.inv node parent s0 done (e :: es) pc ch s)
    (hv : vget s.vis e.node false = false) (hext : Ext s s1)
    (hv1 : vget s1.vis e.node false = true)
    (hq : specM.post e.node node s s1) :
    specM.inv node parent s0 (done ++ [e]) es (if (e.node : Int) = parent then pc + 1 else pc)
      (ch + 1) (childStep node e s.stk.length s1) := by
  have hcases := child_cases b hpA hA hcA hqA hv hext
  obtain ⟨⟨⟨⟨a1, a2, a3, a4, a5⟩, _⟩, _⟩, _⟩ := hA
  obtain ⟨m1, m2, m3, m4, m5, m6⟩ := hI
  obtain ⟨⟨⟨hqS, hqL⟩, hqC⟩, _⟩ := hqA
  obtain ⟨⟨⟨hpS, _⟩, hpC⟩, _⟩ := hpA
  have hg : GraphInv s0.adj := hpS.1
  have hts0 : TsInv s0 := hpS.2.1
  have hadj : s.adj = s0.adj := b.ext.adj
  obtain ⟨q1, q2, q3, q4, q5⟩ := hq
  rw [hadj] at q2 q3 q4 q5
  have hne := b.ne hv
  have hcnew : newIn s s1 e.node := ⟨hv1, hv⟩
  have hclosed : vget s.tour_start node 0 ≤ vget s1.low_link e.node 0 →
      ∀ x y, newIn s s1 x → ReachIn s0.adj (fun z => z ≠ node) x y → newIn s s1 y := by
    intro hL x y hx hr
    exact closed_under_reach (P := fun z => newIn s s1 z)
      (subtree_closed_nonroot b hg a1 hcA.1.1.1 hqS hqL hext hL) hr hx
  have hvis2 : (childStep node e s.stk.length s1).vis = s1.vis := childStep_vis _ _ _ _
  generalize childStep node e s.stk.length s1 = s2 at hcases hvis2 ⊢
  have hnew2 : ∀ x, newIn s0 s2 x ↔ newIn s0 s1 x := by
    intro x; unfold newIn; rw [hvis2]
  have hsub : ∀ x, x ∈ seg s0 s → x ∈ seg s0 s2 := by
    intro x hx
    rcases hcases with ⟨_, _, h, _⟩ | ⟨_, _, h, _⟩ | ⟨_, _, _, h, _⟩
    · rw [h]; exact hx
    · rw [h]; exact hx
    · rw [h]; simp [hx]
  have hpre : s1.comps <+: s2.comps := by
    rcases hcases with ⟨_, _, _, h⟩ | ⟨_, _, _, h⟩ | ⟨_, _, _, _, h⟩
    · rw [h]; exact List.prefix_append _ _
    · rw [h]; exact List.prefix_append _ _
    · rw [h]
  have hmix : ∀ x y, newIn s s1 x → newIn s0 s y → (∃ i, joins s0.adj i x y) →
      covered s2 x y ∨ (x ∈ seg s0 s2 ∧ y ∈ seg s0 s2) := by
    intro x y hx hy hj
    by_cases hyn : y = node
    · subst hyn
      have hxin : x ∈ seg s s1 ∨ x = e.node := by
        by_cases hxc : x = e.node
        · exact Or.inr hxc
        · exact Or.inl (q4 x y hx hy.1 hj (fun h => hxc h.1))
      rcases hcases with ⟨_, hnil, _, hc⟩ | ⟨_, hcin, _, hc⟩ | ⟨_, _, hcin, hs, _⟩
      · left
        refine ⟨sort [y, e.node], by rw [hc]; simp, ?_, ?_⟩
        · rcases hxin with h | h
          · rw [hnil] at h; exact absurd h (List.not_mem_nil _)
          · rw [h, mem_sort_pair]; exact Or.inr rfl
        · rw [mem_sort_pair]; exact Or.inl rfl
      · left
        refine ⟨unique (sort (seg s s1 ++ [y])), by rw [hc]; simp, ?_, ?_⟩
        · rw [mem_emitted]
          rcases hxin with h | h
          · exact Or.inl h
          · rw [h]; exact Or.inl hcin
        · rw [mem_emitted]; exact Or.inr rfl
      · right
        rw [hs]
        refine ⟨?_, by simp⟩
        rcases hxin with h | h
        · simp [h]
        · rw [h]; simp [hcin]
    · exfalso
      have hcl := a4 y hy.1 hy.2 hyn
      obtain ⟨i, hj⟩ := hj
      have hj2 := hg.sym _ _ _ hj
      rw [← hadj] at hj2
      have := hcl _ hj2
      rw [hx.2] at this
      exact absurd this (by simp)
  refine ⟨?_, ?_, ?_, ?_, ?_, ?_⟩
  · intro x hx
    rw [hnew2]
    rcases hcases with ⟨_, _, h, _⟩ | ⟨_, _, h, _⟩ | ⟨_, _, _, h, _⟩
    · rw [h] at hx; exact newIn_mono hext (m1 x hx)
    · rw [h] at hx; exact newIn_mono hext (m1 x hx)
    · rw [h] at hx
      simp only [List.mem_append, List.mem_singleton] at hx
      rcases hx with (hx | hx) | hx
      · exact newIn_mono hext (m1 x hx)
      · exact newIn_child b.ext (q1 x hx)
      · rw [hx]; exact newIn_mono hext b.new_node
  · intro hp x hx
    rcases hcases with ⟨_, _, h, _⟩ | ⟨_, _, h, _⟩ | ⟨hL, _, _, h, _⟩
    · rw [h] at hx; exact m2 hp x hx
    · rw [h] at hx; exact m2 hp x hx
    · rw [h] at hx
      simp only [List.mem_append, List.mem_singleton] at hx
      obtain ⟨i, hj⟩ := (hpC hp).1
      have hj2 := hg.sym _ _ _ hj
      rcases hx with (hx | hx) | hx
      · exact m2 hp x hx
      · intro w hwx hwp
        by_cases hwn : w = node
        · subst hwn
          exact subtree_reaches_parent b hpS hpC hp a1 a2 a3 hqS hqL hqC hL x (q1 x hx).1
            (q1 x hx).2
        · have h1 := q2 (by omega) x hx w hwx (by simpa using hwn)
          have h1 : ReachIn s0.adj (fun z => z ≠ w) x node := by simpa using h1
          exact Relation.ReflTransGen.tail h1 ⟨Ne.symm hwn, Ne.symm hwp, i, hj2⟩
      · rw [hx]
        exact insep_of_joins hj2
  · intro x hx hxv hxs
    rw [hnew2] at hx
    rcases newIn_split (s := s) hx with hx0 | hx1
    · obtain ⟨w, hw, hwx, hsep⟩ := m3 x hx0 hxv (fun h => hxs (hsub x h))
      refine ⟨w, (hnew2 w).mpr (newIn_mono hext hw), hwx, ?_⟩
      intro y hy
      apply hsep y
      intro h
      exact hy ((hnew2 y).mpr (newIn_mono hext h))
    · have hsepnode : vget s.tour_start node 0 ≤ vget s1.low_link e.node 0 →
          ∃ w, newIn s0 s2 w ∧ w ≠ x ∧
            ∀ y, ¬ newIn s0 s2 y → ¬ ReachIn s0.adj (fun z => z ≠ w) x y := by
        intro hL
        refine ⟨node, (hnew2 node).mpr (newIn_mono hext b.new_node), Ne.symm hxv, ?_⟩
        intro y hy hr
        exact hy ((hnew2 y).mpr (newIn_child b.ext (hclosed hL x y hx1 hr)))
      rcases hcases with ⟨hL, _⟩ | ⟨hL, _⟩ | ⟨hL, _, hcin, h, _⟩
      · exact hsepnode (le_of_lt hL)
      · exact hsepnode (le_of_eq hL.symm)
      · have hxs1 : x ∉ seg s s1 := by
          intro hh
          apply hxs
          rw [h]
          simp [hh]
        have hxc : x ≠ e.node := by
          intro hh
          rw [hh] at hxs1
          exact hxs1 hcin
        obtain ⟨w, hw, hwx, hsep⟩ := q3 x hx1 hxc hxs1
        refine ⟨w, (hnew2 w).mpr (newIn_child b.ext hw), hwx, ?_⟩
        intro y hy
        apply hsep y
        intro hh
        exact hy ((hnew2 y).mpr (newIn_child b.ext hh))
  · intro x y hx hxv hy hj
    rw [hnew2] at hx
    rcases newIn_split (s := s) hx with hx0 | hx1
    · exact hsub x (m4 x y hx0 hxv hy hj)
    · have hys : vget s.vis y false = true := b.ext.vis y hy
      have hyn : y ≠ node := by
        intro hh
        rw [hh, b.fresh] at hy
        exact absurd hy (by simp)
      have hxin : x ∈ seg s s1 := q4 x y hx1 hys hj (fun hh => hyn (by
        have := hh.2
        exact_mod_cast this))
      obtain ⟨i, hj⟩ := hj
      have hlow : vget s1.low_link e.node 0 ≤ vget s.tour_start y 0 := by
        have hj2 : (⟨y, i⟩ : edge) ∈ vget s.adj x [] := by rw [hadj]; exact hj
        rcases hqL.1 x hx1.1 hx1.2 ⟨y, i⟩ hj2 hys with hh | hh
        · exfalso
          apply hyn
          have := hh.2
          exact_mod_cast this
        · exact hh
      have hylt : vget s.tour_start y 0 < vget s.tour_start node 0 := by
        rw [b.ext.ts _ hy, a2]
        exact hts0.lt _ hy
      rcases hcases with ⟨hL, _⟩ | ⟨hL, _⟩ | ⟨hL, _, hcin, h, _⟩
      · omega
      · omega
      · rw [h]
        simp [hxin]
  · intro e2 he2 hv0 hnp
    rcases List.mem_append.mp he2 with h | h
    · exact hsub _ (m5 e2 h hv0 hnp)
    · have : e2 = e := by simpa using h
      subst this
      have := b.ext.vis _ hv0
      rw [hv] at this
      exact absurd this (by simp)
  · intro x y hx hy hxy hj
    rw [hnew2] at hx hy
    rcases newIn_split (s := s) hx with hx0 | hx1 <;>
      rcases newIn_split (s := s) hy with hy0 | hy1
    · rcases m6 x y hx0 hy0 hxy hj with h | h
      · exact Or.inl (covered_mono (hext.comps.trans hpre) h)
      · exact Or.inr ⟨hsub x h.1, hsub y h.2⟩
    · obtain ⟨i, hj⟩ := hj
      rcases hmix y x hy1 hx0 ⟨i, hg.sym _ _ _ hj⟩ with h | h
      · exact Or.inl (covered_symm h)
      · exact Or.inr ⟨h.2, h.1⟩
    · exact hmix x y hx1 hy0 hj
    · rcases q5 x y hx1 hy1 hxy hj with h | h
      · exact Or.inl (covered_mono hpre h)
      · rcases hcases with ⟨_, hnil, _, _⟩ | ⟨_, _, _, hc⟩ | ⟨_, _, _, hs, _⟩
        · rw [hnil] at h
          exact absurd h.1 (List.not_mem_nil _)
        · left
          exact ⟨unique (sort (seg s s1 ++ [node])), by rw [hc]; simp,
            mem_emitted.mpr (Or.inl h.1), mem_emitted.mpr (Or.inl h.2)⟩
        · right
          rw [hs]
          simp [h.1, h.2]

end Bicomps

namespace Bicomps

/-- Layer M holds along every run of `dfs`, on top of the layers S, L, C and K. -/
theorem stepM : Step specBase specM where
  enter := by
    intro node parent s b _ _ _
    have hone : ∀ x, newIn s (enter node s) x → x = node := by
      intro x hx
      rcases vis_enter_cases hx.1 with h | h
      · exact h.symm
      · rw [hx.2] at h; exact absurd h (by simp)
    refine ⟨?_, ?_, ?_, ?_, ?_, ?_⟩
    · intro x hx
      rw [seg_enter] at hx
      exact absurd hx (List.not_mem_nil _)
    · intro _ x hx
      rw [seg_enter] at hx
      exact absurd hx (List.not_mem_nil _)
    · intro x hx hxv
      exact absurd (hone x hx) hxv
    · intro x y hx hxv
      exact absurd (hone x hx) hxv
    · intro e he
      exact absurd he (List.not_mem_nil _)
    · intro x y hx hy hxy
      exact absurd ((hone x hx).trans (hone y hy).symm) hxy
  skip := by
    intro node parent s0 done e es pc ch s b hsplit _ _ _ _ hI hep _
    obtain ⟨m1, m2, m3, m4, m5, m6⟩ := hI
    refine ⟨m1, m2, m3, m4, ?_, m6⟩
    intro e2 he2 hv0 hnp
    rcases List.mem_append.mp he2 with h | h
    · exact m5 e2 h hv0 hnp
    · have : e2 = e := by simpa using h
      subst this
      exact absurd hep hnp
  visited := by
    intro node parent s0 done e es pc ch s b hsplit hpA _ hA _ hI _ _
    exact stepM_visited node parent s0 done e es pc ch s b hpA hA hI
  call := by
    intro node parent s0 done e es pc ch s b hsplit _ _ _ _ _ _ _
    trivial
  child := by
    intro node parent s0 done e es pc ch s s1 b hsplit hpA _ hA hcA hqA _ hI _ hv hext hv1 _ hq
    exact stepM_child node parent s0 done e es pc ch s s1 b hpA hA hcA hqA hI hv hext hv1 hq
  leave := by
    intro node parent s0 pc ch s b _ _ _ _ hI
    obtain ⟨m1, m2, m3, m4, m5, m6⟩ := hI
    have hseg := seg_leave node parent ch s0 s
    refine ⟨?_, ?_, ?_, ?_, ?_⟩
    · intro x hx
      rw [hseg] at hx
      exact newIn_leave.mpr (m1 x hx)
    · intro hp x hx
      rw [hseg] at hx
      exact m2 hp x hx
    · intro x hx hxv hxs
      rw [hseg] at hxs
      obtain ⟨w, hw, hwx, hsep⟩ := m3 x (newIn_leave.mp hx) hxv hxs
      exact ⟨w, newIn_leave.mpr hw, hwx, fun y hy => hsep y (fun h => hy (newIn_leave.mpr h))⟩
    · intro x y hx hy hj hnot
      rw [hseg]
      by_cases hxv : x = node
      · obtain ⟨i, hj⟩ := hj
        rw [hxv] at hj
        rw [hxv]
        refine m5 ⟨y, i⟩ hj hy ?_
        intro h
        exact hnot ⟨hxv, h⟩
      · exact m4 x y (newIn_leave.mp hx) hxv hy hj
    · intro x y hx hy hxy hj
      rw [hseg]
      rcases m6 x y (newIn_leave.mp hx) (newIn_leave.mp hy) hxy hj with h | h
      · left
        unfold covered
        rw [leave_comps]
        exact h
      · exact Or.inr h

theorem stepBaseM : Step Spec.top (specBase.and specM) := stepBase.seq stepM

end Bicomps

namespace Bicomps

/-! ## Layer Bk: every emitted component is a biconnected component -/

/-- The part of layer Bk that concerns the return from a child. -/
theorem stepBk_child (node : Nat) (parent : Int) (s0 : bicomps) (done : List edge) (e : edge)
    (es : List edge) (pc ch : Nat) (s s1 : bicomps) (b : Basic node s0 s)
    (hsplit : done ++ e :: es = vget s0.adj node [])
    (hpA : specBase.pre node parent s0)
    (hA : specBase.inv node parent s0 done (e :: es) pc ch s)
    (hcA : specBase.pre e.node node s)
    (hqA : specBase.post e.node node s s1)
    (hqM : specM.post e.node node s s1)
    (hv : vget s.vis e.node false = false) (hext : Ext s s1)
    (hv1 : vget s1.vis e.node false = true)
    (hq : specBk.post e.node node s s1) :
    specBk.inv node parent s0 (done ++ [e]) es (if (e.node : Int) = parent then pc + 1 else pc)
      (ch + 1) (childStep node e s.stk.length s1) := by
  have hcases := child_cases b hpA hA hcA hqA hv hext
  obtain ⟨⟨⟨⟨a1, a2, a3, a4, a5⟩, _⟩, _⟩, _⟩ := hA
  obtain ⟨⟨⟨hqS, hqL⟩, hqC⟩, _⟩ := hqA
  obtain ⟨⟨⟨hpS, _⟩, hpC⟩, _⟩ := hpA
  have hg : GraphInv s0.adj := hpS.1
  have hadj : s.adj = s0.adj := b.ext.adj
  obtain ⟨q1, q2, q3, q4, q5⟩ := hqM
  rw [hadj] at q2 q3
  have hq : ∀ c ∈ s1.comps, IsBlock s0.adj c := by
    intro c hc
    have := hq c hc
    rw [hadj] at this
    exact this
  have hqC : ∀ x, newIn s s1 x → ReachIn s0.adj (fun z => z ≠ node) e.node x := by
    intro x hx
    have := hqC x hx.1 hx.2
    rw [hadj] at this
    refine ReachIn.mono ?_ this
    intro z hz hzn
    rw [hzn, b.vis] at hz
    exact absurd hz.2 (by simp)
  have hne := b.ne hv
  have hcnew : newIn s s1 e.node := ⟨hv1, hv⟩
  have hnn : ¬ newIn s s1 node := fun h => by
    have := h.2
    rw [b.vis] at this
    exact absurd this (by simp)
  have hj : joins s0.adj e.index node e.node := by
    show e ∈ vget s0.adj node []
    rw [← hsplit]; simp
  have hclosed : vget s.tour_start node 0 ≤ vget s1.low_link e.node 0 →
      ∀ x y, newIn s s1 x → ReachIn s0.adj (fun z => z ≠ node) x y → newIn s s1 y := by
    intro hL x y hx hr
    exact closed_under_reach (P := fun z => newIn s s1 z)
      (subtree_closed_nonroot b hg a1 hcA.1.1.1 hqS hqL hext hL) hr hx
  -- no vertex outside the component is inseparable from all its members
  have hmax : vget s.tour_start node 0 ≤ vget s1.low_link e.node 0 →
      ∀ x, x ≠ node → x ∉ seg s s1 → x ≠ e.node →
        ¬ (Insep s0.adj x node ∧ Insep s0.adj x e.node) := by
    intro hL x hxn hxs hxc ⟨h1, h2⟩
    by_cases hx : newIn s s1 x
    · obtain ⟨w, hw, hwx, hsep⟩ := q3 x hx hxc hxs
      have hwn : w ≠ node := fun h => hnn (h ▸ hw)
      exact hsep node hnn (h1 w hwx hwn)
    · exact hx (hclosed hL e.node x hcnew (reachIn_symm hg (h2 node (Ne.symm hxn) hne)))
  have hfin : ∀ c2, (∃ a ∈ c2, ∃ b ∈ c2, a ≠ b) →
      (∀ a ∈ c2, ∀ b ∈ c2, a ≠ b → Insep s0.adj a b) →
      (node ∈ c2 ∧ e.node ∈ c2 ∧ ∀ x, x ∉ c2 → x ≠ node ∧ x ∉ seg s s1 ∧ x ≠ e.node) →
      vget s.tour_start node 0 ≤ vget s1.low_link e.node 0 → IsBlock s0.adj c2 := by
    intro c2 h1 h2 h3 hL
    refine ⟨h1, h2, ?_⟩
    intro x hx
    obtain ⟨k1, k2, k3⟩ := h3.2.2 x hx
    by_contra hall
    apply hmax hL x k1 k2 k3
    constructor
    · by_contra hh
      exact hall ⟨node, h3.1, hh⟩
    · by_contra hh
      exact hall ⟨e.node, h3.2.1, hh⟩
  intro c hc
  rcases hcases with ⟨hL, hnil, _, hcomps⟩ | ⟨hL, hcin, _, hcomps⟩ | ⟨_, _, _, _, hcomps⟩
  · rw [hcomps] at hc
    rcases List.mem_append.mp hc with hc | hc
    · exact hq c hc
    · have : c = sort [node, e.node] := by simpa using hc
      subst this
      apply hfin _ _ _ _ (le_of_lt hL)
      · exact ⟨node, mem_sort_pair.mpr (Or.inl rfl), e.node, mem_sort_pair.mpr (Or.inr rfl), hne⟩
      · intro a ha b2 hb hab
        rcases mem_sort_pair.mp ha with ha | ha <;> rcases mem_sort_pair.mp hb with hb | hb
        · exact absurd (ha.trans hb.symm) hab
        · rw [ha, hb]; exact insep_of_joins hj
        · rw [ha, hb]; exact insep_symm hg (insep_of_joins hj)
        · exact absurd (ha.trans hb.symm) hab
      · refine ⟨mem_sort_pair.mpr (Or.inl rfl), mem_sort_pair.mpr (Or.inr rfl), ?_⟩
        intro x hx
        rw [mem_sort_pair] at hx
        refine ⟨fun h => hx (Or.inl h), ?_, fun h => hx (Or.inr h)⟩
        rw [hnil]
        exact List.not_mem_nil _
  · rw [hcomps] at hc
    rcases List.mem_append.mp hc with hc | hc
    · exact hq c hc
    · have : c = unique (sort (seg s s1 ++ [node])) := by simpa using hc
      subst this
      have hp0 : (0 : Int) ≤ (node : Int) := by omega
      have hin : ∀ a ∈ seg s s1, Insep s0.adj a node := by
        intro a ha
        have := q2 hp0 a ha
        simpa using this
      apply hfin _ _ _ _ (le_of_eq hL.symm)
      · exact ⟨node, mem_emitted.mpr (Or.inr rfl), e.node, mem_emitted.mpr (Or.inl hcin), hne⟩
      · intro a ha b2 hb hab
        rcases mem_emitted.mp ha with ha2 | ha2 <;> rcases mem_emitted.mp hb with hb2 | hb2
        · intro w hwa hwb
          by_cases hwn : w = node
          · rw [hwn]
            exact reachIn_trans (reachIn_symm hg (hqC a (q1 a ha2))) (hqC b2 (q1 b2 hb2))
          · exact reachIn_trans (hin a ha2 w hwa hwn) (reachIn_symm hg (hin b2 hb2 w hwb hwn))
        · rw [hb2]; exact hin a ha2
        · rw [ha2]; exact insep_symm hg (hin b2 hb2)
        · exact absurd (ha2.trans hb2.symm) hab
      · refine ⟨mem_emitted.mpr (Or.inr rfl), mem_emitted.mpr (Or.inl hcin), ?_⟩
        intro x hx
        rw [mem_emitted] at hx
        refine ⟨fun h => hx (Or.inr h), fun h => hx (Or.inl h), ?_⟩
        intro h
        rw [h] at hx
        exact hx (Or.inl hcin)
  · rw [hcomps] at hc
    exact hq c hc

/-- Layer Bk holds along every run of `dfs`, on top of layer M. -/
theorem stepBk : Step (specBase.and specM) specBk where
  enter := by
    intro node parent s b _ _ hp c hc
    exact hp c hc
  skip := by
    intro node parent s0 done e es pc ch s b hsplit _ _ _ _ hI _ _
    exact hI
  visited := by
    intro node parent s0 done e es pc ch s b hsplit _ _ _ _ hI _ _ c hc
    rw [visitedStep_comps] at hc
    exact hI c hc
  call := by
    intro node parent s0 done e es pc ch s b hsplit _ _ _ _ hI _ _ c hc
    rw [b.ext.adj]
    exact hI c hc
  child := by
    intro node parent s0 done e es pc ch s s1 b hsplit hpA _ hA hcA hqA _ hI _ hv hext hv1 _ hq
    exact stepBk_child node parent s0 done e es pc ch s s1 b hsplit hpA.1 hA.1 hcA.1 hqA.1 hqA.2
      hv hext hv1 hq
  leave := by
    intro node parent s0 pc ch s b _ _ _ _ hI c hc
    rw [leave_comps] at hc
    exact hI c hc

end Bicomps

namespace Bicomps

/-! ## Layer N: no component is emitted twice -/

theorem mem_drop_comps {s0 s : bicomps} (h : s0.comps <+: s.comps) {c : List Nat} :
    c ∈ s.comps ↔ c ∈ s0.comps ∨ c ∈ s.comps.drop s0.comps.length := by
  obtain ⟨t, ht⟩ := h
  rw [← ht, List.drop_left, List.mem_append]

theorem drop_comps_trans {s0 s s1 : bicomps} (h0 : s0.comps <+: s.comps)
    (h1 : s.comps <+: s1.comps) {c : List Nat} (hc : c ∈ s1.comps.drop s0.comps.length) :
    c ∈ s.comps.drop s0.comps.length ∨ c ∈ s1.comps.drop s.comps.length := by
  obtain ⟨t, ht⟩ := h0
  obtain ⟨t1, ht1⟩ := h1
  rw [← ht1, ← ht, List.append_assoc, List.drop_left] at hc
  rw [← ht1, ← ht, List.drop_left, List.drop_left]
  exact List.mem_append.mp hc

/-- The part of layer N that concerns the return from a child. -/
theorem stepN_child (node : Nat) (parent : Int) (s0 : bicomps) (done : List edge) (e : edge)
    (es : List edge) (pc ch : Nat) (s s1 : bicomps) (b : Basic node s0 s)
    (hpA : specBase.pre node parent s0)
    (hA : specBase.inv node parent s0 done (e :: es) pc ch s)
    (hcA : specBase.pre e.node node s)
    (hqA : specBase.post e.node node s s1)
    (hqM : specM.post e.node node s s1)
    (hI : specN.inv node parent s0 done (e :: es) pc ch s)
    (hv : vget s.vis e.node false = false) (hext : Ext s s1)
    (hv1 : vget s1.vis e.node false = true)
    (hq : specN.post e.node node s s1) :
    specN.inv node parent s0 (done ++ [e]) es (if (e.node : Int) = parent then pc + 1 else pc)
      (ch + 1) (childStep node e s.stk.length s1) := by
  have hcases := child_cases b hpA hA hcA hqA hv hext
  obtain ⟨n1, n2, n3⟩ := hI
  obtain ⟨r1, r2, r3⟩ := hq
  have q1 := hqM.1
  have hne := b.ne hv
  have hcnew : newIn s s1 e.node := ⟨hv1, hv⟩
  have hnn : ¬ newIn s s1 node := fun h => by
    have := h.2
    rw [b.vis] at this
    exact absurd this (by simp)
  have hvis2 : (childStep node e s.stk.length s1).vis = s1.vis := childStep_vis _ _ _ _
  generalize childStep node e s.stk.length s1 = s2 at hcases hvis2 ⊢
  have hnew2 : ∀ x, newIn s0 s2 x ↔ newIn s0 s1 x := by
    intro x; unfold newIn; rw [hvis2]
  -- what is known of a component emitted by this step
  have hfresh : ∀ c2, node ∈ c2 → e.node ∈ c2 → (∀ x ∈ c2, x = node ∨ newIn s s1 x) →
      s2.comps = s1.comps ++ [c2] →
      s2.comps.Nodup ∧ (∀ c ∈ s2.comps, ∀ x ∈ c, vget s2.vis x false = true) ∧
      ∀ c ∈ s2.comps.drop s0.comps.length, ∀ x ∈ c, newIn s0 s2 x := by
    intro c2 hn hc hmem hcomps
    have hmem2 : ∀ x ∈ c2, newIn s0 s1 x := by
      intro x hx
      rcases hmem x hx with h | h
      · rw [h]; exact newIn_mono hext b.new_node
      · exact newIn_child b.ext h
    refine ⟨?_, ?_, ?_⟩
    · rw [hcomps]
      refine List.nodup_append.mpr ⟨r1, List.nodup_singleton _, ?_⟩
      intro c hc1 hc2
      have : c = c2 := by simpa using hc2
      subst this
      rcases (mem_drop_comps hext.comps).mp hc1 with h | h
      · have := n2 c h e.node hc
        rw [hv] at this
        exact absurd this (by simp)
      · exact hnn (r3 c h node hn)
    · intro c hc1 x hx
      rw [hvis2]
      rw [hcomps] at hc1
      rcases List.mem_append.mp hc1 with h | h
      · exact r2 c h x hx
      · have : c = c2 := by simpa using h
        subst this
        exact (hmem2 x hx).1
    · intro c hc1 x hx
      rw [hnew2]
      have hpre : s1.comps <+: s2.comps := by rw [hcomps]; exact List.prefix_append _ _
      rcases drop_comps_trans (b.ext.comps.trans hext.comps) hpre hc1 with h | h
      · rcases drop_comps_trans b.ext.comps hext.comps h with h | h
        · exact newIn_mono hext (n3 c h x hx)
        · exact newIn_child b.ext (r3 c h x hx)
      · rw [hcomps, List.drop_left] at h
        have : c = c2 := by simpa using h
        subst this
        exact hmem2 x hx
  rcases hcases with ⟨_, hnil, _, hcomps⟩ | ⟨_, hcin, _, hcomps⟩ | ⟨_, _, _, _, hcomps⟩
  · apply hfresh _ _ _ _ hcomps
    · exact mem_sort_pair.mpr (Or.inl rfl)
    · exact mem_sort_pair.mpr (Or.inr rfl)
    · intro x hx
      rcases mem_sort_pair.mp hx with h | h
      · exact Or.inl h
      · rw [h]; exact Or.inr hcnew
  · apply hfresh _ _ _ _ hcomps
    · exact mem_emitted.mpr (Or.inr rfl)
    · exact mem_emitted.mpr (Or.inl hcin)
    · intro x hx
      rcases mem_emitted.mp hx with h | h
      · exact Or.inr (q1 x h)
      · exact Or.inl h
  · refine ⟨?_, ?_, ?_⟩
    · rw [hcomps]; exact r1
    · intro c hc x hx
      rw [hvis2]
      rw [hcomps] at hc
      exact r2 c hc x hx
    · intro c hc x hx
      rw [hnew2]
      rw [hcomps] at hc
      rcases drop_comps_trans b.ext.comps hext.comps hc with h | h
      · exact newIn_mono hext (n3 c h x hx)
      · exact newIn_child b.ext (r3 c h x hx)

end Bicomps

namespace Bicomps

/-- Layer N holds along every run of `dfs`, on top of layer M. -/
theorem stepN : Step (specBase.and specM) specN where
  enter := by
    intro node parent s b _ _ hp
    refine ⟨hp.1, ?_, ?_⟩
    · intro c hc x hx
      exact b.ext.vis x (hp.2 c hc x hx)
    · intro c hc
      rw [enter_comps, List.drop_length] at hc
      exact absurd hc (List.not_mem_nil _)
  skip := by
    intro node parent s0 done e es pc ch s b hsplit _ _ _ _ hI _ _
    exact hI
  visited := by
    intro node parent s0 done e es pc ch s b hsplit _ _ _ _ hI _ _
    obtain ⟨n1, n2, n3⟩ := hI
    refine ⟨?_, ?_, ?_⟩
    · rw [visitedStep_comps]; exact n1
    · intro c hc x hx
      rw [visitedStep_comps] at hc
      rw [visitedStep_vis]
      exact n2 c hc x hx
    · intro c hc x hx
      rw [visitedStep_comps] at hc
      exact newIn_visitedStep.mpr (n3 c hc x hx)
  call := by
    intro node parent s0 done e es pc ch s b hsplit _ _ _ _ hI _ _
    exact ⟨hI.1, hI.2.1⟩
  child := by
    intro node parent s0 done e es pc ch s s1 b hsplit hpA _ hA hcA hqA _ hI _ hv hext hv1 _ hq
    exact stepN_child node parent s0 done e es pc ch s s1 b hpA.1 hA.1 hcA.1 hqA.1 hqA.2 hI
      hv hext hv1 hq
  leave := by
    intro node parent s0 pc ch s b _ _ _ _ hI
    obtain ⟨n1, n2, n3⟩ := hI
    refine ⟨?_, ?_, ?_⟩
    · rw [leave_comps]; exact n1
    · intro c hc x hx
      rw [leave_comps] at hc
      rw [leave_vis]
      exact n2 c hc x hx
    · intro c hc x hx
      rw [leave_comps] at hc
      exact newIn_leave.mpr (n3 c hc x hx)

theorem stepBlocks : Step Spec.top (((specBase.and specM).and specBk).and specN) :=
  ((stepBase.seq stepM).seq stepBk).seq
    (stepN.weaken (fun _ _ _ h => h.1) (fun _ _ _ _ h => h.1) (fun _ _ _ _ _ _ _ _ h => h.1))

theorem topM_reset (g : bicomps) (hg : GraphInv g.adj) : TopM (reset g) :=
  ⟨TopS.reset g hg, rfl, fun c hc => absurd hc (List.not_mem_nil _), List.nodup_nil,
    fun c hc => absurd hc (List.not_mem_nil _),
    fun x _ hx => by rw [reset_vis] at hx; exact absurd hx (by simp)⟩

theorem topM_step {s s1 : bicomps} {i : Nat} {fuel : Nat} (h : TopM s) (hok : s.ok)
    (hi : i < s.n) (hrun : dfs fuel i (-1) s = some s1) : TopM s1 := by
  have hext := (dfs_ext fuel i (-1) s s1 hok hi hrun).1
  have hq := stepBlocks.sound fuel i (-1) s s1 hok hi
    ⟨⟨⟨⟨⟨⟨h.top.pre i, trivial⟩, fun h0 => absurd h0 (by omega)⟩, trivial⟩, trivial⟩, h.block⟩,
      h.nodup, h.mem⟩ hrun
  obtain ⟨⟨⟨⟨⟨⟨hqS, _⟩, _⟩, _, _, _, k4⟩, _, _, _, _, m5⟩, hbk⟩, n1, n2, _⟩ := hq
  have hstk : s1.stk = s.stk := (k4 (by omega)).1
  have htop := h.top.post hext hqS
  refine ⟨htop, by rw [hstk]; exact h.stk, ?_, n1, n2, ?_⟩
  · intro c hc
    rw [hext.adj]
    exact hbk c hc
  · intro x y hx hxy hj
    rw [hext.adj] at hj
    rcases vis_cases s x with hxs | hxs
    · exact covered_mono hext.comps (h.cov x y hxs hxy hj)
    · have hy1 : vget s1.vis y false = true := by
        obtain ⟨k, hk⟩ := hj
        have := htop.closed x hx ⟨y, k⟩ (by rw [hext.adj]; exact hk)
        exact this
      have hys : vget s.vis y false = false := by
        rcases vis_cases s y with hys | hys
        · obtain ⟨k, hk⟩ := hj
          have := h.top.closed y hys ⟨x, k⟩ (h.top.graph.sym _ _ _ hk)
          rw [hxs] at this
          exact absurd this (by simp)
        · exact hys
      rcases m5 x y ⟨hx, hxs⟩ ⟨hy1, hys⟩ hxy hj with h1 | h1
      · exact h1
      · have : seg s s1 = [] := by
          unfold seg
          rw [hstk, List.drop_length]
        rw [this] at h1
        exact absurd h1.1 (List.not_mem_nil _)

/-- After `build` the emitted components are biconnected components, none is
listed twice, and the two ends of every edge that is not a self-loop are in a
common component. -/
theorem build_blocks (g : bicomps) (root : Int) (r : bicomps) (hwf : g.wf)
    (hg : GraphInv g.adj) (h : g.build root = some r) :
    (∀ c ∈ r.comps, IsBlock g.adj c) ∧ r.comps.Nodup ∧
      ∀ x y, x < g.n → x ≠ y → (∃ i, joins g.adj i x y) → covered r x y := by
  have := build_rule (P := TopM) g root r hwf (topM_reset g hg)
    (fun s i s1 hP hok hi _ hc => topM_step hP hok hi hc) h
  have hadj : r.adj = g.adj := this.2.1.adj
  refine ⟨?_, this.1.nodup, ?_⟩
  · intro c hc
    rw [← hadj]
    exact this.1.block c hc
  · intro x y hx hxy hj
    rw [← hadj] at hj
    exact this.1.cov x y (this.2.2 x hx) hxy hj

end Bicomps

namespace Bicomps

/-! ## Biconnected components do not depend on the traversal -/

/-- Two vertices that are both inseparable from (or equal to) each of two
different vertices are inseparable. -/
theorem insep_triangle {adj : List (List edge)} (hg : GraphInv adj) {a b x y : Nat}
    (hab : a ≠ b) (hxa : x = a ∨ Insep adj x a) (hxb : x = b ∨ Insep adj x b)
    (hya : y = a ∨ Insep adj y a) (hyb : y = b ∨ Insep adj y b) : Insep adj x y := by
  have via : ∀ (m w : Nat), w ≠ x → w ≠ y → w ≠ m → (x = m ∨ Insep adj x m) →
      (y = m ∨ Insep adj y m) → ReachIn adj (fun z => z ≠ w) x y := by
    intro m w hwx hwy hwm hxm hym
    have h1 : ReachIn adj (fun z => z ≠ w) x m := by
      rcases hxm with h | h
      · rw [h]; exact Relation.ReflTransGen.refl
      · exact h w hwx hwm
    have h2 : ReachIn adj (fun z => z ≠ w) y m := by
      rcases hym with h | h
      · rw [h]; exact Relation.ReflTransGen.refl
      · exact h w hwy hwm
    exact reachIn_trans h1 (reachIn_symm hg h2)
  intro w hwx hwy
  by_cases hwa : w = a
  · exact via b w hwx hwy (by rw [hwa]; exact hab) hxb hyb
  · exact via a w hwx hwy hwa hxa hya

/-- A vertex inseparable from two different members of a biconnected component
is a member. -/
theorem block_absorbs {adj : List (List edge)} (hg : GraphInv adj) {c : List Nat}
    (hc : IsBlock adj c) {a b x : Nat} (ha : a ∈ c) (hb : b ∈ c) (hab : a ≠ b)
    (hxa : x = a ∨ Insep adj x a) (hxb : x = b ∨ Insep adj x b) : x ∈ c := by
  by_contra hx
  obtain ⟨y, hy, hn⟩ := hc.2.2 x hx
  apply hn
  have hya : y = a ∨ Insep adj y a := by
    by_cases h : y = a
    · exact Or.inl h
    · exact Or.inr (hc.2.1 y hy a ha h)
  have hyb : y = b ∨ Insep adj y b := by
    by_cases h : y = b
    · exact Or.inl h
    · exact Or.inr (hc.2.1 y hy b hb h)
  exact insep_triangle hg hab hxa hxb hya hyb

/-- Two biconnected components with two common vertices have the same members. -/
theorem block_members {adj : List (List edge)} (hg : GraphInv adj) {c d : List Nat}
    (hc : IsBlock adj c) (hd : IsBlock adj d) {a b : Nat} (hab : a ≠ b)
    (ha : a ∈ c) (hb : b ∈ c) (ha2 : a ∈ d) (hb2 : b ∈ d) {x : Nat} (hx : x ∈ c) : x ∈ d := by
  apply block_absorbs hg hd ha2 hb2 hab
  · by_cases h : x = a
    · exact Or.inl h
    · exact Or.inr (hc.2.1 x hx a ha h)
  · by_cases h : x = b
    · exact Or.inl h
    · exact Or.inr (hc.2.1 x hx b hb h)

/-- A path between two different vertices can leave its first vertex for good. -/
theorem reach_first_step {adj : List (List edge)} {P : Nat → Prop} {a b : Nat}
    (h : ReachIn adj P a b) (hab : a ≠ b) :
    ∃ a1, a1 ≠ a ∧ (∃ i, joins adj i a a1) ∧ ReachIn adj (fun z => P z ∧ z ≠ a) a1 b := by
  induction h with
  | refl => exact absurd rfl hab
  | @tail b c _ hs ih =>
    obtain ⟨hb, hc, hj⟩ := hs
    by_cases hba : a = b
    · subst hba
      exact ⟨c, Ne.symm hab, hj, Relation.ReflTransGen.refl⟩
    · obtain ⟨a1, h1, h2, h3⟩ := ih hba
      exact ⟨a1, h1, h2, Relation.ReflTransGen.tail h3 ⟨⟨hb, Ne.symm hba⟩, ⟨hc, Ne.symm hab⟩, hj⟩⟩

/-- Two different inseparable vertices are in a common component, as soon as the
two ends of every edge are and the components are biconnected components. -/
theorem covered_of_insep {s : bicomps} {adj : List (List edge)} (hg : GraphInv adj)
    (hblock : ∀ c ∈ s.comps, IsBlock adj c)
    (hcov : ∀ x y, x ≠ y → (∃ i, joins adj i x y) → covered s x y)
    {a b : Nat} (hab : a ≠ b) (h : Insep adj a b) : covered s a b := by
  have hw1 : a + b + 1 ≠ a := by omega
  have hw2 : a + b + 1 ≠ b := by omega
  obtain ⟨a1, h1, h2, h3⟩ := reach_first_step (h _ hw1 hw2) hab
  obtain ⟨c, hc, hac, ha1c⟩ := hcov a a1 (Ne.symm h1) h2
  refine ⟨c, hc, hac, ?_⟩
  apply block_absorbs hg (hblock c hc) hac ha1c (Ne.symm h1)
  · exact Or.inr (insep_symm hg h)
  · by_cases hb1 : b = a1
    · exact Or.inl hb1
    · right
      apply insep_symm hg
      intro w hwa1 hwb
      by_cases hwa : w = a
      · rw [hwa]
        exact ReachIn.mono (fun z hz => hz.2) h3
      · obtain ⟨i, hj⟩ := h2
        exact Relation.ReflTransGen.head ⟨Ne.symm hwa1, Ne.symm hwa, i, hg.sym _ _ _ hj⟩
          (h w hwa hwb)

theorem sorted_ext {c d : List Nat} (hc : c.Sorted (· < ·)) (hd : d.Sorted (· < ·))
    (h : ∀ x, x ∈ c ↔ x ∈ d) : c = d :=
  List.eq_of_perm_of_sorted ((List.perm_ext_iff_of_nodup hc.nodup hd.nodup).mpr h) hc hd

/-- The components found by one traversal are found by every other. -/
theorem comps_subset {r r2 : bicomps} {adj : List (List edge)} (hg : GraphInv adj)
    (hblock : ∀ c ∈ r.comps, IsBlock adj c) (hsorted : ∀ c ∈ r.comps, c.Sorted (· < ·))
    (hblock2 : ∀ c ∈ r2.comps, IsBlock adj c) (hsorted2 : ∀ c ∈ r2.comps, c.Sorted (· < ·))
    (hcov2 : ∀ x y, x ≠ y → (∃ i, joins adj i x y) → covered r2 x y)
    {c : List Nat} (hc : c ∈ r.comps) : c ∈ r2.comps := by
  have hb := hblock c hc
  obtain ⟨a, ha, b, hb1, hab⟩ := hb.1
  obtain ⟨d, hd, had, hbd⟩ := covered_of_insep hg hblock2 hcov2 hab (hb.2.1 a ha b hb1 hab)
  have : c = d := by
    apply sorted_ext (hsorted c hc) (hsorted2 d hd)
    intro x
    exact ⟨fun hx => block_members hg hb (hblock2 d hd) hab ha hb1 had hbd hx,
      fun hx => block_members hg (hblock2 d hd) hb hab had hbd ha hb1 hx⟩
  rw [this]
  exact hd

end Bicomps

namespace Bicomps

/-! ## The root argument of `build` does not change the decomposition -/

theorem joins_lt {g : bicomps} (hwf : g.wf) {i x y : Nat} (hj : joins g.adj i x y) : x < g.n := by
  by_contra hx
  have : vget g.adj x [] = [] := vget_of_le _ _ _ (by rw [hwf.1]; omega)
  unfold joins at hj
  rw [this] at hj
  exact absurd hj (List.not_mem_nil _)

theorem build_sorted (g : bicomps) (root : Int) (r : bicomps) (hwf : g.wf)
    (h : g.build root = some r) : ∀ c ∈ r.comps, c.Sorted (· < ·) := by
  have := build_rule (P := CompsOk) g root r hwf
    ⟨fun c hc => absurd hc (List.not_mem_nil _), fun x hx => absurd hx (List.not_mem_nil _)⟩
    (fun s i s1 hP hok hi _ hc => dfs_compsOk _ i (-1) s s1 hok hi hP hc) h
  intro c hc
  exact (this.1.1 c hc).1

/-- After `build` exactly the bridges are flagged. -/
theorem build_bridge_iff (g : bicomps) (root : Int) (r : bicomps) (hwf : g.wf)
    (hg : GraphInv g.adj) (h : g.build root = some r) (i : Nat) :
    vget r.is_bridge i false = true ↔ IsBridge g.adj i := by
  obtain ⟨h1, h2⟩ := build_bridges g root r hwf hg h
  refine ⟨h1 i, ?_⟩
  rintro ⟨x, y, hj, hn⟩
  rcases vis_cases_bool (vget r.is_bridge i false) with hf | hf
  · exact hf
  · exact absurd (h2 x (joins_lt hwf hj) ⟨y, i⟩ hj hf) hn

theorem bool_list_ext {l1 l2 : List Bool} (hlen : l1.length = l2.length)
    (h : ∀ i, i < l1.length → (vget l1 i false = true ↔ vget l2 i false = true)) : l1 = l2 := by
  apply List.ext_getElem hlen
  intro i h1 h2
  have := h i h1
  unfold vget at this
  rw [List.getD_eq_getElem _ _ h1, List.getD_eq_getElem _ _ h2] at this
  exact Bool.eq_iff_iff.mpr this

/-- Two runs of `build` on the same graph, from any two roots, give the same
flags and the same components up to their order. -/
theorem build_any_root (g : bicomps) (root root2 : Int) (r r2 : bicomps) (hwf : g.wf)
    (hg : GraphInv g.adj) (h : g.build root = some r) (h2 : g.build root2 = some r2) :
    r.is_cut = r2.is_cut ∧ r.is_bridge = r2.is_bridge ∧ (∀ c, c ∈ r.comps ↔ c ∈ r2.comps) ∧
      r.comps.Perm r2.comps := by
  obtain ⟨_, e1, _⟩ := build_rule (P := fun _ => True) g root r hwf trivial
    (fun _ _ _ _ _ _ _ _ => trivial) h
  obtain ⟨_, e2, _⟩ := build_rule (P := fun _ => True) g root2 r2 hwf trivial
    (fun _ _ _ _ _ _ _ _ => trivial) h2
  obtain ⟨b1, n1, c1⟩ := build_blocks g root r hwf hg h
  obtain ⟨b2, n2, c2⟩ := build_blocks g root2 r2 hwf hg h2
  have hmem : ∀ c, c ∈ r.comps ↔ c ∈ r2.comps := by
    intro c
    constructor
    · exact comps_subset hg b1 (build_sorted g root r hwf h) b2 (build_sorted g root2 r2 hwf h2)
        (fun x y hxy hj => c2 x y (by obtain ⟨i, hj⟩ := hj; exact joins_lt hwf hj) hxy hj)
    · exact comps_subset hg b2 (build_sorted g root2 r2 hwf h2) b1 (build_sorted g root r hwf h)
        (fun x y hxy hj => c1 x y (by obtain ⟨i, hj⟩ := hj; exact joins_lt hwf hj) hxy hj)
  refine ⟨?_, ?_, hmem, (List.perm_ext_iff_of_nodup n1 n2).mpr hmem⟩
  · apply bool_list_ext
    · rw [e1.len_cut, e2.len_cut]
    · intro i hi
      have hi : i < g.n := by
        rw [e1.len_cut] at hi
        simpa [reset] using hi
      rw [build_cuts g root r hwf hg h i hi, build_cuts g root2 r2 hwf hg h2 i hi]
  · apply bool_list_ext
    · rw [e1.len_bridge, e2.len_bridge]
    · intro i _
      rw [build_bridge_iff g root r hwf hg h, build_bridge_iff g root2 r2 hwf hg h2]

/-- Claim C10: for every graph built by `init` and `add_edge` calls with endpoints
below `n` and every root argument, `build(root)` and `build()` (default root
`-1`) both return, with the same `is_cut` array, the same `is_bridge` array and
the same components: the two `comps` have the same members (each component
being a sorted vertex list) and are permutations of each other; for `root < 0`
or `root >= n` the two results are identical, the order of `comps` included. -/
theorem root_independent (s0 : bicomps) (n mh : Nat) (es : List (Nat × Nat)) (root : Int)
    (hes : ∀ e ∈ es, e.1 < n ∧ e.2 < n) :
    ∃ r r0, ((s0.init n mh).add_edges es).build root = some r ∧
      ((s0.init n mh).add_edges es).build (-1) = some r0 ∧
      r.is_cut = r0.is_cut ∧ r.is_bridge = r0.is_bridge ∧
      (∀ c, c ∈ r.comps ↔ c ∈ r0.comps) ∧ r.comps.Perm r0.comps ∧
      ((root < 0 ∨ (n : Int) ≤ root) → r = r0) := by
  have hwf := built_wf s0 n mh es hes
  have hg := built_graphInv s0 n mh es hes
  obtain ⟨r, hr⟩ := build_total _ root hwf
  obtain ⟨r0, hr0⟩ := build_total _ (-1) hwf
  obtain ⟨k1, k2, k3, k4⟩ := build_any_root _ root (-1) r r0 hwf hg hr hr0
  refine ⟨r, r0, hr, hr0, k1, k2, k3, k4, ?_⟩
  intro hroot
  have := build_root_out_of_range ((s0.init n mh).add_edges es) root
    (by rw [built_n]; exact hroot)
  rw [this, hr0] at hr
  exact (Option.some.inj hr).symm

theorem root_independent_witness :
    (∀ e ∈ [((0 : Nat), (1 : Nat)), (1, 2), (2, 0), (2, 3), (3, 4), (4, 2), (4, 5)],
      e.1 < 7 ∧ e.2 < 7) ∧
    ∃ r r0, ((bicomps.fresh.init 7 0).add_edges
        [(0, 1), (1, 2), (2, 0), (2, 3), (3, 4), (4, 2), (4, 5)]).build 3 = some r ∧
      ((bicomps.fresh.init 7 0).add_edges
        [(0, 1), (1, 2), (2, 0), (2, 3), (3, 4), (4, 2), (4, 5)]).build (-1) = some r0 ∧
      r.is_cut = r0.is_cut ∧ r.is_bridge = r0.is_bridge ∧
      (∀ c, c ∈ r.comps ↔ c ∈ r0.comps) ∧ r.comps.Perm r0.comps ∧
      (((3 : Int) < 0 ∨ ((7 : Nat) : Int) ≤ 3) → r = r0) :=
  ⟨by decide, root_independent bicomps.fresh 7 0
    [(0, 1), (1, 2), (2, 0), (2, 3), (3, 4), (4, 2), (4, 5)] 3 (by decide)⟩

end Bicomps

namespace Bicomps

/-! ## Parallel edges -/

theorem add_edges_concat (g : bicomps) (es : List (Nat × Nat)) (u v : Nat) :
    (g.add_edges es).add_edge u v = g.add_edges (es ++ [(u, v)]) := by
  unfold bicomps.add_edges
  rw [List.foldl_append]
  rfl

theorem edgeStep_symm {es : List (Nat × Nat)} {x y : Nat} (h : edgeStep es x y) :
    edgeStep es y x := by
  obtain ⟨k, h⟩ := h
  exact ⟨k, h.symm⟩

/-- A parallel copy of an edge joins no new pair of vertices. -/
theorem edgeStep_parallel {es : List (Nat × Nat)} {u v : Nat} (hj : edgeStep es u v)
    (x y : Nat) : edgeStep (es ++ [(u, v)]) x y ↔ edgeStep es x y := by
  constructor
  · rintro ⟨k, hk⟩
    by_cases hlt : k < es.length
    · rw [List.getElem?_append_left hlt] at hk
      exact ⟨k, hk⟩
    · have hge : es.length ≤ k := by omega
      rw [List.getElem?_append_right hge] at hk
      cases hkk : k - es.length with
      | zero =>
        rw [hkk] at hk
        simp only [List.getElem?_cons_zero, Option.some.injEq, Prod.mk.injEq] at hk
        rcases hk with ⟨h1, h2⟩ | ⟨h1, h2⟩
        · rw [← h1, ← h2]; exact hj
        · rw [← h1, ← h2]; exact edgeStep_symm hj
      | succ j =>
        rw [hkk] at hk
        simp at hk
  · rintro ⟨k, hk⟩
    have hlt : k < es.length := by
      rcases hk with h | h
      · exact (List.getElem?_eq_some_iff.mp h).1
      · exact (List.getElem?_eq_some_iff.mp h).1
    exact ⟨k, by rw [List.getElem?_append_left hlt]; exact hk⟩

/-- Whether a vertex is a cut vertex depends on which pairs of vertices are
joined only. -/
theorem cutV_congr {adj adj2 : List (List edge)}
    (h : ∀ x y, (∃ i, joins adj i x y) ↔ (∃ i, joins adj2 i x y)) (v : Nat) :
    CutV adj v → CutV adj2 v := by
  rintro ⟨a, b, ha, hb, hja, hjb, hn⟩
  refine ⟨a, b, ha, hb, (h _ _).mp hja, (h _ _).mp hjb, ?_⟩
  intro hr
  apply hn
  refine Relation.ReflTransGen.mono ?_ hr
  rintro x y ⟨hx, hy, hj⟩
  exact ⟨hx, hy, (h _ _).mpr hj⟩

end Bicomps

namespace Bicomps

/-- With a parallel copy in the graph no edge between `u` and `v` is flagged. -/
theorem parallel_no_bridge (s0 : bicomps) (n : Nat) (es : List (Nat × Nat)) (u v : Nat)
    (hes : ∀ e ∈ es ++ [(u, v)], e.1 < n ∧ e.2 < n) (hj : edgeStep es u v) (root : Int)
    (r2 : bicomps) (h2 : ((s0.init n 0).add_edges (es ++ [(u, v)])).build root = some r2)
    (i : Nat) (hi : (es ++ [(u, v)])[i]? = some (u, v) ∨ (es ++ [(u, v)])[i]? = some (v, u)) :
    vget r2.is_bridge i false = false := by
  have hwf := built_wf s0 n 0 _ hes
  have hg := built_graphInv s0 n 0 _ hes
  rcases vis_cases_bool (vget r2.is_bridge i false) with hf | hf
  · exfalso
    obtain ⟨x, y, hxy, hn⟩ := (build_bridge_iff _ root r2 hwf hg h2 i).mp hf
    apply hn
    -- another edge between `u` and `v`
    have hother : ∃ k, k ≠ i ∧ joins ((s0.init n 0).add_edges (es ++ [(u, v)])).adj k u v := by
      obtain ⟨k0, hk0⟩ := hj
      have hlt : k0 < es.length := by
        rcases hk0 with h | h
        · exact (List.getElem?_eq_some_iff.mp h).1
        · exact (List.getElem?_eq_some_iff.mp h).1
      by_cases hik : k0 = i
      · refine ⟨es.length, by omega, (built_joins s0 n _ hes _ _ _).mpr (Or.inl ?_)⟩
        rw [List.getElem?_append_right (le_refl _)]
        simp
      · refine ⟨k0, hik, (built_joins s0 n _ hes _ _ _).mpr ?_⟩
        rw [List.getElem?_append_left hlt]
        exact hk0
    obtain ⟨k, hk, hjk⟩ := hother
    have hends := (built_joins s0 n _ hes i x y).mp hxy
    have hcase : (x = u ∧ y = v) ∨ (x = v ∧ y = u) := by
      rcases hi with h | h <;> rcases hends with h3 | h3
      · rw [h] at h3
        simp only [Option.some.injEq, Prod.mk.injEq] at h3
        exact Or.inl ⟨h3.1.symm, h3.2.symm⟩
      · rw [h] at h3
        simp only [Option.some.injEq, Prod.mk.injEq] at h3
        exact Or.inr ⟨h3.2.symm, h3.1.symm⟩
      · rw [h] at h3
        simp only [Option.some.injEq, Prod.mk.injEq] at h3
        exact Or.inr ⟨h3.1.symm, h3.2.symm⟩
      · rw [h] at h3
        simp only [Option.some.injEq, Prod.mk.injEq] at h3
        exact Or.inl ⟨h3.2.symm, h3.1.symm⟩
    rcases hcase with ⟨hx, hy⟩ | ⟨hx, hy⟩
    · rw [hx, hy]
      exact ReachAvoidE.single hk hjk
    · rw [hx, hy]
      exact ReachAvoidE.single hk (hg.sym _ _ _ hjk)
  · exact hf

/-- A graph in which only `u` and `v` are joined has no cut vertex. -/
theorem no_cut_of_one_pair {adj : List (List edge)} {u v : Nat} (huv : u ≠ v)
    (hrel : ∀ x y, (∃ i, joins adj i x y) → (x = u ∧ y = v) ∨ (x = v ∧ y = u)) (x : Nat) :
    ¬ CutV adj x := by
  rintro ⟨a, b, _, _, hja, hjb, hn⟩
  apply hn
  have : a = b := by
    rcases hrel x a hja with ⟨h1, h2⟩ | ⟨h1, h2⟩ <;> rcases hrel x b hjb with ⟨h3, h4⟩ | ⟨h3, h4⟩
    · rw [h2, h4]
    · exact absurd (h1.symm.trans h3) huv
    · exact absurd (h3.symm.trans h1) huv
    · rw [h2, h4]
  rw [this]
  exact Relation.ReflTransGen.refl

/-- A graph in which only `u` and `v` are joined has the one biconnected
component `{u, v}`. -/
theorem block_of_one_pair {adj : List (List edge)} {u v : Nat} (huv : u ≠ v)
    (hrel : ∀ x y, (∃ i, joins adj i x y) → (x = u ∧ y = v) ∨ (x = v ∧ y = u))
    {c : List Nat} (hc : IsBlock adj c) (hs : c.Sorted (· < ·)) : c = [min u v, max u v] := by
  have hmem : ∀ x ∈ c, x = u ∨ x = v := by
    intro x hx
    obtain ⟨a, ha, b, hb, hab⟩ := hc.1
    have : ∃ y ∈ c, x ≠ y := by
      by_cases h : x = a
      · exact ⟨b, hb, by rw [h]; exact hab⟩
      · exact ⟨a, ha, h⟩
    obtain ⟨y, hy, hxy⟩ := this
    have hw1 : x + y + 1 ≠ x := by omega
    have hw2 : x + y + 1 ≠ y := by omega
    obtain ⟨a1, _, hj, _⟩ := reach_first_step (hc.2.1 x hx y hy hxy _ hw1 hw2) hxy
    rcases hrel x a1 hj with h | h
    · exact Or.inl h.1
    · exact Or.inr h.1
  have hboth : u ∈ c ∧ v ∈ c := by
    obtain ⟨a, ha, b, hb, hab⟩ := hc.1
    rcases hmem a ha with h1 | h1 <;> rcases hmem b hb with h2 | h2
    · exact absurd (h1.trans h2.symm) hab
    · exact ⟨h1 ▸ ha, h2 ▸ hb⟩
    · exact ⟨h2 ▸ hb, h1 ▸ ha⟩
    · exact absurd (h1.trans h2.symm) hab
  apply sorted_ext hs
  · rcases Nat.lt_or_gt_of_ne huv with h | h
    · rw [min_eq_left (le_of_lt h), max_eq_right (le_of_lt h)]
      simp [h]
    · rw [min_eq_right (le_of_lt h), max_eq_left (le_of_lt h)]
      simp [h]
  · intro x
    constructor
    · intro hx
      rcases Nat.lt_or_gt_of_ne huv with h | h
      · rw [min_eq_left (le_of_lt h), max_eq_right (le_of_lt h)]
        simpa using hmem x hx
      · rw [min_eq_right (le_of_lt h), max_eq_left (le_of_lt h)]
        simpa using (hmem x hx).symm
    · intro hx
      rcases Nat.lt_or_gt_of_ne huv with h | h
      · rw [min_eq_left (le_of_lt h), max_eq_right (le_of_lt h)] at hx
        simp only [List.mem_cons, List.mem_singleton, List.not_mem_nil, or_false] at hx
        rcases hx with hx | hx
        · rw [hx]; exact hboth.1
        · rw [hx]; exact hboth.2
      · rw [min_eq_right (le_of_lt h), max_eq_left (le_of_lt h)] at hx
        simp only [List.mem_cons, List.mem_singleton, List.not_mem_nil, or_false] at hx
        rcases hx with hx | hx
        · rw [hx]; exact hboth.2
        · rw [hx]; exact hboth.1

theorem nodup_all_eq {α : Type} {l : List α} {a : α} (hn : l.Nodup) (hall : ∀ c ∈ l, c = a)
    (hne : l ≠ []) : l = [a] := by
  match l, hn, hall, hne with
  | [], _, _, hne => exact absurd rfl hne
  | [c], _, hall, _ => rw [hall c (by simp)]
  | c :: d :: rest, hn, hall, _ =>
    have h1 := hall c (by simp)
    have h2 := hall d (by simp)
    rw [h1, h2] at hn
    simp at hn

end Bicomps

namespace Bicomps

/-- What one more parallel edge between two joined vertices changes: no flag of
`is_cut`, and no edge between the two vertices is flagged a bridge; when the
graph had one edge only, the result has the single component `{u, v}`. -/
theorem parallel_edge_general (s0 : bicomps) (n : Nat) (es : List (Nat × Nat)) (u v : Nat)
    (root root2 : Int) (hes : ∀ e ∈ es, e.1 < n ∧ e.2 < n) (hu : u < n) (hv : v < n)
    (huv : u ≠ v) (hj : edgeStep es u v) :
    ∃ r r2, ((s0.init n 0).add_edges es).build root = some r ∧
      (((s0.init n 0).add_edges es).add_edge u v).build root2 = some r2 ∧
      (∀ i, r2.edge_list[i]? = some (u, v) ∨ r2.edge_list[i]? = some (v, u) →
        vget r2.is_bridge i false = false) ∧
      r2.is_cut = r.is_cut ∧
      (es.length = 1 → r2.is_bridge = [false, false] ∧ r2.is_cut = List.replicate n false ∧
        r2.comps = [[min u v, max u v]]) := by
  have hes2 : ∀ e ∈ es ++ [(u, v)], e.1 < n ∧ e.2 < n := by
    intro e he
    rcases List.mem_append.mp he with h | h
    · exact hes e h
    · have : e = (u, v) := by simpa using h
      rw [this]
      exact ⟨hu, hv⟩
  have hwf := built_wf s0 n 0 es hes
  have hg := built_graphInv s0 n 0 es hes
  have hwf2 := built_wf s0 n 0 _ hes2
  have hg2 := built_graphInv s0 n 0 _ hes2
  rw [add_edges_concat]
  obtain ⟨r, hr⟩ := build_total _ root hwf
  obtain ⟨r2, hr2⟩ := build_total _ root2 hwf2
  obtain ⟨_, e1, _⟩ := build_rule (P := fun _ => True) _ root r hwf trivial
    (fun _ _ _ _ _ _ _ _ => trivial) hr
  obtain ⟨_, e2, _⟩ := build_rule (P := fun _ => True) _ root2 r2 hwf2 trivial
    (fun _ _ _ _ _ _ _ _ => trivial) hr2
  have hel : r2.edge_list = es ++ [(u, v)] := by
    rw [e2.edge_list]
    exact built_edge_list s0 n 0 _
  have hrel : ∀ x y, (∃ i, joins ((s0.init n 0).add_edges es).adj i x y) ↔
      (∃ i, joins ((s0.init n 0).add_edges (es ++ [(u, v)])).adj i x y) := by
    intro x y
    rw [built_edgeStep s0 n 0 es hes, built_edgeStep s0 n 0 _ hes2, edgeStep_parallel hj]
  have hbr : ∀ i, r2.edge_list[i]? = some (u, v) ∨ r2.edge_list[i]? = some (v, u) →
      vget r2.is_bridge i false = false := by
    intro i hi
    rw [hel] at hi
    exact parallel_no_bridge s0 n es u v hes2 hj root2 r2 hr2 i hi
  have hlc : r.is_cut.length = n := by
    rw [e1.len_cut]
    show (List.replicate _ false).length = _
    rw [List.length_replicate, built_n]
  have hlc2 : r2.is_cut.length = n := by
    rw [e2.len_cut]
    show (List.replicate _ false).length = _
    rw [List.length_replicate, built_n]
  refine ⟨r, r2, hr, hr2, hbr, ?_, ?_⟩
  · apply bool_list_ext (by rw [hlc, hlc2])
    intro i hi
    rw [hlc2] at hi
    rw [build_cuts _ root2 r2 hwf2 hg2 hr2 i (by rw [built_n]; exact hi),
      build_cuts _ root r hwf hg hr i (by rw [built_n]; exact hi)]
    exact ⟨cutV_congr (fun x y => (hrel x y).symm) i, cutV_congr hrel i⟩
  · intro hlen
    -- only `u` and `v` are joined
    have hone : ∀ x y, (∃ i, joins ((s0.init n 0).add_edges (es ++ [(u, v)])).adj i x y) →
        (x = u ∧ y = v) ∨ (x = v ∧ y = u) := by
      intro x y hxy
      rw [← hrel, built_edgeStep s0 n 0 es hes] at hxy
      obtain ⟨k0, hk0⟩ := hj
      obtain ⟨k, hk⟩ := hxy
      have hk0l : k0 < es.length := by
        rcases hk0 with h | h
        · exact (List.getElem?_eq_some_iff.mp h).1
        · exact (List.getElem?_eq_some_iff.mp h).1
      have hkl : k < es.length := by
        rcases hk with h | h
        · exact (List.getElem?_eq_some_iff.mp h).1
        · exact (List.getElem?_eq_some_iff.mp h).1
      have : k = k0 := by omega
      rw [this] at hk
      rcases hk0 with h | h <;> rcases hk with h3 | h3
      · rw [h] at h3
        simp only [Option.some.injEq, Prod.mk.injEq] at h3
        exact Or.inl ⟨h3.1.symm, h3.2.symm⟩
      · rw [h] at h3
        simp only [Option.some.injEq, Prod.mk.injEq] at h3
        exact Or.inr ⟨h3.2.symm, h3.1.symm⟩
      · rw [h] at h3
        simp only [Option.some.injEq, Prod.mk.injEq] at h3
        exact Or.inr ⟨h3.1.symm, h3.2.symm⟩
      · rw [h] at h3
        simp only [Option.some.injEq, Prod.mk.injEq] at h3
        exact Or.inl ⟨h3.2.symm, h3.1.symm⟩
    refine ⟨?_, ?_, ?_⟩
    · have hlb : r2.is_bridge.length = 2 := by
        rw [e2.len_bridge]
        show (List.replicate _ false).length = _
        rw [List.length_replicate, built_m, List.length_append, hlen]
        rfl
      apply bool_list_ext (by rw [hlb]; rfl)
      intro i hi
      have hfalse : vget r2.is_bridge i false = false := by
        apply hbr i
        rw [hel]
        obtain ⟨k0, hk0⟩ := hj
        have hk0l : k0 < es.length := by
          rcases hk0 with h | h
          · exact (List.getElem?_eq_some_iff.mp h).1
          · exact (List.getElem?_eq_some_iff.mp h).1
        have hk00 : k0 = 0 := by omega
        rw [hk00] at hk0
        rw [hlb] at hi
        rcases Nat.lt_or_ge i 1 with h | h
        · have hi0 : i = 0 := by omega
          rw [hi0, List.getElem?_append_left (by omega)]
          exact hk0
        · have hi1 : i = es.length := by omega
          rw [hi1, List.getElem?_append_right (le_refl _)]
          simp
      rw [hfalse]
      constructor
      · intro h; exact absurd h (by simp)
      · intro h
        exfalso
        unfold vget at h
        have h2 : i < 2 := by rw [hlb] at hi; exact hi
        interval_cases i <;> simp at h
    · apply bool_list_ext (by rw [hlc2, List.length_replicate])
      intro i hi
      rw [hlc2] at hi
      rw [build_cuts _ root2 r2 hwf2 hg2 hr2 i (by rw [built_n]; exact hi)]
      constructor
      · intro h
        exact absurd h (no_cut_of_one_pair huv hone i)
      · intro h
        rw [vget_replicate] at h
        split at h <;> exact absurd h (by simp)
    · obtain ⟨b2, n2, c2⟩ := build_blocks _ root2 r2 hwf2 hg2 hr2
      have hs2 := build_sorted _ root2 r2 hwf2 hr2
      apply nodup_all_eq n2
      · intro c hc
        exact block_of_one_pair huv hone (b2 c hc) (hs2 c hc)
      · intro hnil
        obtain ⟨c, hc, _⟩ := c2 u v (by rw [built_n]; exact hu) huv
          ((hrel u v).mp ((built_edgeStep s0 n 0 es hes u v).mpr hj))
        rw [hnil] at hc
        exact absurd hc (List.not_mem_nil _)

/-- Claim C7: for every graph built by `init(n)` (with `m_hint = 0`) and
`add_edge` calls with endpoints below `n`, and every two different vertices `u`
and `v` below `n` joined by an edge of it, `build` returns on the graph and on
the graph with one more `add_edge(u, v)`; in the latter no edge whose endpoints
are `u` and `v` is flagged in `is_bridge`, and `is_cut` is the same as for the
graph without the duplicate.  On the graph that consists of just two parallel
edges `u`-`v`, `build` returns with `is_bridge` and `is_cut` all false and with
the single component `{u, v}` in `comps`. -/
theorem parallel_edge_handled (s0 : bicomps) (n : Nat) (es : List (Nat × Nat)) (u v : Nat)
    (root root2 : Int) (hes : ∀ e ∈ es, e.1 < n ∧ e.2 < n) (hu : u < n) (hv : v < n)
    (huv : u ≠ v) (hj : edgeStep es u v) :
    ∃ r r2 r3, ((s0.init n 0).add_edges es).build root = some r ∧
      (((s0.init n 0).add_edges es).add_edge u v).build root2 = some r2 ∧
      (∀ i, r2.edge_list[i]? = some (u, v) ∨ r2.edge_list[i]? = some (v, u) →
        vget r2.is_bridge i false = false) ∧
      r2.is_cut = r.is_cut ∧
      (((s0.init n 0).add_edge u v).add_edge u v).build root2 = some r3 ∧
      r3.is_bridge = [false, false] ∧ r3.is_cut = List.replicate n false ∧
      r3.comps = [[min u v, max u v]] := by
  obtain ⟨r, r2, h1, h2, h3, h4, _⟩ :=
    parallel_edge_general s0 n es u v root root2 hes hu hv huv hj
  obtain ⟨_, r3, _, k2, _, _, k5⟩ :=
    parallel_edge_general s0 n [(u, v)] u v root root2
      (fun e he => by
        have : e = (u, v) := by simpa using he
        rw [this]
        exact ⟨hu, hv⟩) hu hv huv ⟨0, Or.inl rfl⟩
  obtain ⟨k6, k7, k8⟩ := k5 rfl
  exact ⟨r, r2, r3, h1, h2, h3, h4, k2, k6, k7, k8⟩

theorem parallel_edge_handled_witness :
    (∀ e ∈ [((0 : Nat), (1 : Nat)), (1, 2), (2, 0), (2, 3)], e.1 < 5 ∧ e.2 < 5) ∧
    3 < 5 ∧ 2 < 5 ∧ 3 ≠ 2 ∧ edgeStep [((0 : Nat), (1 : Nat)), (1, 2), (2, 0), (2, 3)] 3 2 ∧
    ∃ r r2 r3, ((bicomps.fresh.init 5 0).add_edges [(0, 1), (1, 2), (2, 0), (2, 3)]).build (-1)
        = some r ∧
      (((bicomps.fresh.init 5 0).add_edges [(0, 1), (1, 2), (2, 0), (2, 3)]).add_edge 3 2).build
        (-1) = some r2 ∧
      (∀ i, r2.edge_list[i]? = some (3, 2) ∨ r2.edge_list[i]? = some (2, 3) →
        vget r2.is_bridge i false = false) ∧
      r2.is_cut = r.is_cut ∧
      (((bicomps.fresh.init 5 0).add_edge 3 2).add_edge 3 2).build (-1) = some r3 ∧
      r3.is_bridge = [false, false] ∧ r3.is_cut = List.replicate 5 false ∧
      r3.comps = [[min 3 2, max 3 2]] :=
  ⟨by decide, by decide, by decide, by decide, ⟨3, Or.inr rfl⟩,
    parallel_edge_handled bicomps.fresh 5 [(0, 1), (1, 2), (2, 0), (2, 3)] 3 2 (-1) (-1)
      (by decide) (by decide) (by decide) (by decide) ⟨3, Or.inr rfl⟩⟩

end Bicomps

namespace Bicomps

/-! ## Layer F: tops of components -/

theorem isTop_congr {ts ts2 : List Int} {c : List Nat} {t : Nat}
    (h : ∀ y ∈ c, vget ts2 y 0 = vget ts y 0) : IsTop ts c t ↔ IsTop ts2 c t := by
  unfold IsTop
  constructor
  · rintro ⟨ht, hy⟩
    refine ⟨ht, fun y hyc hne => ?_⟩
    rw [h y hyc, h t ht]
    exact hy y hyc hne
  · rintro ⟨ht, hy⟩
    refine ⟨ht, fun y hyc hne => ?_⟩
    rw [← h y hyc, ← h t ht]
    exact hy y hyc hne

theorem isTop_ext {s s1 : bicomps} (hext : Ext s s1) {c : List Nat} {t : Nat}
    (hc : ∀ x ∈ c, vget s.vis x false = true) :
    IsTop s.tour_start c t ↔ IsTop s1.tour_start c t :=
  isTop_congr (fun y hy => hext.ts y (hc y hy))

theorem topsOk_ext {s s1 : bicomps} (hext : Ext s s1) (hcomps : s1.comps = s.comps)
    (hc : ∀ c ∈ s.comps, ∀ x ∈ c, vget s.vis x false = true) (h : TopsOk s) : TopsOk s1 := by
  obtain ⟨h1, h2⟩ := h
  refine ⟨?_, ?_⟩
  · intro c hc1
    rw [hcomps] at hc1
    obtain ⟨t, ht⟩ := h1 c hc1
    exact ⟨t, (isTop_ext hext (hc c hc1)).mp ht⟩
  · intro x c d hc1 hd1 hxc hxd hnc hnd
    rw [hcomps] at hc1 hd1
    exact h2 x c d hc1 hd1 hxc hxd (fun h => hnc ((isTop_ext hext (hc c hc1)).mp h))
      (fun h => hnd ((isTop_ext hext (hc d hd1)).mp h))

end Bicomps

namespace Bicomps

/-- The part of layer F that concerns the return from a child. -/
theorem stepF_child (node : Nat) (parent : Int) (s0 : bicomps) (done : List edge) (e : edge)
    (es : List edge) (pc ch : Nat) (s s1 : bicomps) (b : Basic node s0 s)
    (hpA : specBlocks.pre node parent s0)
    (hA : specBlocks.inv node parent s0 done (e :: es) pc ch s)
    (hcA : specBlocks.pre e.node node s)
    (hqA : specBlocks.post e.node node s s1)
    (hI : specF.inv node parent s0 done (e :: es) pc ch s)
    (hv : vget s.vis e.node false = false) (hext : Ext s s1)
    (hv1 : vget s1.vis e.node false = true)
    (hq : specF.post e.node node s s1) :
    specF.inv node parent s0 (done ++ [e]) es (if (e.node : Int) = parent then pc + 1 else pc)
      (ch + 1) (childStep node e s.stk.length s1) := by
  have hcases := child_cases b hpA.1.1.1 hA.1.1.1 hcA.1.1.1 hqA.1.1.1 hv hext
  obtain ⟨⟨⟨hAB, hAM⟩, _⟩, hAN⟩ := hA
  obtain ⟨⟨⟨hqB, hqM⟩, _⟩, hqN⟩ := hqA
  obtain ⟨⟨⟨⟨a1, a2, a3, a4, a5⟩, _⟩, _⟩, _⟩ := hAB
  obtain ⟨⟨⟨hqS, _⟩, _⟩, _⟩ := hqB
  obtain ⟨_, n2, _⟩ := hAN
  obtain ⟨_, r2, r3⟩ := hqN
  have m1 := hAM.1
  have q1 := hqM.1
  obtain ⟨⟨f1, f2⟩, f3, f4⟩ := hI
  obtain ⟨⟨g1, g2⟩, g3, g4⟩ := hq
  have hne := b.ne hv
  have hcnew : newIn s s1 e.node := ⟨hv1, hv⟩
  have hts2 : (childStep node e s.stk.length s1).tour_start = s1.tour_start :=
    childStep_tour_start _ _ _ _
  generalize childStep node e s.stk.length s1 = s2 at hcases hts2 ⊢
  -- a vertex visited by the child call comes after `node`
  have hlt : ∀ y, newIn s s1 y → vget s1.tour_start node 0 < vget s1.tour_start y 0 := by
    intro y hy
    have h1 := (hqS.2.2 y hy.1 hy.2).1
    have h2 := a1.lt node b.vis
    rw [hext.ts node b.vis]
    omega
  -- a component that held an old vertex before the child call
  have hold : ∀ x, vget s.vis x false = true → (x ∈ seg s0 s ∨ x = node) →
      ∀ c ∈ s1.comps, x ∈ c → IsTop s1.tour_start c x := by
    intro x hx hcase c hc hxc
    rcases (mem_drop_comps hext.comps).mp hc with h | h
    · rw [← isTop_ext hext (n2 c h)]
      rcases hcase with h1 | h1
      · exact f3 x h1 c h hxc
      · rw [h1]; rw [h1] at hxc; exact f4 c h hxc
    · have := (r3 c h x hxc).2
      rw [hx] at this
      exact absurd this (by simp)
  -- the component emitted by this step
  have hnew : ∀ c2, node ∈ c2 → (∀ x ∈ c2, x = node ∨ x ∈ seg s s1 ∨ x = e.node) →
      s2.comps = s1.comps ++ [c2] → seg s0 s2 = seg s0 s →
      TopsOk s2 ∧ (∀ x ∈ seg s0 s2, ∀ c ∈ s2.comps, x ∈ c → IsTop s2.tour_start c x) ∧
        (∀ c ∈ s2.comps, node ∈ c → IsTop s2.tour_start c node) := by
    intro c2 hn hmem hcomps hseg
    unfold TopsOk
    rw [hts2, hcomps, hseg]
    have hmem2 : ∀ x ∈ c2, x = node ∨ newIn s s1 x := by
      intro x hx
      rcases hmem x hx with h | h | h
      · exact Or.inl h
      · exact Or.inr (q1 x h)
      · rw [h]; exact Or.inr hcnew
    have htop : IsTop s1.tour_start c2 node := by
      refine ⟨hn, fun y hy hyn => ?_⟩
      rcases hmem2 y hy with h | h
      · exact absurd h hyn
      · exact hlt y h
    have hlow : ∀ x ∈ c2, ¬ IsTop s1.tour_start c2 x →
        ∀ d ∈ s1.comps, x ∈ d → IsTop s1.tour_start d x := by
      intro x hx hnt d hd hxd
      rcases hmem x hx with h | h | h
      · rw [h] at hnt; exact absurd htop hnt
      · exact g3 x h d hd hxd
      · rw [h]; rw [h] at hxd; exact g4 d hd hxd
    have holdnew : ∀ x, vget s.vis x false = true → x ∈ c2 → x = node := by
      intro x hx hxc
      rcases hmem2 x hxc with h | h
      · exact h
      · have := h.2
        rw [hx] at this
        exact absurd this (by simp)
    refine ⟨⟨?_, ?_⟩, ?_, ?_⟩
    · intro c hc
      rcases List.mem_append.mp hc with h | h
      · exact g1 c h
      · have : c = c2 := by simpa using h
        rw [this]; exact ⟨node, htop⟩
    · intro x c d hc hd hxc hxd hnc hnd
      rcases List.mem_append.mp hc with h | h <;> rcases List.mem_append.mp hd with h' | h'
      · exact g2 x c d h h' hxc hxd hnc hnd
      · have hd2 : d = c2 := by simpa using h'
        subst hd2
        exact absurd (hlow x hxd hnd c h hxc) hnc
      · have hc2 : c = c2 := by simpa using h
        subst hc2
        exact absurd (hlow x hxc hnc d h' hxd) hnd
      · have hc2 : c = c2 := by simpa using h
        have hd2 : d = c2 := by simpa using h'
        rw [hc2, hd2]
    · intro x hx c hc hxc
      have hxs : vget s.vis x false = true := (m1 x hx).1
      rcases List.mem_append.mp hc with h | h
      · exact hold x hxs (Or.inl hx) c h hxc
      · have hc2 : c = c2 := by simpa using h
        subst hc2
        rw [holdnew x hxs hxc]
        exact htop
    · intro c hc hxc
      rcases List.mem_append.mp hc with h | h
      · exact hold node b.vis (Or.inr rfl) c h hxc
      · have hc2 : c = c2 := by simpa using h
        subst hc2
        exact htop
  rcases hcases with ⟨_, hnil, hseg, hcomps⟩ | ⟨_, hcin, hseg, hcomps⟩ | ⟨_, _, _, hseg, hcomps⟩
  · apply hnew _ _ _ hcomps hseg
    · exact mem_sort_pair.mpr (Or.inl rfl)
    · intro x hx
      rcases mem_sort_pair.mp hx with h | h
      · exact Or.inl h
      · exact Or.inr (Or.inr h)
  · apply hnew _ _ _ hcomps hseg
    · exact mem_emitted.mpr (Or.inr rfl)
    · intro x hx
      rcases mem_emitted.mp hx with h | h
      · exact Or.inr (Or.inl h)
      · exact Or.inl h
  · show TopsOk s2 ∧ (∀ x ∈ seg s0 s2, ∀ c ∈ s2.comps, x ∈ c → IsTop s2.tour_start c x) ∧
      (∀ c ∈ s2.comps, node ∈ c → IsTop s2.tour_start c node)
    unfold TopsOk
    rw [hts2, hcomps, hseg]
    refine ⟨⟨g1, g2⟩, ?_, ?_⟩
    · intro x hx c hc hxc
      simp only [List.mem_append, List.mem_singleton] at hx
      rcases hx with (hx | hx) | hx
      · exact hold x (m1 x hx).1 (Or.inl hx) c hc hxc
      · exact g3 x hx c hc hxc
      · exact hold x (by rw [hx]; exact b.vis) (Or.inr hx) c hc hxc
    · intro c hc hxc
      exact hold node b.vis (Or.inr rfl) c hc hxc

end Bicomps

namespace Bicomps

/-- Layer F holds along every run of `dfs`, on top of the layers up to N. -/
theorem stepF : Step specBlocks specF where
  enter := by
    intro node parent s b hpA _ hp
    have hmem := hpA.2.2
    refine ⟨topsOk_ext b.ext (enter_comps _ _) hmem hp, ?_, ?_⟩
    · intro x hx
      rw [seg_enter] at hx
      exact absurd hx (List.not_mem_nil _)
    · intro c hc hn
      rw [enter_comps] at hc
      have := hmem c hc node hn
      rw [b.fresh] at this
      exact absurd this (by simp)
  skip := by
    intro node parent s0 done e es pc ch s b hsplit _ _ _ _ hI _ _
    exact hI
  visited := by
    intro node parent s0 done e es pc ch s b hsplit _ _ _ _ hI _ _
    obtain ⟨f0, f3, f4⟩ := hI
    show TopsOk (visitedStep node e s) ∧
      (∀ x ∈ seg s0 (visitedStep node e s), ∀ c ∈ (visitedStep node e s).comps, x ∈ c →
        IsTop (visitedStep node e s).tour_start c x) ∧
      (∀ c ∈ (visitedStep node e s).comps, node ∈ c →
        IsTop (visitedStep node e s).tour_start c node)
    unfold TopsOk
    rw [visitedStep_comps, visitedStep_tour_start]
    refine ⟨f0, ?_, f4⟩
    intro x hx c hc hxc
    rcases seg_visitedStep_cases e b hx with h | h
    · exact f3 x h c hc hxc
    · rw [h]; rw [h] at hxc; exact f4 c hc hxc
  call := by
    intro node parent s0 done e es pc ch s b hsplit _ _ _ _ hI _ _
    exact hI.1
  child := by
    intro node parent s0 done e es pc ch s s1 b hsplit hpA _ hA hcA hqA _ hI _ hv hext hv1 _ hq
    exact stepF_child node parent s0 done e es pc ch s s1 b hpA hA hcA hqA hI hv hext hv1 hq
  leave := by
    intro node parent s0 pc ch s b _ _ _ _ hI
    obtain ⟨f0, f3, f4⟩ := hI
    show TopsOk (leave node parent ch s) ∧
      (∀ x ∈ seg s0 (leave node parent ch s), ∀ c ∈ (leave node parent ch s).comps, x ∈ c →
        IsTop (leave node parent ch s).tour_start c x) ∧
      (∀ c ∈ (leave node parent ch s).comps, node ∈ c →
        IsTop (leave node parent ch s).tour_start c node)
    unfold TopsOk
    rw [leave_comps, leave_tour_start, seg_leave]
    exact ⟨f0, f3, f4⟩

theorem stepForest : Step Spec.top (specBlocks.and specF) := stepBlocks.seq stepF

theorem topF_step {s s1 : bicomps} {i : Nat} {fuel : Nat} (h : TopF s) (hok : s.ok)
    (hi : i < s.n) (hrun : dfs fuel i (-1) s = some s1) : TopF s1 := by
  have htop := topM_step h.top hok hi hrun
  have hq := stepForest.sound fuel i (-1) s s1 hok hi
    ⟨⟨⟨⟨⟨⟨⟨h.top.top.pre i, trivial⟩, fun h0 => absurd h0 (by omega)⟩, trivial⟩, trivial⟩,
      h.top.block⟩, h.top.nodup, h.top.mem⟩, h.tops⟩ hrun
  exact ⟨htop, hq.2.1⟩

/-- After `build` every component has a top, the member visited first, and no
vertex is a member other than the top of two components. -/
theorem build_tops (g : bicomps) (root : Int) (r : bicomps) (hwf : g.wf)
    (hg : GraphInv g.adj) (h : g.build root = some r) : TopsOk r := by
  have := build_rule (P := TopF) g root r hwf
    ⟨topM_reset g hg, fun c hc => absurd hc (List.not_mem_nil _),
      fun x c d hc => absurd hc (List.not_mem_nil _)⟩
    (fun s i s1 hP hok hi _ hc => topF_step hP hok hi hc) h
  exact this.1.tops

end Bicomps

namespace Bicomps

/-! ## Descendants in a rooted forest -/

theorem desc_inv {up : Nat → Int} {y z : Nat} (h : Desc up y z) :
    z = y ∨ ∃ w : Nat, up z = (w : Int) ∧ Desc up y w := by
  cases h with
  | refl => exact Or.inl rfl
  | step h1 h2 => exact Or.inr ⟨_, h1, h2⟩

theorem desc_trans {up : Nat → Int} {a b z : Nat} (h1 : Desc up a b) (h2 : Desc up b z) :
    Desc up a z := by
  induction h2 with
  | refl => exact h1
  | step hu _ ih => exact Desc.step hu ih

theorem desc_of_up {up : Nat → Int} {c y : Nat} (h : up c = (y : Int)) : Desc up y c :=
  Desc.step h Desc.refl

theorem desc_rank {T : Nat} {adj : List (List Nat)} {up rk : Nat → Int}
    (F : Forest T adj up rk) {y z : Nat} (h : Desc up y z) :
    rk y ≤ rk z ∧ (z ≠ y → rk y < rk z) := by
  induction h with
  | refl => exact ⟨le_refl _, fun h => absurd rfl h⟩
  | @step z w hu _ ih =>
    have := F.rank z (by rw [hu]; omega)
    rw [hu, Int.toNat_ofNat] at this
    exact ⟨by omega, fun _ => by omega⟩

theorem not_desc_up {T : Nat} {adj : List (List Nat)} {up rk : Nat → Int}
    (F : Forest T adj up rk) {c y : Nat} (h : up c = (y : Int)) : ¬ Desc up c y := by
  intro hd
  have h1 := (desc_rank F hd).1
  have h2 := F.rank c (by rw [h]; omega)
  rw [h, Int.toNat_ofNat] at h2
  omega

/-- A proper descendant of `y` is a descendant of a child of `y`. -/
theorem desc_child {up : Nat → Int} {y z : Nat} (h : Desc up y z) (hne : z ≠ y) :
    ∃ c, up c = (y : Int) ∧ Desc up c z := by
  induction h with
  | refl => exact absurd rfl hne
  | @step z w hu hd ih =>
    by_cases hw : w = y
    · exact ⟨z, by rw [hu, hw], Desc.refl⟩
    · obtain ⟨c, hc, hcw⟩ := ih hw
      exact ⟨c, hc, Desc.step hu hcw⟩

/-- Two ancestors of a node are comparable. -/
theorem desc_chain {up : Nat → Int} {a b z : Nat} (h1 : Desc up a z) (h2 : Desc up b z) :
    Desc up a b ∨ Desc up b a := by
  induction h1 with
  | refl => exact Or.inr h2
  | @step z w hu hd ih =>
    rcases desc_inv h2 with h | ⟨w2, hu2, hd2⟩
    · rw [← h]
      exact Or.inl (Desc.step hu hd)
    · have : w2 = w := by
        have := hu.symm.trans hu2
        exact_mod_cast this.symm
      rw [this] at hd2
      exact ih hd2

/-- The subtrees of two different children of a node are disjoint. -/
theorem child_disjoint {T : Nat} {adj : List (List Nat)} {up rk : Nat → Int}
    (F : Forest T adj up rk) {y c1 c2 z : Nat} (h1 : up c1 = (y : Int)) (h2 : up c2 = (y : Int))
    (hne : c1 ≠ c2) (hd1 : Desc up c1 z) : ¬ Desc up c2 z := by
  intro hd2
  have key : ∀ a b, up a = (y : Int) → up b = (y : Int) → a ≠ b → Desc up a b → False := by
    intro a b ha hb hab hd
    rcases desc_inv hd with h | ⟨w, hu, hdw⟩
    · exact hab h.symm
    · have hw : w = y := by
        have := hu.symm.trans hb
        exact_mod_cast this
      rw [hw] at hdw
      exact not_desc_up F ha hdw
  rcases desc_chain hd1 hd2 with h | h
  · exact key c1 c2 h1 h2 hne h
  · exact key c2 c1 h2 h1 (Ne.symm hne) h

theorem sameTree_refl (up : Nat → Int) (y : Nat) : SameTree up y y := ⟨y, Desc.refl, Desc.refl⟩

theorem sameTree_symm {up : Nat → Int} {y z : Nat} (h : SameTree up y z) : SameTree up z y := by
  obtain ⟨a, h1, h2⟩ := h
  exact ⟨a, h2, h1⟩

theorem sameTree_of_desc {up : Nat → Int} {y z : Nat} (h : Desc up y z) : SameTree up y z :=
  ⟨y, Desc.refl, h⟩

/-- A node and its parent are in the same tree. -/
theorem sameTree_up {up : Nat → Int} {e y : Nat} (h : up e = (y : Int)) (z : Nat) :
    SameTree up e z ↔ SameTree up y z := by
  constructor
  · rintro ⟨a, h1, h2⟩
    rcases desc_inv h1 with h3 | ⟨w, hu, hd⟩
    · rw [← h3] at h2
      exact ⟨y, Desc.refl, desc_trans (desc_of_up h) h2⟩
    · have hw : w = y := by
        have := hu.symm.trans h
        exact_mod_cast this
      rw [hw] at hd
      exact ⟨a, hd, h2⟩
  · rintro ⟨a, h1, h2⟩
    exact ⟨a, Desc.step h h1, h2⟩

theorem sameTree_trans {up : Nat → Int} {x y z : Nat} (h1 : SameTree up x y)
    (h2 : SameTree up y z) : SameTree up x z := by
  obtain ⟨a, ha1, ha2⟩ := h1
  obtain ⟨b, hb1, hb2⟩ := h2
  rcases desc_chain ha2 hb1 with h | h
  · exact ⟨a, ha1, desc_trans h hb2⟩
  · exact ⟨b, desc_trans h ha1, hb2⟩

end Bicomps

namespace Bicomps

/-! ## The part of a forest that a call of `bc_tree::dfs` reaches -/

section parts

variable {T : Nat} {adj : List (List Nat)} {up rk : Nat → Int}

theorem part_child (e y z : Nat) (h : up e = (y : Int)) :
    Part up e (y : Int) z ↔ Desc up e z := by
  unfold Part
  constructor
  · rintro (⟨_, _, hd⟩ | ⟨hn, _⟩)
    · exact hd
    · exact absurd ⟨h, by omega⟩ hn
  · intro hd
    exact Or.inl ⟨h, by omega, hd⟩

theorem part_parent (F : Forest T adj up rk) (e y z : Nat) (h : up y = (e : Int)) :
    Part up e (y : Int) z ↔ SameTree up e z ∧ ¬ Desc up y z := by
  have hn : ¬ (up e = (y : Int) ∧ (0 : Int) ≤ (y : Int)) := by
    rintro ⟨h1, _⟩
    exact not_desc_up F h1 (desc_of_up h)
  unfold Part
  constructor
  · rintro (⟨h1, h2, _⟩ | ⟨_, hs, hd⟩)
    · exact absurd ⟨h1, h2⟩ hn
    · refine ⟨hs, fun hh => hd ⟨by omega, ?_⟩⟩
      rw [Int.toNat_ofNat]
      exact hh
  · rintro ⟨hs, hd⟩
    refine Or.inr ⟨hn, hs, ?_⟩
    rintro ⟨_, hh⟩
    rw [Int.toNat_ofNat] at hh
    exact hd hh

theorem mem_adj_of_up (F : Forest T adj up rk) {c y : Nat} (h : up c = (y : Int)) :
    c ∈ vget adj y [] ∧ y ∈ vget adj c [] := by
  have := F.up_adj c (by rw [h]; omega)
  rw [h, Int.toNat_ofNat] at this
  exact ⟨F.sym _ _ this, this⟩

/-- In a valid call whose second argument is a node and not the parent of the
first, it is a child of the first. -/
theorem valid_up {y : Nat} {x : Int} (hv : ValidCall up y x)
    (hn : ¬ (up y = x ∧ 0 ≤ x)) (hx : 0 ≤ x) : up x.toNat = (y : Int) := by
  rcases hv with h | ⟨_, h | h⟩
  · omega
  · exact absurd ⟨h, hx⟩ hn
  · exact h

theorem part_self (F : Forest T adj up rk) {y : Nat} {x : Int} (hv : ValidCall up y x) :
    Part up y x y := by
  by_cases hd : up y = x ∧ 0 ≤ x
  · exact Or.inl ⟨hd.1, hd.2, Desc.refl⟩
  · refine Or.inr ⟨hd, sameTree_refl up y, ?_⟩
    rintro ⟨hx, hh⟩
    exact not_desc_up F (valid_up hv hd hx) hh

theorem part_not_caller (F : Forest T adj up rk) {y : Nat} {x : Int} (hx : 0 ≤ x) :
    ¬ Part up y x x.toNat := by
  rintro (⟨h1, _, hd⟩ | ⟨_, _, hn⟩)
  · have : up y = ((x.toNat : Nat) : Int) := by rw [h1]; omega
    exact not_desc_up F this hd
  · exact hn ⟨hx, Desc.refl⟩

theorem valid_sub (F : Forest T adj up rk) {y e : Nat} (he : e ∈ vget adj y []) :
    ValidCall up e (y : Int) := by
  refine Or.inr ⟨by omega, ?_⟩
  rw [Int.toNat_ofNat]
  rcases F.edge y e he with h | h
  · exact Or.inr h
  · exact Or.inl h

/-- What a call for a neighbour reaches is reached by the call itself. -/
theorem part_sub (F : Forest T adj up rk) {y e z : Nat} {x : Int} (hv : ValidCall up y x)
    (he : e ∈ vget adj y []) (hex : (e : Int) ≠ x) (hp : Part up e (y : Int) z) :
    Part up y x z ∧ z ≠ y := by
  rcases F.edge y e he with h | h
  · rw [part_parent F e y z h] at hp
    have hn : ¬ (up y = x ∧ 0 ≤ x) := fun hh => hex (h.symm.trans hh.1)
    refine ⟨Or.inr ⟨hn, (sameTree_up h z).mpr hp.1, ?_⟩, ?_⟩
    · rintro ⟨hx, hd⟩
      exact hp.2 (desc_trans (desc_of_up (valid_up hv hn hx)) hd)
    · intro hzy
      rw [hzy] at hp
      exact hp.2 Desc.refl
  · rw [part_child e y z h] at hp
    have hyz : Desc up y z := desc_trans (desc_of_up h) hp
    have hzy : z ≠ y := by
      intro hh
      rw [hh] at hp
      exact not_desc_up F h hp
    refine ⟨?_, hzy⟩
    by_cases hd : up y = x ∧ 0 ≤ x
    · exact Or.inl ⟨hd.1, hd.2, hyz⟩
    · refine Or.inr ⟨hd, sameTree_of_desc hyz, ?_⟩
      rintro ⟨hx, hdx⟩
      have hux := valid_up hv hd hx
      have hne : e ≠ x.toNat := by
        intro hh
        apply hex
        rw [hh]
        omega
      exact child_disjoint F h hux hne hp hdx

/-- The calls for two different neighbours reach disjoint parts. -/
theorem part_disjoint (F : Forest T adj up rk) {y e e2 z : Nat} (he : e ∈ vget adj y [])
    (he2 : e2 ∈ vget adj y []) (hne : e ≠ e2) (hp : Part up e (y : Int) z) :
    ¬ Part up e2 (y : Int) z := by
  intro hp2
  rcases F.edge y e he with h | h <;> rcases F.edge y e2 he2 with h2 | h2
  · apply hne
    have := h.symm.trans h2
    exact_mod_cast this
  · rw [part_parent F e y z h] at hp
    rw [part_child e2 y z h2] at hp2
    exact hp.2 (desc_trans (desc_of_up h2) hp2)
  · rw [part_child e y z h] at hp
    rw [part_parent F e2 y z h2] at hp2
    exact hp2.2 (desc_trans (desc_of_up h) hp)
  · rw [part_child e y z h] at hp
    rw [part_child e2 y z h2] at hp2
    exact child_disjoint F h h2 hne hp hp2

/-- A call reaches its node and what the calls for the neighbours reach. -/
theorem part_cover (F : Forest T adj up rk) {y z : Nat} {x : Int} (hv : ValidCall up y x)
    (hp : Part up y x z) :
    z = y ∨ ∃ e ∈ vget adj y [], (e : Int) ≠ x ∧ Part up e (y : Int) z := by
  have hchild : Desc up y z → (∀ c : Nat, up c = (y : Int) → Desc up c z → (c : Int) ≠ x) →
      z = y ∨ ∃ e ∈ vget adj y [], (e : Int) ≠ x ∧ Part up e (y : Int) z := by
    intro hd hcx
    by_cases hzy : z = y
    · exact Or.inl hzy
    · obtain ⟨c, hc, hcz⟩ := desc_child hd hzy
      exact Or.inr ⟨c, (mem_adj_of_up F hc).1, hcx c hc hcz, (part_child c y z hc).mpr hcz⟩
  rcases hp with ⟨h1, h2, hd⟩ | ⟨hn, hs, hex⟩
  · apply hchild hd
    intro c hc _ hcx
    rw [← hcx] at h1
    exact not_desc_up F hc (desc_of_up h1)
  · by_cases hd : Desc up y z
    · apply hchild hd
      intro c hc hcz hcx
      apply hex
      rw [← hcx, Int.toNat_ofNat]
      exact ⟨by omega, hcz⟩
    · obtain ⟨a, ha1, ha2⟩ := hs
      rcases desc_inv ha1 with h | ⟨w, hu, hdw⟩
      · rw [h] at hd
        exact absurd ha2 hd
      · right
        refine ⟨w, (mem_adj_of_up F hu).2, ?_, (part_parent F w y z hu).mpr ⟨⟨a, hdw, ha2⟩, hd⟩⟩
        intro hwx
        have hx : 0 ≤ x := by omega
        have hux := valid_up hv hn hx
        rw [← hwx, Int.toNat_ofNat] at hux
        exact not_desc_up F hux (desc_of_up hu)

/-- The part a call reaches is left only along the edge to the caller. -/
theorem part_closed (F : Forest T adj up rk) {y z w : Nat} {x : Int} (hv : ValidCall up y x)
    (hp : Part up y x z) (hw : w ∈ vget adj z []) :
    Part up y x w ∨ (z = y ∧ (w : Int) = x) := by
  rcases hp with ⟨h1, h2, hd⟩ | ⟨hn, hs, hex⟩
  · rcases F.edge z w hw with h | h
    · rcases desc_inv hd with hzy | ⟨w2, hu, hdw⟩
      · right
        refine ⟨hzy, ?_⟩
        rw [← h, hzy, h1]
      · left
        have : w2 = w := by
          have := hu.symm.trans h
          exact_mod_cast this
        rw [this] at hdw
        exact Or.inl ⟨h1, h2, hdw⟩
    · exact Or.inl (Or.inl ⟨h1, h2, Desc.step h hd⟩)
  · have hsw : SameTree up y w := by
      rcases F.edge z w hw with h | h
      · exact sameTree_symm ((sameTree_up h y).mp (sameTree_symm hs))
      · exact sameTree_symm ((sameTree_up h y).mpr (sameTree_symm hs))
    by_cases hxw : 0 ≤ x ∧ Desc up x.toNat w
    · obtain ⟨hx, hdw⟩ := hxw
      have hux := valid_up hv hn hx
      rcases desc_inv hdw with h | ⟨w2, hu, hd2⟩
      · rcases F.edge z w hw with h3 | h3
        · exfalso
          apply hex
          refine ⟨hx, ?_⟩
          rw [← h]
          exact desc_of_up h3
        · right
          rw [h] at h3
          have hzy : z = y := by
            have := h3.symm.trans hux
            exact_mod_cast this
          refine ⟨hzy, ?_⟩
          rw [h]
          omega
      · exfalso
        apply hex
        refine ⟨hx, ?_⟩
        rcases F.edge z w hw with h3 | h3
        · exact Desc.step h3 hdw
        · have : w2 = z := by
            have := hu.symm.trans h3
            exact_mod_cast this
          rw [this] at hd2
          exact hd2
    · exact Or.inl (Or.inr ⟨hn, hsw, hxw⟩)

end parts

end Bicomps

namespace Bicomps

/-! ## The traversal `bc_tree::dfs` of a forest -/

theorem settled_congr {t t1 : bc_tree} (hadj : t1.adj = t.adj) {z : Nat}
    (hz : vget t1.parent z 0 = vget t.parent z 0 ∧ vget t1.depth z 0 = vget t.depth z 0)
    (hw : ∀ w ∈ vget t.adj z [],
      vget t1.parent w 0 = vget t.parent w 0 ∧ vget t1.depth w 0 = vget t.depth w 0)
    (h : Settled t z) : Settled t1 z := by
  obtain ⟨h1, h2, h3⟩ := h
  unfold Settled
  rw [hadj, hz.1, hz.2]
  refine ⟨h1, ?_, ?_⟩
  · intro w hwz
    rw [(hw w hwz).1]
    exact h2 w hwz
  · rcases h3 with h | ⟨k1, k2, k3⟩
    · exact Or.inl h
    · refine Or.inr ⟨k1, k2, ?_⟩
      rw [(hw _ k2).2]
      exact k3

/-- One round of the loop of `bc_tree::dfs`: the call for a neighbour that is
not the caller extends the invariant. -/
theorem treeInv_call {T : Nat} {adj : List (List Nat)} {up rk : Nat → Int}
    (F : Forest T adj up rk) {y : Nat} {x : Int} {d : Int} {t0 : bc_tree} {V0 : List Bool}
    {done rest : List Nat} {e : Nat} {t t1 : bc_tree} {V V1 : List Bool}
    (hadj : t0.adj = adj) (hsplit : done ++ e :: rest = vget adj y []) (hex : (e : Int) ≠ x)
    (hI : TreeInv up y x d t0 V0 done t V) (hq : TreePost up e (y : Int) t V t1 V1) :
    TreeInv up y x d t0 V0 (done ++ [e]) t1 V1 := by
  have he : e ∈ vget adj y [] := by rw [← hsplit]; simp
  have hdone : ∀ e2 ∈ done, e2 ∈ vget adj y [] ∧ e2 ≠ e := by
    intro e2 h2
    refine ⟨by rw [← hsplit]; simp [h2], ?_⟩
    intro h
    have hnd := F.nodup y
    rw [← hsplit] at hnd
    have := (List.nodup_append.mp hnd).2.2
    exact this h2 (by rw [h]; simp) 
  have hev := valid_sub F he
  have hey : ¬ Part up e (y : Int) y := by
    intro h
    have h1 := part_not_caller F (y := e) (x := (y : Int))
      (by omega)
    rw [Int.toNat_ofNat] at h1
    exact h1 h
  have hother : ∀ e2 ∈ done, ∀ z, Part up e2 (y : Int) z → ¬ Part up e (y : Int) z := by
    intro e2 h2 z hz
    exact part_disjoint F (hdone e2 h2).1 he (hdone e2 h2).2 hz
  refine ⟨hq.adj.trans hI.adj, hq.len_parent.trans hI.len_parent,
    hq.len_depth.trans hI.len_depth, hq.len_vis.trans hI.len_vis, ?_, ?_, ?_, ?_, ?_, ?_⟩
  · intro z
    rw [hq.vis, hI.vis]
    constructor
    · rintro ((h | h | ⟨e2, h2, h3⟩) | h)
      · exact Or.inl h
      · exact Or.inr (Or.inl h)
      · exact Or.inr (Or.inr ⟨e2, List.mem_append_left _ h2, h3⟩)
      · exact Or.inr (Or.inr ⟨e, by simp, hex, h⟩)
    · rintro (h | h | ⟨e2, h2, h3⟩)
      · exact Or.inl (Or.inl h)
      · exact Or.inl (Or.inr (Or.inl h))
      · rcases List.mem_append.mp h2 with h4 | h4
        · exact Or.inl (Or.inr (Or.inr ⟨e2, h4, h3⟩))
        · have : e2 = e := by simpa using h4
          rw [this] at h3
          exact Or.inr h3.2
  · intro z hzy hn
    have hne : ¬ Part up e (y : Int) z := fun h => hn ⟨e, by simp, hex, h⟩
    have h1 := hq.frame z hne
    have h2 := hI.frame z hzy (fun ⟨e2, h2, h3⟩ => hn ⟨e2, List.mem_append_left _ h2, h3⟩)
    exact ⟨h1.1.trans h2.1, h1.2.trans h2.2⟩
  · rw [(hq.frame y hey).1]
    exact hI.parent
  · rw [(hq.frame y hey).2]
    exact hI.depth
  · intro e2 h2 h3
    rcases List.mem_append.mp h2 with h4 | h4
    · have hp := part_self F (valid_sub F (hdone e2 h4).1)
      rw [(hq.frame e2 (hother e2 h4 e2 hp)).1]
      exact hI.child e2 h4 h3
    · have : e2 = e := by simpa using h4
      rw [this]
      exact hq.parent
  · intro e2 h2 h3 z hz
    rcases List.mem_append.mp h2 with h4 | h4
    · have hs := hI.settled e2 h4 h3 z hz
      have hzf := hq.frame z (hother e2 h4 z hz)
      refine ⟨settled_congr hq.adj hzf ?_ hs.1, by rw [hzf.1]; exact hs.2⟩
      intro w hw
      rw [hI.adj, hadj] at hw
      apply hq.frame
      rcases part_closed F (valid_sub F (hdone e2 h4).1) hz hw with h5 | h5
      · exact hother e2 h4 w h5
      · have : w = y := by
          have := h5.2
          exact_mod_cast this
        rw [this]
        exact hey
    · have : e2 = e := by simpa using h4
      rw [this] at hz
      refine ⟨hq.settled z hz, ?_⟩
      by_cases hze : z = e
      · rw [hze, hq.parent]
        omega
      · exact hq.inner z hz hze

end Bicomps

namespace Bicomps

theorem treeInv_skip {up : Nat → Int} {y : Nat} {x : Int} {d : Int} {t0 : bc_tree}
    {V0 : List Bool} {done : List Nat} {e : Nat} {t : bc_tree} {V : List Bool}
    (hex : (e : Int) = x) (hI : TreeInv up y x d t0 V0 done t V) :
    TreeInv up y x d t0 V0 (done ++ [e]) t V := by
  have hiff : ∀ z, (∃ e2 ∈ done ++ [e], (e2 : Int) ≠ x ∧ Part up e2 (y : Int) z) ↔
      (∃ e2 ∈ done, (e2 : Int) ≠ x ∧ Part up e2 (y : Int) z) := by
    intro z
    constructor
    · rintro ⟨e2, h2, h3, h4⟩
      rcases List.mem_append.mp h2 with h | h
      · exact ⟨e2, h, h3, h4⟩
      · have : e2 = e := by simpa using h
        rw [this] at h3
        exact absurd hex h3
    · rintro ⟨e2, h2, h3⟩
      exact ⟨e2, List.mem_append_left _ h2, h3⟩
  have hmem : ∀ e2 ∈ done ++ [e], (e2 : Int) ≠ x → e2 ∈ done := by
    intro e2 h2 h3
    rcases List.mem_append.mp h2 with h | h
    · exact h
    · have : e2 = e := by simpa using h
      rw [this] at h3
      exact absurd hex h3
  refine ⟨hI.adj, hI.len_parent, hI.len_depth, hI.len_vis, ?_, ?_, hI.parent, hI.depth, ?_, ?_⟩
  · intro z
    rw [hiff]
    exact hI.vis z
  · intro z hz hn
    rw [hiff] at hn
    exact hI.frame z hz hn
  · intro e2 h2 h3
    exact hI.child e2 (hmem e2 h2 h3) h3
  · intro e2 h2 h3
    exact hI.settled e2 (hmem e2 h2 h3) h3

theorem bool_false_of_not {b : Bool} (h : ¬ b = true) : b = false := by
  cases b
  · rfl
  · exact absurd rfl h

/-- The loop of `bc_tree::dfs(y, x)` over the neighbours of `y` returns and keeps
the invariant, when the calls for the neighbours do as specified. -/
theorem treeLoop_spec {T : Nat} {adj : List (List Nat)} {up rk : Nat → Int}
    (F : Forest T adj up rk) (fuel : Nat) (call : Nat → Int → bc_tree → Option bc_tree)
    (hcall : ∀ (y : Nat) (x : Int) (t : bc_tree) (V : List Bool),
      t.adj = adj → t.parent.length = T → t.depth.length = T → V.length = T → y < T →
      ValidCall up y x → (∀ z, Part up y x z → vget V z false = false) →
      (0 ≤ x → 0 ≤ vget t.depth x.toNat 0) → V.count false ≤ fuel →
      ∃ t1 V1, call y x t = some t1 ∧ TreePost up y x t V t1 V1)
    {y : Nat} {x : Int} {d : Int} {t0 : bc_tree} {V0 : List Bool} (hv : ValidCall up y x)
    (hadj : t0.adj = adj) (hlp : t0.parent.length = T) (hld : t0.depth.length = T)
    (hlv : V0.length = T) (hd : 0 ≤ d)
    (hpre : ∀ z, Part up y x z → vget V0 z false = false) :
    ∀ (rest done : List Nat) (t : bc_tree) (V : List Bool),
      done ++ rest = vget adj y [] → TreeInv up y x d t0 V0 done t V → V.count false ≤ fuel →
      ∃ t1 V1, treeLoop call y x rest t = some t1 ∧
        TreeInv up y x d t0 V0 (vget adj y []) t1 V1 := by
  intro rest
  induction rest with
  | nil =>
    intro done t V hsplit hI _
    rw [List.append_nil] at hsplit
    rw [← hsplit]
    exact ⟨t, V, rfl, hI⟩
  | cons e rest ih =>
    intro done t V hsplit hI hc
    have he : e ∈ vget adj y [] := by rw [← hsplit]; simp
    have hsplit2 : (done ++ [e]) ++ rest = vget adj y [] := by
      rw [← hsplit]; simp
    unfold treeLoop
    by_cases hex : (e : Int) ≠ x
    · rw [if_pos hex]
      have hnotdone : ∀ e2 ∈ done, e2 ∈ vget adj y [] ∧ e2 ≠ e := by
        intro e2 h2
        refine ⟨by rw [← hsplit]; simp [h2], ?_⟩
        intro h
        have hnd := F.nodup y
        rw [← hsplit] at hnd
        have := (List.nodup_append.mp hnd).2.2
        exact this h2 (by rw [h]; simp)
      obtain ⟨t1, V1, hrun, hq⟩ := hcall e (y : Int) t V (hI.adj.trans hadj)
        (hI.len_parent.trans hlp) (hI.len_depth.trans hld) (hI.len_vis.trans hlv)
        (F.lt y e he).2 (valid_sub F he)
        (by
          intro z hz
          apply bool_false_of_not
          rw [hI.vis]
          have hs := part_sub F hv he hex hz
          rintro (h | h | ⟨e2, h2, _, h4⟩)
          · rw [hpre z hs.1] at h
            exact absurd h (by simp)
          · exact hs.2 h
          · exact part_disjoint F (hnotdone e2 h2).1 he (hnotdone e2 h2).2 h4 hz)
        (by
          intro _
          rw [Int.toNat_ofNat, hI.depth]
          exact hd)
        hc
      rw [hrun]
      simp only
      refine ih (done ++ [e]) t1 V1 hsplit2 (treeInv_call F hadj hsplit hex hI hq) ?_
      refine le_trans (count_false_mono V V1 hq.len_vis ?_) hc
      intro z hz
      rw [hq.vis]
      exact Or.inl hz
    · rw [if_neg hex]
      exact ih (done ++ [e]) t V hsplit2 (treeInv_skip (not_not.mp hex) hI) hc

end Bicomps

namespace Bicomps

/-- On a forest, `bc_tree::dfs(y, x)` returns when the fuel is at least the
number of nodes not reached so far, and it settles exactly the nodes of the
part that the call reaches. -/
theorem tree_dfs_spec {T : Nat} {adj : List (List Nat)} {up rk : Nat → Int}
    (F : Forest T adj up rk) :
    ∀ (fuel y : Nat) (x : Int) (t : bc_tree) (V : List Bool),
      t.adj = adj → t.parent.length = T → t.depth.length = T → V.length = T → y < T →
      ValidCall up y x → (∀ z, Part up y x z → vget V z false = false) →
      (0 ≤ x → 0 ≤ vget t.depth x.toNat 0) → V.count false ≤ fuel →
      ∃ t1 V1, bc_tree.dfs fuel y x t = some t1 ∧ TreePost up y x t V t1 V1 := by
  intro fuel
  induction fuel with
  | zero =>
    intro y x t V _ _ _ hlv hy hv hpre _ hc
    have := count_false_pos V y (hpre y (part_self F hv)) (by rw [hlv]; exact hy)
    omega
  | succ fuel ih =>
    intro y x t V hadj hlp hld hlv hy hv hpre hdx hc
    have hyV : vget V y false = false := hpre y (part_self F hv)
    have hd : (0 : Int) ≤ (if x < 0 then 0 else vget t.depth x.toNat 0 + 1) := by
      split
      · exact le_refl _
      · have := hdx (by omega)
        omega
    have hI0 : TreeInv up y x (if x < 0 then 0 else vget t.depth x.toNat 0 + 1) t V []
        { t with parent := t.parent.set y x,
                 depth := t.depth.set y (if x < 0 then 0 else vget t.depth x.toNat 0 + 1) }
        (V.set y true) := by
      refine ⟨rfl, by simp, by simp, by simp, ?_, ?_, ?_, ?_, ?_, ?_⟩
      · intro z
        rw [vget_set]
        constructor
        · intro h
          split at h
          · rename_i hc2
            exact Or.inr (Or.inl hc2.1.symm)
          · exact Or.inl h
        · rintro (h | h | ⟨e, he, _⟩)
          · split
            · rfl
            · exact h
          · rw [if_pos ⟨h.symm, by rw [hlv]; exact hy⟩]
          · exact absurd he (List.not_mem_nil _)
      · intro z hz _
        exact ⟨vget_set_ne _ _ _ _ _ (Ne.symm hz), vget_set_ne _ _ _ _ _ (Ne.symm hz)⟩
      · exact vget_set_eq _ _ _ _ (by rw [hlp]; exact hy)
      · exact vget_set_eq _ _ _ _ (by rw [hld]; exact hy)
      · intro e he
        exact absurd he (List.not_mem_nil _)
      · intro e he
        exact absurd he (List.not_mem_nil _)
    have hc2 : (V.set y true).count false ≤ fuel := by
      have := count_false_set_true V y hyV (by rw [hlv]; exact hy)
      omega
    obtain ⟨t1, V1, hrun, hI⟩ := treeLoop_spec F fuel (bc_tree.dfs fuel)
      (fun y x t V h1 h2 h3 h4 h5 h6 h7 h8 h9 => ih y x t V h1 h2 h3 h4 h5 h6 h7 h8 h9)
      hv hadj hlp hld hlv hd hpre (vget adj y []) [] _ _ (by simp) hI0 hc2
    refine ⟨t1, V1, ?_, ?_⟩
    · unfold bc_tree.dfs
      simp only
      have hl : vget t.adj y [] = vget adj y [] := by rw [hadj]
      rw [hl]
      exact hrun
    · have hsub : ∀ z, (∃ e ∈ vget adj y [], (e : Int) ≠ x ∧ Part up e (y : Int) z) →
          Part up y x z ∧ z ≠ y := by
        rintro z ⟨e, he, hex, hp⟩
        exact part_sub F hv he hex hp
      have hxy : 0 ≤ x → x.toNat ≠ y ∧ x.toNat ∈ vget adj y [] := by
        intro hx
        refine ⟨?_, ?_⟩
        · intro h
          have := part_not_caller (y := y) F hx
          rw [h] at this
          exact this (part_self F hv)
        · rcases hv with h | ⟨_, h | h⟩
          · omega
          · have := F.up_adj y (by rw [h]; exact hx)
            rw [h] at this
            exact this
          · exact (mem_adj_of_up F h).1
      refine ⟨hI.adj, hI.len_parent, hI.len_depth, hI.len_vis, ?_, ?_, hI.parent, hI.depth, ?_,
        ?_⟩
      · intro z
        rw [hI.vis]
        constructor
        · rintro (h | h | h)
          · exact Or.inl h
          · rw [h]; exact Or.inr (part_self F hv)
          · exact Or.inr (hsub z h).1
        · rintro (h | h)
          · exact Or.inl h
          · rcases part_cover F hv h with h2 | h2
            · exact Or.inr (Or.inl h2)
            · exact Or.inr (Or.inr h2)
      · intro z hz
        apply hI.frame z
        · intro h
          rw [h] at hz
          exact hz (part_self F hv)
        · intro h
          exact hz (hsub z h).1
      · intro z hz hzy
        rcases part_cover F hv hz with h2 | ⟨e, he, hex, hp⟩
        · exact absurd h2 hzy
        · exact (hI.settled e he hex z hp).2
      · intro z hz
        rcases part_cover F hv hz with h2 | ⟨e, he, hex, hp⟩
        · rw [h2]
          refine ⟨by rw [hI.depth]; exact hd, ?_, ?_⟩
          · intro w hw
            rw [hI.adj, hadj] at hw
            by_cases hwx : (w : Int) = x
            · right
              rw [hI.parent, hwx]
            · left
              exact hI.child w hw hwx
          · rw [hI.parent, hI.depth, hI.adj, hadj]
            rcases hv with h | ⟨hx, _⟩
            · left
              rw [h]
              simp
            · right
              obtain ⟨k1, k2⟩ := hxy hx
              refine ⟨hx, k2, ?_⟩
              rw [if_neg (by omega)]
              congr 1
              refine ((hI.frame x.toNat k1 ?_).2).symm
              intro h
              exact part_not_caller F hx (hsub _ h).1
        · exact (hI.settled e he hex z hp).1

end Bicomps

namespace Bicomps

/-! ## The loop over the roots in `bc_tree::build` -/

theorem part_root {up : Nat → Int} (y z : Nat) : Part up y (-1) z ↔ SameTree up y z := by
  unfold Part
  constructor
  · rintro (⟨_, h, _⟩ | ⟨_, h, _⟩)
    · omega
    · exact h
  · intro h
    exact Or.inr ⟨fun hh => by omega, h, fun hh => by omega⟩

theorem sameTree_of_adj {T : Nat} {adj : List (List Nat)} {up rk : Nat → Int}
    (F : Forest T adj up rk) {z w : Nat} (h : w ∈ vget adj z []) : SameTree up z w := by
  rcases F.edge z w h with h1 | h1
  · exact sameTree_symm (sameTree_of_desc (desc_of_up h1))
  · exact sameTree_of_desc (desc_of_up h1)

/-- One round of the loop over the roots. -/
theorem sweepInv_step {T : Nat} {adj : List (List Nat)} {up rk : Nat → Int}
    (F : Forest T adj up rk) {fuel : Nat} (hfuel : T ≤ fuel) {i : Nat} (hi : i < T)
    {t : bc_tree} {V : List Bool} (hI : SweepInv up T adj i t V) :
    ∃ t1 V1, (if vget t.parent i 0 < 0 then bc_tree.dfs fuel i (-1) t else some t) = some t1 ∧
      SweepInv up T adj (i + 1) t1 V1 := by
  by_cases hneg : vget t.parent i 0 < 0
  · rw [if_pos hneg]
    have hVi : vget V i false = false := by
      apply bool_false_of_not
      intro h
      have := hI.inner i h (le_refl _)
      omega
    have hpre : ∀ z, Part up i (-1) z → vget V z false = false := by
      intro z hz
      rw [part_root] at hz
      apply bool_false_of_not
      intro h
      have := hI.closed z i h (sameTree_symm hz)
      rw [hVi] at this
      exact absurd this (by simp)
    obtain ⟨t1, V1, hrun, hq⟩ := tree_dfs_spec F fuel i (-1) t V hI.adj hI.len_parent
      hI.len_depth hI.len_vis hi (Or.inl rfl) hpre (fun h => by omega)
      (le_trans (List.count_le_length _ _) (by rw [hI.len_vis]; exact hfuel))
    refine ⟨t1, V1, hrun, ?_⟩
    have hold : ∀ z, vget V z false = true → ¬ Part up i (-1) z := by
      intro z hz hp
      rw [hpre z hp] at hz
      exact absurd hz (by simp)
    refine ⟨hq.adj.trans hI.adj, hq.len_parent.trans hI.len_parent,
      hq.len_depth.trans hI.len_depth, hq.len_vis.trans hI.len_vis, ?_, ?_, ?_, ?_, ?_⟩
    · intro z hz
      rcases (hq.vis z).mp hz with h | h
      · refine settled_congr hq.adj (hq.frame z (hold z h)) ?_ (hI.settled z h)
        intro w hw
        rw [hI.adj] at hw
        exact hq.frame w (hold w (hI.closed z w h (sameTree_of_adj F hw)))
      · exact hq.settled z h
    · intro z w hz hzw
      rw [hq.vis] at hz ⊢
      rcases hz with h | h
      · exact Or.inl (hI.closed z w h hzw)
      · right
        rw [part_root] at h ⊢
        exact sameTree_trans h hzw
    · intro z hzT hz
      have h1 : vget V z false = false := by
        apply bool_false_of_not
        intro h
        have := (hq.vis z).mpr (Or.inl h)
        rw [hz] at this
        exact absurd this (by simp)
      have h2 : ¬ Part up i (-1) z := by
        intro h
        have := (hq.vis z).mpr (Or.inr h)
        rw [hz] at this
        exact absurd this (by simp)
      rw [(hq.frame z h2).1]
      exact hI.fresh z hzT h1
    · intro z hz hiz
      rcases (hq.vis z).mp hz with h | h
      · rw [(hq.frame z (hold z h)).1]
        exact hI.inner z h (by omega)
      · exact hq.inner z h (by omega)
    · intro z hz
      rw [hq.vis]
      by_cases hzi : z = i
      · right
        rw [hzi, part_root]
        exact sameTree_refl up i
      · exact Or.inl (hI.done z (by omega))
  · rw [if_neg hneg]
    refine ⟨t, V, rfl, hI.adj, hI.len_parent, hI.len_depth, hI.len_vis, hI.settled, hI.closed,
      hI.fresh, fun z hz hiz => hI.inner z hz (by omega), ?_⟩
    intro z hz
    by_cases hzi : z = i
    · rw [hzi]
      rcases vis_cases_bool (vget V i false) with h | h
      · exact h
      · have := hI.fresh i hi h
        omega
    · exact hI.done z (by omega)

/-- The loop over the roots returns and settles every node. -/
theorem treeSweep_spec {T : Nat} {adj : List (List Nat)} {up rk : Nat → Int}
    (F : Forest T adj up rk) {fuel : Nat} (hfuel : T ≤ fuel) :
    ∀ (k i : Nat) (t : bc_tree) (V : List Bool), i + k = T → SweepInv up T adj i t V →
      ∃ t1 V1, treeSweep fuel (List.range' i k) t = some t1 ∧ SweepInv up T adj T t1 V1 := by
  intro k
  induction k with
  | zero =>
    intro i t V hik hI
    have : i = T := by omega
    rw [this] at hI
    exact ⟨t, V, rfl, hI⟩
  | succ k ih =>
    intro i t V hik hI
    obtain ⟨t1, V1, hrun, hI1⟩ := sweepInv_step F hfuel (show i < T by omega) hI
    obtain ⟨t2, V2, hrun2, hI2⟩ := ih (i + 1) t1 V1 (by omega) hI1
    refine ⟨t2, V2, ?_, hI2⟩
    rw [List.range'_succ]
    unfold treeSweep
    split at hrun
    · rename_i hneg
      rw [if_pos hneg, hrun]
      exact hrun2
    · rename_i hneg
      rw [if_neg hneg]
      have : t1 = t := (Option.some.inj hrun).symm
      rw [this] at hrun2
      exact hrun2

end Bicomps

namespace Bicomps

/-! ## The adjacency lists built by `bc_tree::build` -/

theorem vget_concat_lt {α : Type} (l : List α) (c d : α) {k : Nat} (h : k < l.length) :
    vget (l ++ [c]) k d = vget l k d :=
  vget_append_left _ _ _ _ h

theorem vget_concat_eq {α : Type} (l : List α) (c d : α) : vget (l ++ [c]) l.length d = c := by
  unfold vget
  simp

theorem vget_concat_gt {α : Type} (l : List α) (c d : α) {k : Nat} (h : l.length < k) :
    vget (l ++ [c]) k d = d :=
  vget_of_le _ _ _ (by simp; omega)

theorem vget_concat_ne {α : Type} (l : List α) (c c2 d : α) {k : Nat} (h : k ≠ l.length) :
    vget (l ++ [c]) k d = vget (l ++ [c2]) k d := by
  rcases Nat.lt_or_gt_of_ne h with h1 | h1
  · rw [vget_concat_lt _ _ _ h1, vget_concat_lt _ _ _ h1]
  · rw [vget_concat_gt _ _ _ h1, vget_concat_gt _ _ _ h1]

/-- One call of the lambda `add_edge(x, n + i)` for a member `x` of the
component `i` that is being entered. -/
theorem treeAdj_add {n T : Nat} {cs : List (List Nat)} {cp : List Nat} {t : bc_tree} {x : Nat}
    (h : TreeAdj n T (cs ++ [cp]) t) (hx : x < n) (hT : n + cs.length < T) (hxc : x ∉ cp) :
    ∃ t1, t.add_edge x (n + cs.length) = some t1 ∧ TreeAdj n T (cs ++ [cp ++ [x]]) t1 := by
  have hxor : xor (decide (x < t.n)) (decide (n + cs.length < t.n)) = true := by
    rw [h.n_eq]
    simp [hx]
  have hne : x ≠ n + cs.length := by omega
  have hxl : x < t.adj.length := by rw [h.len]; omega
  have hil : n + cs.length < t.adj.length := by rw [h.len]; exact hT
  have hci : vget t.adj (n + cs.length) [] = cp := by
    rw [h.comp, vget_concat_eq]
  refine ⟨_, by unfold bc_tree.add_edge; rw [if_pos hxor], ?_⟩
  have hget : ∀ y, vget ((t.adj.set x (vget t.adj x [] ++ [n + cs.length])).set (n + cs.length)
      (vget (t.adj.set x (vget t.adj x [] ++ [n + cs.length])) (n + cs.length) [] ++ [x])) y [] =
      if y = x then vget t.adj x [] ++ [n + cs.length]
      else if y = n + cs.length then cp ++ [x] else vget t.adj y [] := by
    intro y
    rw [vget_set, vget_set_ne _ _ _ _ _ hne, hci]
    by_cases hyx : y = x
    · rw [if_pos hyx, if_neg (by omega), hyx, vget_set_eq _ _ _ _ hxl]
    · rw [if_neg hyx]
      by_cases hyi : y = n + cs.length
      · rw [if_pos hyi, if_pos ⟨hyi.symm, by simpa using hil⟩]
      · rw [if_neg hyi, if_neg (fun hh => hyi hh.1.symm), vget_set_ne _ _ _ _ _ (Ne.symm hyx)]
  refine ⟨h.n_eq, h.T_eq, by simp [h.len], ?_, ?_, ?_⟩
  · intro y hy z
    show z ∈ vget ((t.adj.set x _).set _ _) y [] ↔ _
    rw [hget y, if_neg (show ¬ y = n + cs.length by omega)]
    have hv := h.vert y hy z
    have hlen : (cs ++ [cp ++ [x]]).length = (cs ++ [cp]).length := by simp
    rw [hlen]
    constructor
    · intro hz
      have hz2 : z ∈ vget t.adj y [] ∨ (y = x ∧ z = n + cs.length) := by
        split at hz
        · rename_i hyx
          rcases List.mem_append.mp hz with h1 | h1
          · exact Or.inl (by rw [hyx]; exact h1)
          · exact Or.inr ⟨hyx, by simpa using h1⟩
        · exact Or.inl hz
      rcases hz2 with h1 | ⟨h1, h2⟩
      · obtain ⟨k, hk, hzk, hyk⟩ := hv.mp h1
        refine ⟨k, hk, hzk, ?_⟩
        by_cases hkl : k = cs.length
        · rw [hkl, vget_concat_eq] at hyk ⊢
          exact List.mem_append_left _ hyk
        · rw [vget_concat_ne cs (cp ++ [x]) cp [] hkl]
          exact hyk
      · exact ⟨cs.length, by simp, h2, by rw [vget_concat_eq, h1]; simp⟩
    · rintro ⟨k, hk, hzk, hyk⟩
      by_cases hkl : k = cs.length
      · rw [hkl, vget_concat_eq] at hyk
        rcases List.mem_append.mp hyk with h1 | h1
        · have : z ∈ vget t.adj y [] :=
            hv.mpr ⟨k, hk, hzk, by rw [hkl, vget_concat_eq]; exact h1⟩
          split
          · rename_i hyx
            rw [← hyx]
            exact List.mem_append_left _ this
          · exact this
        · have hyx : y = x := by simpa using h1
          rw [if_pos hyx, hzk, hkl]
          simp
      · rw [vget_concat_ne cs (cp ++ [x]) cp [] hkl] at hyk
        have : z ∈ vget t.adj y [] := hv.mpr ⟨k, hk, hzk, hyk⟩
        split
        · rename_i hyx
          rw [← hyx]
          exact List.mem_append_left _ this
        · exact this
  · intro k
    show vget ((t.adj.set x _).set _ _) (n + k) [] = _
    rw [hget (n + k), if_neg (show ¬ n + k = x by omega)]
    by_cases hkl : k = cs.length
    · rw [if_pos (by rw [hkl]), hkl, vget_concat_eq]
    · rw [if_neg (by omega), h.comp, vget_concat_ne cs cp (cp ++ [x]) [] hkl]
  · intro y hy
    show (vget ((t.adj.set x _).set _ _) y []).Nodup
    rw [hget y, if_neg (show ¬ y = n + cs.length by omega)]
    split
    · refine List.nodup_append.mpr ⟨h.nodup x hx, List.nodup_singleton _, ?_⟩
      intro z hz hz2
      have hzi : z = n + cs.length := by simpa using hz2
      obtain ⟨k, hk, hzk, hyk⟩ := (h.vert x hx z).mp hz
      have hkl : k = cs.length := by omega
      rw [hkl, vget_concat_eq] at hyk
      exact hxc hyk
    · exact h.nodup y hy

end Bicomps

namespace Bicomps

theorem treeAdj_open {n T : Nat} {cs : List (List Nat)} {t : bc_tree} (h : TreeAdj n T cs t) :
    TreeAdj n T (cs ++ [[]]) t := by
  have hv : ∀ k, vget (cs ++ [[]]) k ([] : List Nat) = vget cs k [] := by
    intro k
    rcases Nat.lt_trichotomy k cs.length with h1 | h1 | h1
    · exact vget_concat_lt _ _ _ h1
    · rw [h1, vget_concat_eq, vget_of_le _ _ _ (le_refl _)]
    · rw [vget_concat_gt _ _ _ h1, vget_of_le _ _ _ (le_of_lt h1)]
  refine ⟨h.n_eq, h.T_eq, h.len, ?_, ?_, h.nodup⟩
  · intro x hx z
    rw [h.vert x hx z]
    constructor
    · rintro ⟨k, hk, h1, h2⟩
      exact ⟨k, by simp; omega, h1, by rw [hv]; exact h2⟩
    · rintro ⟨k, hk, h1, h2⟩
      rw [hv] at h2
      refine ⟨k, ?_, h1, h2⟩
      by_contra hge
      rw [vget_of_le _ _ _ (by omega)] at h2
      exact absurd h2 (List.not_mem_nil _)
  · intro k
    rw [h.comp, hv]

/-- The inner loop of `bc_tree::build` enters one component. -/
theorem addComp_spec {n T : Nat} {cs : List (List Nat)} (hT : n + cs.length < T) :
    ∀ (rest cp : List Nat) (t : bc_tree), TreeAdj n T (cs ++ [cp]) t → (cp ++ rest).Nodup →
      (∀ x ∈ rest, x < n) →
      ∃ t1, addComp cs.length rest t = some t1 ∧ TreeAdj n T (cs ++ [cp ++ rest]) t1 := by
  intro rest
  induction rest with
  | nil =>
    intro cp t h _ _
    rw [List.append_nil]
    exact ⟨t, rfl, h⟩
  | cons x rest ih =>
    intro cp t h hnd hlt
    have hxc : x ∉ cp := by
      intro hx
      exact (List.nodup_append.mp hnd).2.2 hx (by simp)
    obtain ⟨t1, hrun, h1⟩ := treeAdj_add h (hlt x (by simp)) hT hxc
    obtain ⟨t2, hrun2, h2⟩ := ih (cp ++ [x]) t1 h1 (by simpa using hnd)
      (fun y hy => hlt y (List.mem_cons_of_mem _ hy))
    refine ⟨t2, ?_, by simpa using h2⟩
    unfold addComp
    rw [h.n_eq, hrun]
    exact hrun2

/-- The outer loop of `bc_tree::build` enters the components one after the other. -/
theorem addComps_spec {n T : Nat} :
    ∀ (rest cs : List (List Nat)) (t : bc_tree), TreeAdj n T cs t →
      (∀ c ∈ rest, c.Nodup ∧ ∀ x ∈ c, x < n) → n + cs.length + rest.length ≤ T →
      ∃ t1, addComps cs.length rest t = some t1 ∧ TreeAdj n T (cs ++ rest) t1 := by
  intro rest
  induction rest with
  | nil =>
    intro cs t h _ _
    rw [List.append_nil]
    exact ⟨t, rfl, h⟩
  | cons c rest ih =>
    intro cs t h hc hT
    have hT2 : n + cs.length < T := by
      simp only [List.length_cons] at hT
      omega
    obtain ⟨t1, hrun, h1⟩ := addComp_spec hT2 c [] t (treeAdj_open h)
      (by simpa using (hc c (by simp)).1) (hc c (by simp)).2
    obtain ⟨t2, hrun2, h2⟩ := ih (cs ++ [c]) t1 (by simpa using h1)
      (fun d hd => hc d (List.mem_cons_of_mem _ hd))
      (by simp only [List.length_cons, List.length_append, List.length_singleton,
        List.length_nil] at hT ⊢; omega)
    refine ⟨t2, ?_, by simpa using h2⟩
    unfold addComps
    rw [hrun]
    simp only
    have : (cs ++ [c]).length = cs.length + 1 := by simp
    rw [this] at hrun2
    exact hrun2

theorem treeAdj_init (self : bc_tree) (n BC : Nat) :
    TreeAdj n (n + BC) []
      { self with n := n, BC := BC, T := n + BC, adj := List.replicate (n + BC) [] } := by
  refine ⟨rfl, rfl, by simp, ?_, ?_, ?_⟩
  · intro x _ z
    show z ∈ vget (List.replicate (n + BC) []) x [] ↔ _
    rw [vget_replicate]
    constructor
    · intro h
      split at h <;> exact absurd h (List.not_mem_nil _)
    · rintro ⟨k, hk, _⟩
      simp at hk
  · intro k
    show vget (List.replicate (n + BC) []) (n + k) [] = _
    rw [vget_replicate]
    split <;> rfl
  · intro x _
    show (vget (List.replicate (n + BC) []) x []).Nodup
    rw [vget_replicate]
    split <;> exact List.nodup_nil

end Bicomps

namespace Bicomps

/-! ## The block-vertex graph is a forest -/

theorem isTop_unique {ts : List Int} {c : List Nat} {a b : Nat} (ha : IsTop ts c a)
    (hb : IsTop ts c b) : a = b := by
  by_contra hne
  have h1 := ha.2 b hb.1 (Ne.symm hne)
  have h2 := hb.2 a ha.1 hne
  omega

theorem vget_inj_of_nodup {α : Type} {l : List α} (hnd : l.Nodup) {i j : Nat} {d : α}
    (hi : i < l.length) (hj : j < l.length) (h : vget l i d = vget l j d) : i = j := by
  unfold vget at h
  rw [List.getD_eq_getElem _ _ hi, List.getD_eq_getElem _ _ hj] at h
  exact (List.Nodup.getElem_inj_iff hnd).mp h

/-- The adjacency lists that `bc_tree::build` makes from the components of
`bicomps::build` are those of a forest. -/
theorem forest_of_comps {n T : Nat} (ts : List Int) {comps : List (List Nat)} {t : bc_tree}
    (hT : T = n + comps.length) (hadj : TreeAdj n T comps t) (hnd : comps.Nodup)
    (hmem : ∀ c ∈ comps, c.Nodup ∧ ∀ x ∈ c, x < n)
    (htop1 : ∀ c ∈ comps, ∃ a, IsTop ts c a)
    (htop2 : ∀ x c d, c ∈ comps → d ∈ comps → x ∈ c → x ∈ d →
      ¬ IsTop ts c x → ¬ IsTop ts d x → c = d) :
    ∃ up rk, Forest T t.adj up rk := by
  have hex1 : ∀ k, ∃ a : Nat, k < comps.length → IsTop ts (vget comps k []) a := by
    intro k
    by_cases hk : k < comps.length
    · obtain ⟨a, ha⟩ := htop1 _ (vget_mem comps k [] hk)
      exact ⟨a, fun _ => ha⟩
    · exact ⟨0, fun h => absurd h hk⟩
  choose top htop using hex1
  have hex2 : ∀ y, ∃ u : Int,
      (y < n ∧ ((∃ k, k < comps.length ∧ y ∈ vget comps k [] ∧ ¬ IsTop ts (vget comps k []) y ∧
          u = ((n + k : Nat) : Int)) ∨
        ((∀ k, k < comps.length → y ∈ vget comps k [] → IsTop ts (vget comps k []) y) ∧
          u = -1))) ∨
      (n ≤ y ∧ y < T ∧ u = ((top (y - n) : Nat) : Int)) ∨ (T ≤ y ∧ u = -1) := by
    intro y
    by_cases hy : y < n
    · by_cases hk : ∃ k, k < comps.length ∧ y ∈ vget comps k [] ∧ ¬ IsTop ts (vget comps k []) y
      · obtain ⟨k, h1, h2, h3⟩ := hk
        exact ⟨_, Or.inl ⟨hy, Or.inl ⟨k, h1, h2, h3, rfl⟩⟩⟩
      · refine ⟨-1, Or.inl ⟨hy, Or.inr ⟨?_, rfl⟩⟩⟩
        intro k h1 h2
        by_contra h3
        exact hk ⟨k, h1, h2, h3⟩
    · by_cases hyT : y < T
      · exact ⟨_, Or.inr (Or.inl ⟨by omega, hyT, rfl⟩)⟩
      · exact ⟨-1, Or.inr (Or.inr ⟨by omega, rfl⟩)⟩
  choose up hup using hex2
  have hcomp_lt : ∀ k z, z ∈ vget comps k [] → k < comps.length ∧ z < n := by
    intro k z hz
    have hk : k < comps.length := by
      by_contra hk
      rw [vget_of_le _ _ _ (by omega)] at hz
      exact absurd hz (List.not_mem_nil _)
    exact ⟨hk, (hmem _ (vget_mem comps k [] hk)).2 z hz⟩
  have hup_comp : ∀ k, k < comps.length → up (n + k) = ((top k : Nat) : Int) := by
    intro k hk
    rcases hup (n + k) with ⟨h, _⟩ | ⟨_, _, h⟩ | ⟨h, _⟩
    · omega
    · rw [h]
      congr 2
      omega
    · omega
  have hup_vert : ∀ x k, x ∈ vget comps k [] → ¬ IsTop ts (vget comps k []) x →
      up x = ((n + k : Nat) : Int) := by
    intro x k hx hnt
    obtain ⟨hk, hxn⟩ := hcomp_lt k x hx
    rcases hup x with ⟨_, h | h⟩ | ⟨h, _⟩ | ⟨h, _⟩
    · obtain ⟨k2, h1, h2, h3, h4⟩ := h
      have := htop2 x _ _ (vget_mem comps k [] hk) (vget_mem comps k2 [] h1) hx h2 hnt h3
      have hkk := vget_inj_of_nodup hnd hk h1 this
      rw [h4, hkk]
    · exact absurd (h.1 k hk hx) hnt
    · omega
    · omega
  have hedge : ∀ x k, x ∈ vget comps k [] →
      up x = ((n + k : Nat) : Int) ∨ up (n + k) = (x : Int) := by
    intro x k hx
    obtain ⟨hk, hxn⟩ := hcomp_lt k x hx
    by_cases hxt : IsTop ts (vget comps k []) x
    · right
      rw [hup_comp k hk, isTop_unique (htop k hk) hxt]
    · exact Or.inl (hup_vert x k hx hxt)
  have hsplit : ∀ y, y < n ∨ ∃ k, y = n + k := by
    intro y
    by_cases hy : y < n
    · exact Or.inl hy
    · exact Or.inr ⟨y - n, by omega⟩
  refine ⟨up, fun y => if y < n then 2 * vget ts y 0 else 2 * vget ts (top (y - n)) 0 + 1, ?_⟩
  refine ⟨?_, ?_, ?_, ?_, ?_, ?_⟩
  · intro y z hz
    rcases hsplit y with hy | ⟨k, hy⟩
    · obtain ⟨k, hk, hzk, _⟩ := (hadj.vert y hy z).mp hz
      omega
    · rw [hy, hadj.comp] at hz
      have := hcomp_lt k z hz
      omega
  · intro y z hz
    rcases hsplit y with hy | ⟨k, hy⟩
    · obtain ⟨k, hk, hzk, hyk⟩ := (hadj.vert y hy z).mp hz
      rw [hzk, hadj.comp]
      exact hyk
    · rw [hy, hadj.comp] at hz
      have := hcomp_lt k z hz
      rw [hadj.vert z this.2]
      exact ⟨k, this.1, hy, hz⟩
  · intro y
    rcases hsplit y with hy | ⟨k, hy⟩
    · exact hadj.nodup y hy
    · rw [hy, hadj.comp]
      by_cases hk : k < comps.length
      · exact (hmem _ (vget_mem comps k [] hk)).1
      · rw [vget_of_le _ _ _ (by omega)]
        exact List.nodup_nil
  · intro y z hz
    rcases hsplit y with hy | ⟨k, hy⟩
    · obtain ⟨k, hk, hzk, hyk⟩ := (hadj.vert y hy z).mp hz
      rw [hzk]
      exact hedge y k hyk
    · rw [hy, hadj.comp] at hz
      rw [hy]
      rcases hedge z k hz with h | h
      · exact Or.inr h
      · exact Or.inl h
  · intro y h0
    rcases hup y with ⟨hy, h | h⟩ | ⟨h1, h2, h3⟩ | ⟨_, h⟩
    · obtain ⟨k, h1, h2, _, h4⟩ := h
      rw [h4, Int.toNat_ofNat, hadj.vert y hy]
      exact ⟨k, h1, rfl, h2⟩
    · rw [h.2] at h0
      omega
    · rw [h3, Int.toNat_ofNat]
      have hk : y - n < comps.length := by omega
      have hyk : y = n + (y - n) := by omega
      rw [hyk, hadj.comp]
      have : n + (y - n) - n = y - n := by omega
      rw [this]
      exact (htop _ hk).1
    · rw [h] at h0
      omega
  · intro y h0
    rcases hup y with ⟨hy, h | h⟩ | ⟨h1, h2, h3⟩ | ⟨_, h⟩
    · obtain ⟨k, h1, h2, h3, h4⟩ := h
      rw [h4, Int.toNat_ofNat]
      beta_reduce
      rw [if_neg (by omega), if_pos hy]
      have : n + k - n = k := by omega
      rw [this]
      have hne : y ≠ top k := by
        intro hh
        rw [hh] at h3
        exact h3 (htop k h1)
      have := (htop k h1).2 y h2 hne
      omega
    · rw [h.2] at h0
      omega
    · rw [h3, Int.toNat_ofNat]
      have hk : y - n < comps.length := by omega
      have htn : top (y - n) < n := (hcomp_lt _ _ (htop _ hk).1).2
      beta_reduce
      rw [if_pos htn, if_neg (by omega)]
      omega
    · rw [h] at h0
      omega

end Bicomps

namespace Bicomps

/-! ## What `same_bicomp` computes -/

theorem same_bicomp_iff (t : bc_tree) (a b : Nat) :
    t.same_bicomp a b = true ↔
      (a = b ∨ if vget t.depth a 0 > vget t.depth b 0 then Near t b a else Near t a b) := by
  unfold bc_tree.same_bicomp Near
  by_cases h : vget t.depth a 0 > vget t.depth b 0
  · simp only [h, if_true]
    simp only [Bool.or_eq_true, Bool.and_eq_true, beq_iff_eq, decide_eq_true_eq, ge_iff_le]
    constructor
    · rintro ((h1 | h1) | h1)
      · exact Or.inl h1.symm
      · exact Or.inr (Or.inl h1)
      · exact Or.inr (Or.inr h1)
    · rintro (h1 | h1 | h1)
      · exact Or.inl (Or.inl h1.symm)
      · exact Or.inl (Or.inr h1)
      · exact Or.inr h1
  · simp only [h, if_false]
    simp only [Bool.or_eq_true, Bool.and_eq_true, beq_iff_eq, decide_eq_true_eq, ge_iff_le]
    constructor
    · rintro ((h1 | h1) | h1)
      · exact Or.inl h1
      · exact Or.inr (Or.inl h1)
      · exact Or.inr (Or.inr h1)
    · rintro (h1 | h1 | h1)
      · exact Or.inl (Or.inl h1)
      · exact Or.inl (Or.inr h1)
      · exact Or.inr h1

end Bicomps

namespace Bicomps

/-- Two different vertices that pass the test of `same_bicomp` are members of a
common component. -/
theorem near_sound {n T : Nat} {comps : List (List Nat)} {t : bc_tree}
    (hT : T = n + comps.length)
    (hvert : ∀ x, x < n → ∀ z, z ∈ vget t.adj x [] ↔
      ∃ k, k < comps.length ∧ z = n + k ∧ x ∈ vget comps k [])
    (hcomp : ∀ k, vget t.adj (n + k) [] = vget comps k [])
    (hs : ∀ z, z < T → Settled t z) {a b : Nat} (ha : a < n) (hb : b < n)
    (h : Near t a b) : ∃ k, k < comps.length ∧ a ∈ vget comps k [] ∧ b ∈ vget comps k [] := by
  have hsa := hs a (by omega)
  have hsb := hs b (by omega)
  rcases h with ⟨h1, h2⟩ | ⟨h1, h2⟩
  · rcases hsb.2.2 with ⟨_, k2⟩ | ⟨k1, k2, _⟩
    · have := hsa.1
      omega
    · obtain ⟨k, hk, hpk, hbk⟩ := (hvert b hb _).mp k2
      refine ⟨k, hk, ?_, hbk⟩
      rw [hpk] at h2
      rcases (hs (n + k) (by omega)).2.2 with ⟨k3, _⟩ | ⟨_, k4, _⟩
      · rw [h2] at k3
        omega
      · rw [h2, Int.toNat_ofNat, hcomp] at k4
        exact k4
  · rcases hsa.2.2 with ⟨k1, _⟩ | ⟨_, k2, _⟩
    · omega
    · rcases hsb.2.2 with ⟨k3, _⟩ | ⟨_, k4, _⟩
      · omega
      · obtain ⟨k, hk, hpk, hak⟩ := (hvert a ha _).mp k2
        obtain ⟨k', hk', hpk', hbk⟩ := (hvert b hb _).mp k4
        rw [← h2, hpk] at hpk'
        have : k = k' := by omega
        rw [← this] at hbk
        exact ⟨k, hk, hak, hbk⟩

/-- Two different members of a component pass the test of `same_bicomp`. -/
theorem near_complete {n T : Nat} {comps : List (List Nat)} {t : bc_tree}
    (hT : T = n + comps.length)
    (hvert : ∀ x, x < n → ∀ z, z ∈ vget t.adj x [] ↔
      ∃ k, k < comps.length ∧ z = n + k ∧ x ∈ vget comps k [])
    (hs : ∀ z, z < T → Settled t z) {a b k : Nat} (ha : a < n) (hb : b < n) (hab : a ≠ b)
    (hk : k < comps.length) (hak : a ∈ vget comps k []) (hbk : b ∈ vget comps k []) :
    if vget t.depth a 0 > vget t.depth b 0 then Near t b a else Near t a b := by
  have hsa := hs a (by omega)
  have hsb := hs b (by omega)
  have hsc := hs (n + k) (by omega)
  have hca : n + k ∈ vget t.adj a [] := (hvert a ha _).mpr ⟨k, hk, rfl, hak⟩
  have hcb : n + k ∈ vget t.adj b [] := (hvert b hb _).mpr ⟨k, hk, rfl, hbk⟩
  -- the depth of a node whose parent is known
  have hdep : ∀ z w : Nat, z < T → vget t.parent z 0 = (w : Int) →
      vget t.depth z 0 = vget t.depth w 0 + 1 := by
    intro z w hz hp
    rcases (hs z hz).2.2 with ⟨k1, _⟩ | ⟨_, _, k3⟩
    · omega
    · rw [hp, Int.toNat_ofNat] at k3
      exact k3
  rcases hsa.2.1 _ hca with h1 | h1 <;> rcases hsb.2.1 _ hcb with h2 | h2
  · exfalso
    apply hab
    have := h1.symm.trans h2
    exact_mod_cast this
  · have d1 := hdep (n + k) a (by omega) h1
    have d2 := hdep b (n + k) (by omega) h2
    rw [if_neg (by omega)]
    left
    refine ⟨by omega, ?_⟩
    rw [h2, Int.toNat_ofNat]
    exact h1
  · have d1 := hdep a (n + k) (by omega) h1
    have d2 := hdep (n + k) b (by omega) h2
    rw [if_pos (by omega)]
    left
    refine ⟨by omega, ?_⟩
    rw [h1, Int.toNat_ofNat]
    exact h2
  · split
    · right
      exact ⟨by rw [h2]; omega, h2.trans h1.symm⟩
    · right
      exact ⟨by rw [h1]; omega, h1.trans h2.symm⟩

/-- On the components of a graph `bc_tree::build` returns, with the adjacency
lists of the block-vertex forest and every node settled. -/
theorem tree_build_spec (self : bc_tree) (r : bicomps) (hnd : r.comps.Nodup)
    (hmem : ∀ c ∈ r.comps, c.Nodup ∧ ∀ x ∈ c, x < r.n) (htops : TopsOk r) :
    ∃ t, self.build r = some t ∧
      (∀ x, x < r.n → ∀ z, z ∈ vget t.adj x [] ↔
        ∃ k, k < r.comps.length ∧ z = r.n + k ∧ x ∈ vget r.comps k []) ∧
      (∀ k, vget t.adj (r.n + k) [] = vget r.comps k []) ∧
      ∀ z, z < r.n + r.comps.length → Settled t z := by
  obtain ⟨t1, hrun1, hadj⟩ := addComps_spec (n := r.n) (T := r.n + r.comps.length) r.comps []
    _ (treeAdj_init self r.n r.comps.length) hmem (by simp)
  obtain ⟨up, rk, F⟩ := forest_of_comps r.tour_start rfl
    (by simpa using hadj) hnd hmem htops.1 htops.2
  have hI0 : SweepInv up (r.n + r.comps.length) t1.adj 0
      { t1 with parent := List.replicate t1.T (-1), depth := resize t1.depth t1.T 0 }
      (List.replicate (r.n + r.comps.length) false) := by
    have hfalse : ∀ z, vget (List.replicate (r.n + r.comps.length) false) z false = true →
        False := by
      intro z hz
      rw [vget_replicate] at hz
      split at hz <;> exact absurd hz (by simp)
    refine ⟨rfl, ?_, ?_, by simp, ?_, ?_, ?_, ?_, ?_⟩
    · show (List.replicate t1.T (-1 : Int)).length = _
      rw [List.length_replicate, hadj.T_eq]
    · show (resize t1.depth t1.T 0).length = _
      rw [length_resize, hadj.T_eq]
    · intro z hz
      exact absurd (hfalse z hz) id
    · intro z w hz
      exact absurd (hfalse z hz) id
    · intro z hz _
      show vget (List.replicate t1.T (-1 : Int)) z 0 = -1
      rw [vget_replicate, hadj.T_eq, if_pos hz]
    · intro z hz
      exact absurd (hfalse z hz) id
    · intro z hz
      omega
  obtain ⟨t2, V2, hrun2, hI2⟩ := treeSweep_spec F (le_refl _)
    (r.n + r.comps.length) 0 _ _ (by omega) hI0
  refine ⟨t2, ?_, ?_, ?_, ?_⟩
  · unfold bc_tree.build bc_tree.buildWith
    simp only
    have h0 : addComps 0 r.comps
        { self with n := r.n, BC := r.comps.length, T := r.n + r.comps.length,
                    adj := List.replicate (r.n + r.comps.length) [] } = some t1 := hrun1
    rw [h0]
    simp only
    rw [hadj.T_eq, List.range_eq_range']
    rw [hadj.T_eq] at hrun2
    exact hrun2
  · intro x hx z
    rw [hI2.adj]
    have := hadj.vert x hx z
    simpa using this
  · intro k
    rw [hI2.adj]
    have := hadj.comp k
    simpa using this
  · intro z hz
    exact hI2.settled z (hI2.done z hz)

end Bicomps

namespace Bicomps

/-! ## Claim C3: `same_bicomp` and the components -/

theorem build_compsOk (g : bicomps) (root : Int) (r : bicomps) (hwf : g.wf)
    (h : g.build root = some r) :
    r.n = g.n ∧ ∀ c ∈ r.comps, c.Sorted (· < ·) ∧ ∀ x ∈ c, x < r.n := by
  have := build_rule (P := CompsOk) g root r hwf
    ⟨fun c hc => absurd hc (List.not_mem_nil _), fun x hx => absurd hx (List.not_mem_nil _)⟩
    (fun s i s1 hP hok hi _ hc => dfs_compsOk _ i (-1) s s1 hok hi hP hc) h
  exact ⟨this.2.1.n, this.1.1⟩

/-- Claim C3, amended: for every graph built by `init` and `add_edge` calls with
endpoints below `n` and every root argument, `bicomps::build` returns and
`bc_tree::build` on its result returns (no assertion fails and the recursion
of `dfs` ends), and for all vertices `a` and `b` below `n`, `same_bicomp(a, b)`
is true if and only if `a = b` or some vector in `comps` contains both `a` and
`b`. -/
theorem same_bicomp_correct (s0 : bicomps) (self : bc_tree) (n mh : Nat)
    (es : List (Nat × Nat)) (root : Int) (hes : ∀ e ∈ es, e.1 < n ∧ e.2 < n) :
    ∃ r t, ((s0.init n mh).add_edges es).build root = some r ∧ self.build r = some t ∧
      ∀ a b, a < n → b < n →
        (t.same_bicomp a b = true ↔ a = b ∨ ∃ c ∈ r.comps, a ∈ c ∧ b ∈ c) := by
  have hwf := built_wf s0 n mh es hes
  have hg := built_graphInv s0 n mh es hes
  obtain ⟨r, hr⟩ := build_total _ root hwf
  obtain ⟨_, hnd, _⟩ := build_blocks _ root r hwf hg hr
  obtain ⟨hn, hok⟩ := build_compsOk _ root r hwf hr
  rw [built_n] at hn
  have htops := build_tops _ root r hwf hg hr
  obtain ⟨t, ht, hvert, hcomp, hs⟩ := tree_build_spec self r hnd
    (fun c hc => ⟨(hok c hc).1.nodup, (hok c hc).2⟩) htops
  rw [hn] at hvert hcomp hs
  refine ⟨r, t, hr, ht, ?_⟩
  intro a b ha hb
  rw [same_bicomp_iff]
  constructor
  · rintro (h | h)
    · exact Or.inl h
    · right
      have key : ∀ a b, a < n → b < n → Near t a b → ∃ c ∈ r.comps, a ∈ c ∧ b ∈ c := by
        intro a b ha hb h
        obtain ⟨k, hk, h1, h2⟩ := near_sound rfl hvert hcomp hs ha hb h
        exact ⟨_, vget_mem r.comps k [] hk, h1, h2⟩
      split at h
      · obtain ⟨c, hc, h1, h2⟩ := key b a hb ha h
        exact ⟨c, hc, h2, h1⟩
      · exact key a b ha hb h
  · rintro (h | ⟨c, hc, hac, hbc⟩)
    · exact Or.inl h
    · by_cases hab : a = b
      · exact Or.inl hab
      · right
        obtain ⟨k, hk, hke⟩ := List.getElem_of_mem hc
        have hck : vget r.comps k [] = c := by
          unfold vget
          rw [List.getD_eq_getElem _ _ hk, hke]
        exact near_complete rfl hvert hs ha hb hab hk (by rw [hck]; exact hac)
          (by rw [hck]; exact hbc)

theorem same_bicomp_correct_witness :
    (∀ e ∈ [((0 : Nat), (1 : Nat)), (1, 2), (2, 0), (2, 3), (3, 4), (4, 2), (4, 5)],
      e.1 < 7 ∧ e.2 < 7) ∧
    ∃ r t, ((bicomps.fresh.init 7 0).add_edges
        [(0, 1), (1, 2), (2, 0), (2, 3), (3, 4), (4, 2), (4, 5)]).build 3 = some r ∧
      bc_tree.fresh.build r = some t ∧
      ∀ a b, a < 7 → b < 7 →
        (t.same_bicomp a b = true ↔ a = b ∨ ∃ c ∈ r.comps, a ∈ c ∧ b ∈ c) :=
  ⟨by decide, same_bicomp_correct bicomps.fresh bc_tree.fresh 7 0
    [(0, 1), (1, 2), (2, 0), (2, 3), (3, 4), (4, 2), (4, 5)] 3 (by decide)⟩

end Bicomps

namespace Bicomps

/-! ## The two scenarios of the specification -/

/-- The result of `build()` on the path 0-1-2-3. -/
theorem path_default :
    ∃ r, ((bicomps.mk_init 4 0).add_edges [(0, 1), (1, 2), (2, 3)]).build (-1) = some r ∧
      r.is_bridge = [true, true, true] ∧ r.is_cut = [false, true, true, false] ∧
      r.comps = [[2, 3], [1, 2], [0, 1]] :=
  ⟨_, rfl, rfl, rfl, rfl⟩

/-- The result of `build()` and `bc_tree::build()` on the two triangles that
share the vertex 2. -/
theorem triangles_default :
    ∃ r t, ((bicomps.mk_init 5 0).add_edges
        [(0, 1), (1, 2), (2, 0), (2, 3), (3, 4), (4, 2)]).build (-1) = some r ∧
      bc_tree.fresh.build r = some t ∧
      r.is_bridge = [false, false, false, false, false, false] ∧
      r.is_cut = [false, false, true, false, false] ∧
      r.comps = [[2, 3, 4], [0, 1, 2]] ∧
      t.same_bicomp 0 1 = true ∧ t.same_bicomp 0 3 = false ∧ t.same_bicomp 2 3 = true :=
  ⟨_, _, rfl, rfl, rfl, rfl, rfl, rfl, rfl, rfl⟩

theorem path_wf : ∀ e ∈ [((0 : Nat), (1 : Nat)), (1, 2), (2, 3)], e.1 < 4 ∧ e.2 < 4 := by decide

theorem triangles_wf :
    ∀ e ∈ [((0 : Nat), (1 : Nat)), (1, 2), (2, 0), (2, 3), (3, 4), (4, 2)], e.1 < 5 ∧ e.2 < 5 := by
  decide

/-- Claim C13: on the path with `n = 4` and the edges (0,1), (1,2), (2,3) added
in this order, `build` (with the default root, and with any other root
argument) returns with all three edges flagged in `is_bridge`, with exactly the
three components `{0,1}`, `{1,2}`, `{2,3}` in `comps`, each a sorted pair, and with
`is_cut` true for the vertices 1 and 2 and false for 0 and 3. -/
theorem path_scenario (root : Int) :
    ∃ r, ((bicomps.mk_init 4 0).add_edges [(0, 1), (1, 2), (2, 3)]).build root = some r ∧
      r.is_bridge = [true, true, true] ∧ r.comps.length = 3 ∧
      (∀ c, c ∈ r.comps ↔ c = [0, 1] ∨ c = [1, 2] ∨ c = [2, 3]) ∧
      r.is_cut = [false, true, true, false] := by
  have hwf := built_wf bicomps.fresh 4 0 _ path_wf
  have hg := built_graphInv bicomps.fresh 4 0 _ path_wf
  obtain ⟨r0, h0, hb, hc, hcomps⟩ := path_default
  obtain ⟨r, hr⟩ := build_total _ root hwf
  obtain ⟨k1, k2, k3, k4⟩ := build_any_root _ root (-1) r r0 hwf hg hr h0
  refine ⟨r, hr, by rw [k2, hb], by rw [k4.length_eq, hcomps]; rfl, ?_, by rw [k1, hc]⟩
  intro c
  rw [k3, hcomps]
  simp only [List.mem_cons, List.mem_singleton, List.not_mem_nil, or_false]
  constructor
  · rintro (h | h | h)
    · exact Or.inr (Or.inr h)
    · exact Or.inr (Or.inl h)
    · exact Or.inl h
  · rintro (h | h | h)
    · exact Or.inr (Or.inr h)
    · exact Or.inr (Or.inl h)
    · exact Or.inl h

/-- Claim C14: on the two triangles with `n = 5` and the edges (0,1), (1,2),
(2,0), (2,3), (3,4), (4,2), `bicomps::build` (with any root argument) and
`bc_tree::build` return; there are exactly the two components `{0,1,2}` and
`{2,3,4}`, no edge is flagged a bridge, vertex 2 is the only vertex with
`is_cut` true, and `same_bicomp(0,1)` is true, `same_bicomp(0,3)` is false and
`same_bicomp(2,3)` is true. -/
theorem triangles_scenario (self : bc_tree) (root : Int) :
    ∃ r t, ((bicomps.mk_init 5 0).add_edges
        [(0, 1), (1, 2), (2, 0), (2, 3), (3, 4), (4, 2)]).build root = some r ∧
      self.build r = some t ∧ r.comps.length = 2 ∧
      (∀ c, c ∈ r.comps ↔ c = [0, 1, 2] ∨ c = [2, 3, 4]) ∧
      r.is_bridge = [false, false, false, false, false, false] ∧
      r.is_cut = [false, false, true, false, false] ∧
      t.same_bicomp 0 1 = true ∧ t.same_bicomp 0 3 = false ∧ t.same_bicomp 2 3 = true := by
  have hwf := built_wf bicomps.fresh 5 0 _ triangles_wf
  have hg := built_graphInv bicomps.fresh 5 0 _ triangles_wf
  obtain ⟨r0, _, h0, _, hb, hc, hcomps, _⟩ := triangles_default
  obtain ⟨r, t, hr, ht, hsame⟩ := same_bicomp_correct bicomps.fresh self 5 0
    [(0, 1), (1, 2), (2, 0), (2, 3), (3, 4), (4, 2)] root triangles_wf
  obtain ⟨k1, k2, k3, k4⟩ := build_any_root _ root (-1) r r0 hwf hg hr h0
  have hmem : ∀ c, c ∈ r.comps ↔ c = [0, 1, 2] ∨ c = [2, 3, 4] := by
    intro c
    rw [k3, hcomps]
    simp only [List.mem_cons, List.mem_singleton, List.not_mem_nil, or_false]
    exact Or.comm
  refine ⟨r, t, hr, ht, by rw [k4.length_eq, hcomps]; rfl, hmem, by rw [k2, hb], by rw [k1, hc],
    ?_, ?_, ?_⟩
  · rw [hsame 0 1 (by omega) (by omega)]
    exact Or.inr ⟨[0, 1, 2], (hmem _).mpr (Or.inl rfl), by simp, by simp⟩
  · cases hv : t.same_bicomp 0 3 with
    | false => rfl
    | true =>
      exfalso
      rcases (hsame 0 3 (by omega) (by omega)).mp hv with h | ⟨c, hc, h1, h2⟩
      · omega
      · rcases (hmem c).mp hc with h | h
        · rw [h] at h2
          simp at h2
        · rw [h] at h1
          simp at h1
  · rw [hsame 2 3 (by omega) (by omega)]
    exact Or.inr ⟨[2, 3, 4], (hmem _).mpr (Or.inr rfl), by simp, by simp⟩

end Bicomps

namespace Bicomps

/-! ## Edge indices and the `m_hint` argument of `init` -/

/-- What `init(2, 1)` followed by `add_edge(0, 1)` and `build()` gives: the
edge count is 2 although one edge was added, the one edge carries the index 1
in both adjacency entries, and `is_bridge` has two entries, of which the one
with index 0, the index of the edge in `edge_list`, is false although the edge
is a bridge. -/
theorem m_hint_shifts_indices :
    ((bicomps.mk_init 2 1).add_edge 0 1).m = 2 ∧
    ((bicomps.mk_init 2 1).add_edge 0 1).edge_list = [(0, 1)] ∧
    ((bicomps.mk_init 2 1).add_edge 0 1).adj = [[⟨1, 1⟩], [⟨0, 1⟩]] ∧
    ∃ r, ((bicomps.mk_init 2 1).add_edge 0 1).build (-1) = some r ∧
      r.is_bridge = [false, true] :=
  ⟨rfl, rfl, rfl, _, rfl, rfl⟩

/-- After `init(n, m_hint)` and the calls `add_edge` for the edges `es` the edge
count is `m_hint + k` for `k` added edges, the edge list holds the added edges
in order, the `i`-th added edge carries the index `m_hint + i`, and after
`build` the vector `is_bridge` has `m_hint + k` entries. -/
theorem edge_index_from_hint (s0 : bicomps) (n mh : Nat) (es : List (Nat × Nat)) (root : Int)
    (hes : ∀ e ∈ es, e.1 < n ∧ e.2 < n) :
    ((s0.init n mh).add_edges es).m = mh + es.length ∧
    ((s0.init n mh).add_edges es).edge_list = es ∧
    (∀ i x y, joins ((s0.init n mh).add_edges es).adj i x y ↔
      ∃ k, mh + k = i ∧ (es[k]? = some (x, y) ∨ es[k]? = some (y, x))) ∧
    ∃ r, ((s0.init n mh).add_edges es).build root = some r ∧
      r.is_bridge.length = mh + es.length := by
  have hwf := built_wf s0 n mh es hes
  obtain ⟨r, hr⟩ := build_total _ root hwf
  obtain ⟨_, hext, _⟩ := build_rule (P := fun _ => True) _ root r hwf trivial
    (fun _ _ _ _ _ _ _ _ => trivial) hr
  refine ⟨built_m s0 n mh es, built_edge_list s0 n mh es, ?_, r, hr, ?_⟩
  · intro i x y
    unfold joins
    rw [built_adj s0 n mh es hes, mem_adjOf]
  · rw [hext.len_bridge]
    show (List.replicate _ false).length = _
    rw [List.length_replicate, built_m]

theorem edge_index_from_hint_witness :
    (∀ e ∈ [((0 : Nat), (1 : Nat)), (1, 2)], e.1 < 3 ∧ e.2 < 3) ∧
    ((bicomps.fresh.init 3 2).add_edges [(0, 1), (1, 2)]).m = 2 + [((0 : Nat), (1 : Nat)), (1, 2)].length ∧
    ((bicomps.fresh.init 3 2).add_edges [(0, 1), (1, 2)]).edge_list = [(0, 1), (1, 2)] ∧
    (∀ i x y, joins ((bicomps.fresh.init 3 2).add_edges [(0, 1), (1, 2)]).adj i x y ↔
      ∃ k, 2 + k = i ∧ ([((0 : Nat), (1 : Nat)), (1, 2)][k]? = some (x, y) ∨
        [((0 : Nat), (1 : Nat)), (1, 2)][k]? = some (y, x))) ∧
    ∃ r, ((bicomps.fresh.init 3 2).add_edges [(0, 1), (1, 2)]).build (-1) = some r ∧
      r.is_bridge.length = 2 + [((0 : Nat), (1 : Nat)), (1, 2)].length :=
  ⟨by decide, edge_index_from_hint bicomps.fresh 3 2 [(0, 1), (1, 2)] (-1) (by decide)⟩

end Bicomps

namespace Bicomps

/-! ## Claim C11: every edge that is not a self-loop lies in one component -/

/-- Counterexample to claim C11 as stated: on the graph with one vertex and the
self-loop (0, 0) as its only edge, no position of `comps` holds both endpoints
of the edge. -/
theorem self_loop_in_no_comp :
    ∃ r, ((bicomps.mk_init 1 0).add_edges [(0, 0)]).build (-1) = some r ∧
      r.edge_list[0]? = some (0, 0) ∧
      ¬ ∃ (k : Nat) (c : List Nat), r.comps[k]? = some c ∧ 0 ∈ c ∧ 0 ∈ c :=
  ⟨_, rfl, rfl, by
    rintro ⟨k, c, hk, _⟩
    have : ([] : List (List Nat))[k]? = some c := hk
    simp at this⟩

/-- Two components that hold the same two different vertices are the same entry
of `comps`. -/
theorem comp_unique (g : bicomps) (root : Int) (r : bicomps) (hwf : g.wf)
    (hg : GraphInv g.adj) (h : g.build root = some r) {u v k k2 : Nat} {c d : List Nat}
    (huv : u ≠ v) (hk : r.comps[k]? = some c) (hk2 : r.comps[k2]? = some d)
    (hu : u ∈ c) (hv : v ∈ c) (hu2 : u ∈ d) (hv2 : v ∈ d) : k = k2 := by
  obtain ⟨hb, hnd, _⟩ := build_blocks g root r hwf hg h
  have hs := build_sorted g root r hwf h
  obtain ⟨hkl, hkc⟩ := List.getElem?_eq_some_iff.mp hk
  obtain ⟨hkl2, hkd⟩ := List.getElem?_eq_some_iff.mp hk2
  have hc : c ∈ r.comps := by rw [← hkc]; exact List.getElem_mem _
  have hd : d ∈ r.comps := by rw [← hkd]; exact List.getElem_mem _
  have hcd : c = d := by
    apply sorted_ext (hs c hc) (hs d hd)
    intro x
    exact ⟨fun hx => block_members hg (hb c hc) (hb d hd) huv hu hv hu2 hv2 hx,
      fun hx => block_members hg (hb d hd) (hb c hc) huv hu2 hv2 hu hv hx⟩
  rw [← hkc, ← hkd] at hcd
  exact (List.Nodup.getElem_inj_iff hnd).mp hcd

/-- Claim C11, amended: for every graph built by `init` and `add_edge` calls with
endpoints below `n` and every root argument, `build(root)` returns, and for
every edge index `i` whose endpoints `(u, v) = edge_list[i]` are two different
vertices there is exactly one position `k` such that `comps[k]` contains both
`u` and `v`. -/
theorem edge_in_one_comp (s0 : bicomps) (n mh : Nat) (es : List (Nat × Nat)) (root : Int)
    (hes : ∀ e ∈ es, e.1 < n ∧ e.2 < n) :
    ∃ r, ((s0.init n mh).add_edges es).build root = some r ∧
      ∀ (i u v : Nat), r.edge_list[i]? = some (u, v) → u ≠ v →
        ∃! k : Nat, ∃ c : List Nat, r.comps[k]? = some c ∧ u ∈ c ∧ v ∈ c := by
  have hwf := built_wf s0 n mh es hes
  have hg := built_graphInv s0 n mh es hes
  obtain ⟨r, hr⟩ := build_total _ root hwf
  obtain ⟨_, hext, _⟩ := build_rule (P := fun _ => True) _ root r hwf trivial
    (fun _ _ _ _ _ _ _ _ => trivial) hr
  obtain ⟨_, _, hcov⟩ := build_blocks _ root r hwf hg hr
  refine ⟨r, hr, ?_⟩
  intro i u v hi huv
  rw [hext.edge_list] at hi
  have hel : (reset ((s0.init n mh).add_edges es)).edge_list = es := built_edge_list s0 n mh es
  rw [hel] at hi
  have hj : ∃ j, joins ((s0.init n mh).add_edges es).adj j u v :=
    (built_edgeStep s0 n mh es hes u v).mpr ⟨i, Or.inl hi⟩
  have hun : u < n := (hes _ (List.getElem?_mem hi)).1
  obtain ⟨c, hc, huc, hvc⟩ := hcov u v (by rw [built_n]; exact hun) huv hj
  obtain ⟨k, hk, hkc⟩ := List.getElem_of_mem hc
  refine ⟨k, ⟨c, by rw [List.getElem?_eq_getElem hk, hkc], huc, hvc⟩, ?_⟩
  rintro k2 ⟨d, hd, hud, hvd⟩
  exact comp_unique _ root r hwf hg hr huv hd (by rw [List.getElem?_eq_getElem hk, hkc])
    hud hvd huc hvc

theorem edge_in_one_comp_witness :
    (∀ e ∈ [((0 : Nat), (1 : Nat)), (1, 2), (2, 0), (2, 3), (3, 3)], e.1 < 5 ∧ e.2 < 5) ∧
    ∃ r, ((bicomps.fresh.init 5 0).add_edges [(0, 1), (1, 2), (2, 0), (2, 3), (3, 3)]).build 1
        = some r ∧
      ∀ (i u v : Nat), r.edge_list[i]? = some (u, v) → u ≠ v →
        ∃! k : Nat, ∃ c : List Nat, r.comps[k]? = some c ∧ u ∈ c ∧ v ∈ c :=
  ⟨by decide, edge_in_one_comp bicomps.fresh 5 0 [(0, 1), (1, 2), (2, 0), (2, 3), (3, 3)] 1
    (by decide)⟩

end Bicomps

namespace Bicomps

/-! ## Claim C19: a component is a bridge or holds no bridge -/

/-- A biconnected component that holds both ends of a bridge holds nothing else. -/
theorem bridge_block {adj : List (List edge)} (hg : GraphInv adj) {c : List Nat}
    (hc : IsBlock adj c) {i x y : Nat} (hj : joins adj i x y) (hn : ¬ ReachAvoidE adj i x y)
    (hx : x ∈ c) (hy : y ∈ c) : x ≠ y ∧ ∀ z ∈ c, z = x ∨ z = y := by
  have hxy : x ≠ y := by
    intro h
    apply hn
    rw [h]
    exact Relation.ReflTransGen.refl
  refine ⟨hxy, ?_⟩
  intro z hz
  by_contra hne
  have hzx : z ≠ x := fun h => hne (Or.inl h)
  have hzy : z ≠ y := fun h => hne (Or.inr h)
  apply hn
  have h1 := hc.2.1 x hx z hz (Ne.symm hzx) y (Ne.symm hxy) (Ne.symm hzy)
  have h2 := hc.2.1 z hz y hy hzy x (Ne.symm hzx) hxy
  exact reachAvoidE_trans
    (ReachIn.avoid hg (hg.sym _ _ _ hj) (fun h => h rfl) h1)
    (ReachIn.avoid hg hj (fun h => h rfl) h2)

theorem block_length {adj : List (List edge)} {c : List Nat} (hc : IsBlock adj c) :
    2 ≤ c.length := by
  obtain ⟨a, ha, b, hb, hab⟩ := hc.1
  match c, ha, hb with
  | [], ha, _ => exact absurd ha (List.not_mem_nil _)
  | [x], ha, hb =>
    have h1 : a = x := by simpa using ha
    have h2 : b = x := by simpa using hb
    exact absurd (h1.trans h2.symm) hab
  | _ :: _ :: _, _, _ => simp

theorem sorted_pair_eq {c : List Nat} (hs : c.Sorted (· < ·)) {u v : Nat} (huv : u ≠ v)
    (hu : u ∈ c) (hv : v ∈ c) (hall : ∀ z ∈ c, z = u ∨ z = v) : c = [u, v] ∨ c = [v, u] := by
  rcases Nat.lt_or_gt_of_ne huv with h | h
  · left
    apply sorted_ext hs (by simp [h])
    intro z
    constructor
    · intro hz
      simpa using hall z hz
    · intro hz
      simp only [List.mem_cons, List.mem_singleton, List.not_mem_nil, or_false] at hz
      rcases hz with hz | hz
      · rw [hz]; exact hu
      · rw [hz]; exact hv
  · right
    apply sorted_ext hs (by simp [h])
    intro z
    constructor
    · intro hz
      simpa using (hall z hz).symm
    · intro hz
      simp only [List.mem_cons, List.mem_singleton, List.not_mem_nil, or_false] at hz
      rcases hz with hz | hz
      · rw [hz]; exact hv
      · rw [hz]; exact hu

/-- Claim C19: for every graph built by `init` and `add_edge` calls with
endpoints below `n` and every root argument, `build(root)` returns, every
emitted component has at least 2 vertices, and every emitted component either
consists of exactly the two endpoints of an edge flagged in `is_bridge`, or
holds both endpoints of no edge flagged in `is_bridge`.  An edge with index `i`
between `u` and `v` is an adjacency entry `(v, i)` of `u`; it is flagged when
`is_bridge[i]` is true. -/
theorem comp_bridge_dichotomy (s0 : bicomps) (n mh : Nat) (es : List (Nat × Nat))
    (root : Int) (hes : ∀ e ∈ es, e.1 < n ∧ e.2 < n) :
    ∃ r, ((s0.init n mh).add_edges es).build root = some r ∧
      ∀ c ∈ r.comps, 2 ≤ c.length ∧
        ((∃ (i u v : Nat), joins r.adj i u v ∧ vget r.is_bridge i false = true ∧
            (c = [u, v] ∨ c = [v, u])) ∨
          (∀ (i u v : Nat), joins r.adj i u v →
            vget r.is_bridge i false = true → ¬ (u ∈ c ∧ v ∈ c))) := by
  have hwf := built_wf s0 n mh es hes
  have hg := built_graphInv s0 n mh es hes
  obtain ⟨r, hr⟩ := build_total _ root hwf
  obtain ⟨_, hext, _⟩ := build_rule (P := fun _ => True) _ root r hwf trivial
    (fun _ _ _ _ _ _ _ _ => trivial) hr
  obtain ⟨hb, _, _⟩ := build_blocks _ root r hwf hg hr
  have hs := build_sorted _ root r hwf hr
  have hadj : r.adj = ((s0.init n mh).add_edges es).adj := hext.adj
  refine ⟨r, hr, ?_⟩
  intro c hc
  refine ⟨block_length (hb c hc), ?_⟩
  by_cases hex : ∃ (i u v : Nat), joins r.adj i u v ∧
      vget r.is_bridge i false = true ∧ u ∈ c ∧ v ∈ c
  · left
    obtain ⟨i, u, v, hi, hf, hu, hv⟩ := hex
    refine ⟨i, u, v, hi, hf, ?_⟩
    have hj : joins ((s0.init n mh).add_edges es).adj i u v := by
      rw [← hadj]
      exact hi
    obtain ⟨x, y, hxy, hn⟩ := (build_bridge_iff _ root r hwf hg hr i).mp hf
    have hn2 : ¬ ReachAvoidE ((s0.init n mh).add_edges es).adj i u v := by
      rcases hg.ends _ _ _ _ _ hj hxy with ⟨h1, h2⟩ | ⟨h1, h2⟩
      · rw [h1, h2] at hn
        exact hn
      · rw [h1, h2] at hn
        exact fun h => hn (h.symm hg)
    obtain ⟨huv, hall⟩ := bridge_block hg (hb c hc) hj hn2 hu hv
    exact sorted_pair_eq (hs c hc) huv hu hv hall
  · right
    intro i u v hi hf huv
    exact hex ⟨i, u, v, hi, hf, huv.1, huv.2⟩

theorem comp_bridge_dichotomy_witness :
    (∀ e ∈ [((0 : Nat), (1 : Nat)), (1, 2), (2, 0), (2, 3), (3, 3)], e.1 < 5 ∧ e.2 < 5) ∧
    ∃ r, ((bicomps.fresh.init 5 0).add_edges [(0, 1), (1, 2), (2, 0), (2, 3), (3, 3)]).build 1
        = some r ∧
      ∀ c ∈ r.comps, 2 ≤ c.length ∧
        ((∃ (i u v : Nat), joins r.adj i u v ∧ vget r.is_bridge i false = true ∧
            (c = [u, v] ∨ c = [v, u])) ∨
          (∀ (i u v : Nat), joins r.adj i u v →
            vget r.is_bridge i false = true → ¬ (u ∈ c ∧ v ∈ c))) :=
  ⟨by decide, comp_bridge_dichotomy bicomps.fresh 5 0 [(0, 1), (1, 2), (2, 0), (2, 3), (3, 3)] 1
    (by decide)⟩

end Bicomps

namespace Bicomps

/-! ## `bc_tree::dfs` changes `parent` and `depth` only -/

theorem treeLoop_adj {call : Nat → Int → bc_tree → Option bc_tree}
    (hcall : ∀ y x t t1, call y x t = some t1 →
      t1.adj = t.adj ∧ t1.n = t.n ∧ t1.T = t.T ∧ t1.BC = t.BC) (node : Nat) (par : Int) :
    ∀ (rest : List Nat) (t t1 : bc_tree), treeLoop call node par rest t = some t1 →
      t1.adj = t.adj ∧ t1.n = t.n ∧ t1.T = t.T ∧ t1.BC = t.BC := by
  intro rest
  induction rest with
  | nil =>
    intro t t1 h
    have : t1 = t := (Option.some.inj h).symm
    rw [this]
    exact ⟨rfl, rfl, rfl, rfl⟩
  | cons e rest ih =>
    intro t t1 h
    unfold treeLoop at h
    split at h
    · split at h
      · exact absurd h (by simp)
      · rename_i t2 h2
        obtain ⟨a1, a2, a3, a4⟩ := hcall _ _ _ _ h2
        obtain ⟨b1, b2, b3, b4⟩ := ih t2 t1 h
        exact ⟨b1.trans a1, b2.trans a2, b3.trans a3, b4.trans a4⟩
    · exact ih t t1 h

theorem tree_dfs_adj : ∀ (fuel y : Nat) (x : Int) (t t1 : bc_tree),
    bc_tree.dfs fuel y x t = some t1 →
      t1.adj = t.adj ∧ t1.n = t.n ∧ t1.T = t.T ∧ t1.BC = t.BC := by
  intro fuel
  induction fuel with
  | zero =>
    intro y x t t1 h
    exact absurd h (by simp [bc_tree.dfs])
  | succ fuel ih =>
    intro y x t t1 h
    unfold bc_tree.dfs at h
    simp only at h
    have h3 := treeLoop_adj ih y x _ _ _ h
    exact h3

theorem treeSweep_adj (fuel : Nat) : ∀ (rest : List Nat) (t t1 : bc_tree),
    treeSweep fuel rest t = some t1 →
      t1.adj = t.adj ∧ t1.n = t.n ∧ t1.T = t.T ∧ t1.BC = t.BC := by
  intro rest
  induction rest with
  | nil =>
    intro t t1 h
    have : t1 = t := (Option.some.inj h).symm
    rw [this]
    exact ⟨rfl, rfl, rfl, rfl⟩
  | cons e rest ih =>
    intro t t1 h
    unfold treeSweep at h
    split at h
    · split at h
      · exact absurd h (by simp)
      · rename_i t2 h2
        obtain ⟨a1, a2, a3, a4⟩ := tree_dfs_adj _ _ _ _ _ h2
        obtain ⟨b1, b2, b3, b4⟩ := ih t2 t1 h
        exact ⟨b1.trans a1, b2.trans a2, b3.trans a3, b4.trans a4⟩
    · exact ih t t1 h

/-- The tree that `bc_tree::build` returns has the adjacency lists of the
block-vertex graph of the components. -/
theorem tree_build_adj (self : bc_tree) (r : bicomps) (t : bc_tree)
    (hmem : ∀ c ∈ r.comps, c.Nodup ∧ ∀ x ∈ c, x < r.n) (h : self.build r = some t) :
    TreeAdj r.n (r.n + r.comps.length) r.comps t := by
  obtain ⟨t1, hrun1, hadj⟩ := addComps_spec (n := r.n) (T := r.n + r.comps.length) r.comps []
    _ (treeAdj_init self r.n r.comps.length) hmem (by simp)
  unfold bc_tree.build bc_tree.buildWith at h
  simp only at h
  have h0 : addComps 0 r.comps
      { self with n := r.n, BC := r.comps.length, T := r.n + r.comps.length,
                  adj := List.replicate (r.n + r.comps.length) [] } = some t1 := hrun1
  rw [h0] at h
  simp only at h
  obtain ⟨a1, a2, a3, _⟩ := treeSweep_adj _ _ _ _ h
  have hadj2 : TreeAdj r.n (r.n + r.comps.length) r.comps t1 := by simpa using hadj
  have e1 : t.adj = t1.adj := a1
  have e2 : t.n = t1.n := a2
  have e3 : t.T = t1.T := a3
  exact ⟨e2.trans hadj2.n_eq, e3.trans hadj2.T_eq, by rw [e1]; exact hadj2.len,
    by rw [e1]; exact hadj2.vert, by rw [e1]; exact hadj2.comp, by rw [e1]; exact hadj2.nodup⟩

end Bicomps

namespace Bicomps

/-! ## Claim C20: the cut vertices are the vertices shared by two components -/

/-- Every member of a biconnected component has a neighbour in it. -/
theorem block_neighbour {adj : List (List edge)} (hg : GraphInv adj) {c : List Nat}
    (hc : IsBlock adj c) {v : Nat} (hv : v ∈ c) :
    ∃ a ∈ c, a ≠ v ∧ ∃ i, joins adj i v a := by
  have hx : ∃ x ∈ c, x ≠ v := by
    obtain ⟨p, hp, q, hq, hpq⟩ := hc.1
    by_cases h : p = v
    · exact ⟨q, hq, fun hqv => hpq (h.trans hqv.symm)⟩
    · exact ⟨p, hp, h⟩
  obtain ⟨x, hx, hxv⟩ := hx
  have hI := hc.2.1 v hv x hx (Ne.symm hxv)
  have hw1 : v + x + 1 ≠ v := by omega
  have hw2 : v + x + 1 ≠ x := by omega
  obtain ⟨a1, h1, h2, h3⟩ := reach_first_step (hI _ hw1 hw2) (Ne.symm hxv)
  refine ⟨a1, ?_, h1, h2⟩
  obtain ⟨i, hj⟩ := h2
  apply block_absorbs hg hc hv hx (Ne.symm hxv)
  · exact Or.inr (insep_symm hg (insep_of_joins hj))
  · by_cases ha1 : a1 = x
    · exact Or.inl ha1
    · right
      intro w hwa1 hwx
      by_cases hwv : w = v
      · rw [hwv]
        exact ReachIn.mono (fun z hz => hz.2) h3
      · exact Relation.ReflTransGen.head ⟨Ne.symm hwa1, Ne.symm hwv, i, hg.sym _ _ _ hj⟩
          (hI w hwv hwx)

/-- A neighbour of `v` that can be reached, avoiding `v`, from a neighbour of
`v` in a biconnected component of `v` is in that component. -/
theorem block_across {adj : List (List edge)} (hg : GraphInv adj) {c : List Nat}
    (hc : IsBlock adj c) {v a b i j : Nat} (hv : v ∈ c) (ha : a ∈ c) (hav : a ≠ v)
    (hbv : b ≠ v) (hja : joins adj i v a) (hjb : joins adj j v b)
    (hr : ReachIn adj (fun z => z ≠ v) a b) : b ∈ c := by
  apply block_absorbs hg hc hv ha (Ne.symm hav)
  · exact Or.inr (insep_symm hg (insep_of_joins hjb))
  · by_cases hba : b = a
    · exact Or.inl hba
    · right
      intro w hwb hwa
      by_cases hwv : w = v
      · rw [hwv]
        exact reachIn_symm hg hr
      · exact Relation.ReflTransGen.head ⟨Ne.symm hwb, Ne.symm hwv, j, hg.sym _ _ _ hjb⟩
          (Relation.ReflTransGen.single ⟨Ne.symm hwv, Ne.symm hwa, i, hja⟩)

/-- After `build` a vertex is a cut vertex of the graph if and only if two
entries of `comps` hold it. -/
theorem cut_iff_shared (g : bicomps) (root : Int) (r : bicomps) (hwf : g.wf)
    (hg : GraphInv g.adj) (h : g.build root = some r) (v : Nat) (hv : v < g.n) :
    CutV g.adj v ↔ ∃ k k2 : Nat, k ≠ k2 ∧ (∃ c : List Nat, r.comps[k]? = some c ∧ v ∈ c) ∧
      (∃ d : List Nat, r.comps[k2]? = some d ∧ v ∈ d) := by
  obtain ⟨hb, hnd, hcov⟩ := build_blocks g root r hwf hg h
  constructor
  · rintro ⟨a, b, ha, hb2, hi, hj, hn⟩
    obtain ⟨c, hc, hvc, hac⟩ := hcov v a hv (Ne.symm ha) hi
    obtain ⟨d, hd, hvd, hbd⟩ := hcov v b hv (Ne.symm hb2) hj
    obtain ⟨k, hk, hkc⟩ := List.getElem_of_mem hc
    obtain ⟨k2, hk2, hkd⟩ := List.getElem_of_mem hd
    refine ⟨k, k2, ?_, ⟨c, by rw [List.getElem?_eq_getElem hk, hkc], hvc⟩,
      ⟨d, by rw [List.getElem?_eq_getElem hk2, hkd], hvd⟩⟩
    intro hkk
    subst hkk
    have hcd : c = d := hkc.symm.trans hkd
    rw [← hcd] at hbd
    apply hn
    by_cases hab : a = b
    · rw [hab]
      exact Relation.ReflTransGen.refl
    · exact (hb c hc).2.1 a hac b hbd hab v (Ne.symm ha) (Ne.symm hb2)
  · rintro ⟨k, k2, hkk, ⟨c, hk, hvc⟩, ⟨d, hk2, hvd⟩⟩
    have hc : c ∈ r.comps := List.getElem?_mem hk
    have hd : d ∈ r.comps := List.getElem?_mem hk2
    obtain ⟨a, hac, hav, i, hi⟩ := block_neighbour hg (hb c hc) hvc
    obtain ⟨b, hbd, hbv, j, hj⟩ := block_neighbour hg (hb d hd) hvd
    refine ⟨a, b, hav, hbv, ⟨i, hi⟩, ⟨j, hj⟩, ?_⟩
    intro hr
    have hbc : b ∈ c := block_across hg (hb c hc) hvc hac hav hbv hi hj hr
    exact hkk (comp_unique g root r hwf hg h (Ne.symm hbv) hk hk2 hvc hbc hvd hbd)

theorem two_le_length_iff {l : List Nat} (hl : l.Nodup) :
    2 ≤ l.length ↔ ∃ a ∈ l, ∃ b ∈ l, a ≠ b := by
  match l, hl with
  | [], _ => simp
  | [a], _ =>
    simp only [List.length_singleton, List.mem_singleton]
    constructor
    · intro h
      omega
    · rintro ⟨x, hx, y, hy, hxy⟩
      exact absurd (hx.trans hy.symm) hxy
  | a :: b :: rest, hl =>
    constructor
    · intro _
      refine ⟨a, List.mem_cons_self _ _, b, List.mem_cons_of_mem _ (List.mem_cons_self _ _), ?_⟩
      intro hab
      have := (List.nodup_cons.mp hl).1
      exact this (by rw [hab]; exact List.mem_cons_self _ _)
    · intro _
      simp

/-- Claim C20: for every graph built by `init` and `add_edge` calls with
endpoints below `n` and every root argument, `build(root)` and then
`bc_tree::build()` return, and for every vertex `v` below `n`, `is_cut[v]` is
true if and only if `v` is contained in the entries of `comps` at two distinct
positions, and if and only if the node `v` has at least two neighbours in the
block-vertex tree. -/
theorem cut_iff_shared_vertex (s0 : bicomps) (self : bc_tree) (n mh : Nat)
    (es : List (Nat × Nat)) (root : Int) (hes : ∀ e ∈ es, e.1 < n ∧ e.2 < n) :
    ∃ r t, ((s0.init n mh).add_edges es).build root = some r ∧ self.build r = some t ∧
      ∀ v, v < n →
        (vget r.is_cut v false = true ↔
          ∃ k k2 : Nat, k ≠ k2 ∧ (∃ c : List Nat, r.comps[k]? = some c ∧ v ∈ c) ∧
            (∃ d : List Nat, r.comps[k2]? = some d ∧ v ∈ d)) ∧
        (2 ≤ (vget t.adj v []).length ↔ vget r.is_cut v false = true) := by
  have hwf := built_wf s0 n mh es hes
  have hg := built_graphInv s0 n mh es hes
  obtain ⟨r, hr⟩ := build_total _ root hwf
  obtain ⟨_, hnd, _⟩ := build_blocks _ root r hwf hg hr
  obtain ⟨hn, hok⟩ := build_compsOk _ root r hwf hr
  rw [built_n] at hn
  have htops := build_tops _ root r hwf hg hr
  have hmem : ∀ c ∈ r.comps, c.Nodup ∧ ∀ x ∈ c, x < r.n :=
    fun c hc => ⟨(hok c hc).1.nodup, (hok c hc).2⟩
  obtain ⟨t, ht, _⟩ := tree_build_spec self r hnd hmem htops
  have hadj := tree_build_adj self r t hmem ht
  rw [hn] at hadj
  refine ⟨r, t, hr, ht, ?_⟩
  intro v hv
  have hcut := build_cuts _ root r hwf hg hr v (by rw [built_n]; exact hv)
  have hsh := cut_iff_shared _ root r hwf hg hr v (by rw [built_n]; exact hv)
  have h1 := hcut.trans hsh
  refine ⟨h1, ?_⟩
  rw [h1, two_le_length_iff (hadj.nodup v hv)]
  constructor
  · rintro ⟨a, ha, b, hb, hab⟩
    obtain ⟨k, hk, hak, hvk⟩ := (hadj.vert v hv a).mp ha
    obtain ⟨k2, hk2, hbk, hvk2⟩ := (hadj.vert v hv b).mp hb
    refine ⟨k, k2, ?_, ⟨vget r.comps k [], ?_, hvk⟩, ⟨vget r.comps k2 [], ?_, hvk2⟩⟩
    · intro hkk
      apply hab
      rw [hak, hbk, hkk]
    · unfold vget
      rw [List.getD_eq_getElem _ _ hk, List.getElem?_eq_getElem hk]
    · unfold vget
      rw [List.getD_eq_getElem _ _ hk2, List.getElem?_eq_getElem hk2]
  · rintro ⟨k, k2, hkk, ⟨c, hk, hvc⟩, ⟨d, hk2, hvd⟩⟩
    obtain ⟨hkl, hkc⟩ := List.getElem?_eq_some_iff.mp hk
    obtain ⟨hkl2, hkd⟩ := List.getElem?_eq_some_iff.mp hk2
    refine ⟨n + k, (hadj.vert v hv _).mpr ⟨k, hkl, rfl, ?_⟩,
      n + k2, (hadj.vert v hv _).mpr ⟨k2, hkl2, rfl, ?_⟩, by omega⟩
    · unfold vget
      rw [List.getD_eq_getElem _ _ hkl, hkc]
      exact hvc
    · unfold vget
      rw [List.getD_eq_getElem _ _ hkl2, hkd]
      exact hvd

theorem cut_iff_shared_vertex_witness :
    (∀ e ∈ [((0 : Nat), (1 : Nat)), (1, 2), (2, 0), (2, 3), (3, 4), (4, 2), (4, 5)],
      e.1 < 7 ∧ e.2 < 7) ∧
    ∃ r t, ((bicomps.fresh.init 7 0).add_edges
        [(0, 1), (1, 2), (2, 0), (2, 3), (3, 4), (4, 2), (4, 5)]).build 3 = some r ∧
      bc_tree.fresh.build r = some t ∧
      ∀ v, v < 7 →
        (vget r.is_cut v false = true ↔
          ∃ k k2 : Nat, k ≠ k2 ∧ (∃ c : List Nat, r.comps[k]? = some c ∧ v ∈ c) ∧
            (∃ d : List Nat, r.comps[k2]? = some d ∧ v ∈ d)) ∧
        (2 ≤ (vget t.adj v []).length ↔ vget r.is_cut v false = true) :=
  ⟨by decide, cut_iff_shared_vertex bicomps.fresh bc_tree.fresh 7 0
    [(0, 1), (1, 2), (2, 0), (2, 3), (3, 4), (4, 2), (4, 5)] 3 (by decide)⟩

end Bicomps

namespace Bicomps

/-! ## Claim C15: `same_bicomp` and distance two in the block-vertex tree -/

/-- On the result of `bicomps::build`, `bc_tree::build` returns the block-vertex
forest with every node settled, and `same_bicomp` tells whether two vertices
are equal or share a component. -/
theorem built_tree (g : bicomps) (root : Int) (r : bicomps) (self : bc_tree) (hwf : g.wf)
    (hg : GraphInv g.adj) (hr : g.build root = some r) :
    ∃ t, self.build r = some t ∧ TreeAdj g.n (g.n + r.comps.length) r.comps t ∧
      (∀ z, z < g.n + r.comps.length → Settled t z) ∧
      ∀ a b, a < g.n → b < g.n →
        (t.same_bicomp a b = true ↔ a = b ∨ ∃ c ∈ r.comps, a ∈ c ∧ b ∈ c) := by
  obtain ⟨_, hnd, _⟩ := build_blocks _ root r hwf hg hr
  obtain ⟨hn, hok⟩ := build_compsOk _ root r hwf hr
  have htops := build_tops _ root r hwf hg hr
  have hmem : ∀ c ∈ r.comps, c.Nodup ∧ ∀ x ∈ c, x < r.n :=
    fun c hc => ⟨(hok c hc).1.nodup, (hok c hc).2⟩
  obtain ⟨t, ht, hvert, hcomp, hs⟩ := tree_build_spec self r hnd hmem htops
  have hadj := tree_build_adj self r t hmem ht
  rw [hn] at hvert hcomp hs hadj
  refine ⟨t, ht, hadj, hs, ?_⟩
  intro a b ha hb
  rw [same_bicomp_iff]
  constructor
  · rintro (h | h)
    · exact Or.inl h
    · right
      have key : ∀ a b, a < g.n → b < g.n → Near t a b → ∃ c ∈ r.comps, a ∈ c ∧ b ∈ c := by
        intro a b ha hb h
        obtain ⟨k, hk, h1, h2⟩ := near_sound rfl hvert hcomp hs ha hb h
        exact ⟨_, vget_mem r.comps k [] hk, h1, h2⟩
      split at h
      · obtain ⟨c, hc, h1, h2⟩ := key b a hb ha h
        exact ⟨c, hc, h2, h1⟩
      · exact key a b ha hb h
  · rintro (h | ⟨c, hc, hac, hbc⟩)
    · exact Or.inl h
    · by_cases hab : a = b
      · exact Or.inl hab
      · right
        obtain ⟨k, hk, hke⟩ := List.getElem_of_mem hc
        have hck : vget r.comps k [] = c := by
          unfold vget
          rw [List.getD_eq_getElem _ _ hk, hke]
        exact near_complete rfl hvert hs ha hb hab hk (by rw [hck]; exact hac)
          (by rw [hck]; exact hbc)

/-- Claim C15: for every graph built by `init` and `add_edge` calls with
endpoints below `n` and every root argument, `bicomps::build` and then
`bc_tree::build` return, and for all different vertices `a` and `b` below `n`:
`same_bicomp(a, b)` is true if and only if `a` and `b` are at distance exactly
two in the block-vertex tree (they are not adjacent and some node is adjacent
to both); this holds if and only if both are adjacent to a common component
node `n + k`; and this holds if and only if some emitted component contains
both `a` and `b`. -/
theorem same_bicomp_distance_two (s0 : bicomps) (self : bc_tree) (n mh : Nat)
    (es : List (Nat × Nat)) (root : Int) (hes : ∀ e ∈ es, e.1 < n ∧ e.2 < n) :
    ∃ r t, ((s0.init n mh).add_edges es).build root = some r ∧ self.build r = some t ∧
      ∀ a b, a < n → b < n → a ≠ b →
        (t.same_bicomp a b = true ↔
          (b ∉ vget t.adj a [] ∧ ∃ z, z ∈ vget t.adj a [] ∧ b ∈ vget t.adj z [])) ∧
        ((b ∉ vget t.adj a [] ∧ ∃ z, z ∈ vget t.adj a [] ∧ b ∈ vget t.adj z []) ↔
          ∃ k, k < r.comps.length ∧ n + k ∈ vget t.adj a [] ∧ n + k ∈ vget t.adj b []) ∧
        ((∃ k, k < r.comps.length ∧ n + k ∈ vget t.adj a [] ∧ n + k ∈ vget t.adj b []) ↔
          ∃ c ∈ r.comps, a ∈ c ∧ b ∈ c) := by
  have hwf := built_wf s0 n mh es hes
  have hg := built_graphInv s0 n mh es hes
  obtain ⟨r, hr⟩ := build_total _ root hwf
  obtain ⟨t, ht, hadj, _, hsame⟩ := built_tree _ root r self hwf hg hr
  rw [built_n] at hadj hsame
  refine ⟨r, t, hr, ht, ?_⟩
  intro a b ha hb hab
  have h3 : (∃ k, k < r.comps.length ∧ n + k ∈ vget t.adj a [] ∧ n + k ∈ vget t.adj b []) ↔
      ∃ c ∈ r.comps, a ∈ c ∧ b ∈ c := by
    constructor
    · rintro ⟨k, hk, hka, hkb⟩
      obtain ⟨k1, _, e1, m1⟩ := (hadj.vert a ha _).mp hka
      obtain ⟨k2, _, e2, m2⟩ := (hadj.vert b hb _).mp hkb
      have e1k : k1 = k := by omega
      have e2k : k2 = k := by omega
      rw [e1k] at m1
      rw [e2k] at m2
      exact ⟨_, vget_mem r.comps k [] hk, m1, m2⟩
    · rintro ⟨c, hc, hac, hbc⟩
      obtain ⟨k, hk, hke⟩ := List.getElem_of_mem hc
      have hck : vget r.comps k [] = c := by
        unfold vget
        rw [List.getD_eq_getElem _ _ hk, hke]
      exact ⟨k, hk, (hadj.vert a ha _).mpr ⟨k, hk, rfl, by rw [hck]; exact hac⟩,
        (hadj.vert b hb _).mpr ⟨k, hk, rfl, by rw [hck]; exact hbc⟩⟩
  have h2 : (b ∉ vget t.adj a [] ∧ ∃ z, z ∈ vget t.adj a [] ∧ b ∈ vget t.adj z []) ↔
      ∃ k, k < r.comps.length ∧ n + k ∈ vget t.adj a [] ∧ n + k ∈ vget t.adj b [] := by
    constructor
    · rintro ⟨_, z, hza, hbz⟩
      obtain ⟨k, hk, e, m⟩ := (hadj.vert a ha _).mp hza
      rw [e, hadj.comp k] at hbz
      exact ⟨k, hk, by rw [← e]; exact hza, (hadj.vert b hb _).mpr ⟨k, hk, rfl, hbz⟩⟩
    · rintro ⟨k, hk, hka, hkb⟩
      refine ⟨?_, n + k, hka, ?_⟩
      · intro hba
        obtain ⟨k1, _, e, _⟩ := (hadj.vert a ha _).mp hba
        omega
      · rw [hadj.comp k]
        obtain ⟨k2, _, e2, m2⟩ := (hadj.vert b hb _).mp hkb
        have e2k : k2 = k := by omega
        rw [e2k] at m2
        exact m2
  refine ⟨?_, h2, h3⟩
  rw [h2, h3, hsame a b ha hb]
  constructor
  · rintro (h | h)
    · exact absurd h hab
    · exact h
  · exact Or.inr

theorem same_bicomp_distance_two_witness :
    (∀ e ∈ [((0 : Nat), (1 : Nat)), (1, 2), (2, 0), (2, 3), (3, 4), (4, 2), (4, 5)],
      e.1 < 7 ∧ e.2 < 7) ∧
    ∃ r t, ((bicomps.fresh.init 7 0).add_edges
        [(0, 1), (1, 2), (2, 0), (2, 3), (3, 4), (4, 2), (4, 5)]).build 3 = some r ∧
      bc_tree.fresh.build r = some t ∧
      ∀ a b, a < 7 → b < 7 → a ≠ b →
        (t.same_bicomp a b = true ↔
          (b ∉ vget t.adj a [] ∧ ∃ z, z ∈ vget t.adj a [] ∧ b ∈ vget t.adj z [])) ∧
        ((b ∉ vget t.adj a [] ∧ ∃ z, z ∈ vget t.adj a [] ∧ b ∈ vget t.adj z []) ↔
          ∃ k, k < r.comps.length ∧ 7 + k ∈ vget t.adj a [] ∧ 7 + k ∈ vget t.adj b []) ∧
        ((∃ k, k < r.comps.length ∧ 7 + k ∈ vget t.adj a [] ∧ 7 + k ∈ vget t.adj b []) ↔
          ∃ c ∈ r.comps, a ∈ c ∧ b ∈ c) :=
  ⟨by decide, same_bicomp_distance_two bicomps.fresh bc_tree.fresh 7 0
    [(0, 1), (1, 2), (2, 0), (2, 3), (3, 4), (4, 2), (4, 5)] 3 (by decide)⟩

end Bicomps

namespace Bicomps

/-! ## Claim C16: `dfs` is entered once for each vertex -/

theorem tourInv_enter {node : Nat} {s : bicomps} (b : Basic node s (enter node s))
    (h : TourInv s) : TourInv (enter node s) := by
  have hlen : node < s.vis.length := by rw [b.ok.2.1]; exact b.lt
  have hcnt := count_false_set_true s.vis node b.fresh hlen
  have hle : s.vis.count false ≤ s.vis.length := List.count_le_length _ _
  obtain ⟨h1, h2⟩ := h
  refine ⟨?_, ?_⟩
  · rw [enter_tour, enter_vis, List.length_set]
    omega
  · intro x hx
    by_cases hxn : node = x
    · rw [← hxn, enter_ts_self b.ok b.lt]
      omega
    · rw [enter_ts_other s hxn]
      apply h2
      rw [enter_vis, vget_set_ne _ _ _ _ _ hxn] at hx
      exact hx

theorem dfs_tourInv (fuel node : Nat) (parent : Int) (s s1 : bicomps)
    (hok : s.ok) (hnode : node < s.n) (hc : TourInv s)
    (h : dfs fuel node parent s = some s1) : TourInv s1 := by
  refine dfs_rule1
    (P := fun _ _ s => TourInv s)
    (Q := fun _ _ _ s1 => TourInv s1)
    (I := fun _ _ _ _ _ _ _ s => TourInv s)
    ?_ ?_ ?_ ?_ ?_ ?_ fuel node parent s s1 hok hnode hc h
  · intro node parent s b hp
    exact tourInv_enter b hp
  · intro node parent s0 done e es pc ch s _ _ hI _ _
    exact hI
  · intro node parent s0 done e es pc ch s b _ hI _ _
    unfold TourInv
    rw [visitedStep_vis, visitedStep_tour, visitedStep_tour_start]
    exact hI
  · intro node parent s0 done e es pc ch s _ _ hI _ _
    exact hI
  · intro node parent s0 done e es pc ch s s1 b hsplit _ _ hv _ hext _ hpost
    unfold TourInv
    rw [childStep_vis, childStep_tour, childStep_tour_start]
    exact hpost
  · intro node parent s0 pc ch s _ _ hI
    unfold TourInv
    rw [leave_vis, leave_tour, leave_tour_start]
    exact hI

theorem count_false_zero (l : List Bool) (h : ∀ i, i < l.length → vget l i false = true) :
    l.count false = 0 := by
  rw [List.count_eq_zero]
  intro hmem
  obtain ⟨i, hi, he⟩ := List.getElem_of_mem hmem
  have := h i hi
  unfold vget at this
  rw [List.getD_eq_getElem _ _ hi, he] at this
  exact absurd this (by simp)

/-- After `build` the counter `tour` equals `n` and the tour numbers of the
vertices are the numbers below `n`, each taken once. -/
theorem build_tour (g : bicomps) (root : Int) (r : bicomps) (hwf : g.wf)
    (hg : GraphInv g.adj) (h : g.build root = some r) :
    r.tour = (g.n : Int) ∧
    (∀ v, v < g.n → 0 ≤ vget r.tour_start v 0 ∧ vget r.tour_start v 0 < (g.n : Int)) ∧
    (∀ u v, u < g.n → v < g.n → vget r.tour_start u 0 = vget r.tour_start v 0 → u = v) ∧
    ∀ k : Int, 0 ≤ k → k < (g.n : Int) → ∃ v, v < g.n ∧ vget r.tour_start v 0 = k := by
  have hK := build_rule (P := TopK) g root r hwf
    ⟨TopS.reset g hg, rfl, fun x hx => by rw [reset_vis] at hx; exact absurd hx (by simp)⟩
    (fun s i s1 hP hok hi _ hc => topK_step hP hok hi hc) h
  have hU := build_rule (P := TourInv) g root r hwf
    ⟨by
      show (0 : Int) + ((List.replicate g.n false).count false : Int)
        = ((List.replicate g.n false).length : Int)
      simp,
     fun x hx => by rw [reset_vis] at hx; exact absurd hx (by simp)⟩
    (fun s i s1 hP hok hi _ hc => dfs_tourInv _ i (-1) s s1 hok hi hP hc) h
  obtain ⟨hts, hext, hall⟩ := hK
  have hlen : r.vis.length = g.n := by
    rw [hext.len_vis]
    show (List.replicate g.n false).length = g.n
    simp
  have hzero : r.vis.count false = 0 :=
    count_false_zero r.vis (fun i hi => hall i (by rw [← hlen]; exact hi))
  have htour : r.tour = (g.n : Int) := by
    have := hU.1.1
    rw [hzero, hlen] at this
    simpa using this
  have hrange : ∀ v, v < g.n →
      0 ≤ vget r.tour_start v 0 ∧ vget r.tour_start v 0 < (g.n : Int) := by
    intro v hv
    refine ⟨hU.1.2 v (hall v hv), ?_⟩
    rw [← htour]
    exact hts.top.ts.lt v (hall v hv)
  have hinj : ∀ u v, u < g.n → v < g.n →
      vget r.tour_start u 0 = vget r.tour_start v 0 → u = v :=
    fun u v hu hv he => hts.top.ts.inj u v (hall u hu) (hall v hv) he
  refine ⟨htour, hrange, hinj, ?_⟩
  intro k hk0 hkn
  let f : Fin g.n → Fin g.n := fun v =>
    ⟨(vget r.tour_start v.1 0).toNat, by
      have := hrange v.1 v.2
      omega⟩
  have hf : Function.Injective f := by
    intro u v huv
    have e : (vget r.tour_start u.1 0).toNat = (vget r.tour_start v.1 0).toNat :=
      congrArg Fin.val huv
    have h1 := hrange u.1 u.2
    have h2 := hrange v.1 v.2
    exact Fin.ext (hinj u.1 v.1 u.2 v.2 (by omega))
  have hsurj := Finite.injective_iff_surjective.mp hf
  obtain ⟨v, hv⟩ := hsurj ⟨k.toNat, by omega⟩
  refine ⟨v.1, v.2, ?_⟩
  have e : (vget r.tour_start v.1 0).toNat = k.toNat := congrArg Fin.val hv
  have h1 := hrange v.1 v.2
  omega

/-- Claim C16: for every graph built by `init` and `add_edge` calls with
endpoints below `n` and every root argument, `build(root)` returns (the
assertion `!vis[node]` holds at every entry of `dfs` and the recursion ends);
afterwards `vis[v]` is true for every vertex `v`, the counter `tour`, which
counts the entries of `dfs`, equals `n`, and `tour_start` maps the vertices
below `n` one-to-one onto the numbers `0, ..., n - 1`. -/
theorem dfs_once_per_vertex (s0 : bicomps) (n mh : Nat) (es : List (Nat × Nat)) (root : Int)
    (hes : ∀ e ∈ es, e.1 < n ∧ e.2 < n) :
    ∃ r, ((s0.init n mh).add_edges es).build root = some r ∧
      (∀ v, v < n → vget r.vis v false = true) ∧
      r.tour = (n : Int) ∧
      (∀ v, v < n → 0 ≤ vget r.tour_start v 0 ∧ vget r.tour_start v 0 < (n : Int)) ∧
      (∀ u v, u < n → v < n → vget r.tour_start u 0 = vget r.tour_start v 0 → u = v) ∧
      ∀ k : Int, 0 ≤ k → k < (n : Int) → ∃ v, v < n ∧ vget r.tour_start v 0 = k := by
  have hwf := built_wf s0 n mh es hes
  have hg := built_graphInv s0 n mh es hes
  obtain ⟨r, hr⟩ := build_total _ root hwf
  have hall := (build_rule (P := fun _ => True) _ root r hwf trivial
    (fun _ _ _ _ _ _ _ _ => trivial) hr).2.2
  have ht := build_tour _ root r hwf hg hr
  rw [built_n] at hall ht
  exact ⟨r, hr, hall, ht⟩

theorem dfs_once_per_vertex_witness :
    (∀ e ∈ [((0 : Nat), (1 : Nat)), (1, 2), (2, 0), (2, 3), (3, 3)], e.1 < 5 ∧ e.2 < 5) ∧
    ∃ r, ((bicomps.fresh.init 5 0).add_edges [(0, 1), (1, 2), (2, 0), (2, 3), (3, 3)]).build 1
        = some r ∧
      (∀ v, v < 5 → vget r.vis v false = true) ∧
      r.tour = ((5 : Nat) : Int) ∧
      (∀ v, v < 5 → 0 ≤ vget r.tour_start v 0 ∧ vget r.tour_start v 0 < ((5 : Nat) : Int)) ∧
      (∀ u v, u < 5 → v < 5 → vget r.tour_start u 0 = vget r.tour_start v 0 → u = v) ∧
      ∀ k : Int, 0 ≤ k → k < ((5 : Nat) : Int) → ∃ v, v < 5 ∧ vget r.tour_start v 0 = k :=
  ⟨by decide, dfs_once_per_vertex bicomps.fresh 5 0 [(0, 1), (1, 2), (2, 0), (2, 3), (3, 3)] 1
    (by decide)⟩

end Bicomps

namespace Bicomps

/-! ## Claim C18: vertex nodes and component nodes alternate -/

/-- A round of the loop over the roots that calls `dfs`: the call returns and
reaches the tree of the node, none of whose nodes was reached before. -/
theorem sweep_call {T : Nat} {adj : List (List Nat)} {up rk : Nat → Int}
    (F : Forest T adj up rk) {fuel : Nat} (hfuel : T ≤ fuel) {i : Nat} (hi : i < T)
    {t : bc_tree} {V : List Bool} (hI : SweepInv up T adj i t V)
    (hneg : vget t.parent i 0 < 0) :
    (∀ z, Part up i (-1) z → vget V z false = false) ∧
    ∃ t1 V1, bc_tree.dfs fuel i (-1) t = some t1 ∧ TreePost up i (-1) t V t1 V1 := by
  have hVi : vget V i false = false := by
    apply bool_false_of_not
    intro h
    have := hI.inner i h (le_refl _)
    omega
  have hpre : ∀ z, Part up i (-1) z → vget V z false = false := by
    intro z hz
    rw [part_root] at hz
    apply bool_false_of_not
    intro h
    have := hI.closed z i h (sameTree_symm hz)
    rw [hVi] at this
    exact absurd this (by simp)
  obtain ⟨t1, V1, hrun, hq⟩ := tree_dfs_spec F fuel i (-1) t V hI.adj hI.len_parent
    hI.len_depth hI.len_vis hi (Or.inl rfl) hpre (fun h => by omega)
    (le_trans (List.count_le_length _ _) (by rw [hI.len_vis]; exact hfuel))
  exact ⟨hpre, t1, V1, hrun, hq⟩

/-- The invariant of the loop over the roots holds before the first round. -/
theorem sweepInv_init {n T : Nat} {comps : List (List Nat)} {t1 : bc_tree} (up : Nat → Int)
    (hadj : TreeAdj n T comps t1) :
    SweepInv up T t1.adj 0
      { t1 with parent := List.replicate t1.T (-1), depth := resize t1.depth t1.T 0 }
      (List.replicate T false) := by
  have hfalse : ∀ z, vget (List.replicate T false) z false = true → False := by
    intro z hz
    rw [vget_replicate] at hz
    split at hz <;> exact absurd hz (by simp)
  refine ⟨rfl, ?_, ?_, by simp, ?_, ?_, ?_, ?_, ?_⟩
  · show (List.replicate t1.T (-1 : Int)).length = _
    rw [List.length_replicate, hadj.T_eq]
  · show (resize t1.depth t1.T 0).length = _
    rw [length_resize, hadj.T_eq]
  · intro z hz
    exact absurd (hfalse z hz) id
  · intro z w hz
    exact absurd (hfalse z hz) id
  · intro z hz _
    show vget (List.replicate t1.T (-1 : Int)) z 0 = -1
    rw [vget_replicate, hadj.T_eq, if_pos hz]
  · intro z hz
    exact absurd (hfalse z hz) id
  · intro z hz
    omega

/-- When every node from `n` on has a neighbour with a smaller number, the loop
over the roots starts no call of `dfs` at such a node: afterwards each of them
has a parent. -/
theorem treeSweep_roots {T : Nat} {adj : List (List Nat)} {up rk : Nat → Int}
    (F : Forest T adj up rk) {fuel : Nat} (hfuel : T ≤ fuel) (n : Nat)
    (hnb : ∀ z, n ≤ z → z < T → ∃ x, x < z ∧ x ∈ vget adj z []) :
    ∀ (k i : Nat) (t : bc_tree) (V : List Bool), i + k = T → SweepInv up T adj i t V →
      (∀ z, n ≤ z → z < i → 0 ≤ vget t.parent z 0) →
      ∃ t1, treeSweep fuel (List.range' i k) t = some t1 ∧
        ∀ z, n ≤ z → z < T → 0 ≤ vget t1.parent z 0 := by
  intro k
  induction k with
  | zero =>
    intro i t V hik _ hR
    have : i = T := by omega
    rw [this] at hR
    exact ⟨t, rfl, hR⟩
  | succ k ih =>
    intro i t V hik hI hR
    have hi : i < T := by omega
    obtain ⟨t1, V1, hrun, hI1⟩ := sweepInv_step F hfuel hi hI
    have hR1 : ∀ z, n ≤ z → z < i + 1 → 0 ≤ vget t1.parent z 0 := by
      by_cases hneg : vget t.parent i 0 < 0
      · rw [if_pos hneg] at hrun
        obtain ⟨hpre, t2, V2, hrun2, hq⟩ := sweep_call F hfuel hi hI hneg
        have e : t2 = t1 := Option.some.inj (hrun2.symm.trans hrun)
        rw [e] at hq
        have hin : i < n := by
          by_contra hin
          obtain ⟨x, hx, hxa⟩ := hnb i (by omega) hi
          have hxV := hI.done x hx
          have := hI.closed x i hxV (sameTree_symm (sameTree_of_adj F hxa))
          rw [hpre i (part_self F (Or.inl rfl))] at this
          exact absurd this (by simp)
        intro z hz hzi
        have hzV := hI.done z (by omega)
        have hnp : ¬ Part up i (-1) z := by
          intro hp
          rw [hpre z hp] at hzV
          exact absurd hzV (by simp)
        rw [(hq.frame z hnp).1]
        exact hR z hz (by omega)
      · rw [if_neg hneg] at hrun
        have e : t1 = t := (Option.some.inj hrun).symm
        rw [e]
        intro z hz hzi
        by_cases hzi2 : z = i
        · rw [hzi2]
          omega
        · exact hR z hz (by omega)
    obtain ⟨t2, hrun2, hR2⟩ := ih (i + 1) t1 V1 (by omega) hI1 hR1
    refine ⟨t2, ?_, hR2⟩
    rw [List.range'_succ]
    unfold treeSweep
    split at hrun
    · rename_i hneg
      rw [if_pos hneg, hrun]
      exact hrun2
    · rename_i hneg
      rw [if_neg hneg]
      have : t1 = t := (Option.some.inj hrun).symm
      rw [this] at hrun2
      exact hrun2

/-- After `bc_tree::build` on components none of which is empty, every
component node has a parent. -/
theorem tree_build_roots (self : bc_tree) (r : bicomps) (hnd : r.comps.Nodup)
    (hmem : ∀ c ∈ r.comps, c.Nodup ∧ ∀ x ∈ c, x < r.n) (htops : TopsOk r)
    (hne : ∀ c ∈ r.comps, ∃ x, x ∈ c) :
    ∃ t, self.build r = some t ∧
      ∀ z, r.n ≤ z → z < r.n + r.comps.length → 0 ≤ vget t.parent z 0 := by
  obtain ⟨t1, hrun1, hadj⟩ := addComps_spec (n := r.n) (T := r.n + r.comps.length) r.comps []
    _ (treeAdj_init self r.n r.comps.length) hmem (by simp)
  have hadj2 : TreeAdj r.n (r.n + r.comps.length) r.comps t1 := by simpa using hadj
  obtain ⟨up, rk, F⟩ := forest_of_comps r.tour_start rfl hadj2 hnd hmem htops.1 htops.2
  have hI0 := sweepInv_init up hadj2
  have hnb : ∀ z, r.n ≤ z → z < r.n + r.comps.length → ∃ x, x < z ∧ x ∈ vget t1.adj z [] := by
    intro z hz hzT
    have hk : z - r.n < r.comps.length := by omega
    have hc := vget_mem r.comps (z - r.n) [] hk
    obtain ⟨x, hx⟩ := hne _ hc
    have hxn := (hmem _ hc).2 x hx
    refine ⟨x, by omega, ?_⟩
    have := hadj2.comp (z - r.n)
    rw [show r.n + (z - r.n) = z by omega] at this
    rw [this]
    exact hx
  obtain ⟨t2, hrun2, hR⟩ := treeSweep_roots F (le_refl _) r.n hnb
    (r.n + r.comps.length) 0 _ _ (by omega) hI0 (fun z _ hz => by omega)
  refine ⟨t2, ?_, hR⟩
  unfold bc_tree.build bc_tree.buildWith
  simp only
  have h0 : addComps 0 r.comps
      { self with n := r.n, BC := r.comps.length, T := r.n + r.comps.length,
                  adj := List.replicate (r.n + r.comps.length) [] } = some t1 := hrun1
  rw [h0]
  simp only
  rw [hadj2.T_eq, List.range_eq_range']
  rw [hadj2.T_eq] at hrun2
  exact hrun2

end Bicomps

namespace Bicomps

/-- In a settled block-vertex forest whose roots are vertex nodes, the depth of
a vertex node is even and the depth of a component node is odd. -/
theorem depth_parity {n T : Nat} {comps : List (List Nat)} {t : bc_tree}
    (hadj : TreeAdj n T comps t) (hT : T = n + comps.length)
    (hmem : ∀ c ∈ comps, ∀ x ∈ c, x < n)
    (hs : ∀ z, z < T → Settled t z)
    (hroot : ∀ z, n ≤ z → z < T → 0 ≤ vget t.parent z 0) :
    ∀ (d : Nat) (z : Nat), z < T → vget t.depth z 0 = (d : Int) →
      (z < n → d % 2 = 0) ∧ (n ≤ z → d % 2 = 1) := by
  intro d
  induction d with
  | zero =>
    intro z hz hd
    obtain ⟨_, _, h3⟩ := hs z hz
    rcases h3 with ⟨hp, _⟩ | ⟨hp, hpa, hdep⟩
    · refine ⟨fun _ => rfl, fun hn => ?_⟩
      have := hroot z hn hz
      omega
    · have hpT : (vget t.parent z 0).toNat < T := by
        by_cases hzn : z < n
        · obtain ⟨k, hk, e, _⟩ := (hadj.vert z hzn _).mp hpa
          omega
        · have hc := hadj.comp (z - n)
          rw [show n + (z - n) = z by omega] at hc
          rw [hc] at hpa
          have hk : z - n < comps.length := by omega
          have := hmem _ (vget_mem comps (z - n) [] hk) _ hpa
          omega
      have := (hs _ hpT).1
      omega
  | succ d ih =>
    intro z hz hd
    obtain ⟨_, _, h3⟩ := hs z hz
    rcases h3 with ⟨_, hd0⟩ | ⟨hp, hpa, hdep⟩
    · rw [hd0] at hd
      omega
    · by_cases hzn : z < n
      · obtain ⟨k, hk, e, _⟩ := (hadj.vert z hzn _).mp hpa
        have hpT : (vget t.parent z 0).toNat < T := by omega
        have := (ih _ hpT (by omega)).2 (by omega)
        exact ⟨fun _ => by omega, fun h => by omega⟩
      · have hc := hadj.comp (z - n)
        rw [show n + (z - n) = z by omega] at hc
        rw [hc] at hpa
        have hk : z - n < comps.length := by omega
        have hpn := hmem _ (vget_mem comps (z - n) [] hk) _ hpa
        have hpT : (vget t.parent z 0).toNat < T := by omega
        have := (ih _ hpT (by omega)).1 hpn
        exact ⟨fun h => by omega, fun _ => by omega⟩

/-- Claim C18: for every graph built by `init` and `add_edge` calls with
endpoints below `n` and every root argument, `bicomps::build` and then
`bc_tree::build` return (in particular no assertion of `add_edge` fails: every
member of a component is a vertex below `n`, joined to a node from `n` on), and
in the tree with `T = n + BC` nodes: every root (parent `-1`) is a vertex node
below `n`; every vertex node has even depth; every component node has odd
depth; the parent of every component node is a vertex node; and the parent of
every vertex node that is not a root is a component node. -/
theorem strict_alternation (s0 : bicomps) (self : bc_tree) (n mh : Nat)
    (es : List (Nat × Nat)) (root : Int) (hes : ∀ e ∈ es, e.1 < n ∧ e.2 < n) :
    ∃ r t, ((s0.init n mh).add_edges es).build root = some r ∧ self.build r = some t ∧
      t.n = n ∧ t.T = n + r.comps.length ∧
      (∀ c ∈ r.comps, ∀ x ∈ c, x < n) ∧
      ∀ z, z < n + r.comps.length →
        (vget t.parent z 0 = -1 → z < n) ∧
        (z < n → vget t.depth z 0 % 2 = 0) ∧
        (n ≤ z → vget t.depth z 0 % 2 = 1) ∧
        (n ≤ z → 0 ≤ vget t.parent z 0 ∧ (vget t.parent z 0).toNat < n) ∧
        (z < n → vget t.parent z 0 ≠ -1 →
          0 ≤ vget t.parent z 0 ∧ n ≤ (vget t.parent z 0).toNat ∧
            (vget t.parent z 0).toNat < n + r.comps.length) := by
  have hwf := built_wf s0 n mh es hes
  have hg := built_graphInv s0 n mh es hes
  obtain ⟨r, hr⟩ := build_total _ root hwf
  obtain ⟨hb, hnd, _⟩ := build_blocks _ root r hwf hg hr
  obtain ⟨hn, hok⟩ := build_compsOk _ root r hwf hr
  have htops := build_tops _ root r hwf hg hr
  have hmem : ∀ c ∈ r.comps, c.Nodup ∧ ∀ x ∈ c, x < r.n :=
    fun c hc => ⟨(hok c hc).1.nodup, (hok c hc).2⟩
  obtain ⟨t, ht, hadj, hs, _⟩ := built_tree _ root r self hwf hg hr
  obtain ⟨t2, ht2, hroot⟩ := tree_build_roots self r hnd hmem htops
    (fun c hc => by
      obtain ⟨a, ha, _⟩ := (hb c hc).1
      exact ⟨a, ha⟩)
  have e : t2 = t := Option.some.inj (ht2.symm.trans ht)
  rw [e] at hroot
  rw [built_n] at hn hadj hs
  rw [hn] at hroot hmem
  have hmem2 : ∀ c ∈ r.comps, ∀ x ∈ c, x < n := fun c hc => (hmem c hc).2
  refine ⟨r, t, hr, ht, hadj.n_eq, hadj.T_eq, hmem2, ?_⟩
  intro z hz
  have hS := hs z hz
  have hpar : ∀ d : Nat, vget t.depth z 0 = (d : Int) →
      (z < n → d % 2 = 0) ∧ (n ≤ z → d % 2 = 1) :=
    fun d hd => depth_parity hadj rfl hmem2 hs hroot d z hz hd
  have hd0 := hS.1
  have hpd := hpar (vget t.depth z 0).toNat (by omega)
  refine ⟨?_, ?_, ?_, ?_, ?_⟩
  · intro hp
    by_contra hzn
    have := hroot z (by omega) hz
    omega
  · intro hzn
    have := hpd.1 hzn
    omega
  · intro hzn
    have := hpd.2 hzn
    omega
  · intro hzn
    have h0 := hroot z hzn hz
    refine ⟨h0, ?_⟩
    rcases hS.2.2 with ⟨hp, _⟩ | ⟨_, hpa, _⟩
    · omega
    · have hc := hadj.comp (z - n)
      rw [show n + (z - n) = z by omega] at hc
      rw [hc] at hpa
      have hk : z - n < r.comps.length := by omega
      exact hmem2 _ (vget_mem r.comps (z - n) [] hk) _ hpa
  · intro hzn hp
    rcases hS.2.2 with ⟨hp1, _⟩ | ⟨h0, hpa, _⟩
    · exact absurd hp1 hp
    · obtain ⟨k, hk, e2, _⟩ := (hadj.vert z hzn _).mp hpa
      exact ⟨h0, by omega, by omega⟩

theorem strict_alternation_witness :
    (∀ e ∈ [((0 : Nat), (1 : Nat)), (1, 2), (2, 0), (2, 3), (3, 4), (4, 2), (4, 5)],
      e.1 < 7 ∧ e.2 < 7) ∧
    ∃ r t, ((bicomps.fresh.init 7 0).add_edges
        [(0, 1), (1, 2), (2, 0), (2, 3), (3, 4), (4, 2), (4, 5)]).build 3 = some r ∧
      bc_tree.fresh.build r = some t ∧
      t.n = 7 ∧ t.T = 7 + r.comps.length ∧
      (∀ c ∈ r.comps, ∀ x ∈ c, x < 7) ∧
      ∀ z, z < 7 + r.comps.length →
        (vget t.parent z 0 = -1 → z < 7) ∧
        (z < 7 → vget t.depth z 0 % 2 = 0) ∧
        (7 ≤ z → vget t.depth z 0 % 2 = 1) ∧
        (7 ≤ z → 0 ≤ vget t.parent z 0 ∧ (vget t.parent z 0).toNat < 7) ∧
        (z < 7 → vget t.parent z 0 ≠ -1 →
          0 ≤ vget t.parent z 0 ∧ 7 ≤ (vget t.parent z 0).toNat ∧
            (vget t.parent z 0).toNat < 7 + r.comps.length) :=
  ⟨by decide, strict_alternation bicomps.fresh bc_tree.fresh 7 0
    [(0, 1), (1, 2), (2, 0), (2, 3), (3, 4), (4, 2), (4, 5)] 3 (by decide)⟩

end Bicomps

namespace Bicomps

/-! ## Claim C17: the block-vertex graph is a forest and `dfs` enters each node once -/

/-- Dropping the record from the loop of `dfsLog` gives the loop of `dfs`. -/
theorem treeLoopLog_fst
    {callL : Nat → Int → bc_tree × List Nat → Option (bc_tree × List Nat)}
    {call : Nat → Int → bc_tree → Option bc_tree}
    (h : ∀ y x s, (callL y x s).map Prod.fst = call y x s.1) (node : Nat) (par : Int) :
    ∀ (rest : List Nat) (s : bc_tree × List Nat),
      (treeLoopLog callL node par rest s).map Prod.fst = treeLoop call node par rest s.1 := by
  intro rest
  induction rest with
  | nil =>
    intro s
    rfl
  | cons e rest ih =>
    intro s
    unfold treeLoopLog treeLoop
    by_cases hne : (e : Int) ≠ par
    · rw [if_pos hne, if_pos hne]
      have h1 := h e node s
      cases hc : callL e (node : Int) s with
      | none =>
        rw [hc] at h1
        rw [← h1]
        rfl
      | some s1 =>
        rw [hc] at h1
        rw [← h1]
        exact ih s1
    · rw [if_neg hne, if_neg hne]
      exact ih s

/-- Dropping the record from `dfsLog` gives `dfs`. -/
theorem dfsLog_fst : ∀ (fuel y : Nat) (x : Int) (s : bc_tree × List Nat),
    (bc_tree.dfsLog fuel y x s).map Prod.fst = bc_tree.dfs fuel y x s.1 := by
  intro fuel
  induction fuel with
  | zero =>
    intro y x s
    rfl
  | succ fuel ih =>
    intro y x s
    unfold bc_tree.dfsLog bc_tree.dfs
    simp only
    exact treeLoopLog_fst ih y x _ _

/-- Dropping the record from the loop over the roots. -/
theorem treeSweepLog_fst (fuel : Nat) : ∀ (rest : List Nat) (s : bc_tree × List Nat),
    (treeSweepLog fuel rest s).map Prod.fst = treeSweep fuel rest s.1 := by
  intro rest
  induction rest with
  | nil =>
    intro s
    rfl
  | cons e rest ih =>
    intro s
    unfold treeSweepLog treeSweep
    by_cases hneg : vget s.1.parent e 0 < 0
    · rw [if_pos hneg, if_pos hneg]
      have h1 := dfsLog_fst fuel e (-1) s
      cases hc : bc_tree.dfsLog fuel e (-1) s with
      | none =>
        rw [hc] at h1
        rw [← h1]
        rfl
      | some s1 =>
        rw [hc] at h1
        rw [← h1]
        exact ih s1
    · rw [if_neg hneg, if_neg hneg]
      exact ih s

/-- Dropping the record from `buildLog` gives `build`. -/
theorem buildLog_fst (self : bc_tree) (bc : bicomps) :
    (self.buildLog bc).map Prod.fst = self.build bc := by
  unfold bc_tree.buildLog bc_tree.build bc_tree.buildWith
  simp only
  cases addComps 0 bc.comps
      { self with n := bc.n, BC := bc.comps.length, T := bc.n + bc.comps.length,
                  adj := List.replicate (bc.n + bc.comps.length) [] } with
  | none => rfl
  | some t1 => exact treeSweepLog_fst _ _ _

end Bicomps

namespace Bicomps

/-- The loop of `dfsLog(y, x)` appends to the record the parts reached through
the neighbours of `y` other than `x`, each node once. -/
theorem treeLoopLog_log {T : Nat} {adj : List (List Nat)} {up rk : Nat → Int}
    (F : Forest T adj up rk)
    {callL : Nat → Int → bc_tree × List Nat → Option (bc_tree × List Nat)} (y : Nat) (x : Int)
    (hcall : ∀ (e : Nat) (s s1 : bc_tree × List Nat), s.1.adj = adj → e ∈ vget adj y [] →
      callL e (y : Int) s = some s1 →
      s1.1.adj = adj ∧ ∃ l, s1.2 = s.2 ++ l ∧ l.Nodup ∧ ∀ z, z ∈ l ↔ Part up e (y : Int) z)
    (base : List Nat) :
    ∀ (rest done : List Nat) (s s1 : bc_tree × List Nat) (l : List Nat),
      done ++ rest = vget adj y [] → s.1.adj = adj → s.2 = base ++ l → l.Nodup →
      (∀ z, z ∈ l ↔ ∃ e ∈ done, (e : Int) ≠ x ∧ Part up e (y : Int) z) →
      treeLoopLog callL y x rest s = some s1 →
      s1.1.adj = adj ∧ ∃ l1, s1.2 = base ++ l1 ∧ l1.Nodup ∧
        ∀ z, z ∈ l1 ↔ ∃ e ∈ vget adj y [], (e : Int) ≠ x ∧ Part up e (y : Int) z := by
  intro rest
  induction rest with
  | nil =>
    intro done s s1 l hsplit hadj hlog hnd hmem hrun
    have e : s1 = s := (Option.some.inj hrun).symm
    rw [List.append_nil] at hsplit
    rw [e, ← hsplit]
    exact ⟨hadj, l, hlog, hnd, hmem⟩
  | cons e rest ih =>
    intro done s s1 l hsplit hadj hlog hnd hmem hrun
    have hsplit2 : (done ++ [e]) ++ rest = vget adj y [] := by
      rw [List.append_assoc]
      exact hsplit
    have he : e ∈ vget adj y [] := by
      rw [← hsplit]
      exact List.mem_append_right _ (List.mem_cons_self _ _)
    unfold treeLoopLog at hrun
    by_cases hne : (e : Int) ≠ x
    · rw [if_pos hne] at hrun
      cases hc : callL e (y : Int) s with
      | none =>
        rw [hc] at hrun
        exact absurd hrun (by simp)
      | some s2 =>
        rw [hc] at hrun
        simp only at hrun
        obtain ⟨hadj2, le, hle, hlend, hlemem⟩ := hcall e s s2 hadj he hc
        refine ih (done ++ [e]) s2 s1 (l ++ le) hsplit2 hadj2 ?_ ?_ ?_ hrun
        · rw [hle, hlog, List.append_assoc]
        · rw [List.nodup_append]
          refine ⟨hnd, hlend, ?_⟩
          intro z hz1 hz2
          obtain ⟨e2, he2, _, hp2⟩ := (hmem z).mp hz1
          have hp := (hlemem z).mp hz2
          have hnodup : (done ++ e :: rest).Nodup := by
            rw [hsplit]
            exact F.nodup y
          have hne2 : e2 ≠ e := by
            intro h
            rw [h] at he2
            exact (List.nodup_append.mp hnodup).2.2 he2 (List.mem_cons_self _ _)
          have he2a : e2 ∈ vget adj y [] := by
            rw [← hsplit]
            exact List.mem_append_left _ he2
          exact part_disjoint F he2a he hne2 hp2 hp
        · intro z
          rw [List.mem_append, hmem z, hlemem z]
          constructor
          · rintro (⟨e2, he2, h1, h2⟩ | h)
            · exact ⟨e2, List.mem_append_left _ he2, h1, h2⟩
            · exact ⟨e, List.mem_append_right _ (List.mem_singleton_self _), hne, h⟩
          · rintro ⟨e2, he2, h1, h2⟩
            rcases List.mem_append.mp he2 with h | h
            · exact Or.inl ⟨e2, h, h1, h2⟩
            · rw [List.mem_singleton.mp h] at h2
              exact Or.inr h2
    · rw [if_neg hne] at hrun
      refine ih (done ++ [e]) s s1 l hsplit2 hadj hlog hnd ?_ hrun
      intro z
      rw [hmem z]
      constructor
      · rintro ⟨e2, he2, h1, h2⟩
        exact ⟨e2, List.mem_append_left _ he2, h1, h2⟩
      · rintro ⟨e2, he2, h1, h2⟩
        rcases List.mem_append.mp he2 with h | h
        · exact ⟨e2, h, h1, h2⟩
        · rw [List.mem_singleton.mp h] at h1
          exact absurd h1 hne

/-- On a forest, `dfsLog(y, x)` appends to the record exactly the nodes of the
part that the call reaches, each once. -/
theorem dfsLog_log {T : Nat} {adj : List (List Nat)} {up rk : Nat → Int}
    (F : Forest T adj up rk) :
    ∀ (fuel y : Nat) (x : Int) (s s1 : bc_tree × List Nat), s.1.adj = adj →
      ValidCall up y x → bc_tree.dfsLog fuel y x s = some s1 →
      s1.1.adj = adj ∧ ∃ l, s1.2 = s.2 ++ l ∧ l.Nodup ∧ ∀ z, z ∈ l ↔ Part up y x z := by
  intro fuel
  induction fuel with
  | zero =>
    intro y x s s1 _ _ h
    exact absurd h (by simp [bc_tree.dfsLog])
  | succ fuel ih =>
    intro y x s s1 hadj hv h
    unfold bc_tree.dfsLog at h
    simp only at h
    have hvg : vget s.1.adj y [] = vget adj y [] := by rw [hadj]
    rw [hvg] at h
    have hcall : ∀ (e : Nat) (s s1 : bc_tree × List Nat), s.1.adj = adj → e ∈ vget adj y [] →
        bc_tree.dfsLog fuel e (y : Int) s = some s1 →
        s1.1.adj = adj ∧ ∃ l, s1.2 = s.2 ++ l ∧ l.Nodup ∧ ∀ z, z ∈ l ↔ Part up e (y : Int) z :=
      fun e s s1 ha he hr => ih e (y : Int) s s1 ha (valid_sub F he) hr
    obtain ⟨hadj1, l1, hl1, hnd1, hmem1⟩ := treeLoopLog_log F y x hcall (s.2 ++ [y])
      (vget adj y []) []
      ({ s.1 with
          parent := s.1.parent.set y x
          depth := s.1.depth.set y (if x < 0 then 0 else vget s.1.depth x.toNat 0 + 1) },
        s.2 ++ [y])
      s1 [] (List.nil_append _) hadj (List.append_nil _).symm
      List.nodup_nil
      (fun z => ⟨fun hz => absurd hz (List.not_mem_nil _),
        fun ⟨_, he, _⟩ => absurd he (List.not_mem_nil _)⟩) h
    refine ⟨hadj1, y :: l1, ?_, ?_, ?_⟩
    · rw [hl1, List.append_assoc]
      rfl
    · rw [List.nodup_cons]
      refine ⟨?_, hnd1⟩
      intro hy
      obtain ⟨e, he, hex, hp⟩ := (hmem1 y).mp hy
      exact (part_sub F hv he hex hp).2 rfl
    · intro z
      rw [List.mem_cons, hmem1 z]
      constructor
      · rintro (hz | ⟨e, he, hex, hp⟩)
        · rw [hz]
          exact part_self F hv
        · exact (part_sub F hv he hex hp).1
      · intro hp
        exact part_cover F hv hp

end Bicomps

namespace Bicomps

/-- A forest has no cycle. -/
theorem forest_acyclic {T : Nat} {adj : List (List Nat)} {up rk : Nat → Int}
    (F : Forest T adj up rk) (c : List Nat) : ¬ IsCycle adj c := by
  rintro ⟨hlen, hnd, hadj⟩
  have hne : (Finset.range c.length).Nonempty := ⟨0, by rw [Finset.mem_range]; omega⟩
  obtain ⟨i, hi, hmax⟩ := Finset.exists_max_image (Finset.range c.length)
    (fun i => rk (vget c i 0)) hne
  rw [Finset.mem_range] at hi
  have hup : ∀ j, j < c.length → vget c j 0 ∈ vget adj (vget c i 0) [] →
      up (vget c i 0) = ((vget c j 0 : Nat) : Int) := by
    intro j hj hmem
    rcases F.edge _ _ hmem with h | h
    · exact h
    · have h1 := F.rank (vget c j 0) (by rw [h]; omega)
      rw [h, Int.toNat_ofNat] at h1
      have h2 := hmax j (by rw [Finset.mem_range]; exact hj)
      simp only at h2
      omega
  have hsucc : ∃ k, k < c.length ∧ k = (i + 1) % c.length ∧ (k = i + 1 ∨ (k = 0 ∧ i + 1 = c.length)) := by
    by_cases h : i + 1 = c.length
    · refine ⟨0, by omega, ?_, Or.inr ⟨rfl, h⟩⟩
      rw [h, Nat.mod_self]
    · refine ⟨i + 1, by omega, ?_, Or.inl rfl⟩
      rw [Nat.mod_eq_of_lt (by omega)]
  have hpred : ∃ j, j < c.length ∧ (j + 1) % c.length = i ∧
      ((i = 0 ∧ j + 1 = c.length) ∨ j + 1 = i) := by
    by_cases h : i = 0
    · refine ⟨c.length - 1, by omega, ?_, Or.inl ⟨h, by omega⟩⟩
      rw [show c.length - 1 + 1 = c.length by omega, Nat.mod_self, h]
    · refine ⟨i - 1, by omega, ?_, Or.inr (by omega)⟩
      rw [show i - 1 + 1 = i by omega, Nat.mod_eq_of_lt hi]
  obtain ⟨k, hk, hke, hk2⟩ := hsucc
  obtain ⟨j, hj, hje, hj2⟩ := hpred
  have h1 : vget c k 0 ∈ vget adj (vget c i 0) [] := by
    rw [hke]
    exact hadj i hi
  have h2 : vget c j 0 ∈ vget adj (vget c i 0) [] := by
    have := hadj j hj
    rw [hje] at this
    exact F.sym _ _ this
  have e1 := hup k hk h1
  have e2 := hup j hj h2
  have e3 : vget c k 0 = vget c j 0 := by
    have := e1.symm.trans e2
    exact_mod_cast this
  have := vget_inj_of_nodup hnd hk hj e3
  omega

/-- No node of a forest is its own neighbour. -/
theorem forest_irrefl {T : Nat} {adj : List (List Nat)} {up rk : Nat → Int}
    (F : Forest T adj up rk) (y : Nat) : y ∉ vget adj y [] := by
  intro h
  have hu : up y = (y : Int) := by
    rcases F.edge y y h with h1 | h1 <;> exact h1
  have := F.rank y (by rw [hu]; omega)
  rw [hu, Int.toNat_ofNat] at this
  omega

/-- The loop over the roots enters every node once. -/
theorem treeSweepLog_spec {T : Nat} {adj : List (List Nat)} {up rk : Nat → Int}
    (F : Forest T adj up rk) {fuel : Nat} (hfuel : T ≤ fuel) :
    ∀ (k i : Nat) (t : bc_tree) (V : List Bool) (log : List Nat), i + k = T →
      SweepInv up T adj i t V → log.Nodup →
      (∀ z, z ∈ log ↔ z < T ∧ (z < i ∨ 0 ≤ vget t.parent z 0)) →
      ∃ t1 log1, treeSweepLog fuel (List.range' i k) (t, log) = some (t1, log1) ∧
        log1.Nodup ∧ ∀ z, z ∈ log1 ↔ z < T := by
  intro k
  induction k with
  | zero =>
    intro i t V log hik _ hnd hmem
    have : i = T := by omega
    rw [this] at hmem
    refine ⟨t, log, rfl, hnd, ?_⟩
    intro z
    rw [hmem z]
    exact ⟨fun h => h.1, fun h => ⟨h, Or.inl h⟩⟩
  | succ k ih =>
    intro i t V log hik hI hnd hmem
    have hi : i < T := by omega
    have hvis : ∀ z, z ∈ log → vget V z false = true := by
      intro z hz
      obtain ⟨hzT, h⟩ := (hmem z).mp hz
      rcases h with h | h
      · exact hI.done z h
      · rcases vis_cases_bool (vget V z false) with hv | hv
        · exact hv
        · have := hI.fresh z hzT hv
          omega
    obtain ⟨t1, V1, hrun, hI1⟩ := sweepInv_step F hfuel hi hI
    rw [List.range'_succ]
    unfold treeSweepLog
    by_cases hneg : vget t.parent i 0 < 0
    · rw [if_pos hneg] at hrun
      rw [if_pos (show vget (t, log).1.parent i 0 < 0 from hneg)]
      obtain ⟨hpre, t2, V2, hrun2, hq⟩ := sweep_call F hfuel hi hI hneg
      have e : t2 = t1 := Option.some.inj (hrun2.symm.trans hrun)
      rw [e] at hq
      have hfst := dfsLog_fst fuel i (-1) (t, log)
      cases hc : bc_tree.dfsLog fuel i (-1) (t, log) with
      | none =>
        rw [hc] at hfst
        have : (none : Option bc_tree) = some t1 := hfst.trans hrun
        exact absurd this (by simp)
      | some s1 =>
        rw [hc] at hfst
        have e1 : s1.1 = t1 := Option.some.inj (hfst.trans hrun)
        obtain ⟨_, l, hl, hlnd, hlmem⟩ := dfsLog_log F fuel i (-1) (t, log) s1 hI.adj
          (Or.inl rfl) hc
        have hs1 : s1 = (t1, log ++ l) := Prod.ext e1 hl
        simp only
        rw [hs1]
        apply ih (i + 1) t1 V1 (log ++ l) (by omega) hI1
        · rw [List.nodup_append]
          refine ⟨hnd, hlnd, ?_⟩
          intro z hz1 hz2
          have h1 := hvis z hz1
          rw [hpre z ((hlmem z).mp hz2)] at h1
          exact absurd h1 (by simp)
        · intro z
          rw [List.mem_append]
          constructor
          · rintro (hz | hz)
            · have hzV := hvis z hz
              have hnp : ¬ Part up i (-1) z := by
                intro hp
                rw [hpre z hp] at hzV
                exact absurd hzV (by simp)
              obtain ⟨hzT, h⟩ := (hmem z).mp hz
              refine ⟨hzT, ?_⟩
              rw [(hq.frame z hnp).1]
              rcases h with h | h
              · exact Or.inl (by omega)
              · exact Or.inr h
            · have hp := (hlmem z).mp hz
              have hV1 : vget V2 z false = true := (hq.vis z).mpr (Or.inr hp)
              have hzT : z < T := by
                by_contra hzT
                rw [vget_of_le _ _ _ (by rw [hq.len_vis, hI.len_vis]; omega)] at hV1
                exact absurd hV1 (by simp)
              refine ⟨hzT, ?_⟩
              by_cases hzi : z = i
              · exact Or.inl (by omega)
              · exact Or.inr (hq.inner z hp hzi)
          · rintro ⟨hzT, h⟩
            by_cases hp : Part up i (-1) z
            · exact Or.inr ((hlmem z).mpr hp)
            · left
              rw [hmem z]
              refine ⟨hzT, ?_⟩
              have hzi : z ≠ i := by
                intro h2
                rw [h2] at hp
                exact hp (part_self F (Or.inl rfl))
              rw [(hq.frame z hp).1] at h
              rcases h with h | h
              · exact Or.inl (by omega)
              · exact Or.inr h
    · rw [if_neg hneg] at hrun
      rw [if_neg (show ¬ vget (t, log).1.parent i 0 < 0 from hneg)]
      have e : t1 = t := (Option.some.inj hrun).symm
      rw [e] at hI1
      apply ih (i + 1) t V1 log (by omega) hI1 hnd
      intro z
      rw [hmem z]
      constructor
      · rintro ⟨hzT, h⟩
        refine ⟨hzT, ?_⟩
        rcases h with h | h
        · exact Or.inl (by omega)
        · exact Or.inr h
      · rintro ⟨hzT, h⟩
        refine ⟨hzT, ?_⟩
        rcases h with h | h
        · by_cases hzi : z = i
          · right
            rw [hzi]
            omega
          · exact Or.inl (by omega)
        · exact Or.inr h

/-- On the components of a graph `buildLog` returns, and the record of the
calls of `dfs` holds every node of the tree once. -/
theorem tree_buildLog_spec (self : bc_tree) (r : bicomps) (hnd : r.comps.Nodup)
    (hmem : ∀ c ∈ r.comps, c.Nodup ∧ ∀ x ∈ c, x < r.n) (htops : TopsOk r) :
    ∃ t log, self.buildLog r = some (t, log) ∧ log.Nodup ∧
      ∀ z, z ∈ log ↔ z < r.n + r.comps.length := by
  obtain ⟨t1, hrun1, hadj⟩ := addComps_spec (n := r.n) (T := r.n + r.comps.length) r.comps []
    _ (treeAdj_init self r.n r.comps.length) hmem (by simp)
  have hadj2 : TreeAdj r.n (r.n + r.comps.length) r.comps t1 := by simpa using hadj
  obtain ⟨up, rk, F⟩ := forest_of_comps r.tour_start rfl hadj2 hnd hmem htops.1 htops.2
  have hI0 := sweepInv_init up hadj2
  obtain ⟨t2, log, hrun2, hlnd, hlmem⟩ := treeSweepLog_spec F (le_refl _)
    (r.n + r.comps.length) 0 _ _ [] (by omega) hI0 List.nodup_nil
    (by
      intro z
      constructor
      · intro hz
        exact absurd hz (List.not_mem_nil _)
      · rintro ⟨hzT, h⟩
        have hp := hI0.fresh z hzT (by rw [vget_replicate]; split <;> rfl)
        rw [hp] at h
        omega)
  refine ⟨t2, log, ?_, hlnd, hlmem⟩
  unfold bc_tree.buildLog
  simp only
  have h0 : addComps 0 r.comps
      { self with n := r.n, BC := r.comps.length, T := r.n + r.comps.length,
                  adj := List.replicate (r.n + r.comps.length) [] } = some t1 := hrun1
  rw [h0]
  simp only
  rw [hadj2.T_eq, List.range_eq_range']
  rw [hadj2.T_eq] at hrun2
  exact hrun2

end Bicomps

namespace Bicomps

/-- Claim C17: for every graph built by `init` and `add_edge` calls with
endpoints below `n` and every root argument, `bicomps::build` returns and on
its result `bc_tree::build` returns (the recursion of `dfs` ends), with
`T = n + BC` nodes; the adjacency lists join the node `n + k` to the members of
`comps[k]` and a vertex to the nodes of the components that hold it; this graph
is a forest: it has no cycle, no adjacency list repeats a node, and no node is
its own neighbour; the record of the calls of `dfs` made by `build` is a
rearrangement of `0, ..., T - 1`, so `dfs` is entered once for each node; and
for every node `x`, `depth[x] = 0` when `parent[x] = -1`, and otherwise
`parent[x]` is a neighbour of `x` and `depth[x] = depth[parent[x]] + 1`. -/
theorem tree_forest_traversal (s0 : bicomps) (self : bc_tree) (n mh : Nat)
    (es : List (Nat × Nat)) (root : Int) (hes : ∀ e ∈ es, e.1 < n ∧ e.2 < n) :
    ∃ r t log, ((s0.init n mh).add_edges es).build root = some r ∧
      self.build r = some t ∧ self.buildLog r = some (t, log) ∧
      t.T = n + r.comps.length ∧
      (∀ k, k < r.comps.length → vget t.adj (n + k) [] = vget r.comps k []) ∧
      (∀ x, x < n → ∀ z, z ∈ vget t.adj x [] ↔
        ∃ k, k < r.comps.length ∧ z = n + k ∧ x ∈ vget r.comps k []) ∧
      (∀ c, ¬ IsCycle t.adj c) ∧
      (∀ y, (vget t.adj y []).Nodup) ∧
      (∀ y, y ∉ vget t.adj y []) ∧
      log.Perm (List.range (n + r.comps.length)) ∧
      ∀ x, x < n + r.comps.length →
        (vget t.parent x 0 = -1 → vget t.depth x 0 = 0) ∧
        (vget t.parent x 0 ≠ -1 →
          0 ≤ vget t.parent x 0 ∧ (vget t.parent x 0).toNat ∈ vget t.adj x [] ∧
            vget t.depth x 0 = vget t.depth (vget t.parent x 0).toNat 0 + 1) := by
  have hwf := built_wf s0 n mh es hes
  have hg := built_graphInv s0 n mh es hes
  obtain ⟨r, hr⟩ := build_total _ root hwf
  obtain ⟨_, hnd, _⟩ := build_blocks _ root r hwf hg hr
  obtain ⟨hn, hok⟩ := build_compsOk _ root r hwf hr
  have htops := build_tops _ root r hwf hg hr
  have hmem : ∀ c ∈ r.comps, c.Nodup ∧ ∀ x ∈ c, x < r.n :=
    fun c hc => ⟨(hok c hc).1.nodup, (hok c hc).2⟩
  obtain ⟨t, ht, hadj, hs, _⟩ := built_tree _ root r self hwf hg hr
  obtain ⟨t2, log, hlog, hlnd, hlmem⟩ := tree_buildLog_spec self r hnd hmem htops
  have hfst := buildLog_fst self r
  rw [hlog, ht] at hfst
  have e : t2 = t := Option.some.inj hfst
  rw [e] at hlog
  rw [built_n] at hn hadj hs
  rw [hn] at hmem hlmem
  obtain ⟨up, rk, F⟩ := forest_of_comps r.tour_start rfl hadj hnd hmem htops.1 htops.2
  refine ⟨r, t, log, hr, ht, hlog, hadj.T_eq, fun k _ => hadj.comp k, hadj.vert,
    forest_acyclic F, F.nodup, forest_irrefl F, ?_, ?_⟩
  · apply (List.perm_ext_iff_of_nodup hlnd (List.nodup_range _)).mpr
    intro z
    rw [hlmem, List.mem_range]
  · intro x hx
    obtain ⟨_, _, h3⟩ := hs x hx
    rcases h3 with ⟨hp, hd⟩ | ⟨hp, hpa, hd⟩
    · exact ⟨fun _ => hd, fun h => absurd hp h⟩
    · exact ⟨fun h => by omega, fun _ => ⟨hp, hpa, hd⟩⟩

theorem tree_forest_traversal_witness :
    (∀ e ∈ [((0 : Nat), (1 : Nat)), (1, 2), (2, 0), (2, 3), (3, 4), (4, 2), (4, 5)],
      e.1 < 7 ∧ e.2 < 7) ∧
    ∃ r t log, ((bicomps.fresh.init 7 0).add_edges
        [(0, 1), (1, 2), (2, 0), (2, 3), (3, 4), (4, 2), (4, 5)]).build 3 = some r ∧
      bc_tree.fresh.build r = some t ∧ bc_tree.fresh.buildLog r = some (t, log) ∧
      t.T = 7 + r.comps.length ∧
      (∀ k, k < r.comps.length → vget t.adj (7 + k) [] = vget r.comps k []) ∧
      (∀ x, x < 7 → ∀ z, z ∈ vget t.adj x [] ↔
        ∃ k, k < r.comps.length ∧ z = 7 + k ∧ x ∈ vget r.comps k []) ∧
      (∀ c, ¬ IsCycle t.adj c) ∧
      (∀ y, (vget t.adj y []).Nodup) ∧
      (∀ y, y ∉ vget t.adj y []) ∧
      log.Perm (List.range (7 + r.comps.length)) ∧
      ∀ x, x < 7 + r.comps.length →
        (vget t.parent x 0 = -1 → vget t.depth x 0 = 0) ∧
        (vget t.parent x 0 ≠ -1 →
          0 ≤ vget t.parent x 0 ∧ (vget t.parent x 0).toNat ∈ vget t.adj x [] ∧
            vget t.depth x 0 = vget t.depth (vget t.parent x 0).toNat 0 + 1) :=
  ⟨by decide, tree_forest_traversal bicomps.fresh bc_tree.fresh 7 0
    [(0, 1), (1, 2), (2, 0), (2, 3), (3, 4), (4, 2), (4, 5)] 3 (by decide)⟩

end Bicomps
